import Mathlib

/-!
Package ssh_config: pattern compilation, block matching, directive lookup,
the parser, the decoder and the serializer.

A shallow embedding of `config.go` and `parser.go` (package `ssh_config`).

Conventions of the embedding.

* A Go `string` is a Lean `String`, a sequence of Unicode characters; this is
  the Go string that holds valid UTF-8 text.  The byte loop of `NewPattern`
  only singles out ASCII bytes, so on such text it acts character by character.
* A Go `error` value is an `Option String`: `none` is `nil`.
* A function that can panic returns an `Exec`; a function that works on the
  `*MatchContext` it is given takes the context as an `Option MatchContext`
  (`none` is the nil pointer) and returns the context it leaves next to its
  results.
* `strings.ToLower`, the table `Default`, the validators and the lookup of the
  local user are not part of `config.go`; they are the fields of an `Env` that
  every function takes.
* In the parser and the decoder a Go `error` is an `ErrorValue` (the variable
  `ErrDepthExceeded`, or another error with its message), a panic is a
  `PanicValue`, and a function that can panic returns an `Except PanicValue`.
  The lexer, `Position.String`, the file system and the functions of
  `path/filepath` are the fields of an `OS`.  The loop of `run` and the
  nesting of included files are bounded by a number that is large enough.
* `regexp.Compile` and `Regexp.MatchString` of the standard library are
  modelled on the fragment of the regular-expression syntax that `NewPattern`
  writes: an expression anchored by `^` and `$` whose body is a sequence of
  literal characters (written plain or backslash-escaped) and of the wildcard
  `.`, the wildcard optionally followed by `*` or `?`.  Without flags `.`
  stands for every character except the line feed and `$` for the end of the
  text.
-/

namespace SshConfig

deriving instance DecidableEq for Except

/-! ## Regular expressions (the fragment used by `NewPattern`) -/

/-- One character position of a regular expression. -/
inductive Atom where
  /-- a literal character -/
  | char (c : Char)
  /-- the wildcard `.`: every character except the line feed -/
  | dot
  deriving DecidableEq, Repr

/-- The repetition attached to an atom. -/
inductive Rep where
  /-- no operator: exactly once -/
  | one
  /-- operator `?`: zero times or once -/
  | quest
  /-- operator `*`: any number of times -/
  | star
  deriving DecidableEq, Repr

/-- A compiled expression `^ item ... item $`. -/
structure Regexp where
  items : List (Atom × Rep)
  deriving DecidableEq, Repr

/-- The characters with a meaning of their own in the regular-expression
syntax (`regexp.QuoteMeta` escapes exactly these). -/
def regexpMeta : List Char :=
  ['\\', '.', '+', '*', '?', '(', ')', '|', '[', ']', Char.ofNat 0x7b, Char.ofNat 0x7d, '^', '$']

/-- Parser of the body of an expression, up to and including the closing `$`.
Text outside the modelled fragment gives `none`. -/
def parseBody : List Char → Option (List (Atom × Rep))
  | [] => none
  | c :: r =>
    if c = '$' then (if r = [] then some [] else none)
    else if c = '.' then
      match r with
      | [] => none
      | d :: r' =>
        if d = '*' then (parseBody r').map (fun l => (Atom.dot, Rep.star) :: l)
        else if d = '?' then (parseBody r').map (fun l => (Atom.dot, Rep.quest) :: l)
        else (parseBody (d :: r')).map (fun l => (Atom.dot, Rep.one) :: l)
    else if c = '\\' then
      match r with
      | [] => none
      | d :: r' =>
        if d ∈ regexpMeta then (parseBody r').map (fun l => (Atom.char d, Rep.one) :: l)
        else none
    else if c ∈ regexpMeta then none
    else (parseBody r).map (fun l => (Atom.char c, Rep.one) :: l)

/-- Model of `regexp.Compile` on the fragment: the text has to open with `^`. -/
def Compile : List Char → Option Regexp
  | [] => none
  | c :: r => if c = '^' then (parseBody r).map Regexp.mk else none

/-- Whether an atom accepts a character. -/
def Atom.accepts : Atom → Char → Bool
  | .char c, d => c == d
  | .dot, d => d != '\n'

/-- Matching of `a*` followed by the continuation `k`. -/
def matchStar (a : Atom) (k : List Char → Bool) : List Char → Bool
  | [] => k []
  | d :: t => k (d :: t) || (a.accepts d && matchStar a k t)

/-- Whether the item sequence, followed by the end of the text, matches the
whole of the text. -/
def matchItems : List (Atom × Rep) → List Char → Bool
  | [], t => t.isEmpty
  | (a, .one) :: r, t =>
    match t with
    | [] => false
    | d :: t' => a.accepts d && matchItems r t'
  | (a, .quest) :: r, t =>
    matchItems r t ||
      (match t with
       | [] => false
       | d :: t' => a.accepts d && matchItems r t')
  | (a, .star) :: r, t => matchStar a (matchItems r) t

/-- Model of `(*Regexp).MatchString` for an expression anchored at both ends. -/
def Regexp.MatchString (re : Regexp) (s : String) : Bool :=
  matchItems re.items s.data

/-! ## Patterns -/

/-- The struct `Pattern`. -/
structure Pattern where
  /-- Its appearance in the file, not the value that gets compiled. -/
  str : String
  regex : Regexp
  /-- True if this is a negated match -/
  not : Bool
  deriving DecidableEq, Repr

/-- The method `Pattern.String`. -/
def Pattern.String (p : Pattern) : String := p.str

/-- The variable `specialBytes`: copied from regexp.go with `*` and `?` removed. -/
def specialBytes : List Char :=
  ['\\', '.', '+', '(', ')', '|', '[', ']', Char.ofNat 0x7b, Char.ofNat 0x7d, '^', '$']

/-- The function `special`. -/
def special (b : Char) : Bool := specialBytes.contains b

/-- The loop of `NewPattern` that fills the buffer, one step per character. -/
def writePattern : List Char → List Char
  | [] => []
  | b :: s =>
    (if b = '*' then ['.', '*']
     else if b = '?' then ['.', '?']
     else if special b then ['\\', b]
     else [b]) ++ writePattern s

/-- The function `NewPattern`. -/
def NewPattern (s : String) : Except String Pattern :=
  match s.data with
  | [] => .error "ssh_config: empty pattern"
  | c :: rest =>
    let negated : Bool := c = '!'
    let s1 : List Char := if c = '!' then rest else c :: rest
    match Compile ('^' :: (writePattern s1 ++ ['$'])) with
    | none => .error "error parsing regexp"
    | some r => .ok { str := String.mk s1, regex := r, not := negated }

/-- The item that `regexp.Compile` makes of what `NewPattern` writes for one
character of the pattern. -/
def itemOf (b : Char) : Atom × Rep :=
  if b = '*' then (Atom.dot, Rep.star)
  else if b = '?' then (Atom.dot, Rep.quest)
  else (Atom.char b, Rep.one)

/-! ## The configuration tree -/

/-- The struct `Position` (line and column of a token). -/
structure Position where
  Line : Int
  Col : Int
  deriving DecidableEq, Repr

/-- The struct `KV`: a line that contains a key, a value, and possibly a comment. -/
structure KV where
  Key : String
  Value : String
  /-- Whitespace after the value but before any comment -/
  spaceAfterValue : String
  Comment : String
  hasEquals : Bool
  leadingSpace : Int
  position : Position
  deriving DecidableEq, Repr

/-- The struct `Empty`: a line that contains only whitespace or comments. -/
structure Empty where
  Comment : String
  leadingSpace : Int
  position : Position
  deriving DecidableEq, Repr

/-- The struct `BlockData` without its field `Nodes`, which the constructors of
`Block` carry themselves. -/
structure BlockData where
  /-- EOLComment is the comment (if any) terminating the Host line. -/
  EOLComment : String
  /-- Whitespace if any between the Host declaration and a trailing comment. -/
  spaceBeforeComment : String
  hasEquals : Bool
  leadingSpace : Int
  /-- The file starts with an implicit "Host *" declaration. -/
  implicit : Bool
  /-- Final indicates whether this match block is final -/
  Final : Bool
  deriving DecidableEq, Repr

/-- The fields of the struct `Include` other than `matches` and `files`. -/
structure IncludeData where
  Comment : String
  directives : List String
  leadingSpace : Int
  position : Position
  depth : Nat
  hasEquals : Bool
  deriving DecidableEq, Repr

mutual
/-- The struct `Config`. -/
inductive Config where
  | mk (Blocks : List Block) (depth : Nat) (position : Position)
/-- The interface `Block` with its two implementations `*Host` and `*Match`.
The map `Match.Patterns` is the list of its entries; `Match.Matches` visits
them in the order of the list. -/
inductive Block where
  | Host (Patterns : List Pattern) (Nodes : List Node) (data : BlockData)
  | Match (Patterns : List (String × Pattern)) (Nodes : List Node) (data : BlockData)
/-- The interface `Node` with its implementations `*Empty`, `*KV` and
`*Include`; `other` is a value of any further type that implements the
interface.  An `Include` carries its field `matches` together with `files`:
the file names in the order of `matches`, each with the `Config` that
`files` maps it to (`NewInclude` fills both at once). -/
inductive Node where
  | Empty (e : Empty)
  | KV (kv : KV)
  | Include (files : List (String × Config)) (data : IncludeData)
  | other (descr : String)
end

/-- The field `Config.Blocks`. -/
def Config.Blocks : Config → List Block
  | .mk bs _ _ => bs

/-- The methods `(*Host).GetNodes` and `(*Match).GetNodes`. -/
def Block.GetNodes : Block → List Node
  | .Host _ ns _ => ns
  | .Match _ ns _ => ns

/-- The embedded `*BlockData` of a block. -/
def Block.data : Block → BlockData
  | .Host _ _ d => d
  | .Match _ _ d => d

/-- The methods `(*Host).IsFinal` and `(*Match).IsFinal`. -/
def Block.IsFinal (b : Block) : Bool := b.data.Final

/-- The struct `MatchContext`. -/
structure MatchContext where
  /-- Remote target user -/
  User : String
  /-- Final host name -/
  Host : String
  /-- Local user -/
  LocalUser : String
  /-- Original Host, a.k.a. alias -/
  OriginalHost : String
  /-- Final blocks to parse after matching -/
  FinalBlocks : List Block

/-- The outcome of a call: a normal return or a panic. -/
inductive Exec (α : Type) where
  | ret (a : α)
  | panic (msg : String)
  deriving DecidableEq

/-- The run-time panic of a read or write through a nil `*MatchContext`. -/
def nilDeref : String := "runtime error: invalid memory address or nil pointer dereference"

/-- What the library and the files that are not part of `config.go` provide:
`strings.ToLower`, the table lookup `Default`, the per-key `validate` and the
operating-system lookup `localUser()`. -/
structure Env where
  ToLower : String → String
  Default : String → String
  validate : String → String → Option String
  localUser : String

/-- The function `NewMatchContext`. -/
def NewMatchContext (env : Env) (hostAlias user : String) : MatchContext :=
  { User := user, Host := hostAlias, LocalUser := env.localUser, OriginalHost := hostAlias,
    FinalBlocks := [] }

/-! ## Block matching -/

/-- The loop of `(*Host).Matches`; `found` is the local variable. -/
def Host.matchesLoop : List Pattern → Option MatchContext → Bool → Exec Bool
  | [], _, found => .ret found
  | _ :: _, none, _ => .panic nilDeref
  | p :: ps, some ctx, found =>
    if p.regex.MatchString ctx.OriginalHost then
      if p.not then .ret false
      else Host.matchesLoop ps (some ctx) true
    else Host.matchesLoop ps (some ctx) found

/-- The method `(*Host).Matches`, on the field `Patterns` of the receiver. -/
def Host.Matches (Patterns : List Pattern) (ctx : Option MatchContext) : Exec Bool :=
  Host.matchesLoop Patterns ctx false

/-- The method `(*Match).Matches`, on the entries of the map `Patterns`. -/
def Match.Matches : List (String × Pattern) → Option MatchContext → Exec Bool
  | [], _ => .ret true
  | (k, p) :: rest, ctx =>
    if k = "host" ∨ k = "user" ∨ k = "originalhost" ∨ k = "localuser" then
      match ctx with
      | none => .panic nilDeref
      | some c =>
        let comp : String :=
          if k = "host" then c.Host
          else if k = "user" then c.User
          else if k = "originalhost" then c.OriginalHost
          else c.LocalUser
        if comp = "" ∨ p.not = p.regex.MatchString comp then .ret false
        else Match.Matches rest (some c)
    else .panic ("unknown Match directive key: " ++ k)

/-- Dynamic dispatch of `Block.Matches`. -/
def Block.Matches : Block → Option MatchContext → Exec Bool
  | .Host ps _ _, ctx => Host.Matches ps ctx
  | .Match ps _ _, ctx => Match.Matches ps ctx

/-! ## Directive lookup -/

/-- A Go value of type `error`; `none` is `nil`. -/
abbrev GoError := Option String

/-- The statement `if ctx != nil { switch lkey { ... } }` of `handleBlock` and
`handleBlockAll`, which adds values to the context. -/
def addToContext (lkey value : String) : Option MatchContext → Option MatchContext
  | none => none
  | some c =>
    if lkey = "user" then some { c with User := value }
    else if lkey = "hostname" then some { c with Host := value }
    else some c

mutual
/-- The method `(*Config).Get`. -/
def Config.Get (env : Env) : Config → String → Option MatchContext →
    Exec ((String × GoError) × Option MatchContext)
  | .mk blocks _ _, key, ctx => Config.getLoop env blocks key ctx
/-- The loop `for _, block := range c.Blocks` of `(*Config).Get`. -/
def Config.getLoop (env : Env) : List Block → String → Option MatchContext →
    Exec ((String × GoError) × Option MatchContext)
  | [], _, ctx => .ret (("", none), ctx)
  | block :: rest, key, ctx =>
    if block.IsFinal then
      match ctx with
      | none => .panic nilDeref
      | some c =>
        Config.getLoop env rest key (some { c with FinalBlocks := c.FinalBlocks ++ [block] })
    else
      match block.Matches ctx with
      | .panic m => .panic m
      | .ret false => Config.getLoop env rest key ctx
      | .ret true =>
        match handleBlock env block key ctx with
        | .panic m => .panic m
        | .ret ((found, err), ctx1) =>
          if err ≠ none then .ret (("", err), ctx1)
          else if found ≠ "" then .ret ((found, none), ctx1)
          else Config.getLoop env rest key ctx1
/-- The function `handleBlock`. -/
def handleBlock (env : Env) : Block → String → Option MatchContext →
    Exec ((String × GoError) × Option MatchContext)
  | .Host _ nodes _, key, ctx => handleBlock.loop env nodes key ctx
  | .Match _ nodes _, key, ctx => handleBlock.loop env nodes key ctx
/-- The loop `for _, node := range block.GetNodes()` of `handleBlock`. -/
def handleBlock.loop (env : Env) : List Node → String → Option MatchContext →
    Exec ((String × GoError) × Option MatchContext)
  | [], _, ctx => .ret (("", none), ctx)
  | .Empty _ :: rest, key, ctx => handleBlock.loop env rest key ctx
  | .KV t :: rest, key, ctx =>
    if env.ToLower t.Key = "match" then .panic "can't handle Match directives"
    else if env.ToLower t.Key = env.ToLower key then .ret ((t.Value, none), ctx)
    else handleBlock.loop env rest key (addToContext (env.ToLower t.Key) t.Value ctx)
  | .Include files _ :: rest, key, ctx =>
    match Include.Get env files key ctx with
    | .panic m => .panic m
    | .ret (val, ctx1) =>
      if val ≠ "" then .ret ((val, none), ctx1)
      else handleBlock.loop env rest key ctx1
  | .other descr :: _, _, ctx => .ret (("", some ("unknown Node type " ++ descr)), ctx)
/-- The method `(*Include).Get`, on the included files in the order of `matches`. -/
def Include.Get (env : Env) : List (String × Config) → String → Option MatchContext →
    Exec (String × Option MatchContext)
  | [], _, ctx => .ret ("", ctx)
  | (_, cfg) :: rest, key, ctx =>
    match Config.Get env cfg key ctx with
    | .panic m => .panic m
    | .ret ((val, err), ctx1) =>
      if err = none ∧ val ≠ "" then .ret (val, ctx1)
      else Include.Get env rest key ctx1
end

mutual
/-- The method `(*Config).GetAll`. -/
def Config.GetAll (env : Env) : Config → String → Option MatchContext →
    Exec ((List String × GoError) × Option MatchContext)
  | .mk blocks _ _, key, ctx => Config.getAllLoop env blocks [] key ctx
/-- The loop of `(*Config).GetAll`; `all` is the local variable. -/
def Config.getAllLoop (env : Env) : List Block → List String → String → Option MatchContext →
    Exec ((List String × GoError) × Option MatchContext)
  | [], all, _, ctx => .ret ((all, none), ctx)
  | block :: rest, all, key, ctx =>
    if block.IsFinal then
      match ctx with
      | none => .panic nilDeref
      | some c =>
        Config.getAllLoop env rest all key
          (some { c with FinalBlocks := c.FinalBlocks ++ [block] })
    else
      match block.Matches ctx with
      | .panic m => .panic m
      | .ret false => Config.getAllLoop env rest all key ctx
      | .ret true =>
        match handleBlockAll env block all key ctx with
        | .panic m => .panic m
        | .ret ((all1, err), ctx1) =>
          if err ≠ none then .ret (([], err), ctx1)
          else Config.getAllLoop env rest all1 key ctx1
/-- The function `handleBlockAll`. -/
def handleBlockAll (env : Env) : Block → List String → String → Option MatchContext →
    Exec ((List String × GoError) × Option MatchContext)
  | .Host _ nodes _, all, key, ctx => handleBlockAll.loop env nodes all key ctx
  | .Match _ nodes _, all, key, ctx => handleBlockAll.loop env nodes all key ctx
/-- The loop of `handleBlockAll`. -/
def handleBlockAll.loop (env : Env) : List Node → List String → String → Option MatchContext →
    Exec ((List String × GoError) × Option MatchContext)
  | [], all, _, ctx => .ret ((all, none), ctx)
  | .Empty _ :: rest, all, key, ctx => handleBlockAll.loop env rest all key ctx
  | .KV t :: rest, all, key, ctx =>
    if env.ToLower t.Key = "match" then .panic "can't handle Match directives"
    else
      handleBlockAll.loop env rest
        (if env.ToLower t.Key = env.ToLower key then all ++ [t.Value] else all) key
        (addToContext (env.ToLower t.Key) t.Value ctx)
  | .Include files _ :: rest, all, key, ctx =>
    match Include.getAllLoop env files [] key ctx with
    | .panic m => .panic m
    | .ret ((val, _), ctx1) =>
      handleBlockAll.loop env rest (if val.length > 0 then all ++ val else all) key ctx1
  | .other descr :: _, _, _, ctx => .ret (([], some ("unknown Node type " ++ descr)), ctx)
/-- The loop of `(*Include).GetAll` over the included files in the order of
`matches`; `vals` is the local variable, nil when the loop starts. -/
def Include.getAllLoop (env : Env) : List (String × Config) → List String → String →
    Option MatchContext → Exec ((List String × GoError) × Option MatchContext)
  | [], vals, _, ctx => .ret ((vals, none), ctx)
  | (_, cfg) :: rest, vals, key, ctx =>
    match Config.GetAll env cfg key ctx with
    | .panic m => .panic m
    | .ret ((val, err), ctx1) =>
      Include.getAllLoop env rest
        (if err = none ∧ val.length ≠ 0 then vals ++ val else vals) key ctx1
end

/-- The method `(*Include).GetAll`. -/
def Include.GetAll (env : Env) (files : List (String × Config)) (key : String)
    (ctx : Option MatchContext) : Exec ((List String × GoError) × Option MatchContext) :=
  Include.getAllLoop env files [] key ctx

/-! ## Lookup over the configured sources -/

/-- The variable `modifiableKeys`. -/
def modifiableKeys : List String := ["Ciphers", "MACs", "HostKeyAlgorithms", "KexAlgorithms"]

/-- The pieces of a text between the occurrences of the separator `sep`. -/
def splitChars (sep : Char) : List Char → List (List Char)
  | [] => [[]]
  | c :: r =>
    if c = sep then [] :: splitChars sep r
    else
      match splitChars sep r with
      | [] => [[c]]
      | h :: t => (c :: h) :: t

/-- Model of `strings.Split` for a separator of one character. -/
def stringsSplit (s : String) (sep : Char) : List String :=
  (splitChars sep s.data).map String.mk

/-- Model of `strings.Join`. -/
def stringsJoin : List String → String → String
  | [], _ => ""
  | [a], _ => a
  | a :: b :: r, sep => a ++ sep ++ stringsJoin (b :: r) sep

/-- The function `handleModifiers`. -/
def handleModifiers (env : Env) (v key : String) : String :=
  match v.data with
  | [] => v
  | c :: rest =>
    if c = '+' ∨ c = '-' ∨ c = '^' then
      let cur := stringsSplit (String.mk rest) ','
      let dflt := stringsSplit (env.Default key) ','
      let out : List String :=
        if c = '+' then dflt ++ cur
        else if c = '-' then dflt.filter (fun a => !cur.contains a)
        else
          dflt.foldl (fun out a => if out.contains a then out else out ++ [a])
            (cur.filter (fun a => dflt.contains a))
      stringsJoin out ","
    else v

/-- The function `findVal`. -/
def findVal (env : Env) (c : Option Config) (key : String) (ctx : Option MatchContext) :
    Exec ((String × GoError) × Option MatchContext) :=
  match c with
  | none => .ret (("", none), ctx)
  | some c =>
    match c.Get env key ctx with
    | .panic m => .panic m
    | .ret ((val, err), ctx1) =>
      if err ≠ none ∨ val = "" then .ret (("", err), ctx1)
      else
        let val1 := if modifiableKeys.contains key then handleModifiers env val key else val
        match env.validate key val1 with
        | some e => .ret (("", some e), ctx1)
        | none => .ret ((val1, none), ctx1)

/-- The loop of `(*MatchContext).matchFinal` over `ctx.FinalBlocks`. -/
def MatchContext.matchFinalLoop (env : Env) (ctx : MatchContext) :
    List Block → String → Exec (String × GoError)
  | [], _ => .ret ("", none)
  | block :: rest, key =>
    match block.Matches (some ctx) with
    | .panic m => .panic m
    | .ret false => MatchContext.matchFinalLoop env ctx rest key
    | .ret true =>
      match handleBlock env block key none with
      | .panic m => .panic m
      | .ret ((found, err), _) =>
        if err ≠ none then .ret ("", err)
        else if found ≠ "" then .ret (found, none)
        else MatchContext.matchFinalLoop env ctx rest key

/-- The method `(*MatchContext).matchFinal`. -/
def MatchContext.matchFinal (env : Env) (ctx : MatchContext) (key : String) :
    Exec (String × GoError) :=
  MatchContext.matchFinalLoop env ctx ctx.FinalBlocks key

/-- The struct `UserSettings` once `doLoadConfigs` has run: the configs that
were loaded (`none` is a nil pointer) and the error that was recorded. -/
structure UserSettings where
  IgnoreErrors : Bool
  customConfig : Option Config
  systemConfig : Option Config
  userConfig : Option Config
  onceErr : GoError

/-- The method `(*UserSettings).GetStrict`, after `u.doLoadConfigs()`. -/
def UserSettings.GetStrict (env : Env) (u : UserSettings) (hostAlias key user : String) :
    Exec (String × GoError) :=
  if u.onceErr ≠ none ∧ u.IgnoreErrors = false then .ret ("", u.onceErr)
  else
    let ctx := NewMatchContext env hostAlias user
    let custom : Exec ((String × GoError) × Option MatchContext) :=
      match u.customConfig with
      | none => .ret (("", none), some ctx)
      | some c => findVal env (some c) key (some ctx)
    match custom with
    | .panic m => .panic m
    | .ret ((val0, err0), ctx0) =>
      if err0 ≠ none ∨ val0 ≠ "" then .ret (val0, err0)
      else
        match findVal env u.userConfig key ctx0 with
        | .panic m => .panic m
        | .ret ((val, err), ctx1) =>
          if err ≠ none ∨ val ≠ "" then .ret (val, err)
          else
            match findVal env u.systemConfig key ctx1 with
            | .panic m => .panic m
            | .ret ((val2, err2), ctx2) =>
              if err2 ≠ none ∨ val2 ≠ "" then .ret (val2, err2)
              else
                match ctx2 with
                | none => .panic nilDeref
                | some c2 =>
                  match c2.matchFinal env key with
                  | .panic m => .panic m
                  | .ret (val3, err3) =>
                    if err3 ≠ none ∨ val3 ≠ "" then .ret (val3, err3)
                    else .ret (env.Default key, none)

/-- The function `findAll`; a nil slice is the empty list. -/
def findAll (env : Env) (c : Option Config) (key : String) (ctx : Option MatchContext) :
    Exec ((List String × GoError) × Option MatchContext) :=
  match c with
  | none => .ret (([], none), ctx)
  | some c => c.GetAll env key ctx

/-- The loop of `(*MatchContext).matchFinalAll` over `ctx.FinalBlocks`; `all`
is the named result. -/
def MatchContext.matchFinalAllLoop (env : Env) (ctx : MatchContext) :
    List Block → List String → String → Exec (List String × GoError)
  | [], all, _ => .ret (all, none)
  | block :: rest, all, key =>
    match block.Matches (some ctx) with
    | .panic m => .panic m
    | .ret false => MatchContext.matchFinalAllLoop env ctx rest all key
    | .ret true =>
      match handleBlockAll env block all key none with
      | .panic m => .panic m
      | .ret ((all1, err), _) =>
        if err ≠ none then .ret ([], err)
        else MatchContext.matchFinalAllLoop env ctx rest all1 key

/-- The method `(*MatchContext).matchFinalAll`. -/
def MatchContext.matchFinalAll (env : Env) (ctx : MatchContext) (key : String) :
    Exec (List String × GoError) :=
  MatchContext.matchFinalAllLoop env ctx ctx.FinalBlocks [] key

/-- The method `(*UserSettings).GetAllStrict`, after `u.doLoadConfigs()`.  The
package variable `defaultProtocol2Identities` is an argument; a slice is nil
exactly when it is empty on every path that leads to a test `!= nil`. -/
def UserSettings.GetAllStrict (env : Env) (defaultProtocol2Identities : List String)
    (u : UserSettings) (hostAlias key user : String) : Exec (List String × GoError) :=
  if u.onceErr ≠ none ∧ u.IgnoreErrors = false then .ret ([], u.onceErr)
  else
    let ctx := NewMatchContext env hostAlias user
    let custom : Exec ((List String × GoError) × Option MatchContext) :=
      match u.customConfig with
      | none => .ret (([], none), some ctx)
      | some c => findAll env (some c) key (some ctx)
    match custom with
    | .panic m => .panic m
    | .ret ((val0, err0), ctx0) =>
      if err0 ≠ none ∨ val0 ≠ [] then .ret (val0, err0)
      else
        match findAll env u.userConfig key ctx0 with
        | .panic m => .panic m
        | .ret ((val, err), ctx1) =>
          if err ≠ none ∨ val ≠ [] then .ret (val, err)
          else
            match findAll env u.systemConfig key ctx1 with
            | .panic m => .panic m
            | .ret ((val2, err2), ctx2) =>
              if err2 ≠ none ∨ val2 ≠ [] then .ret (val2, err2)
              else
                match ctx2 with
                | none => .panic nilDeref
                | some c2 =>
                  match c2.matchFinalAll env key with
                  | .panic m => .panic m
                  | .ret (val3, err3) =>
                    if err3 ≠ none ∨ val3 ≠ [] then .ret (val3, err3)
                    else if env.Default key ≠ "" then .ret ([env.Default key], none)
                    else if key = "IdentityFile" then .ret (defaultProtocol2Identities, none)
                    else .ret ([], none)

/-! ## Tokens, errors and the collaborators of the parser -/

/-- The token kinds that `parser.go` names; `other` is every further kind of
the lexer, the kind of a value among them. -/
inductive tokenType where
  | tokenComment
  | tokenEmptyLine
  | tokenKey
  | tokenEOF
  | tokenEquals
  | other (tag : Nat)
  deriving DecidableEq, Repr

/-- The struct `token`: kind, text and position. -/
structure token where
  typ : tokenType
  val : String
  Position : SshConfig.Position
  deriving DecidableEq, Repr

/-- A Go `error` value in the parser and the decoder, where the code compares
errors with the variable `ErrDepthExceeded`: that variable, or any other error
with its message. -/
inductive ErrorValue where
  | ErrDepthExceeded
  | errorString (msg : String)
  deriving DecidableEq, Repr

/-- The method `Error` of an error value. -/
def ErrorValue.Error : ErrorValue → String
  | .ErrDepthExceeded => "ssh_config: max recurse depth exceeded"
  | .errorString msg => msg

/-- The value of a panic in the parser: a string (`raiseErrorf`), an error
(`raiseError`), or a `runtime.Error`.  `outOfFuel` is not a panic of the
program: it marks a run of the model that was given too little fuel. -/
inductive PanicValue where
  | str (msg : String)
  | err (e : ErrorValue)
  | runtimeError (msg : String)
  | outOfFuel
  deriving DecidableEq, Repr

/-- What the operating system, the standard library and the files that are
not part of the sources provide to the parser: `Position.String`, the
formatting of a token with the verb q, `homedir()`, `filepath.IsAbs`,
`filepath.Join`, `filepath.Clean`, `filepath.Glob`, `os.ReadFile` and the
lexer `lexSSH` with the tokens it sends until it closes the channel. -/
structure OS where
  posString : Position → String
  quoteToken : token → String
  homedir : String
  IsAbs : String → Bool
  Join : List String → String
  Clean : String → String
  Glob : String → Except String (List String)
  ReadFile : String → Except String String
  lexSSH : String → List token

/-- The function `unicode.IsSpace`. -/
def unicodeIsSpace (c : Char) : Bool :=
  c = '\t' ∨ c = '\n' ∨ c = Char.ofNat 0x0b ∨ c = Char.ofNat 0x0c ∨ c = '\r' ∨ c = ' ' ∨
  c = Char.ofNat 0x85 ∨ c = Char.ofNat 0xa0 ∨ c = Char.ofNat 0x1680 ∨
  (0x2000 ≤ c.toNat ∧ c.toNat ≤ 0x200a) ∨ c = Char.ofNat 0x2028 ∨ c = Char.ofNat 0x2029 ∨
  c = Char.ofNat 0x202f ∨ c = Char.ofNat 0x205f ∨ c = Char.ofNat 0x3000

/-- The call `strings.TrimRightFunc(s, unicode.IsSpace)`. -/
def trimRightSpace (s : String) : String :=
  String.mk (s.data.reverse.dropWhile unicodeIsSpace).reverse

/-- The slice `s[len(t):]` for a text `t` that `s` begins with. -/
def sliceFrom (s t : String) : String := String.mk (s.data.drop t.data.length)

/-- The function `strings.HasPrefix`. -/
def stringsHasPrefix (s pre : String) : Bool := pre.data.isPrefixOf s.data

/-- The variable `allowedMatchKeywords`. -/
def allowedMatchKeywords : List String := ["host", "originalhost", "user", "localuser"]

/-- The constant `maxRecurseDepth`. -/
def maxRecurseDepth : Nat := 5

/-- The variable `matchAll`, which `init` sets to the pattern that
`NewPattern("*")` returns; that call does not fail. -/
def matchAll : Pattern :=
  match NewPattern "*" with
  | .ok p => p
  | .error _ => ⟨"*", ⟨[(Atom.dot, Rep.star)]⟩, false⟩

/-- The function `newConfig`. -/
def newConfig : Config :=
  .mk [ .Host [matchAll] [] ⟨"", "", false, 0, true, false⟩ ] 0 ⟨0, 0⟩

/-- The function `removeDups`; `encountered` is the set of keys of the map. -/
def removeDups (arr : List String) : List String :=
  (arr.foldl
    (fun (st : List String × List String) v =>
      if st.1.contains v then st else (v :: st.1, st.2 ++ [v]))
    ([], [])).2

/-- The function `isSystem`. -/
def isSystem (os : OS) (filename : String) : Bool :=
  stringsHasPrefix (os.Clean filename) "/etc/ssh"

/-- The first loop of `NewInclude`: the path of each directive and its glob
expansion, up to the first error of `filepath.Glob`. -/
def NewInclude.globLoop (os : OS) (system : Bool) : List String → Except String (List String)
  | [] => .ok []
  | d :: rest =>
    let path :=
      if os.IsAbs d then d
      else if system then os.Join ["/etc/ssh", d]
      else os.Join [os.homedir, ".ssh", d]
    match os.Glob path with
    | .error e => .error e
    | .ok theseMatches =>
      match NewInclude.globLoop os system rest with
      | .error e => .error e
      | .ok more => .ok (theseMatches ++ more)

/-- The second loop of `NewInclude`: every match is parsed with
`parseWithDepth`, here the parameter `parse`, up to the first error. -/
def NewInclude.parseLoop (parse : String → Nat → Except PanicValue (Except ErrorValue Config))
    (depth : Nat) : List String → Except PanicValue (Except ErrorValue (List (String × Config)))
  | [] => .ok (.ok [])
  | m :: rest =>
    match parse m depth with
    | .error pv => .error pv
    | .ok (.error e) => .ok (.error e)
    | .ok (.ok config) =>
      match NewInclude.parseLoop parse depth rest with
      | .error pv => .error pv
      | .ok (.error e) => .ok (.error e)
      | .ok (.ok files) => .ok (.ok ((m, config) :: files))

/-- The function `NewInclude`.  The call of `parseWithDepth` is the parameter
`parse`; the result is the Include node, or the error that is returned. -/
def NewInclude (os : OS) (parse : String → Nat → Except PanicValue (Except ErrorValue Config))
    (directives : List String) (hasEquals : Bool) (pos : Position) (comment : String)
    (system : Bool) (depth : Nat) : Except PanicValue (Except ErrorValue Node) :=
  if depth > maxRecurseDepth then .ok (.error .ErrDepthExceeded)
  else
    match NewInclude.globLoop os system directives with
    | .error e => .ok (.error (.errorString e))
    | .ok found =>
      match NewInclude.parseLoop parse depth (removeDups found) with
      | .error pv => .error pv
      | .ok (.error e) => .ok (.error e)
      | .ok (.ok files) =>
        .ok (.ok (.Include files
          { Comment := comment, directives := directives, leadingSpace := pos.Col - 1,
            position := pos, depth := depth, hasEquals := hasEquals }))

/-! ## The parser (`parser.go`) and the decoder -/

/-- The struct `sshParser`.  The channel `flow` and the slice `tokensBuffer`
are one list: the tokens that have not been consumed, in order. -/
structure sshParser where
  config : Config
  tokens : List token
  system : Bool
  depth : Nat

/-- The states that `parseStart` hands to the loop of `run`. -/
inductive sshParserStateFn where
  | parseKV
  | parseComment
  deriving DecidableEq, Repr

/-- The run-time panic of an index expression on an empty slice. -/
def indexOutOfRange : String := "runtime error: index out of range [-1]"

/-- The method `raiseErrorf`: the value it panics with. -/
def raiseErrorf (os : OS) (tok : token) (msg : String) : PanicValue :=
  .str (os.posString tok.Position ++ ": " ++ msg)

/-- The method `raiseError`: the value it panics with. -/
def raiseError (os : OS) (tok : token) (err : ErrorValue) : PanicValue :=
  if err = .ErrDepthExceeded then .err err
  else .str (os.posString tok.Position ++ ": " ++ err.Error)

/-- The method `peek`. -/
def sshParser.peek (p : sshParser) : Option token := p.tokens.head?

/-- The method `getToken`: the token, `none` for nil, and the parser after
the call. -/
def sshParser.getToken (p : sshParser) : Option token × sshParser :=
  (p.tokens.head?, { p with tokens := p.tokens.tail })

/-- The statement `p.config.Blocks = append(p.config.Blocks, b)`. -/
def Config.appendBlock : Config → Block → Config
  | .mk bs d pos, b => .mk (bs ++ [b]) d pos

/-- The methods `(*Host).SetNodes` and `(*Match).SetNodes`. -/
def Block.SetNodes : Block → List Node → Block
  | .Host ps _ d, ns => .Host ps ns d
  | .Match ps _ d, ns => .Match ps ns d

/-- The statements `lastBlock := c.Blocks[len(c.Blocks)-1]` and
`lastBlock.SetNodes(append(lastBlock.GetNodes(), n))`; `none` when `Blocks`
is empty and the index expression panics. -/
def Config.appendNode : Config → Node → Option Config
  | .mk bs d pos, n =>
    match bs.getLast? with
    | none => none
    | some last => some (.mk (bs.dropLast ++ [last.SetNodes (last.GetNodes ++ [n])]) d pos)

/-- The method `parseStart`: the next state, `none` for nil. -/
def sshParser.parseStart (os : OS) (p : sshParser) :
    Except PanicValue (Option sshParserStateFn) :=
  match p.peek with
  | none => .ok none
  | some tok =>
    match tok.typ with
    | .tokenComment => .ok (some .parseComment)
    | .tokenEmptyLine => .ok (some .parseComment)
    | .tokenKey => .ok (some .parseKV)
    | .tokenEOF => .ok none
    | _ => .error (raiseErrorf os tok ("unexpected token " ++ os.quoteToken tok ++ "\n"))

/-- The assignment `patterns[k] = pat` on the map of a `Match` block. -/
def mapInsert (m : List (String × Pattern)) (k : String) (pat : Pattern) :
    List (String × Pattern) :=
  if m.any (fun e => e.1 = k) then m.map (fun e => if e.1 = k then (k, pat) else e)
  else m ++ [(k, pat)]

/-- The loop of `parseKV` over the pairs of a `Match` value. -/
def parseKV.matchLoop (os : OS) (val : token) :
    List String → List (String × Pattern) → Except PanicValue (List (String × Pattern))
  | k :: v :: rest, patterns =>
    if allowedMatchKeywords.contains k = false then
      .error (raiseErrorf os val ("Match keyword not supported: " ++ k))
    else
      match NewPattern v with
      | .error e => .error (raiseErrorf os val ("Invalid Match pattern: " ++ e))
      | .ok pat => parseKV.matchLoop os val rest (mapInsert patterns k pat)
  | _, patterns => .ok patterns

/-- The loop of `parseKV` over the words of a `Host` value. -/
def parseKV.hostLoop (os : OS) (val : token) : List String → Except PanicValue (List Pattern)
  | [] => .ok []
  | s :: rest =>
    if s = "" then parseKV.hostLoop os val rest
    else
      match NewPattern s with
      | .error e => .error (raiseErrorf os val ("Invalid host pattern: " ++ e))
      | .ok pat =>
        match parseKV.hostLoop os val rest with
        | .error pv => .error pv
        | .ok patterns => .ok (pat :: patterns)

/-- The branch of `parseKV` for the key `match`. -/
def parseKV.matchBranch (env : Env) (os : OS) (p : sshParser) (hasEquals : Bool)
    (val : token) (comment : String) : Except PanicValue sshParser :=
  let hostval := trimRightSpace val.val
  let spaceBeforeComment := sliceFrom val.val hostval
  let val1 : token := { val with val := hostval }
  let hostvalLower := env.ToLower hostval
  if stringsHasPrefix hostvalLower "canonical" then
    .error (raiseErrorf os val1 "'Match Canonical' is not supported")
  else if hostvalLower = "final" then
    .error (raiseErrorf os val1 "'Match Final' without 'All' is not supported")
  else if hostvalLower = "final all" ∨ hostvalLower = "all" then
    .ok { p with
      config := p.config.appendBlock
        (.Host [matchAll] []
          { EOLComment := comment, spaceBeforeComment := spaceBeforeComment,
            hasEquals := hasEquals, leadingSpace := 0, implicit := false,
            Final := hostvalLower = "final all" }) }
  else
    let strPatterns := stringsSplit (env.ToLower val1.val) ' '
    if strPatterns.length % 2 ≠ 0 then
      .error (raiseErrorf os val1
        ("Invalid Match pattern (has to be key-value pairs): " ++ val1.val))
    else
      match parseKV.matchLoop os val1 strPatterns [] with
      | .error pv => .error pv
      | .ok patterns =>
        .ok { p with
          config := p.config.appendBlock
            (.Match patterns []
              { EOLComment := comment, spaceBeforeComment := spaceBeforeComment,
                hasEquals := hasEquals, leadingSpace := 0, implicit := false,
                Final := false }) }

/-- The branch of `parseKV` for the key `host`. -/
def parseKV.hostBranch (os : OS) (p : sshParser) (hasEquals : Bool) (val : token)
    (comment : String) : Except PanicValue sshParser :=
  match parseKV.hostLoop os val (stringsSplit val.val ' ') with
  | .error pv => .error pv
  | .ok patterns =>
    let hostval := trimRightSpace val.val
    let spaceBeforeComment := sliceFrom val.val hostval
    .ok { p with
      config := p.config.appendBlock
        (.Host patterns []
          { EOLComment := comment, spaceBeforeComment := spaceBeforeComment,
            hasEquals := hasEquals, leadingSpace := 0, implicit := false, Final := false }) }

/-- The end of `parseKV`, for a key that is neither `match` nor `host`: the
branch for `include` and the directive node. -/
def parseKV.nodeBranch (env : Env) (os : OS)
    (parse : String → Nat → Except PanicValue (Except ErrorValue Config))
    (p : sshParser) (key : token) (hasEquals : Bool) (val : token) (comment : String) :
    Except PanicValue sshParser :=
  match p.config.Blocks.getLast? with
  | none => .error (.runtimeError indexOutOfRange)
  | some _ =>
    if env.ToLower key.val = "include" then
      match NewInclude os parse (stringsSplit val.val ' ') hasEquals key.Position comment
          p.system ((p.depth + 1) % 256) with
      | .error pv => .error pv
      | .ok (.error err) =>
        if err = .ErrDepthExceeded then .error (raiseError os val err)
        else .error (raiseErrorf os val ("Error parsing Include directive: " ++ err.Error))
      | .ok (.ok inc) =>
        match p.config.appendNode inc with
        | none => .error (.runtimeError indexOutOfRange)
        | some c => .ok { p with config := c }
    else
      let shortval := trimRightSpace val.val
      let spaceAfterValue := sliceFrom val.val shortval
      let kv : KV :=
        { Key := key.val, Value := shortval, spaceAfterValue := spaceAfterValue,
          Comment := comment, hasEquals := hasEquals, leadingSpace := key.Position.Col - 1,
          position := key.Position }
      match p.config.appendNode (.KV kv) with
      | none => .error (.runtimeError indexOutOfRange)
      | some c => .ok { p with config := c }

/-- The method `parseKV`; on every path that does not panic the next state is
`parseStart`.  Reading a field of a token that is nil is the run-time panic
`nilDeref`. -/
def sshParser.parseKV (env : Env) (os : OS)
    (parse : String → Nat → Except PanicValue (Except ErrorValue Config)) (p : sshParser) :
    Except PanicValue sshParser :=
  match p.getToken with
  | (key?, p1) =>
    match p1.getToken with
    | (none, _) => .error (.runtimeError nilDeref)
    | (some val0, p2) =>
      let hasEquals : Bool := val0.typ = .tokenEquals
      match (if hasEquals then p2.getToken else (some val0, p2)) with
      | (val?, p3) =>
        let tok : token :=
          match p3.peek with
          | none => { typ := .tokenEOF, val := "", Position := ⟨0, 0⟩ }
          | some t => t
        match key?, val? with
        | none, _ => .error (.runtimeError nilDeref)
        | some key, none =>
          if tok.typ = .tokenComment then .error (.runtimeError nilDeref)
          else if env.ToLower key.val = "match" ∨ env.ToLower key.val = "host" then
            .error (.runtimeError nilDeref)
          else
            match p3.config.Blocks.getLast? with
            | none => .error (.runtimeError indexOutOfRange)
            | some _ => .error (.runtimeError nilDeref)
        | some key, some val =>
          let sameLine : Bool := tok.typ = .tokenComment ∧ tok.Position.Line = val.Position.Line
          let comment : String := if sameLine then tok.val else ""
          let p4 : sshParser := if sameLine then p3.getToken.2 else p3
          if env.ToLower key.val = "match" then
            parseKV.matchBranch env os p4 hasEquals val comment
          else if env.ToLower key.val = "host" then
            parseKV.hostBranch os p4 hasEquals val comment
          else parseKV.nodeBranch env os parse p4 key hasEquals val comment

/-- The method `parseComment`; the next state is `parseStart`. -/
def sshParser.parseComment (p : sshParser) : Except PanicValue sshParser :=
  match p.getToken with
  | (none, _) => .error (.runtimeError nilDeref)
  | (some comment, p1) =>
    match p1.config.appendNode
        (.Empty { Comment := comment.val, leadingSpace := comment.Position.Col - 2,
                  position := comment.Position }) with
    | none => .error (.runtimeError indexOutOfRange)
    | some c => .ok { p1 with config := c }

/-- The loop of the method `run`: `parseStart`, then the state it returned,
until the state is nil.  The first argument bounds the number of rounds. -/
def sshParser.runLoop (env : Env) (os : OS)
    (parse : String → Nat → Except PanicValue (Except ErrorValue Config)) :
    Nat → sshParser → Except PanicValue sshParser
  | 0, _ => .error .outOfFuel
  | n + 1, p =>
    match p.parseStart os with
    | .error pv => .error pv
    | .ok none => .ok p
    | .ok (some .parseComment) =>
      match p.parseComment with
      | .error pv => .error pv
      | .ok p1 => sshParser.runLoop env os parse n p1
    | .ok (some .parseKV) =>
      match p.parseKV env os parse with
      | .error pv => .error pv
      | .ok p1 => sshParser.runLoop env os parse n p1

/-- The method `run`: every round but the last consumes a token, so one round
more than there are tokens is enough. -/
def sshParser.run (env : Env) (os : OS)
    (parse : String → Nat → Except PanicValue (Except ErrorValue Config)) (p : sshParser) :
    Except PanicValue sshParser :=
  sshParser.runLoop env os parse (p.tokens.length + 1) p

/-- The function `parseSSH` on the tokens that the lexer sends. -/
def parseSSH (env : Env) (os : OS)
    (parse : String → Nat → Except PanicValue (Except ErrorValue Config))
    (flow : List token) (system : Bool) (depth : Nat) : Except PanicValue Config :=
  match newConfig with
  | .mk bs d _ =>
    match sshParser.run env os parse
        { config := .mk bs d ⟨1, 1⟩, tokens := flow, system := system, depth := depth } with
    | .error pv => .error pv
    | .ok p => .ok p.config

/-- The function `decodeBytes` after the call of the lexer: `parseSSH` under
the deferred `recover`.  The results `(c, err)` of the source are `(c, nil)`
when `parseSSH` returns and `(nil, err)` when a panic was recovered; a
`runtime.Error` is raised again, and so is the panic of the type assertion
`r.(string)` on a value that is no string. -/
def decodeTokens (env : Env) (os : OS)
    (parse : String → Nat → Except PanicValue (Except ErrorValue Config))
    (flow : List token) (system : Bool) (depth : Nat) :
    Except PanicValue (Except ErrorValue Config) :=
  match parseSSH env os parse flow system depth with
  | .ok c => .ok (.ok c)
  | .error (.runtimeError m) => .error (.runtimeError m)
  | .error .outOfFuel => .error .outOfFuel
  | .error (.err e) =>
    if e = .ErrDepthExceeded then .ok (.error e)
    else .error (.runtimeError
      "interface conversion: interface \x7b\x7d is *errors.errorString, not string")
  | .error (.str m) => .ok (.error (.errorString m))

/-- The function `decodeBytes`. -/
def decodeBytes (env : Env) (os : OS)
    (parse : String → Nat → Except PanicValue (Except ErrorValue Config))
    (b : String) (system : Bool) (depth : Nat) :
    Except PanicValue (Except ErrorValue Config) :=
  decodeTokens env os parse (os.lexSSH b) system depth

/-- The function `parseWithDepth`, with a bound on the nesting of the files
that are read: the call of `parseWithDepth` in `NewInclude` gets one less. -/
def parseWithDepthN (env : Env) (os : OS) :
    Nat → String → Nat → Except PanicValue (Except ErrorValue Config)
  | 0, _, _ => .error .outOfFuel
  | n + 1, filename, depth =>
    match os.ReadFile filename with
    | .error e => .ok (.error (.errorString e))
    | .ok b => decodeBytes env os (parseWithDepthN env os n) b (isSystem os filename) depth

/-- The function `parseWithDepth`.  A file at depth `d` is read by a file at
depth `d - 1`, and `NewInclude` stops at a depth above `maxRecurseDepth`, so
seven nested files are never reached. -/
def parseWithDepth (env : Env) (os : OS) (filename : String) (depth : Nat) :
    Except PanicValue (Except ErrorValue Config) :=
  parseWithDepthN env os 7 filename depth

/-- The function `parseFile`. -/
def parseFile (env : Env) (os : OS) (filename : String) :
    Except PanicValue (Except ErrorValue Config) :=
  parseWithDepth env os filename 0

/-- The four live fields of a context, without the deferred final blocks. -/
def MatchContext.live (c : MatchContext) : String × String × String × String :=
  (c.User, c.Host, c.LocalUser, c.OriginalHost)

/-- What a directive that is passed does to the context: a directive keyed
`user` sets `User`, one keyed `hostname` sets `Host`, any other changes
nothing. -/
def applyDirective (env : Env) (ctx : MatchContext) (t : KV) : MatchContext :=
  if env.ToLower t.Key = "user" then { ctx with User := t.Value }
  else if env.ToLower t.Key = "hostname" then { ctx with Host := t.Value }
  else ctx

/-- The context after the directives of a list have been passed in order. -/
def applyDirectives (env : Env) (ctx : MatchContext) (l : List KV) : MatchContext :=
  l.foldl (applyDirective env) ctx

mutual
/-- The directives of a config in file order that stand in a non-final block
which matches when it is reached; the directives that an Include node leads
to are spliced in at the position of the node. -/
def Config.reached (env : Env) : Config → MatchContext → List KV
  | .mk blocks _ _, ctx => reachedBlocks env blocks ctx
/-- The reached directives of a list of blocks. -/
def reachedBlocks (env : Env) : List Block → MatchContext → List KV
  | [], _ => []
  | block :: rest, ctx =>
    if block.IsFinal = false ∧ block.Matches (some ctx) = .ret true then
      Block.reached env block ctx ++
        reachedBlocks env rest (applyDirectives env ctx (Block.reached env block ctx))
    else reachedBlocks env rest ctx
/-- The reached directives of a block that matches. -/
def Block.reached (env : Env) : Block → MatchContext → List KV
  | .Host _ nodes _, ctx => reachedNodes env nodes ctx
  | .Match _ nodes _, ctx => reachedNodes env nodes ctx
/-- The reached directives of a list of nodes. -/
def reachedNodes (env : Env) : List Node → MatchContext → List KV
  | [], _ => []
  | .Empty _ :: rest, ctx => reachedNodes env rest ctx
  | .KV t :: rest, ctx => t :: reachedNodes env rest (applyDirective env ctx t)
  | .Include files _ :: rest, ctx =>
    reachedFiles env files ctx ++
      reachedNodes env rest (applyDirectives env ctx (reachedFiles env files ctx))
  | .other _ :: rest, ctx => reachedNodes env rest ctx
/-- The reached directives of the files of an Include, in the order of its
match list. -/
def reachedFiles (env : Env) : List (String × Config) → MatchContext → List KV
  | [], _ => []
  | (_, cfg) :: rest, ctx =>
    Config.reached env cfg ctx ++
      reachedFiles env rest (applyDirectives env ctx (Config.reached env cfg ctx))
end

/-- Whether the key of a directive equals `key` case-insensitively. -/
def keyEquals (env : Env) (key : String) (t : KV) : Bool :=
  env.ToLower t.Key = env.ToLower key

/-- The value of the first directive of a list whose key equals `key`
case-insensitively, and the empty string when there is none. -/
def firstValue (env : Env) (key : String) (l : List KV) : String :=
  match l.find? (keyEquals env key) with
  | some t => t.Value
  | none => ""

/-- The values of all the directives of a list whose key equals `key`
case-insensitively, in the order of the list. -/
def allValues (env : Env) (key : String) (l : List KV) : List String :=
  (l.filter (keyEquals env key)).map KV.Value

/-- The directives of a list that stand before the first one whose key
equals `key` case-insensitively (all of them when there is none). -/
def beforeHit (env : Env) (key : String) (l : List KV) : List KV :=
  l.takeWhile (fun t => !keyEquals env key t)

/-- What the specification says of a lookup that starts in the context `ctx`
and passes the reached directives `l`: it returns the value of the first hit
(the empty string when there is none) with a nil error, the context it
leaves was changed by the directives before the first hit only, and an
empty result means that there is no hit. -/
def ScanOk (env : Env) (key : String) (ctx : MatchContext) (l : List KV)
    (r : Exec ((String × GoError) × Option MatchContext)) : Prop :=
  (∃ ctx1 : MatchContext, r = .ret ((firstValue env key l, none), some ctx1) ∧
      ctx1.live = (applyDirectives env ctx (beforeHit env key l)).live) ∧
  (firstValue env key l = "" → ∀ t ∈ l, keyEquals env key t = false)

mutual
/-- A config of the shape that decoding produces: its nodes are directives,
comments and Includes; no directive is keyed `match`; every directive has a
non-empty value; a Match block uses only the attributes host, originalhost,
user and localuser.  The same holds in the included configs. -/
def Config.regular (env : Env) : Config → Bool
  | .mk blocks _ _ => regularBlocks env blocks
/-- Regularity of a list of blocks. -/
def regularBlocks (env : Env) : List Block → Bool
  | [] => true
  | block :: rest => Block.regular env block && regularBlocks env rest
/-- Regularity of a block. -/
def Block.regular (env : Env) : Block → Bool
  | .Host _ nodes _ => regularNodes env nodes
  | .Match patterns nodes _ =>
    patterns.all (fun e => e.1 = "host" ∨ e.1 = "originalhost" ∨ e.1 = "user" ∨ e.1 = "localuser")
      && regularNodes env nodes
/-- Regularity of a list of nodes. -/
def regularNodes (env : Env) : List Node → Bool
  | [] => true
  | .Empty _ :: rest => regularNodes env rest
  | .KV t :: rest =>
    decide (env.ToLower t.Key ≠ "match") && decide (t.Value ≠ "") && regularNodes env rest
  | .Include files _ :: rest => regularFiles env files && regularNodes env rest
  | .other _ :: _ => false
/-- Regularity of the files of an Include. -/
def regularFiles (env : Env) : List (String × Config) → Bool
  | [] => true
  | (_, cfg) :: rest => Config.regular env cfg && regularFiles env rest
end

mutual
/-- A config on which a lookup neither panics nor fails: its nodes are
directives, comments and Includes; no directive is keyed `match`; a Match block
uses only the attributes host, originalhost, user and localuser.  The same
holds in the included configs. -/
def Config.wellFormed (env : Env) : Config → Bool
  | .mk blocks _ _ => wellFormedBlocks env blocks
/-- Well-formedness of a list of blocks. -/
def wellFormedBlocks (env : Env) : List Block → Bool
  | [] => true
  | block :: rest => Block.wellFormed env block && wellFormedBlocks env rest
/-- Well-formedness of a block. -/
def Block.wellFormed (env : Env) : Block → Bool
  | .Host _ nodes _ => wellFormedNodes env nodes
  | .Match patterns nodes _ =>
    patterns.all (fun e => e.1 = "host" ∨ e.1 = "originalhost" ∨ e.1 = "user" ∨ e.1 = "localuser")
      && wellFormedNodes env nodes
/-- Well-formedness of a list of nodes. -/
def wellFormedNodes (env : Env) : List Node → Bool
  | [] => true
  | .Empty _ :: rest => wellFormedNodes env rest
  | .KV t :: rest => decide (env.ToLower t.Key ≠ "match") && wellFormedNodes env rest
  | .Include files _ :: rest => wellFormedFiles env files && wellFormedNodes env rest
  | .other _ :: _ => false
/-- Well-formedness of the files of an Include. -/
def wellFormedFiles (env : Env) : List (String × Config) → Bool
  | [] => true
  | (_, cfg) :: rest => Config.wellFormed env cfg && wellFormedFiles env rest
end

/-- What the specification says of `GetAll` when it starts in the context `ctx`
with the values `all` collected so far and passes the reached directives `l`:
it returns `all` followed by the values of all hits, with a nil error, and
leaves the context changed by all the directives of `l`. -/
def ScanAllOk (env : Env) (key : String) (ctx : MatchContext) (l : List KV) (all : List String)
    (r : Exec ((List String × GoError) × Option MatchContext)) : Prop :=
  ∃ ctx1 : MatchContext, r = .ret ((all ++ allValues env key l, none), some ctx1) ∧
    ctx1.live = (applyDirectives env ctx l).live

/-- The config with its final blocks removed. -/
def Config.withoutFinal : Config → Config
  | .mk blocks depth position => .mk (blocks.filter (fun b => !b.IsFinal)) depth position

mutual
/-- The final blocks that a lookup in the config can come across, in file
order: the final blocks of the config itself and, at the place of an Include
node of a non-final block, those of the included configs. -/
def Config.finalBlocks : Config → List Block
  | .mk blocks _ _ => finalsInBlocks blocks
/-- The final blocks of a list of blocks. -/
def finalsInBlocks : List Block → List Block
  | [] => []
  | block :: rest =>
    (if block.IsFinal then [block] else Block.finalBlocks block) ++ finalsInBlocks rest
/-- The final blocks behind the Include nodes of a block. -/
def Block.finalBlocks : Block → List Block
  | .Host _ nodes _ => finalsInNodes nodes
  | .Match _ nodes _ => finalsInNodes nodes
/-- The final blocks behind the Include nodes of a list of nodes. -/
def finalsInNodes : List Node → List Block
  | [] => []
  | .Empty _ :: rest => finalsInNodes rest
  | .KV _ :: rest => finalsInNodes rest
  | .Include files _ :: rest => finalsInFiles files ++ finalsInNodes rest
  | .other _ :: rest => finalsInNodes rest
/-- The final blocks of the files of an Include. -/
def finalsInFiles : List (String × Config) → List Block
  | [] => []
  | (_, cfg) :: rest => Config.finalBlocks cfg ++ finalsInFiles rest
end

/-- What a caller can see of an outcome apart from the deferred final blocks:
the panic, or the returned values and the four live fields of the context. -/
def observe {β : Type} : Exec (β × Option MatchContext) →
    Exec (β × Option (String × String × String × String))
  | .ret (r, o) => .ret (r, o.map MatchContext.live)
  | .panic m => .panic m

/-- The context after a call that started in `ctx` holds the final blocks of
`ctx` followed by a list `L` of blocks taken in order from `pool`. -/
def Deferred (ctx : MatchContext) (pool : List Block) (o : Option MatchContext)
    (L : List Block) : Prop :=
  ∃ c1 : MatchContext, o = some c1 ∧ c1.FinalBlocks = ctx.FinalBlocks ++ L ∧ L.Sublist pool

mutual
/-- The final blocks that a scan of the config which starts in `ctx` and runs
to its end comes across, in file order: the final blocks of the config and,
at the place of an Include node of a non-final block that matches when it is
reached, those of the included configs. -/
def Config.deferred (env : Env) : Config → MatchContext → List Block
  | .mk blocks _ _, ctx => deferredBlocks env blocks ctx
/-- The deferred blocks of a list of blocks. -/
def deferredBlocks (env : Env) : List Block → MatchContext → List Block
  | [], _ => []
  | block :: rest, ctx =>
    if block.IsFinal then block :: deferredBlocks env rest ctx
    else if block.Matches (some ctx) = .ret true then
      Block.deferred env block ctx ++
        deferredBlocks env rest (applyDirectives env ctx (Block.reached env block ctx))
    else deferredBlocks env rest ctx
/-- The deferred blocks behind the Include nodes of a block that matches. -/
def Block.deferred (env : Env) : Block → MatchContext → List Block
  | .Host _ nodes _, ctx => deferredNodes env nodes ctx
  | .Match _ nodes _, ctx => deferredNodes env nodes ctx
/-- The deferred blocks behind the Include nodes of a list of nodes. -/
def deferredNodes (env : Env) : List Node → MatchContext → List Block
  | [], _ => []
  | .Empty _ :: rest, ctx => deferredNodes env rest ctx
  | .KV t :: rest, ctx => deferredNodes env rest (applyDirective env ctx t)
  | .Include files _ :: rest, ctx =>
    deferredFiles env files ctx ++
      deferredNodes env rest (applyDirectives env ctx (reachedFiles env files ctx))
  | .other _ :: rest, ctx => deferredNodes env rest ctx
/-- The deferred blocks of the files of an Include. -/
def deferredFiles (env : Env) : List (String × Config) → MatchContext → List Block
  | [], _ => []
  | (_, cfg) :: rest, ctx =>
    Config.deferred env cfg ctx ++
      deferredFiles env rest (applyDirectives env ctx (Config.reached env cfg ctx))
end

/-- What the specification says of a lookup that finds no hit: it returns the
empty string with a nil error, the context was changed by all the reached
directives `l`, and the final blocks `fin` were appended to the deferred
ones. -/
def MissOk (env : Env) (ctx : MatchContext) (l : List KV) (fin : List Block)
    (r : Exec ((String × GoError) × Option MatchContext)) : Prop :=
  ∃ c1 : MatchContext, r = .ret (("", none), some c1) ∧
    c1.live = (applyDirectives env ctx l).live ∧
    c1.FinalBlocks = ctx.FinalBlocks ++ fin

/-! ## The lookup over the sources in the words of the specification -/

/-- The directive of a node, when the node is a directive. -/
def Node.directive? : Node → Option SshConfig.KV
  | .KV t => some t
  | _ => none

/-- Whether a node is an Include. -/
def Node.isInclude : Node → Bool
  | .Include _ _ => true
  | _ => false

/-- The directives that stand in a block itself, in file order. -/
def Block.directives (b : Block) : List KV := b.GetNodes.filterMap Node.directive?

/-- Whether no node of the block is an Include. -/
def Block.noInclude (b : Block) : Bool := b.GetNodes.all (fun n => !n.isInclude)

/-- The value that a final block gives for the key: that of its first
directive whose key equals the key case-insensitively. -/
def Block.value (env : Env) (key : String) (b : Block) : String :=
  firstValue env key b.directives

/-- The first non-empty value of a deferred final block that matches the
context, and the empty string when there is none. -/
def finalValue (env : Env) (key : String) (ctx : MatchContext) (fin : List Block) : String :=
  match ((fin.filter (fun b => b.Matches (some ctx) = .ret true)).map
      (Block.value env key)).find? (fun v => decide (v ≠ "")) with
  | some v => v
  | none => ""

/-- The reached directives of a source that may be absent. -/
def reachedOpt (env : Env) : Option Config → MatchContext → List KV
  | none, _ => []
  | some c, ctx => c.reached env ctx

/-- The deferred final blocks of a source that may be absent. -/
def deferredOpt (env : Env) : Option Config → MatchContext → List Block
  | none, _ => []
  | some c, ctx => c.deferred env ctx

/-- The value of `GetStrict` in the words of the specification: the first
non-empty value found by scanning the non-final blocks of the custom, then the
user, then the system config, each scan starting in the context that the one
before left; when all of them yield nothing, the first non-empty value of a
matching deferred final block; when that yields nothing either, the default
of the key. -/
def UserSettings.specValue (env : Env) (u : UserSettings) (hostAlias key user : String) :
    String :=
  let ctx0 := NewMatchContext env hostAlias user
  let l1 := reachedOpt env u.customConfig ctx0
  let ctx1 := applyDirectives env ctx0 l1
  let l2 := reachedOpt env u.userConfig ctx1
  let ctx2 := applyDirectives env ctx1 l2
  let l3 := reachedOpt env u.systemConfig ctx2
  let ctx3 := applyDirectives env ctx2 l3
  let fin := deferredOpt env u.customConfig ctx0 ++
    (deferredOpt env u.userConfig ctx1 ++ deferredOpt env u.systemConfig ctx2)
  if firstValue env key l1 ≠ "" then firstValue env key l1
  else if firstValue env key l2 ≠ "" then firstValue env key l2
  else if firstValue env key l3 ≠ "" then firstValue env key l3
  else if finalValue env key ctx3 fin ≠ "" then finalValue env key ctx3 fin
  else env.Default key

/-- The value that the scans of the non-final blocks find: the first
non-empty one of the custom, then the user, then the system config, each scan
starting in the context that the one before left, and the empty string when
none of them finds one. -/
def UserSettings.foundValue (env : Env) (u : UserSettings) (hostAlias key user : String) :
    String :=
  let ctx0 := NewMatchContext env hostAlias user
  let l1 := reachedOpt env u.customConfig ctx0
  let ctx1 := applyDirectives env ctx0 l1
  let l2 := reachedOpt env u.userConfig ctx1
  let ctx2 := applyDirectives env ctx1 l2
  let l3 := reachedOpt env u.systemConfig ctx2
  if firstValue env key l1 ≠ "" then firstValue env key l1
  else if firstValue env key l2 ≠ "" then firstValue env key l2
  else firstValue env key l3

/-- The final blocks that a lookup in a source that may be absent can come
across. -/
def finalBlocksOpt : Option Config → List Block
  | none => []
  | some c => c.finalBlocks

/-- Regularity of a source that may be absent. -/
def regularOpt (env : Env) : Option Config → Bool
  | none => true
  | some c => c.regular env

/-! ## Sample data for the concrete evaluations -/

/-- Lower-casing of the ASCII letters; `strings.ToLower` acts so on ASCII text. -/
def asciiLower (s : String) : String := String.mk (s.data.map Char.toLower)

/-- A small environment: ASCII lower-casing, a default table with entries for
`Port` and `Ciphers`, a validator that accepts everything. -/
def sampleEnv : Env :=
  { ToLower := asciiLower
    Default := fun k =>
      if asciiLower k = "port" then "22"
      else if asciiLower k = "ciphers" then "aes128-ctr,aes256-ctr"
      else ""
    validate := fun _ _ => none
    localUser := "me" }

/-- A directive line `Key Value`, indented by two spaces. -/
def sampleKV (key value : String) : Node :=
  .KV ⟨key, value, "", "", false, 2, ⟨1, 3⟩⟩

/-- The data of a block header without comment; `final` is its Final flag. -/
def sampleData (final : Bool) : BlockData := ⟨"", "", false, 0, false, final⟩

/-- The pattern `*`, as `NewPattern` compiles it. -/
def matchAllPattern : Pattern := ⟨"*", ⟨[(Atom.dot, Rep.star)]⟩, false⟩

/-- The literal pattern for a host name without wildcards. -/
def literalPattern (s : String) : Pattern := ⟨s, ⟨s.data.map itemOf⟩, false⟩

/-! ## Definitions used by the statements -/

/-- The live field that a `Match` attribute reads, in the words of the
specification: host reads Host, originalhost reads OriginalHost, user reads
User and localuser reads LocalUser. -/
def liveField (ctx : MatchContext) (attr : String) : String :=
  if attr = "host" then ctx.Host
  else if attr = "originalhost" then ctx.OriginalHost
  else if attr = "user" then ctx.User
  else if attr = "localuser" then ctx.LocalUser
  else ""

/-- The statement of `ScanOk` for `(*Include).Get`, which returns no error. -/
def IncludeScanOk (env : Env) (key : String) (ctx : MatchContext) (l : List KV)
    (r : Exec (String × Option MatchContext)) : Prop :=
  (∃ ctx1 : MatchContext, r = .ret (firstValue env key l, some ctx1) ∧
      ctx1.live = (applyDirectives env ctx (beforeHit env key l)).live) ∧
  (firstValue env key l = "" → ∀ t ∈ l, keyEquals env key t = false)

/-- A config in which the first `Port` directive has an empty value: two
blocks `Host *`, the first with the line `Port` and no value, the second with
`Port 22`. -/
def emptyValueConfig : Config :=
  .mk [ .Host [matchAllPattern] [sampleKV "Port" ""] (sampleData false),
        .Host [matchAllPattern] [sampleKV "Port" "22"] (sampleData false) ] 0 ⟨1, 1⟩

/-- A config with the implicit block and a block `Host testhost2` that sets
`HostName` before `Port`. -/
def sampleConfig : Config :=
  .mk [ .Host [matchAllPattern] [] (sampleData false),
        .Host [literalPattern "testhost2"]
          [sampleKV "HostName" "hn", sampleKV "Port" "1234"] (sampleData false) ] 0 ⟨1, 1⟩

/-- A config whose block `Host *` holds a directive keyed `Match` before the
directive `Port 22`. -/
def matchKeyedConfig : Config :=
  .mk [ .Host [matchAllPattern] [sampleKV "Match" "all", sampleKV "Port" "22"]
          (sampleData false) ] 0 ⟨1, 1⟩

/-- A config with two blocks that match the alias `has2identity`, each with an
`IdentityFile` directive. -/
def identitiesConfig : Config :=
  .mk [ .Host [matchAllPattern] [] (sampleData false),
        .Host [literalPattern "has2identity"] [sampleKV "IdentityFile" "f1"] (sampleData false),
        .Host [matchAllPattern] [sampleKV "identityfile" "f2"] (sampleData false) ] 0 ⟨1, 1⟩

/-- A config with a block `Match final all` before a block for `testhost2`. -/
def finalConfig : Config :=
  .mk [ .Host [matchAllPattern] [] (sampleData false),
        .Host [matchAllPattern] [sampleKV "Port" "4567"] (sampleData true),
        .Host [literalPattern "testhost2"] [sampleKV "Port" "1234"] (sampleData false) ]
    0 ⟨1, 1⟩

/-- Settings with `finalConfig` as the user config and no other source. -/
def sampleSettings : UserSettings :=
  { IgnoreErrors := false, customConfig := none, systemConfig := none,
    userConfig := some finalConfig, onceErr := none }

/-- A config whose block `Host *` holds the line `Ciphers +a`. -/
def modifierConfig : Config :=
  .mk [ .Host [matchAllPattern] [sampleKV "Ciphers" "+a"] (sampleData false) ] 0 ⟨1, 1⟩

/-- The text that `findVal` hands to the validator for a value that the scan
found: for a key of `modifiableKeys` the value after `handleModifiers`, for
every other key the value itself. -/
def rewrittenValue (env : Env) (key v : String) : String :=
  if modifiableKeys.contains key then handleModifiers env v key else v

/-- What `findVal` makes of the value `v` that the scan of a source found:
nothing when `v` is empty, the error of the validator when it rejects the
rewritten value, and the rewritten value otherwise. -/
def checkedValue (env : Env) (key v : String) : String × GoError :=
  if v = "" then ("", none)
  else
    match env.validate key (rewrittenValue env key v) with
    | some e => ("", some e)
    | none => (rewrittenValue env key v, none)

/-- The error of `GetStrict` in words: the recorded load error when there is
one and `IgnoreErrors` is false; else the error of the validator for the
value of the first of the custom, user and system config whose scan ends the
lookup, each scan starting in the context that the one before left; and nil
in every other case. -/
def UserSettings.specError (env : Env) (u : UserSettings) (hostAlias key user : String) :
    GoError :=
  if u.onceErr ≠ none ∧ u.IgnoreErrors = false then u.onceErr
  else
    let ctx0 := NewMatchContext env hostAlias user
    let l1 := reachedOpt env u.customConfig ctx0
    let r1 := checkedValue env key (firstValue env key l1)
    if r1.2 ≠ none ∨ r1.1 ≠ "" then r1.2
    else
      let ctx1 := applyDirectives env ctx0 (beforeHit env key l1)
      let l2 := reachedOpt env u.userConfig ctx1
      let r2 := checkedValue env key (firstValue env key l2)
      if r2.2 ≠ none ∨ r2.1 ≠ "" then r2.2
      else
        let ctx2 := applyDirectives env ctx1 (beforeHit env key l2)
        let l3 := reachedOpt env u.systemConfig ctx2
        let r3 := checkedValue env key (firstValue env key l3)
        if r3.2 ≠ none ∨ r3.1 ≠ "" then r3.2 else none

/-- An environment whose validator checks `Port` as the package does in
`TestGetInvalidPort`: a value that is not a decimal number is rejected with
the text of the `strconv.ParseUint` error. -/
def strictEnv : Env :=
  { sampleEnv with
    validate := fun k v =>
      if asciiLower k = "port" ∧ (v.data.all Char.isDigit && !v.data.isEmpty) = false then
        some ("ssh_config: strconv.ParseUint: parsing " ++ String.mk [Char.ofNat 34] ++ v ++
          String.mk [Char.ofNat 34] ++ ": invalid syntax")
      else none }

/-- The config of the test data `invalid-port`: a block `Host test.test` with
the line `Port notanumber`. -/
def invalidPortConfig : Config :=
  .mk [ .Host [matchAllPattern] [] (sampleData false),
        .Host [literalPattern "test.test"] [sampleKV "Port" "notanumber"] (sampleData false) ]
    0 ⟨1, 1⟩

/-- Settings whose files all loaded: `invalidPortConfig` as the user config,
no recorded error. -/
def invalidPortSettings : UserSettings :=
  { IgnoreErrors := false, customConfig := none, systemConfig := none,
    userConfig := some invalidPortConfig, onceErr := none }

mutual
/-- The depths of the Include nodes of a config, those of the configs it
includes among them. -/
def Config.includeDepths : Config → List Nat
  | .mk blocks _ _ => depthsInBlocks blocks
/-- The depths of the Include nodes of a list of blocks. -/
def depthsInBlocks : List Block → List Nat
  | [] => []
  | block :: rest => Block.includeDepths block ++ depthsInBlocks rest
/-- The depths of the Include nodes of a block. -/
def Block.includeDepths : Block → List Nat
  | .Host _ nodes _ => depthsInNodes nodes
  | .Match _ nodes _ => depthsInNodes nodes
/-- The depths of the Include nodes of a list of nodes. -/
def depthsInNodes : List Node → List Nat
  | [] => []
  | .Empty _ :: rest => depthsInNodes rest
  | .KV _ :: rest => depthsInNodes rest
  | .Include files d :: rest => d.depth :: (depthsInFiles files ++ depthsInNodes rest)
  | .other _ :: rest => depthsInNodes rest
/-- The depths of the Include nodes of the files of an Include. -/
def depthsInFiles : List (String × Config) → List Nat
  | [] => []
  | (_, cfg) :: rest => Config.includeDepths cfg ++ depthsInFiles rest
end

/-- The depth of a node that is an Include. -/
def Node.includeDepth? : Node → Option Nat
  | .Include _ d => some d.depth
  | _ => none

/-- The depths of the Include nodes that stand in the blocks of the config
itself. -/
def Config.ownIncludeDepths (c : Config) : List Nat :=
  (c.Blocks.map (fun b => b.GetNodes.filterMap Node.includeDepth?)).flatten

/-- A node as the parser at depth `depth` makes it: a comment, a directive, or
an Include that `NewInclude` returned for the depth one above, with the
configs that `parse` returned for its files. -/
def madeNode (parse : String → Nat → Except PanicValue (Except ErrorValue Config))
    (depth : Nat) : Node → Prop
  | .Empty _ => True
  | .KV _ => True
  | .Include files d =>
    d.depth = (depth + 1) % 256 ∧ d.depth ≤ maxRecurseDepth ∧
      ∀ fc ∈ files, parse fc.1 d.depth = .ok (.ok fc.2)
  | .other _ => False

/-- One round of the parser changes the config in one of two ways: a block
without nodes is appended, or a node is appended to the last block. -/
def Extends (parse : String → Nat → Except PanicValue (Except ErrorValue Config))
    (depth : Nat) (c c1 : Config) : Prop :=
  (∃ b : Block, b.GetNodes = [] ∧ c1 = c.appendBlock b) ∨
  (∃ n : Node, c.appendNode n = some c1 ∧ madeNode parse depth n)

/-- A token of the sample files. -/
def sampleToken (typ : tokenType) (val : String) (line col : Int) : token :=
  { typ := typ, val := val, Position := ⟨line, col⟩ }

/-- The tokens of the sample file `config`: `Host h`, then an indented line
`Include b`. -/
def configTokens : List token :=
  [ sampleToken .tokenKey "Host" 1 1, sampleToken (.other 0) "h" 1 6,
    sampleToken .tokenKey "Include" 2 3, sampleToken (.other 0) "b" 2 11,
    sampleToken .tokenEOF "" 3 1 ]

/-- The tokens of the sample file `b`: the line `Port 22`. -/
def portTokens : List token :=
  [ sampleToken .tokenKey "Port" 1 1, sampleToken (.other 0) "22" 1 6,
    sampleToken .tokenEOF "" 2 1 ]

/-- The tokens of the sample file `loop`: `Host h`, then an indented line
`Include loop`, the file itself. -/
def loopTokens : List token :=
  [ sampleToken .tokenKey "Host" 1 1, sampleToken (.other 0) "h" 1 6,
    sampleToken .tokenKey "Include" 2 3, sampleToken (.other 0) "loop" 2 11,
    sampleToken .tokenEOF "" 3 1 ]

/-- The tokens of the sample file `bad`: `Match canonical`, then a line
`Include bad`, the file itself. -/
def badTokens : List token :=
  [ sampleToken .tokenKey "Match" 1 1, sampleToken (.other 0) "canonical" 1 7,
    sampleToken .tokenKey "Include" 2 1, sampleToken (.other 0) "bad" 2 9,
    sampleToken .tokenEOF "" 3 1 ]

/-- A small file system: the directory `/home/me/.ssh` with the four files
`config`, `b`, `loop` and `bad`; a glob without wildcard yields the file when
it exists; positions print as `(line, col)`. -/
def sampleOS : OS :=
  { posString := fun p => "(" ++ toString p.Line ++ ", " ++ toString p.Col ++ ")"
    quoteToken := fun t => String.mk [Char.ofNat 34] ++ t.val ++ String.mk [Char.ofNat 34]
    homedir := "/home/me"
    IsAbs := fun s => s.data.head? = some '/'
    Join := fun l => stringsJoin l "/"
    Clean := fun s => s
    Glob := fun s =>
      if s = "/home/me/.ssh/config" ∨ s = "/home/me/.ssh/b" ∨ s = "/home/me/.ssh/loop" ∨
          s = "/home/me/.ssh/bad" then .ok [s]
      else .ok []
    ReadFile := fun s =>
      if s = "/home/me/.ssh/config" then .ok "Host h\n  Include b\n"
      else if s = "/home/me/.ssh/b" then .ok "Port 22\n"
      else if s = "/home/me/.ssh/loop" then .ok "Host h\n  Include loop\n"
      else if s = "/home/me/.ssh/bad" then .ok "Match canonical\nInclude bad\n"
      else .error ("open " ++ s ++ ": no such file or directory")
    lexSSH := fun b =>
      if b = "Host h\n  Include b\n" then configTokens
      else if b = "Port 22\n" then portTokens
      else if b = "Host h\n  Include loop\n" then loopTokens
      else if b = "Match canonical\nInclude bad\n" then badTokens
      else [sampleToken .tokenEOF "" 1 1] }

/-- The config that `parseFile` returns for the sample file `config`. -/
def decodedConfig : Config :=
  match parseFile sampleEnv sampleOS "/home/me/.ssh/config" with
  | .ok (.ok c) => c
  | _ => newConfig

/-- Every token of the kind key is followed by a token and, when that one is
an equals sign, by one more: the value of the key is there. -/
def keysHaveValues : List token → Bool
  | [] => true
  | t :: rest =>
    (decide (t.typ ≠ .tokenKey) ||
      match rest with
      | [] => false
      | v :: r => decide (v.typ ≠ .tokenEquals) || !r.isEmpty) && keysHaveValues rest

/-- The parser as `parseSSH` sets it up. -/
def initialParser (flow : List token) (system : Bool) (depth : Nat) : sshParser :=
  { config := .mk newConfig.Blocks 0 ⟨1, 1⟩, tokens := flow, system := system, depth := depth }

/-- The first `k` rounds of the loop of `run`. -/
def sshParser.rounds (env : Env) (os : OS)
    (parse : String → Nat → Except PanicValue (Except ErrorValue Config)) :
    Nat → sshParser → Except PanicValue sshParser
  | 0, p => .ok p
  | k + 1, p =>
    match p.parseStart os with
    | .error pv => .error pv
    | .ok none => .ok p
    | .ok (some .parseComment) =>
      match p.parseComment with
      | .error pv => .error pv
      | .ok p1 => sshParser.rounds env os parse k p1
    | .ok (some .parseKV) =>
      match p.parseKV env os parse with
      | .error pv => .error pv
      | .ok p1 => sshParser.rounds env os parse k p1

/-- The function `strings.Repeat`, which panics on a negative count. -/
def stringsRepeat (s : String) (count : Int) : Exec String :=
  if count < 0 then .panic "strings: negative Repeat count"
  else .ret (String.mk (List.replicate count.toNat s.data).flatten)

/-- The method `(*KV).String`. -/
def KV.String (k : KV) : Exec String :=
  match stringsRepeat " " k.leadingSpace with
  | .panic m => .panic m
  | .ret sp =>
    let equals := if k.hasEquals then " = " else " "
    let line := sp ++ k.Key ++ equals ++ k.Value ++ k.spaceAfterValue
    .ret (if k.Comment ≠ "" then line ++ "#" ++ k.Comment else line)

/-- The method `(*Empty).String`. -/
def Empty.String (e : Empty) : Exec String :=
  if e.Comment = "" then .ret ""
  else
    match stringsRepeat " " e.leadingSpace with
    | .panic m => .panic m
    | .ret sp => .ret (sp ++ "#" ++ e.Comment)

/-- The method `(*Include).String`. -/
def IncludeData.String (inc : IncludeData) : Exec String :=
  let equals := if inc.hasEquals then " = " else " "
  match stringsRepeat " " inc.leadingSpace with
  | .panic m => .panic m
  | .ret sp =>
    let line := sp ++ "Include" ++ equals ++ stringsJoin inc.directives " "
    .ret (if inc.Comment ≠ "" then line ++ " #" ++ inc.Comment else line)

/-- The method `String` of a node; a node of a further type prints the text
that it carries. -/
def Node.String : Node → Exec String
  | .Empty e => e.String
  | .KV k => k.String
  | .Include _ d => d.String
  | .other descr => .ret descr

/-- The second loop of `(*Host).String`: every node, followed by a line feed. -/
def Host.nodesString : List Node → Exec String
  | [] => .ret ""
  | n :: rest =>
    match n.String with
    | .panic m => .panic m
    | .ret s =>
      match Host.nodesString rest with
      | .panic m => .panic m
      | .ret t => .ret (s ++ "\n" ++ t)

/-- The header that `(*Host).String` writes when the block is not implicit;
the loop over the patterns writes them with a blank between two of them. -/
def Host.headerString (patterns : List Pattern) (data : BlockData) : Exec String :=
  if data.implicit = false then
    match stringsRepeat " " data.leadingSpace with
    | .panic m => .panic m
    | .ret sp =>
      .ret (sp ++ "Host" ++ (if data.hasEquals then " = " else " ") ++
        stringsJoin (patterns.map Pattern.String) " " ++ data.spaceBeforeComment ++
        (if data.EOLComment ≠ "" then "#" ++ data.EOLComment else "") ++ "\n")
  else .ret ""

/-- The methods `(*Host).String` and `(*Match).String`. -/
def Block.String : Block → Exec String
  | .Host patterns nodes data =>
    match Host.headerString patterns data with
    | .panic m => .panic m
    | .ret h =>
      match Host.nodesString nodes with
      | .panic m => .panic m
      | .ret t => .ret (h ++ t)
  | .Match _ _ _ => .panic "Match does not support String() serialization for now"

/-- The function `marshal`: the texts of the blocks, one after the other. -/
def marshal : List Block → Exec String
  | [] => .ret ""
  | b :: rest =>
    match b.String with
    | .panic m => .panic m
    | .ret s =>
      match marshal rest with
      | .panic m => .panic m
      | .ret t => .ret (s ++ t)

/-- The method `Config.String` (and `Config.MarshalText`, which returns the
same bytes with a nil error). -/
def Config.String (c : Config) : Exec String := marshal c.Blocks

/-! ## The text of a config and the tokens of its lines -/

/-- A line of a config text, cut into its parts: an empty line; a comment
line of blanks, `#` and a text; a `Host` line with its patterns, a single
blank between two of them, blanks after them and a comment; an `Include` line
without a comment; and any other line of blanks, a key, a blank or an equals
sign between blanks, a value (with the white space that follows it) and a
comment. -/
inductive SourceLine where
  | blank
  | commentLine (indent : Nat) (text : String)
  | hostLine (equals : Bool) (patterns : List String) (pad : Nat) (comment : Option String)
  | includeLine (indent : Nat) (equals : Bool) (value : String)
  | directive (indent : Nat) (key : String) (equals : Bool) (value : String)
      (comment : Option String)
  deriving DecidableEq, Repr

/-- A run of `n` blanks. -/
def blanks (n : Nat) : String := String.mk (List.replicate n ' ')

/-- What stands between a key and its value. -/
def sepText (equals : Bool) : String := if equals then " = " else " "

/-- The comment at the end of a line, with its `#`. -/
def commentText : Option String → String
  | none => ""
  | some c => "#" ++ c

/-- The bytes of a line with a key, the line feed included. -/
def directiveText (indent : Nat) (key : String) (equals : Bool) (value : String)
    (comment : Option String) : String :=
  blanks indent ++ key ++ sepText equals ++ value ++ commentText comment ++ "\n"

/-- The bytes of a line, the line feed included. -/
def SourceLine.text : SourceLine → String
  | .blank => "\n"
  | .commentLine indent text => blanks indent ++ "#" ++ text ++ "\n"
  | .hostLine equals patterns pad comment =>
    directiveText 0 "Host" equals (stringsJoin patterns " " ++ blanks pad) comment
  | .includeLine indent equals value => directiveText indent "Include" equals value none
  | .directive indent key equals value comment =>
    directiveText indent key equals value comment

/-- The tokens of a line with a key, in closed form.  The key token stands at
the column after the indent; an equals token without text follows, at the
column of the sign, when the line has the sign; the value token begins after
the blanks that follow the key or the sign and holds the text up to the
comment or the end of the line, the white space before the comment included;
the comment token holds the text after `#`.  All of them carry the number of
the line. -/
def directiveTokens (line : Int) (indent : Nat) (key : String) (equals : Bool)
    (value : String) (comment : Option String) : List token :=
  [{ typ := .tokenKey, val := key, Position := ⟨line, indent + 1⟩ }] ++
  (if equals then
    [{ typ := .tokenEquals, val := "", Position := ⟨line, indent + key.length + 2⟩ }]
   else []) ++
  [{ typ := .other 0, val := value,
     Position := ⟨line, indent + key.length + (sepText equals).length + 1⟩ }] ++
  (match comment with
   | none => []
   | some c =>
     [{ typ := .tokenComment, val := c,
        Position := ⟨line, indent + key.length + (sepText equals).length + value.length + 2⟩ }])

/-- The tokens of a line, in closed form.  An empty line is one token of the
kind empty line; a comment line is one comment token with the text after `#`,
at the column after the `#`. -/
def SourceLine.tokens (line : Int) : SourceLine → List token
  | .blank => [{ typ := .tokenEmptyLine, val := "", Position := ⟨line, 1⟩ }]
  | .commentLine indent text =>
    [{ typ := .tokenComment, val := text, Position := ⟨line, indent + 2⟩ }]
  | .hostLine equals patterns pad comment =>
    directiveTokens line 0 "Host" equals (stringsJoin patterns " " ++ blanks pad) comment
  | .includeLine indent equals value => directiveTokens line indent "Include" equals value none
  | .directive indent key equals value comment =>
    directiveTokens line indent key equals value comment

/-- The words form (attribute, pattern) pairs, first with second, third with
fourth and so on, with every attribute among `allowedMatchKeywords` and every
pattern accepted by `NewPattern`. -/
def pairsAccepted : List String → Bool
  | [] => true
  | [_] => false
  | k :: v :: rest =>
    allowedMatchKeywords.contains k &&
      (match NewPattern v with
       | .ok _ => true
       | .error _ => false) && pairsAccepted rest

/-- The values of a `Match` directive that are accepted, given trimmed and in
lower case: not `final` alone, no text that starts with `canonical`, and
either `all` or `final all` or pairs of an attribute and a pattern that are
written with single blanks, so that the pieces between the blanks of the text
are the attributes and patterns in turn. -/
def matchValueAccepted (lower : String) : Bool :=
  !stringsHasPrefix lower "canonical" && decide (lower ≠ "final") &&
    (decide (lower = "final all" ∨ lower = "all") || pairsAccepted (stringsSplit lower ' '))

/-- The words of a list compiled with `NewPattern` in order, up to the first
one that does not compile. -/
def compileWords : List String → Except String (List Pattern)
  | [] => .ok []
  | w :: rest =>
    match NewPattern w with
    | .error e => .error e
    | .ok pat =>
      match compileWords rest with
      | .error e => .error e
      | .ok patterns => .ok (pat :: patterns)

/-- The non-empty pieces of a text between its blanks, in order. -/
def blankWords (s : String) : List String :=
  (stringsSplit s ' ').filter (fun w => decide (w ≠ ""))

/-- The texts of the patterns of the blocks of a config, block by block; a
`Match` block gives the texts of its entries. -/
def patternTexts (c : Config) : List (List String) :=
  c.Blocks.map (fun b =>
    match b with
    | .Host ps _ _ => ps.map Pattern.String
    | .Match ps _ _ => ps.map (fun e => e.2.String))

/-- The config that the decoder returns for a list of tokens of a file in the
sample file system, and the empty config when it fails. -/
def configOfTokens (flow : List token) : Config :=
  match decodeTokens sampleEnv sampleOS (parseWithDepth sampleEnv sampleOS) flow false 0 with
  | .ok (.ok c) => c
  | _ => newConfig

/-- Settings whose only source is the user config `c`, loaded without error. -/
def settingsOf (c : Config) : UserSettings :=
  { IgnoreErrors := false, customConfig := none, systemConfig := none,
    userConfig := some c, onceErr := none }

/-- Settings without any config and without a recorded error. -/
def noSettings : UserSettings :=
  { IgnoreErrors := false, customConfig := none, systemConfig := none,
    userConfig := none, onceErr := none }

/-- Whether the block that the branch of `parseKV` for a `Match` directive
with the value `value` appends matches the context `ctx`. -/
def matchDirectiveMatches (value : String) (ctx : MatchContext) :
    Except PanicValue (Option (Exec Bool)) :=
  (parseKV.matchBranch sampleEnv sampleOS (initialParser [] false 0) false
      (sampleToken (.other 0) value 1 7) "").map
    (fun q => q.config.Blocks.getLast?.map (fun b => b.Matches (some ctx)))

/-- The words of the value of a `Match` directive as they are written, cut at
the blanks. -/
def writtenPairs (value : String) : List String := stringsSplit value ' '

/-- The tokens of the lines `Match final all` and, indented, `Ciphers +a,b`. -/
def finalCiphersTokens : List token :=
  [ sampleToken .tokenKey "Match" 1 1, sampleToken (.other 0) "final all" 1 7,
    sampleToken .tokenKey "Ciphers" 2 3, sampleToken (.other 0) "+a,b" 2 11,
    sampleToken .tokenEOF "" 3 1 ]

/-- The tokens of the lines `Match all` and, indented, `Ciphers +a,b`. -/
def plainCiphersTokens : List token :=
  [ sampleToken .tokenKey "Match" 1 1, sampleToken (.other 0) "all" 1 7,
    sampleToken .tokenKey "Ciphers" 2 3, sampleToken (.other 0) "+a,b" 2 11,
    sampleToken .tokenEOF "" 3 1 ]

/-- The tokens of the lines `Match final all` and, indented, `Include b`; the
file `b` of the sample file system holds the line `Port 22`. -/
def finalIncludeTokens : List token :=
  [ sampleToken .tokenKey "Match" 1 1, sampleToken (.other 0) "final all" 1 7,
    sampleToken .tokenKey "Include" 2 3, sampleToken (.other 0) "b" 2 11,
    sampleToken .tokenEOF "" 3 1 ]

/-- The tokens of the lines `Match all` and, indented, `Include b`. -/
def plainIncludeTokens : List token :=
  [ sampleToken .tokenKey "Match" 1 1, sampleToken (.other 0) "all" 1 7,
    sampleToken .tokenKey "Include" 2 3, sampleToken (.other 0) "b" 2 11,
    sampleToken .tokenEOF "" 3 1 ]

/-- The context of a lookup for the alias `h` after the scan of a config: the
new context with the final blocks of the config deferred. -/
def deferredContext (c : Config) : MatchContext :=
  { NewMatchContext sampleEnv "h" "" with FinalBlocks := c.Blocks.filter Block.IsFinal }

/-- The context `o` that a lookup leaves is a context with the original host
and the local user of the context `ctx` in which the lookup started. -/
def Frame (ctx : MatchContext) (o : Option MatchContext) : Prop :=
  ∃ c1 : MatchContext, o = some c1 ∧ c1.OriginalHost = ctx.OriginalHost ∧
    c1.LocalUser = ctx.LocalUser

/-- The config of `TestMatchCondition` in small: the implicit block, a block
`Host testhost` with the line `HostName h`, and a block `Match host h` with
the line `Port 2222`. -/
def conditionConfig : Config :=
  .mk [ .Host [matchAllPattern] [] (sampleData false),
        .Host [literalPattern "testhost"] [sampleKV "HostName" "h"] (sampleData false),
        .Match [("host", literalPattern "h")] [sampleKV "Port" "2222"] (sampleData false) ]
    0 ⟨1, 1⟩

/-- Whether a block is a `Match` block. -/
def blockIsMatch : Block → Bool
  | .Host _ _ _ => false
  | .Match _ _ _ => true

/-- Whether the indent that the method `String` of a node repeats is not
negative; an `Empty` node without comment writes no indent. -/
def nodeIndentOk : Node → Bool
  | .Empty e => decide (e.Comment = "") || decide (0 ≤ e.leadingSpace)
  | .KV k => decide (0 ≤ k.leadingSpace)
  | .Include _ d => decide (0 ≤ d.leadingSpace)
  | .other _ => true

/-- Whether no indent that the method `String` of a block repeats is
negative: the one of the header, which the implicit block does not write, and
the ones of the nodes. -/
def blockIndentOk (b : Block) : Bool :=
  (b.data.implicit || decide (0 ≤ b.data.leadingSpace)) && b.GetNodes.all nodeIndentOk

/-- The elements of a list that are neither in `seen` nor earlier in the list,
in the order of the list. -/
def firstSeen : List String → List String → List String
  | _, [] => []
  | seen, v :: l => if seen.contains v then firstSeen seen l else v :: firstSeen (v :: seen) l

/-- A config whose block `Host *` holds the directive `Port 22` before a
directive keyed `Match`. -/
def matchAfterHitConfig : Config :=
  .mk [ .Host [matchAllPattern] [sampleKV "Port" "22", sampleKV "Match" "all"]
          (sampleData false) ] 0 ⟨1, 1⟩

/-- The tokens of a directive at the head of a stream, cut as `parseKV`
consumes them: the key, whether an equals sign follows it, the value, the
text of a comment token on the line of the value (the empty text when there
is none), and the tokens after them. -/
def cutLine : List token → Option (token × Bool × token × String × List token)
  | key :: v :: rest =>
    let found : Option (token × List token) :=
      if v.typ = .tokenEquals then
        match rest with
        | val :: r => some (val, r)
        | [] => none
      else some (v, rest)
    match found with
    | none => none
    | some (val, r) =>
      match r with
      | t :: r2 =>
        if t.typ = .tokenComment ∧ t.Position.Line = val.Position.Line then
          some (key, decide (v.typ = .tokenEquals), val, t.val, r2)
        else some (key, decide (v.typ = .tokenEquals), val, "", r)
      | [] => some (key, decide (v.typ = .tokenEquals), val, "", [])
  | _ => none

/-- What a line of the source adds to the config: a block for a `Host` or
`Match` line; a comment or empty line with its text; a directive with its
key as written, its value token and its comment; an `Include` line with its
arguments.  `foreign` stands for a node of a further type, which no line
makes. -/
inductive SourceItem where
  | block
  | comment (text : String) (pos : Position)
  | directive (key : String) (equals : Bool) (value : String) (comment : String)
      (pos : Position)
  | includeLine (args : List String) (equals : Bool) (comment : String) (pos : Position)
  | foreign (descr : String)
  deriving DecidableEq

/-- The line that a node stands for. -/
def nodeItem : Node → SourceItem
  | .Empty e => .comment e.Comment e.position
  | .KV k => .directive k.Key k.hasEquals (k.Value ++ k.spaceAfterValue) k.Comment k.position
  | .Include _ d => .includeLine d.directives d.hasEquals d.Comment d.position
  | .other descr => .foreign descr

/-- The lines of a token stream in source order, up to the end token: a
comment or empty-line token is a line of its own, a key token starts a line
that `cutLine` cuts off.  The first argument bounds the number of lines. -/
def sourceItemsN (env : Env) : Nat → List token → List SourceItem
  | 0, _ => []
  | _, [] => []
  | n + 1, t :: rest =>
    match t.typ with
    | .tokenComment => .comment t.val t.Position :: sourceItemsN env n rest
    | .tokenEmptyLine => .comment t.val t.Position :: sourceItemsN env n rest
    | .tokenKey =>
      match cutLine (t :: rest) with
      | none => []
      | some (key, equals, val, comment, r) =>
        if env.ToLower key.val = "match" ∨ env.ToLower key.val = "host" then
          .block :: sourceItemsN env n r
        else if env.ToLower key.val = "include" then
          .includeLine (stringsSplit val.val ' ') equals comment key.Position ::
            sourceItemsN env n r
        else .directive key.val equals val.val comment key.Position :: sourceItemsN env n r
    | _ => []

/-- The lines of a token stream; a line holds a token at least, so one more
than there are tokens bounds their number. -/
def sourceItems (env : Env) (flow : List token) : List SourceItem :=
  sourceItemsN env (flow.length + 1) flow

/-- The groups of lines after one more line: a `Host` or `Match` line opens a
new group, any other line goes to the end of the last group. -/
def attachItem (groups : List (List SourceItem)) (item : SourceItem) :
    List (List SourceItem) :=
  if item = .block then groups ++ [[]]
  else groups.dropLast ++ [groups.getLast?.getD [] ++ [item]]

/-- The lines that the nodes of the blocks of a config stand for, block by
block. -/
def blockItems (c : Config) : List (List SourceItem) :=
  c.Blocks.map (fun b => b.GetNodes.map nodeItem)

/-- The nodes of all the blocks of a config, block after block. -/
def allNodes (c : Config) : List Node := (c.Blocks.map Block.GetNodes).flatten

/-- The first block of the config is the implicit block of `newConfig`, with
the nodes it has got. -/
def implicitFirst (c : Config) : Prop :=
  ∃ (nodes : List Node) (rest : List Block),
    c.Blocks = .Host [matchAll] nodes ⟨"", "", false, 0, true, false⟩ :: rest

/-- The tokens of the line `Port = 22`, indented by two blanks, with two
blanks after the value and the comment ` ssh`, followed by the end token. -/
def directiveSample : List token :=
  [ sampleToken .tokenKey "Port" 1 3, sampleToken .tokenEquals "=" 1 8,
    sampleToken (.other 0) "22  " 1 10, sampleToken .tokenComment " ssh" 1 14,
    sampleToken .tokenEOF "" 2 1 ]

/-- The tokens of the line `Port 22 #`, whose comment has no text, followed
by the end token. -/
def emptyCommentSample : List token :=
  [ sampleToken .tokenKey "Port" 1 1, sampleToken (.other 0) "22 " 1 6,
    sampleToken .tokenComment "" 1 9, sampleToken .tokenEOF "" 2 1 ]

/-- The tokens of a file of six lines: a comment, `Port 22`, `Host h`, the
indented line `User u`, an empty line and the indented line `Include b`. -/
def nodesSample : List token :=
  [ sampleToken .tokenComment " top" 1 2,
    sampleToken .tokenKey "Port" 2 1, sampleToken (.other 0) "22" 2 6,
    sampleToken .tokenKey "Host" 3 1, sampleToken (.other 0) "h" 3 6,
    sampleToken .tokenKey "User" 4 3, sampleToken (.other 0) "u" 4 8,
    sampleToken .tokenEmptyLine "" 5 1,
    sampleToken .tokenKey "Include" 6 3, sampleToken (.other 0) "b" 6 11,
    sampleToken .tokenEOF "" 7 1 ]

/-- An environment whose default list holds an entry twice: `a,a,b` for
every key. -/
def repeatedDefaultEnv : Env :=
  { sampleEnv with Default := fun _ => "a,a,b" }

/-- The text of a list of (attribute, pattern) pairs written with single
blanks: the attribute, a blank and the pattern of each pair, and a blank
between two pairs. -/
def pairsText (pairs : List (String × String)) : String :=
  stringsJoin (pairs.flatMap (fun e => [e.1, e.2])) " "

/-- A text consists of (attribute, pattern) pairs written with single blanks:
it is the text of a non-empty list of pairs whose attributes are among
`allowedMatchKeywords` and whose patterns hold no blank and are accepted by
`NewPattern`. -/
def ConsistsOfPairs (lower : String) : Prop :=
  ∃ pairs : List (String × String), pairs ≠ [] ∧ lower = pairsText pairs ∧
    ∀ e ∈ pairs, e.1 ∈ allowedMatchKeywords ∧ ' ' ∉ e.2.data ∧
      ∃ pat : Pattern, NewPattern e.2 = .ok pat

/-- The whitespace tokens of a text, in the words of the specification: the
non-empty pieces between blanks and tabs. -/
def whiteWords (s : String) : List String :=
  ((stringsSplit s ' ').flatMap (fun w => stringsSplit w '\t')).filter
    (fun w => decide (w ≠ ""))

/-! ## Block values, the offending token of a round, and the lexer -/

/-- A block as a Go value of the interface `Block`: a `*Host` or `*Match`
whose embedded pointer `*BlockData` is set, which is what `Block` holds and
what the parser builds; or one that was built without it, as
`&Host{Patterns: patterns}` in `TestMatches` and `ExampleHost_Matches`, whose
embedded pointer is nil. -/
inductive BlockValue where
  | withData (b : Block)
  | hostNoData (Patterns : List Pattern)
  | matchNoData (Patterns : List (String × Pattern))

/-- The method `String` of a block value.  `(*Host).String` begins with the
test `h.implicit == false`, a read through the embedded pointer, which is the
run-time panic of a nil pointer when the Host has no `BlockData`;
`(*Match).String` panics before it reads anything. -/
def BlockValue.String : BlockValue → Exec String
  | .withData b => b.String
  | .hostNoData _ => .panic nilDeref
  | .matchNoData _ => .panic "Match does not support String() serialization for now"

/-- The function `marshal` over block values: the texts of the blocks, one
after the other. -/
def marshalValues : List BlockValue → Exec String
  | [] => .ret ""
  | v :: rest =>
    match v.String with
    | .panic m => .panic m
    | .ret s =>
      match marshalValues rest with
      | .panic m => .panic m
      | .ret t => .ret (s ++ t)

/-- Whether a block value is a `*Match`. -/
def BlockValue.isMatch : BlockValue → Bool
  | .withData b => blockIsMatch b
  | .hostNoData _ => false
  | .matchNoData _ => true

/-- Whether a block value carries its `BlockData` and no indent that its
method `String` repeats is negative. -/
def BlockValue.printable : BlockValue → Bool
  | .withData b => blockIndentOk b
  | .hostNoData _ => false
  | .matchNoData _ => false

/-- Whether the tokens carry columns that count from 1: a key token starts at
column 1 or later, and the text of a comment token, which follows the `#`,
at column 2 or later. -/
def columnsOk (flow : List token) : Bool :=
  flow.all (fun t =>
    (decide (t.typ ≠ .tokenKey) || decide (1 ≤ t.Position.Col)) &&
    (decide (t.typ ≠ .tokenComment ∧ t.typ ≠ .tokenEmptyLine) || decide (t.val = "") ||
      decide (2 ≤ t.Position.Col)))

/-- The blocks of `TestMatches`: one Host with the pattern `*`, built without
`BlockData`. -/
def hostWithoutData : List BlockValue := [.hostNoData [matchAllPattern]]

/-- The token at which the round that starts in the state `p` stops when it
fails: the token at the head of the stream when it is neither a comment, an
empty line, a key nor the end token (`parseStart` raises `unexpected token`
for it); and, when the head is a key token, the value token of its line as
`cutLine` cuts it, which is the token that `parseKV` passes to `raiseErrorf`
and `raiseError`. -/
def offendingToken (p : sshParser) : Option token :=
  match p.tokens with
  | [] => none
  | t :: rest =>
    match t.typ with
    | .tokenComment => none
    | .tokenEmptyLine => none
    | .tokenEOF => none
    | .tokenKey => (cutLine (t :: rest)).map (fun r => r.2.2.1)
    | _ => some t

/-- The tokens of a file of two lines: `Port 22`, then `Match final`. -/
def lateFailureTokens : List token :=
  [ sampleToken .tokenKey "Port" 1 1, sampleToken (.other 0) "22" 1 6,
    sampleToken .tokenKey "Match" 2 1, sampleToken (.other 0) "final" 2 7,
    sampleToken .tokenEOF "" 3 1 ]

/-- The states of the lexer: between lines (`void`), after a carriage return
that ends a line (`afterCR`), inside a key, after a key (`equals`), after an
equals sign (`rspace`), inside a value and inside a comment.  A token that is
being read carries the position of its first character and the characters
read so far. -/
inductive LexState where
  | void
  | afterCR
  | key (start : Position) (acc : List Char)
  | equals
  | rspace
  | rvalue (start : Position) (acc : List Char)
  | comment (start : Position) (acc : List Char)
  deriving DecidableEq, Repr

/-- White space inside a line: the blank and the tab. -/
def isSpace (c : Char) : Bool := c == ' ' || c == '\t'

/-- The characters that a key is made of: every character but white space,
the equals sign, the line feed and the carriage return. -/
def keyChar (c : Char) : Bool := !(isSpace c || c == '=' || c == '\n' || c == '\r')

/-- The characters that never end a value: every character but the line feed,
the carriage return and `#`. -/
def valueChar (c : Char) : Bool := !(c == '\n' || c == '\r' || c == '#')

/-- The characters that never end a comment: every character but the line
feed and the carriage return. -/
def lineChar (c : Char) : Bool := !(c == '\n' || c == '\r')

/-- The position after the character `c` at the position `p`; lines and
columns count from 1. -/
def Position.after (p : Position) (c : Char) : Position :=
  if c = '\n' then ⟨p.Line + 1, 1⟩ else ⟨p.Line, p.Col + 1⟩

/-- A token with the text `acc`. -/
def tokenOf (typ : tokenType) (acc : List Char) (start : Position) : token :=
  { typ := typ, val := String.mk acc, Position := start }

/-- Modelled from the spec: the lexer inside a value, at the character `c`
that stands at `pos` before the character `next`.  A line feed, or a carriage
return before a line feed, ends the value and the line; `#` ends the value
and starts the comment; every other character belongs to the value, white
space included. -/
def rvalueStep (start : Position) (acc : List Char) (pos : Position) (c : Char)
    (next : Option Char) : List token × LexState :=
  if valueChar c || (c == '\r' && next != some '\n') then ([], .rvalue start (acc ++ [c]))
  else if c == '#' then ([tokenOf (.other 0) acc start], .comment (pos.after c) [])
  else if c == '\n' then ([tokenOf (.other 0) acc start], .void)
  else ([tokenOf (.other 0) acc start], .afterCR)

/-- Modelled from the spec: one step of the lexer of section 4.1, on the
character `c` at the position `pos`, with the character `next` after it: the
tokens that are sent and the state that follows.  Between lines, white space
is passed over, `#` starts a comment line, the end of a line gives an
empty-line token, and any other character starts a key.  A key ends at white
space or at an equals sign; the sign is optional and gives an equals token
without text; the white space after the key and after the sign belongs to no
token, so a value begins with its first character that is no white space
(the file `extraspace` of `TestGetExtraSpaces`).  A carriage return before a
line feed ends a line as the line feed does (`TestDosLinesEndingsDecode`). -/
def lexStep (st : LexState) (pos : Position) (c : Char) (next : Option Char) :
    List token × LexState :=
  match st with
  | .void =>
    if c == '#' then ([], .comment (pos.after c) [])
    else if c == '\n' then ([tokenOf .tokenEmptyLine [] pos], .void)
    else if c == '\r' then
      ([tokenOf .tokenEmptyLine [] pos], if next == some '\n' then .afterCR else .void)
    else if isSpace c then ([], .void)
    else if c == '=' then ([tokenOf .tokenKey [] pos, tokenOf .tokenEquals [] pos], .rspace)
    else ([], .key pos [c])
  | .afterCR => ([], .void)
  | .key start acc =>
    if keyChar c then ([], .key start (acc ++ [c]))
    else if isSpace c then ([tokenOf .tokenKey acc start], .equals)
    else if c == '=' then ([tokenOf .tokenKey acc start, tokenOf .tokenEquals [] pos], .rspace)
    else
      ([tokenOf .tokenKey acc start] ++ (rvalueStep pos [] pos c next).1,
        (rvalueStep pos [] pos c next).2)
  | .equals =>
    if c == '=' then ([tokenOf .tokenEquals [] pos], .rspace)
    else if isSpace c then ([], .equals)
    else rvalueStep pos [] pos c next
  | .rspace =>
    if isSpace c then ([], .rspace) else rvalueStep pos [] pos c next
  | .rvalue start acc => rvalueStep start acc pos c next
  | .comment start acc =>
    if lineChar c || (c == '\r' && next != some '\n') then ([], .comment start (acc ++ [c]))
    else if c == '\n' then ([tokenOf .tokenComment acc start], .void)
    else ([tokenOf .tokenComment acc start], .afterCR)

/-- Modelled from the spec: the tokens that the lexer sends at the end of the
text.  The end token closes the stream; a key or a comment that the end of
the text cuts off is sent before it, and a value that it cuts off travels in
the end token itself, which is how a last line without line feed keeps its
value (`TestNoTrailingNewline`). -/
def lexFinish (st : LexState) (pos : Position) : List token :=
  match st with
  | .void => [tokenOf .tokenEOF [] pos]
  | .afterCR => [tokenOf .tokenEOF [] pos]
  | .key start acc => [tokenOf .tokenKey acc start, tokenOf .tokenEOF [] pos]
  | .equals => [tokenOf .tokenEOF [] pos]
  | .rspace => [tokenOf .tokenEOF [] pos]
  | .rvalue start acc => [tokenOf .tokenEOF acc start]
  | .comment start acc =>
    [tokenOf .tokenComment acc start, tokenOf .tokenEOF [] ⟨pos.Line, pos.Col + 1⟩]

/-- Modelled from the spec: the run of the lexer over the characters of the
text, from a state and a position. -/
def lexRun : LexState → Position → List Char → List token
  | st, pos, [] => lexFinish st pos
  | st, pos, c :: rest =>
    (lexStep st pos c rest.head?).1 ++ lexRun (lexStep st pos c rest.head?).2 (pos.after c) rest

/-- Modelled from the spec: the lexer `lexSSH` of section 4.1, from bytes to
tokens with 1-indexed line and column. -/
def lexSSH (b : String) : List token := lexRun .void ⟨1, 1⟩ b.data

theorem special_mem_regexpMeta (b : Char) (h : special b = true) : b ∈ regexpMeta := by
  simp only [special, specialBytes, List.contains_eq_any_beq, List.any_cons, List.any_nil,
    Bool.or_false, Bool.or_eq_true, beq_iff_eq] at h
  simp only [regexpMeta, List.mem_cons, List.mem_singleton]
  tauto

theorem not_special_not_mem (b : Char) (h1 : b ≠ '*') (h2 : b ≠ '?') (h : special b = false) :
    b ≠ '$' ∧ b ≠ '.' ∧ b ≠ '\\' ∧ b ∉ regexpMeta := by
  have h' : ¬ (special b = true) := by simp [h]
  simp only [special, specialBytes, List.contains_eq_any_beq, List.any_cons, List.any_nil,
    Bool.or_false, Bool.or_eq_true, beq_iff_eq] at h'
  simp only [regexpMeta, List.mem_cons, List.mem_singleton, List.not_mem_nil]
  tauto

theorem parseBody_writePattern (s : List Char) :
    parseBody (writePattern s ++ ['$']) = some (s.map itemOf) := by
  induction s with
  | nil => simp [writePattern, parseBody]
  | cons b s ih =>
    by_cases h1 : b = '*'
    · subst h1
      simp [writePattern, parseBody, ih, itemOf]
    · by_cases h2 : b = '?'
      · subst h2
        simp [writePattern, parseBody, ih, itemOf]
      · cases h3 : special b
        · obtain ⟨a1, a2, a3, a4⟩ := not_special_not_mem b h1 h2 h3
          have e : writePattern (b :: s) ++ ['$'] = b :: (writePattern s ++ ['$']) := by
            simp [writePattern, h1, h2, h3]
          rw [e, parseBody.eq_def]
          simp [ih, itemOf, h1, h2, a1, a2, a3, a4]
        · have hm := special_mem_regexpMeta b h3
          simp [writePattern, parseBody, ih, itemOf, h1, h2, h3, hm]

theorem Compile_writePattern (s : List Char) :
    Compile ('^' :: (writePattern s ++ ['$'])) = some ⟨s.map itemOf⟩ := by
  simp [Compile, parseBody_writePattern]

theorem matchItems_literal (s t : List Char) (h1 : '*' ∉ s) (h2 : '?' ∉ s) :
    matchItems (s.map itemOf) t = true ↔ t = s := by
  induction s generalizing t with
  | nil => cases t <;> simp [matchItems]
  | cons b s ih =>
    have hb1 : b ≠ '*' := fun h => h1 (by simp [h])
    have hb2 : b ≠ '?' := fun h => h2 (by simp [h])
    have hs1 : '*' ∉ s := fun h => h1 (List.mem_cons_of_mem _ h)
    have hs2 : '?' ∉ s := fun h => h2 (List.mem_cons_of_mem _ h)
    cases t with
    | nil => simp [itemOf, hb1, hb2, matchItems]
    | cons d t =>
      simp only [List.map_cons, itemOf, hb1, hb2, if_false, matchItems, Atom.accepts,
        Bool.and_eq_true, beq_iff_eq, ih t hs1 hs2, List.cons.injEq]
      constructor
      · rintro ⟨rfl, rfl⟩
        exact ⟨rfl, rfl⟩
      · rintro ⟨rfl, rfl⟩
        exact ⟨rfl, rfl⟩

theorem matchStar_dot_end (t : List Char) :
    matchStar Atom.dot (matchItems []) t = true ↔ '\n' ∉ t := by
  induction t with
  | nil => simp [matchStar, matchItems]
  | cons d t ih =>
    have e : matchItems [] (d :: t) = false := rfl
    simp only [matchStar, e, Bool.false_or, Bool.and_eq_true, ih,
      Atom.accepts, bne_iff_ne, ne_eq, List.mem_cons, not_or]
    constructor
    · rintro ⟨h1, h2⟩
      exact ⟨fun h => h1 h.symm, h2⟩
    · rintro ⟨h1, h2⟩
      exact ⟨fun h => h1 h.symm, h2⟩

theorem Host_matchesLoop_eq (ps : List Pattern) (ctx : MatchContext) (found : Bool) :
    Host.matchesLoop ps (some ctx) found =
      .ret (!(ps.any fun p => p.not && p.regex.MatchString ctx.OriginalHost) &&
            (found || ps.any fun p => !p.not && p.regex.MatchString ctx.OriginalHost)) := by
  induction ps generalizing found with
  | nil => simp [Host.matchesLoop]
  | cons p ps ih =>
    simp only [Host.matchesLoop]
    by_cases hm : p.regex.MatchString ctx.OriginalHost = true
    · by_cases hn : p.not = true
      · simp [hm, hn]
      · simp [hm, hn, ih]
    · simp [hm, ih]

/-! ## The claims on patterns and block matching -/

theorem Match_Matches_eq (entries : List (String × Pattern)) (ctx : MatchContext)
    (hattr : ∀ e ∈ entries,
      e.1 = "host" ∨ e.1 = "originalhost" ∨ e.1 = "user" ∨ e.1 = "localuser") :
    Match.Matches entries (some ctx) =
      .ret (entries.all fun e => decide (liveField ctx e.1 ≠ "") &&
        (e.2.regex.MatchString (liveField ctx e.1) == !e.2.not)) := by
  induction entries with
  | nil => simp [Match.Matches]
  | cons e rest ih =>
    obtain ⟨k, p⟩ := e
    have hk := hattr (k, p) (List.mem_cons_self _ _)
    have ih' := ih (fun e he => hattr e (List.mem_cons_of_mem _ he))
    simp only at hk
    have hk' : k = "host" ∨ k = "user" ∨ k = "originalhost" ∨ k = "localuser" := by tauto
    have hcomp : (if k = "host" then ctx.Host else if k = "user" then ctx.User
        else if k = "originalhost" then ctx.OriginalHost else ctx.LocalUser)
        = liveField ctx k := by
      rcases hk with h | h | h | h <;> subst h <;> simp [liveField]
    simp only [Match.Matches, hk', if_true, hcomp, List.all_cons]
    by_cases h1 : liveField ctx k = ""
    · simp [h1]
    · cases hn : p.not <;> cases hm : p.regex.MatchString (liveField ctx k) <;>
        simp [h1, hn, hm, ih']

/-- C1: a Host block, whatever its patterns and their order, matches a context
exactly when at least one non-negated pattern matches `ctx.OriginalHost` and no
negated pattern matches it; a matching negated pattern forces false; and the
result depends on the context through `OriginalHost` only. -/
theorem Host_Matches_iff (ps : List Pattern) (nodes : List Node) (data : BlockData)
    (ctx : MatchContext) :
    (∃ b, Block.Matches (.Host ps nodes data) (some ctx) = .ret b) ∧
    (Block.Matches (.Host ps nodes data) (some ctx) = .ret true ↔
      (∃ p ∈ ps, p.not = false ∧ p.regex.MatchString ctx.OriginalHost = true) ∧
      ¬ ∃ p ∈ ps, p.not = true ∧ p.regex.MatchString ctx.OriginalHost = true) ∧
    ((∃ p ∈ ps, p.not = true ∧ p.regex.MatchString ctx.OriginalHost = true) →
      Block.Matches (.Host ps nodes data) (some ctx) = .ret false) ∧
    (∀ qs : List Pattern, qs.Perm ps →
      Block.Matches (.Host qs nodes data) (some ctx) =
        Block.Matches (.Host ps nodes data) (some ctx)) ∧
    (∀ ctx2 : MatchContext, ctx2.OriginalHost = ctx.OriginalHost →
      Block.Matches (.Host ps nodes data) (some ctx2) =
        Block.Matches (.Host ps nodes data) (some ctx)) := by
  refine ⟨?_, ?_, ?_, ?_, ?_⟩
  · exact ⟨_, Host_matchesLoop_eq ps ctx false⟩
  · simp only [Block.Matches, Host.Matches, Host_matchesLoop_eq, Exec.ret.injEq]
    simp only [Bool.false_or, Bool.and_eq_true, Bool.not_eq_true', List.any_eq_true,
      List.any_eq_false, Bool.not_eq_true, not_exists, not_and]
    constructor
    · rintro ⟨h1, p, hp, h2, h3⟩
      exact ⟨⟨p, hp, h2, h3⟩, h1⟩
    · rintro ⟨⟨p, hp, h2, h3⟩, h1⟩
      exact ⟨h1, p, hp, h2, h3⟩
  · rintro ⟨p, hp, hn, hm⟩
    simp only [Block.Matches, Host.Matches, Host_matchesLoop_eq, Exec.ret.injEq]
    have : (ps.any fun p => p.not && p.regex.MatchString ctx.OriginalHost) = true :=
      List.any_eq_true.mpr ⟨p, hp, by simp [hn, hm]⟩
    simp [this]
  · intro qs hperm
    simp only [Block.Matches, Host.Matches, Host_matchesLoop_eq, Exec.ret.injEq]
    have e : ∀ f : Pattern → Bool, qs.any f = ps.any f := by
      intro f
      rw [Bool.eq_iff_iff]
      simp only [List.any_eq_true]
      constructor
      · rintro ⟨x, hx, h⟩
        exact ⟨x, hperm.mem_iff.mp hx, h⟩
      · rintro ⟨x, hx, h⟩
        exact ⟨x, hperm.mem_iff.mpr hx, h⟩
    rw [e, e]
  · intro ctx2 h
    simp only [Block.Matches, Host.Matches, Host_matchesLoop_eq, h]

/-- C4: a Match block whose entries use only the attributes host,
originalhost, user and localuser returns, and it matches exactly when for
every entry the live field is non-empty and the pattern matches it (for a
negated pattern: the glob does not match it); one empty field or one non-match
makes the block false. -/
theorem Match_Matches_iff (entries : List (String × Pattern)) (nodes : List Node)
    (data : BlockData) (ctx : MatchContext)
    (hattr : ∀ e ∈ entries,
      e.1 = "host" ∨ e.1 = "originalhost" ∨ e.1 = "user" ∨ e.1 = "localuser") :
    (∃ b, Block.Matches (.Match entries nodes data) (some ctx) = .ret b) ∧
    (Block.Matches (.Match entries nodes data) (some ctx) = .ret true ↔
      ∀ e ∈ entries, liveField ctx e.1 ≠ "" ∧
        e.2.regex.MatchString (liveField ctx e.1) = !e.2.not) ∧
    ((∃ e ∈ entries, liveField ctx e.1 = "" ∨
        e.2.regex.MatchString (liveField ctx e.1) = e.2.not) →
      Block.Matches (.Match entries nodes data) (some ctx) = .ret false) := by
  have key := Match_Matches_eq entries ctx hattr
  refine ⟨⟨_, key⟩, ?_, ?_⟩
  · simp only [Block.Matches, key, Exec.ret.injEq, List.all_eq_true, Bool.and_eq_true,
      decide_eq_true_eq, beq_iff_eq]
  · rintro ⟨e, he, h⟩
    simp only [Block.Matches, key, Exec.ret.injEq, List.all_eq_false]
    refine ⟨e, he, ?_⟩
    rcases h with h | h
    · simp [h]
    · cases hn : e.2.not <;> simp [h, hn]

/-- Witness of `Match_Matches_iff`: the block `Match host h user u`. -/
theorem Match_Matches_iff_witness :
    (∃ b, Block.Matches
        (.Match [("host", ⟨"h", ⟨[(Atom.char 'h', Rep.one)]⟩, false⟩),
                 ("user", ⟨"u", ⟨[(Atom.char 'u', Rep.one)]⟩, true⟩)] []
          ⟨"", "", false, 0, false, false⟩)
        (some ⟨"root", "h", "me", "alias", []⟩) = .ret b) ∧
    (Block.Matches
        (.Match [("host", ⟨"h", ⟨[(Atom.char 'h', Rep.one)]⟩, false⟩),
                 ("user", ⟨"u", ⟨[(Atom.char 'u', Rep.one)]⟩, true⟩)] []
          ⟨"", "", false, 0, false, false⟩)
        (some ⟨"root", "h", "me", "alias", []⟩) = .ret true ↔
      ∀ e ∈ [(("host", ⟨"h", ⟨[(Atom.char 'h', Rep.one)]⟩, false⟩) : String × Pattern),
             ("user", ⟨"u", ⟨[(Atom.char 'u', Rep.one)]⟩, true⟩)],
        liveField ⟨"root", "h", "me", "alias", []⟩ e.1 ≠ "" ∧
        e.2.regex.MatchString (liveField ⟨"root", "h", "me", "alias", []⟩ e.1) = !e.2.not) ∧
    ((∃ e ∈ [(("host", ⟨"h", ⟨[(Atom.char 'h', Rep.one)]⟩, false⟩) : String × Pattern),
             ("user", ⟨"u", ⟨[(Atom.char 'u', Rep.one)]⟩, true⟩)],
        liveField ⟨"root", "h", "me", "alias", []⟩ e.1 = "" ∨
        e.2.regex.MatchString (liveField ⟨"root", "h", "me", "alias", []⟩ e.1) = e.2.not) →
      Block.Matches
        (.Match [("host", ⟨"h", ⟨[(Atom.char 'h', Rep.one)]⟩, false⟩),
                 ("user", ⟨"u", ⟨[(Atom.char 'u', Rep.one)]⟩, true⟩)] []
          ⟨"", "", false, 0, false, false⟩)
        (some ⟨"root", "h", "me", "alias", []⟩) = .ret false) :=
  Match_Matches_iff _ [] _ _ (by decide)

/-- C7: a non-empty pattern without `*` and `?` that does not start with `!`
compiles, and the compiled pattern matches a candidate exactly when the
candidate is the pattern text itself: every character is taken literally and
the match is anchored at both ends. -/
theorem NewPattern_literal (s : String) (hne : s ≠ "") (hstar : '*' ∉ s.data)
    (hquest : '?' ∉ s.data) (hbang : s.data.head? ≠ some '!') :
    ∃ p, NewPattern s = .ok p ∧ p.not = false ∧
      ∀ t : String, p.regex.MatchString t = true ↔ t = s := by
  obtain ⟨l⟩ := s
  cases l with
  | nil => exact absurd rfl hne
  | cons c rest =>
    have hc : c ≠ '!' := fun h => hbang (by simp [h])
    refine ⟨⟨String.mk (c :: rest), ⟨(c :: rest).map itemOf⟩, false⟩, ?_, rfl, ?_⟩
    · simp only [NewPattern, hc, if_false, Compile_writePattern, decide_False]
    · intro t
      obtain ⟨tl⟩ := t
      simp only [Regexp.MatchString, matchItems_literal (c :: rest) tl hstar hquest]
      constructor
      · intro h
        rw [h]
      · intro h
        exact congrArg String.data h

/-- Witness of `NewPattern_literal`: the pattern `any.test` of the test table. -/
theorem NewPattern_literal_witness :
    "any.test" ≠ "" ∧ '*' ∉ "any.test".data ∧ '?' ∉ "any.test".data ∧
      "any.test".data.head? ≠ some '!' ∧
      ∃ p, NewPattern "any.test" = .ok p ∧ p.not = false ∧
        ∀ t : String, p.regex.MatchString t = true ↔ t = "any.test" :=
  ⟨by decide, by decide, by decide, by decide,
    NewPattern_literal "any.test" (by decide) (by decide) (by decide) (by decide)⟩

/-- C8, the code at the failing input: the pattern `192.168.0.?` compiles to
an expression in which `?` stands for at most one character, so it matches the
candidate `192.168.0.`, which is the literal part followed by no character. -/
theorem NewPattern_quest_matches_without_character :
    (NewPattern "192.168.0.?").map (fun p => p.regex.MatchString "192.168.0.") = .ok true ∧
    (NewPattern "192.168.0.?").map (fun p => p.regex.items.getLast?) =
      .ok (some (Atom.dot, Rep.quest)) := by
  decide

/-- C9 fails for the alias that is a single line feed: it is a non-empty
string, the pattern `*` does not match it, and the Host block whose only
pattern is `*` does not match a context with that alias. -/
theorem NewPattern_star_rejects_line_feed :
    ∃ p, NewPattern "*" = .ok p ∧ "\n" ≠ "" ∧ p.regex.MatchString "\n" = false ∧
      Block.Matches (.Host [p] [] ⟨"", "", false, 0, false, false⟩)
        (some ⟨"", "\n", "", "\n", []⟩) = .ret false :=
  ⟨⟨"*", ⟨[(Atom.dot, Rep.star)]⟩, false⟩, by decide, by decide, by decide, by decide⟩

/-- C9 as amended: the pattern `*` compiles, it matches a string exactly when
the string contains no line feed (so it matches every non-empty string of one
line), and a Host block whose only pattern is `*` matches a context exactly
when the alias contains no line feed. -/
theorem NewPattern_star_matches (nodes : List Node) (data : BlockData) (ctx : MatchContext) :
    ∃ p, NewPattern "*" = .ok p ∧
      (∀ t : String, p.regex.MatchString t = true ↔ '\n' ∉ t.data) ∧
      (Block.Matches (.Host [p] nodes data) (some ctx) = .ret true ↔
        '\n' ∉ ctx.OriginalHost.data) ∧
      (∃ b, Block.Matches (.Host [p] nodes data) (some ctx) = .ret b) := by
  have hm : ∀ t : String,
      Regexp.MatchString ⟨[(Atom.dot, Rep.star)]⟩ t = true ↔ '\n' ∉ t.data := by
    intro t
    simp only [Regexp.MatchString, matchItems]
    exact matchStar_dot_end t.data
  refine ⟨⟨"*", ⟨[(Atom.dot, Rep.star)]⟩, false⟩, by decide, hm, ?_, ?_⟩
  · simp only [Block.Matches, Host.Matches, Host_matchesLoop_eq, Exec.ret.injEq]
    simp [hm]
  · exact ⟨_, Host_matchesLoop_eq _ ctx false⟩

/-- C10, the code at the failing input: for the negated pattern
`!*.dialup.example.com` the string kept by `NewPattern`, which `Pattern.String`
returns, is `*.dialup.example.com`, the text without its exclamation mark. -/
theorem NewPattern_negated_String :
    (NewPattern "!*.dialup.example.com").map (fun p => (p.String, p.not)) =
      .ok ("*.dialup.example.com", true) := by
  decide

/-! ## Facts about the lookup -/

theorem Block_Matches_live (b : Block) (c1 c2 : MatchContext) (h : c1.live = c2.live) :
    b.Matches (some c1) = b.Matches (some c2) := by
  simp only [MatchContext.live, Prod.mk.injEq] at h
  obtain ⟨hu, hh, hl, ho⟩ := h
  cases b with
  | Host ps nodes data =>
    simp only [Block.Matches, Host.Matches, Host_matchesLoop_eq, ho]
  | Match ps nodes data =>
    simp only [Block.Matches]
    induction ps with
    | nil => rfl
    | cons e rest ih =>
      obtain ⟨k, p⟩ := e
      simp only [Match.Matches, hu, hh, hl, ho, ih]

theorem applyDirective_live (env : Env) (c1 c2 : MatchContext) (t : KV)
    (h : c1.live = c2.live) : (applyDirective env c1 t).live = (applyDirective env c2 t).live := by
  simp only [MatchContext.live, Prod.mk.injEq] at h
  obtain ⟨hu, hh, hl, ho⟩ := h
  unfold applyDirective
  split
  · simp [MatchContext.live, hh, hl, ho]
  · split
    · simp [MatchContext.live, hu, hl, ho]
    · simp [MatchContext.live, hu, hh, hl, ho]

theorem applyDirectives_live (env : Env) (l : List KV) (c1 c2 : MatchContext)
    (h : c1.live = c2.live) :
    (applyDirectives env c1 l).live = (applyDirectives env c2 l).live := by
  induction l generalizing c1 c2 with
  | nil => exact h
  | cons t l ih => exact ih _ _ (applyDirective_live env c1 c2 t h)

mutual
theorem Config_reached_live (env : Env) : ∀ (c : Config) (c1 c2 : MatchContext),
    c1.live = c2.live → Config.reached env c c1 = Config.reached env c c2
  | .mk blocks _ _, c1, c2, h => by
    simp only [Config.reached]
    exact reachedBlocks_live env blocks c1 c2 h
theorem reachedBlocks_live (env : Env) : ∀ (bs : List Block) (c1 c2 : MatchContext),
    c1.live = c2.live → reachedBlocks env bs c1 = reachedBlocks env bs c2
  | [], _, _, _ => rfl
  | block :: rest, c1, c2, h => by
    simp only [reachedBlocks, Block_Matches_live block c1 c2 h,
      Block_reached_live env block c1 c2 h]
    split
    · rw [reachedBlocks_live env rest _ _ (applyDirectives_live env _ c1 c2 h)]
    · exact reachedBlocks_live env rest c1 c2 h
theorem Block_reached_live (env : Env) : ∀ (b : Block) (c1 c2 : MatchContext),
    c1.live = c2.live → Block.reached env b c1 = Block.reached env b c2
  | .Host _ nodes _, c1, c2, h => by
    simp only [Block.reached]
    exact reachedNodes_live env nodes c1 c2 h
  | .Match _ nodes _, c1, c2, h => by
    simp only [Block.reached]
    exact reachedNodes_live env nodes c1 c2 h
theorem reachedNodes_live (env : Env) : ∀ (ns : List Node) (c1 c2 : MatchContext),
    c1.live = c2.live → reachedNodes env ns c1 = reachedNodes env ns c2
  | [], _, _, _ => rfl
  | .Empty _ :: rest, c1, c2, h => by
    simp only [reachedNodes]
    exact reachedNodes_live env rest c1 c2 h
  | .KV t :: rest, c1, c2, h => by
    simp only [reachedNodes]
    rw [reachedNodes_live env rest _ _ (applyDirective_live env c1 c2 t h)]
  | .Include files _ :: rest, c1, c2, h => by
    simp only [reachedNodes, reachedFiles_live env files c1 c2 h]
    rw [reachedNodes_live env rest _ _ (applyDirectives_live env _ c1 c2 h)]
  | .other _ :: rest, c1, c2, h => by
    simp only [reachedNodes]
    exact reachedNodes_live env rest c1 c2 h
theorem reachedFiles_live (env : Env) : ∀ (fs : List (String × Config)) (c1 c2 : MatchContext),
    c1.live = c2.live → reachedFiles env fs c1 = reachedFiles env fs c2
  | [], _, _, _ => rfl
  | (_, cfg) :: rest, c1, c2, h => by
    simp only [reachedFiles, Config_reached_live env cfg c1 c2 h]
    rw [reachedFiles_live env rest _ _ (applyDirectives_live env _ c1 c2 h)]
end

theorem firstValue_cons_hit (env : Env) (key : String) (t : KV) (l : List KV)
    (h : keyEquals env key t = true) : firstValue env key (t :: l) = t.Value := by
  simp [firstValue, List.find?, h]

theorem firstValue_cons_miss (env : Env) (key : String) (t : KV) (l : List KV)
    (h : keyEquals env key t = false) : firstValue env key (t :: l) = firstValue env key l := by
  simp [firstValue, List.find?, h]

theorem firstValue_append_miss (env : Env) (key : String) (l1 l2 : List KV)
    (h : ∀ t ∈ l1, keyEquals env key t = false) :
    firstValue env key (l1 ++ l2) = firstValue env key l2 := by
  induction l1 with
  | nil => rfl
  | cons t l ih =>
    rw [List.cons_append, firstValue_cons_miss env key t _ (h t (List.mem_cons_self _ _))]
    exact ih (fun u hu => h u (List.mem_cons_of_mem _ hu))

theorem firstValue_append_hit (env : Env) (key : String) (l1 l2 : List KV)
    (h : firstValue env key l1 ≠ "") :
    firstValue env key (l1 ++ l2) = firstValue env key l1 := by
  induction l1 with
  | nil => exact absurd rfl h
  | cons t l ih =>
    cases ht : keyEquals env key t
    · rw [firstValue_cons_miss env key t _ ht] at h
      rw [List.cons_append, firstValue_cons_miss env key t _ ht,
        firstValue_cons_miss env key t _ ht]
      exact ih h
    · rw [List.cons_append, firstValue_cons_hit env key t _ ht,
        firstValue_cons_hit env key t _ ht]

theorem beforeHit_miss (env : Env) (key : String) (l : List KV)
    (h : ∀ t ∈ l, keyEquals env key t = false) : beforeHit env key l = l := by
  unfold beforeHit
  rw [List.takeWhile_eq_self_iff]
  intro t ht
  simp [h t ht]

theorem beforeHit_append_miss (env : Env) (key : String) (l1 l2 : List KV)
    (h : ∀ t ∈ l1, keyEquals env key t = false) :
    beforeHit env key (l1 ++ l2) = l1 ++ beforeHit env key l2 := by
  induction l1 with
  | nil => rfl
  | cons t l ih =>
    have ht := h t (List.mem_cons_self _ _)
    have := ih (fun u hu => h u (List.mem_cons_of_mem _ hu))
    simp only [beforeHit, List.cons_append, List.takeWhile_cons, ht, Bool.not_false, if_true,
      List.cons.injEq, true_and] at this ⊢
    exact this

theorem beforeHit_append_hit (env : Env) (key : String) (l1 l2 : List KV)
    (h : firstValue env key l1 ≠ "") :
    beforeHit env key (l1 ++ l2) = beforeHit env key l1 := by
  induction l1 with
  | nil => exact absurd rfl h
  | cons t l ih =>
    cases ht : keyEquals env key t
    · rw [firstValue_cons_miss env key t _ ht] at h
      have := ih h
      simp only [beforeHit, List.cons_append, List.takeWhile_cons, ht, Bool.not_false, if_true,
        List.cons.injEq, true_and] at this ⊢
      exact this
    · simp [beforeHit, List.takeWhile_cons, ht]

theorem applyDirectives_append (env : Env) (ctx : MatchContext) (l1 l2 : List KV) :
    applyDirectives env ctx (l1 ++ l2) = applyDirectives env (applyDirectives env ctx l1) l2 := by
  simp [applyDirectives, List.foldl_append]

theorem ScanOk_live (env : Env) (key : String) (c1 c2 : MatchContext) (l : List KV)
    (r : Exec ((String × GoError) × Option MatchContext)) (h : c1.live = c2.live)
    (hr : ScanOk env key c1 l r) : ScanOk env key c2 l r := by
  obtain ⟨⟨c, hc, hl⟩, hm⟩ := hr
  exact ⟨⟨c, hc, hl.trans (applyDirectives_live env _ c1 c2 h)⟩, hm⟩

theorem ScanOk_append_hit (env : Env) (key : String) (ctx : MatchContext) (l1 l2 : List KV)
    (r : Exec ((String × GoError) × Option MatchContext))
    (hr : ScanOk env key ctx l1 r) (h : firstValue env key l1 ≠ "") :
    ScanOk env key ctx (l1 ++ l2) r := by
  obtain ⟨⟨c, hc, hl⟩, _⟩ := hr
  refine ⟨⟨c, ?_, ?_⟩, ?_⟩
  · rw [firstValue_append_hit env key l1 l2 h]
    exact hc
  · rw [beforeHit_append_hit env key l1 l2 h]
    exact hl
  · intro h0
    rw [firstValue_append_hit env key l1 l2 h] at h0
    exact absurd h0 h

theorem ScanOk_append_miss (env : Env) (key : String) (ctx : MatchContext) (l1 l2 : List KV)
    (r : Exec ((String × GoError) × Option MatchContext))
    (h : ∀ t ∈ l1, keyEquals env key t = false)
    (hr : ScanOk env key (applyDirectives env ctx l1) l2 r) :
    ScanOk env key ctx (l1 ++ l2) r := by
  obtain ⟨⟨c, hc, hl⟩, hm⟩ := hr
  refine ⟨⟨c, ?_, ?_⟩, ?_⟩
  · rw [firstValue_append_miss env key l1 l2 h]
    exact hc
  · rw [beforeHit_append_miss env key l1 l2 h, applyDirectives_append]
    exact hl
  · intro h0 t ht
    rw [firstValue_append_miss env key l1 l2 h] at h0
    rcases List.mem_append.mp ht with h1 | h2
    · exact h t h1
    · exact hm h0 t h2

theorem ScanOk_nil (env : Env) (key : String) (ctx c1 : MatchContext) (h : c1.live = ctx.live) :
    ScanOk env key ctx [] (.ret (("", none), some c1)) :=
  ⟨⟨c1, rfl, h⟩, fun _ t ht => absurd ht (List.not_mem_nil t)⟩

theorem Block_Matches_regular (env : Env) (b : Block) (ctx : MatchContext)
    (h : Block.regular env b = true) : ∃ r, b.Matches (some ctx) = .ret r := by
  cases b with
  | Host ps nodes data => exact ⟨_, Host_matchesLoop_eq ps ctx false⟩
  | Match ps nodes data =>
    simp only [Block.regular, Bool.and_eq_true, List.all_eq_true, decide_eq_true_eq] at h
    exact ⟨_, Match_Matches_eq ps ctx (fun e he => h.1 e he)⟩

theorem addToContext_some (env : Env) (t : KV) (ctx : MatchContext) :
    addToContext (env.ToLower t.Key) t.Value (some ctx) = some (applyDirective env ctx t) := by
  simp only [addToContext, applyDirective]
  by_cases h1 : env.ToLower t.Key = "user"
  · simp [h1]
  · by_cases h2 : env.ToLower t.Key = "hostname"
    · simp [h1, h2]
    · simp [h1, h2]

mutual
theorem Config_Get_scan (env : Env) (key : String) : ∀ (c : Config) (ctx : MatchContext),
    Config.regular env c = true →
    ScanOk env key ctx (Config.reached env c ctx) (Config.Get env c key (some ctx))
  | .mk blocks _ _, ctx, h => by
    simp only [Config.regular] at h
    simp only [Config.reached, Config.Get]
    exact getLoop_scan env key blocks ctx h
theorem getLoop_scan (env : Env) (key : String) : ∀ (bs : List Block) (ctx : MatchContext),
    regularBlocks env bs = true →
    ScanOk env key ctx (reachedBlocks env bs ctx) (Config.getLoop env bs key (some ctx))
  | [], ctx, _ => by
    simp only [reachedBlocks, Config.getLoop]
    exact ScanOk_nil env key ctx ctx rfl
  | block :: rest, ctx, h => by
    simp only [regularBlocks, Bool.and_eq_true] at h
    obtain ⟨hb, hrest⟩ := h
    by_cases hf : block.IsFinal = true
    · have e1 : Config.getLoop env (block :: rest) key (some ctx) =
          Config.getLoop env rest key
            (some { ctx with FinalBlocks := ctx.FinalBlocks ++ [block] }) := by
        simp [Config.getLoop, hf]
      have e2 : reachedBlocks env (block :: rest) ctx = reachedBlocks env rest ctx := by
        simp [reachedBlocks, hf]
      rw [e1, e2,
        ← reachedBlocks_live env rest { ctx with FinalBlocks := ctx.FinalBlocks ++ [block] }
          ctx rfl]
      exact ScanOk_live env key { ctx with FinalBlocks := ctx.FinalBlocks ++ [block] } ctx _ _
        rfl (getLoop_scan env key rest _ hrest)
    · obtain ⟨m, hm⟩ := Block_Matches_regular env block ctx hb
      cases m with
      | false =>
        have e1 : Config.getLoop env (block :: rest) key (some ctx) =
            Config.getLoop env rest key (some ctx) := by
          simp [Config.getLoop, hf, hm]
        have e2 : reachedBlocks env (block :: rest) ctx = reachedBlocks env rest ctx := by
          simp [reachedBlocks, hm]
        rw [e1, e2]
        exact getLoop_scan env key rest ctx hrest
      | true =>
        have hblock := handleBlock_scan env key block ctx hb
        have e2 : reachedBlocks env (block :: rest) ctx =
            Block.reached env block ctx ++
              reachedBlocks env rest (applyDirectives env ctx (Block.reached env block ctx)) := by
          simp [reachedBlocks, hf, hm]
        rw [e2]
        by_cases hv : firstValue env key (Block.reached env block ctx) = ""
        · obtain ⟨⟨c1, hc1, hl1⟩, hm1⟩ := hblock
          have hmiss := hm1 hv
          have e1 : Config.getLoop env (block :: rest) key (some ctx) =
              Config.getLoop env rest key (some c1) := by
            simp [Config.getLoop, hf, hm, hc1, hv]
          rw [e1]
          apply ScanOk_append_miss env key ctx _ _ _ hmiss
          rw [beforeHit_miss env key _ hmiss] at hl1
          rw [← reachedBlocks_live env rest c1 _ hl1]
          exact ScanOk_live env key c1 _ _ _ hl1 (getLoop_scan env key rest c1 hrest)
        · have e1 : Config.getLoop env (block :: rest) key (some ctx) =
              handleBlock env block key (some ctx) := by
            obtain ⟨⟨c1, hc1, _⟩, _⟩ := hblock
            simp [Config.getLoop, hf, hm, hc1, hv]
          rw [e1]
          exact ScanOk_append_hit env key ctx _ _ _ hblock hv
theorem handleBlock_scan (env : Env) (key : String) : ∀ (b : Block) (ctx : MatchContext),
    Block.regular env b = true →
    ScanOk env key ctx (Block.reached env b ctx) (handleBlock env b key (some ctx))
  | .Host _ nodes _, ctx, h => by
    simp only [Block.regular] at h
    simp only [Block.reached, handleBlock]
    exact handleBlock_loop_scan env key nodes ctx h
  | .Match _ nodes _, ctx, h => by
    simp only [Block.regular, Bool.and_eq_true] at h
    simp only [Block.reached, handleBlock]
    exact handleBlock_loop_scan env key nodes ctx h.2
theorem handleBlock_loop_scan (env : Env) (key : String) :
    ∀ (ns : List Node) (ctx : MatchContext), regularNodes env ns = true →
    ScanOk env key ctx (reachedNodes env ns ctx) (handleBlock.loop env ns key (some ctx))
  | [], ctx, _ => by
    simp only [reachedNodes, handleBlock.loop]
    exact ScanOk_nil env key ctx ctx rfl
  | .Empty _ :: rest, ctx, h => by
    simp only [regularNodes] at h
    simp only [reachedNodes, handleBlock.loop]
    exact handleBlock_loop_scan env key rest ctx h
  | .KV t :: rest, ctx, h => by
    simp only [regularNodes, Bool.and_eq_true, decide_eq_true_eq] at h
    obtain ⟨⟨hk, hval⟩, hrest⟩ := h
    simp only [reachedNodes]
    cases hit : keyEquals env key t
    · have hne : ¬ env.ToLower t.Key = env.ToLower key := by
        simpa [keyEquals] using hit
      have e1 : handleBlock.loop env (.KV t :: rest) key (some ctx) =
          handleBlock.loop env rest key (some (applyDirective env ctx t)) := by
        simp [handleBlock.loop, hk, hne, addToContext_some]
      rw [e1]
      have := ScanOk_append_miss env key ctx [t] (reachedNodes env rest (applyDirective env ctx t))
        _ (by simpa using hit) (handleBlock_loop_scan env key rest (applyDirective env ctx t) hrest)
      simpa using this
    · have heq : env.ToLower t.Key = env.ToLower key := by
        simpa [keyEquals] using hit
      have e1 : handleBlock.loop env (.KV t :: rest) key (some ctx) =
          .ret ((t.Value, none), some ctx) := by
        rw [handleBlock.loop, if_neg hk, if_pos heq]
      rw [e1]
      refine ⟨⟨ctx, ?_, ?_⟩, ?_⟩
      · rw [firstValue_cons_hit env key t _ hit]
      · simp [beforeHit, List.takeWhile_cons, hit, applyDirectives]
      · intro h0
        rw [firstValue_cons_hit env key t _ hit] at h0
        exact absurd h0 hval
  | .Include files d :: rest, ctx, h => by
    simp only [regularNodes, Bool.and_eq_true] at h
    obtain ⟨hfiles, hrest⟩ := h
    simp only [reachedNodes]
    obtain ⟨⟨c1, hc1, hl1⟩, hm1⟩ := Include_Get_scan env key files ctx hfiles
    by_cases hv : firstValue env key (reachedFiles env files ctx) = ""
    · have hmiss := hm1 hv
      have e1 : handleBlock.loop env (.Include files d :: rest) key (some ctx) =
          handleBlock.loop env rest key (some c1) := by
        simp [handleBlock.loop, hc1, hv]
      rw [e1]
      apply ScanOk_append_miss env key ctx _ _ _ hmiss
      rw [beforeHit_miss env key _ hmiss] at hl1
      rw [← reachedNodes_live env rest c1 _ hl1]
      exact ScanOk_live env key c1 _ _ _ hl1 (handleBlock_loop_scan env key rest c1 hrest)
    · have e1 : handleBlock.loop env (.Include files d :: rest) key (some ctx) =
          .ret ((firstValue env key (reachedFiles env files ctx), none), some c1) := by
        simp [handleBlock.loop, hc1, hv]
      rw [e1]
      exact ScanOk_append_hit env key ctx _ _ _ ⟨⟨c1, rfl, hl1⟩, hm1⟩ hv
  | .other _ :: _, _, h => by
    simp [regularNodes] at h
theorem Include_Get_scan (env : Env) (key : String) :
    ∀ (fs : List (String × Config)) (ctx : MatchContext), regularFiles env fs = true →
    IncludeScanOk env key ctx (reachedFiles env fs ctx) (Include.Get env fs key (some ctx))
  | [], ctx, _ => by
    simp only [reachedFiles, Include.Get]
    exact ⟨⟨ctx, rfl, rfl⟩, fun _ t ht => absurd ht (List.not_mem_nil t)⟩
  | (name, cfg) :: rest, ctx, h => by
    simp only [regularFiles, Bool.and_eq_true] at h
    obtain ⟨hcfg, hrest⟩ := h
    simp only [reachedFiles]
    obtain ⟨⟨c1, hc1, hl1⟩, hm1⟩ := Config_Get_scan env key cfg ctx hcfg
    by_cases hv : firstValue env key (Config.reached env cfg ctx) = ""
    · have hmiss := hm1 hv
      have e1 : Include.Get env ((name, cfg) :: rest) key (some ctx) =
          Include.Get env rest key (some c1) := by
        simp [Include.Get, hc1, hv]
      rw [e1]
      rw [beforeHit_miss env key _ hmiss] at hl1
      obtain ⟨⟨c2, hc2, hl2⟩, hm2⟩ := Include_Get_scan env key rest c1 hrest
      rw [reachedFiles_live env rest c1 _ hl1] at hc2 hl2 hm2
      refine ⟨⟨c2, ?_, ?_⟩, ?_⟩
      · rw [firstValue_append_miss env key _ _ hmiss]
        exact hc2
      · rw [beforeHit_append_miss env key _ _ hmiss, applyDirectives_append]
        exact hl2.trans (applyDirectives_live env _ _ _ hl1)
      · intro h0 t ht
        rw [firstValue_append_miss env key _ _ hmiss] at h0
        rcases List.mem_append.mp ht with h1 | h2
        · exact hmiss t h1
        · exact hm2 h0 t h2
    · have e1 : Include.Get env ((name, cfg) :: rest) key (some ctx) =
          .ret (firstValue env key (Config.reached env cfg ctx), some c1) := by
        simp [Include.Get, hc1, hv]
      rw [e1]
      refine ⟨⟨c1, ?_, ?_⟩, ?_⟩
      · rw [firstValue_append_hit env key _ _ hv]
      · rw [beforeHit_append_hit env key _ _ hv]
        exact hl1
      · intro h0
        rw [firstValue_append_hit env key _ _ hv] at h0
        exact absurd h0 hv
end

theorem getLoop_append (env : Env) (key : String) (more : List Block) :
    ∀ (bs : List Block) (o : Option MatchContext) (v : String) (e : GoError)
      (o1 : Option MatchContext),
      Config.getLoop env bs key o = .ret ((v, e), o1) → (v ≠ "" ∨ e ≠ none) →
      Config.getLoop env (bs ++ more) key o = .ret ((v, e), o1)
  | [], o, v, e, o1, h, hne => by
    simp only [Config.getLoop, Exec.ret.injEq, Prod.mk.injEq] at h
    obtain ⟨⟨hv, he⟩, _⟩ := h
    rcases hne with h1 | h1
    · exact absurd hv.symm h1
    · exact absurd he.symm h1
  | block :: rest, o, v, e, o1, h, hne => by
    simp only [List.cons_append, Config.getLoop] at h ⊢
    by_cases hf : block.IsFinal = true
    · simp only [hf, if_true] at h ⊢
      cases o with
      | none => simp at h
      | some c =>
        simp only at h ⊢
        exact getLoop_append env key more rest _ v e o1 h hne
    · simp only [hf] at h ⊢
      cases hm : block.Matches o with
      | panic m => simp [hm] at h
      | ret b =>
        cases b with
        | false =>
          simp only [hm] at h ⊢
          exact getLoop_append env key more rest _ v e o1 h hne
        | true =>
          simp only [hm] at h ⊢
          cases hb : handleBlock env block key o with
          | panic m => simp [hb] at h
          | ret r =>
            obtain ⟨⟨found, err⟩, ctx1⟩ := r
            simp only [hb] at h ⊢
            by_cases he : err = none
            · by_cases hfound : found = ""
              · simp only [he, hfound, ne_eq, not_true_eq_false, if_false] at h ⊢
                exact getLoop_append env key more rest _ v e o1 h hne
              · simp only [he, hfound, ne_eq, not_true_eq_false, not_false_eq_true, if_false,
                  if_true] at h ⊢
                exact h
            · simp only [he, ne_eq, not_false_eq_true, if_true] at h ⊢
              exact h

theorem allValues_append (env : Env) (key : String) (l1 l2 : List KV) :
    allValues env key (l1 ++ l2) = allValues env key l1 ++ allValues env key l2 := by
  simp [allValues]

theorem Block_Matches_wellFormed (env : Env) (b : Block) (ctx : MatchContext)
    (h : Block.wellFormed env b = true) : ∃ r, b.Matches (some ctx) = .ret r := by
  cases b with
  | Host ps nodes data => exact ⟨_, Host_matchesLoop_eq ps ctx false⟩
  | Match ps nodes data =>
    simp only [Block.wellFormed, Bool.and_eq_true, List.all_eq_true, decide_eq_true_eq] at h
    exact ⟨_, Match_Matches_eq ps ctx (fun e he => h.1 e he)⟩

theorem ScanAllOk_append (env : Env) (key : String) (ctx c1 : MatchContext) (l1 l2 : List KV)
    (all : List String) (r : Exec ((List String × GoError) × Option MatchContext))
    (hl : c1.live = (applyDirectives env ctx l1).live)
    (hr : ScanAllOk env key c1 l2 (all ++ allValues env key l1) r) :
    ScanAllOk env key ctx (l1 ++ l2) all r := by
  obtain ⟨c2, hc2, hl2⟩ := hr
  refine ⟨c2, ?_, ?_⟩
  · rw [allValues_append, ← List.append_assoc]
    exact hc2
  · rw [applyDirectives_append]
    exact hl2.trans (applyDirectives_live env l2 _ _ hl)

mutual
theorem Config_GetAll_scan (env : Env) (key : String) : ∀ (c : Config) (ctx : MatchContext),
    Config.wellFormed env c = true →
    ScanAllOk env key ctx (Config.reached env c ctx) [] (Config.GetAll env c key (some ctx))
  | .mk blocks _ _, ctx, h => by
    simp only [Config.wellFormed] at h
    simp only [Config.reached, Config.GetAll]
    exact getAllLoop_scan env key blocks [] ctx h
theorem getAllLoop_scan (env : Env) (key : String) :
    ∀ (bs : List Block) (all : List String) (ctx : MatchContext),
    wellFormedBlocks env bs = true →
    ScanAllOk env key ctx (reachedBlocks env bs ctx) all
      (Config.getAllLoop env bs all key (some ctx))
  | [], all, ctx, _ => by
    simp only [reachedBlocks, Config.getAllLoop]
    exact ⟨ctx, by simp [allValues], rfl⟩
  | block :: rest, all, ctx, h => by
    simp only [wellFormedBlocks, Bool.and_eq_true] at h
    obtain ⟨hb, hrest⟩ := h
    by_cases hf : block.IsFinal = true
    · have e1 : Config.getAllLoop env (block :: rest) all key (some ctx) =
          Config.getAllLoop env rest all key
            (some { ctx with FinalBlocks := ctx.FinalBlocks ++ [block] }) := by
        simp [Config.getAllLoop, hf]
      have e2 : reachedBlocks env (block :: rest) ctx = reachedBlocks env rest ctx := by
        simp [reachedBlocks, hf]
      rw [e1, e2,
        ← reachedBlocks_live env rest { ctx with FinalBlocks := ctx.FinalBlocks ++ [block] }
          ctx rfl]
      obtain ⟨c2, hc2, hl2⟩ := getAllLoop_scan env key rest all
        { ctx with FinalBlocks := ctx.FinalBlocks ++ [block] } hrest
      exact ⟨c2, hc2, hl2.trans (applyDirectives_live env _ _ ctx rfl)⟩
    · obtain ⟨m, hm⟩ := Block_Matches_wellFormed env block ctx hb
      cases m with
      | false =>
        have e1 : Config.getAllLoop env (block :: rest) all key (some ctx) =
            Config.getAllLoop env rest all key (some ctx) := by
          simp [Config.getAllLoop, hf, hm]
        have e2 : reachedBlocks env (block :: rest) ctx = reachedBlocks env rest ctx := by
          simp [reachedBlocks, hm]
        rw [e1, e2]
        exact getAllLoop_scan env key rest all ctx hrest
      | true =>
        obtain ⟨c1, hc1, hl1⟩ := handleBlockAll_scan env key block all ctx hb
        have e2 : reachedBlocks env (block :: rest) ctx =
            Block.reached env block ctx ++
              reachedBlocks env rest (applyDirectives env ctx (Block.reached env block ctx)) := by
          simp [reachedBlocks, hf, hm]
        have e1 : Config.getAllLoop env (block :: rest) all key (some ctx) =
            Config.getAllLoop env rest (all ++ allValues env key (Block.reached env block ctx))
              key (some c1) := by
          simp [Config.getAllLoop, hf, hm, hc1]
        rw [e1, e2]
        apply ScanAllOk_append env key ctx c1 _ _ all _ hl1
        rw [← reachedBlocks_live env rest c1 _ hl1]
        exact getAllLoop_scan env key rest _ c1 hrest
theorem handleBlockAll_scan (env : Env) (key : String) :
    ∀ (b : Block) (all : List String) (ctx : MatchContext),
    Block.wellFormed env b = true →
    ScanAllOk env key ctx (Block.reached env b ctx) all
      (handleBlockAll env b all key (some ctx))
  | .Host _ nodes _, all, ctx, h => by
    simp only [Block.wellFormed] at h
    simp only [Block.reached, handleBlockAll]
    exact handleBlockAll_loop_scan env key nodes all ctx h
  | .Match _ nodes _, all, ctx, h => by
    simp only [Block.wellFormed, Bool.and_eq_true] at h
    simp only [Block.reached, handleBlockAll]
    exact handleBlockAll_loop_scan env key nodes all ctx h.2
theorem handleBlockAll_loop_scan (env : Env) (key : String) :
    ∀ (ns : List Node) (all : List String) (ctx : MatchContext),
    wellFormedNodes env ns = true →
    ScanAllOk env key ctx (reachedNodes env ns ctx) all
      (handleBlockAll.loop env ns all key (some ctx))
  | [], all, ctx, _ => by
    simp only [reachedNodes, handleBlockAll.loop]
    exact ⟨ctx, by simp [allValues], rfl⟩
  | .Empty _ :: rest, all, ctx, h => by
    simp only [wellFormedNodes] at h
    simp only [reachedNodes, handleBlockAll.loop]
    exact handleBlockAll_loop_scan env key rest all ctx h
  | .KV t :: rest, all, ctx, h => by
    simp only [wellFormedNodes, Bool.and_eq_true, decide_eq_true_eq] at h
    obtain ⟨hk, hrest⟩ := h
    simp only [reachedNodes]
    have e1 : handleBlockAll.loop env (.KV t :: rest) all key (some ctx) =
        handleBlockAll.loop env rest (all ++ allValues env key [t]) key
          (some (applyDirective env ctx t)) := by
      rw [handleBlockAll.loop, if_neg hk, addToContext_some]
      by_cases hit : env.ToLower t.Key = env.ToLower key
      · simp [allValues, keyEquals, hit]
      · simp [allValues, keyEquals, hit]
    rw [e1]
    exact ScanAllOk_append env key ctx (applyDirective env ctx t) [t] _ all _ rfl
      (handleBlockAll_loop_scan env key rest _ (applyDirective env ctx t) hrest)
  | .Include files d :: rest, all, ctx, h => by
    simp only [wellFormedNodes, Bool.and_eq_true] at h
    obtain ⟨hfiles, hrest⟩ := h
    simp only [reachedNodes]
    obtain ⟨c1, hc1, hl1⟩ := Include_getAllLoop_scan env key files [] ctx hfiles
    have e1 : handleBlockAll.loop env (.Include files d :: rest) all key (some ctx) =
        handleBlockAll.loop env rest (all ++ allValues env key (reachedFiles env files ctx))
          key (some c1) := by
      rw [handleBlockAll.loop, hc1]
      simp only [List.nil_append]
      by_cases hlen : (allValues env key (reachedFiles env files ctx)).length > 0
      · simp [hlen]
      · have : allValues env key (reachedFiles env files ctx) = [] := by
          apply List.eq_nil_of_length_eq_zero
          omega
        simp [this]
    rw [e1]
    apply ScanAllOk_append env key ctx c1 _ _ all _ hl1
    rw [← reachedNodes_live env rest c1 _ hl1]
    exact handleBlockAll_loop_scan env key rest _ c1 hrest
  | .other _ :: _, _, _, h => by
    simp [wellFormedNodes] at h
theorem Include_getAllLoop_scan (env : Env) (key : String) :
    ∀ (fs : List (String × Config)) (vals : List String) (ctx : MatchContext),
    wellFormedFiles env fs = true →
    ScanAllOk env key ctx (reachedFiles env fs ctx) vals
      (Include.getAllLoop env fs vals key (some ctx))
  | [], vals, ctx, _ => by
    simp only [reachedFiles, Include.getAllLoop]
    exact ⟨ctx, by simp [allValues], rfl⟩
  | (name, cfg) :: rest, vals, ctx, h => by
    simp only [wellFormedFiles, Bool.and_eq_true] at h
    obtain ⟨hcfg, hrest⟩ := h
    simp only [reachedFiles]
    obtain ⟨c1, hc1, hl1⟩ := Config_GetAll_scan env key cfg ctx hcfg
    have e1 : Include.getAllLoop env ((name, cfg) :: rest) vals key (some ctx) =
        Include.getAllLoop env rest (vals ++ allValues env key (Config.reached env cfg ctx))
          key (some c1) := by
      rw [Include.getAllLoop, hc1]
      simp only [List.nil_append]
      by_cases hlen : (allValues env key (Config.reached env cfg ctx)).length = 0
      · have : allValues env key (Config.reached env cfg ctx) = [] :=
          List.eq_nil_of_length_eq_zero hlen
        simp [this]
      · simp [hlen]
    rw [e1]
    apply ScanAllOk_append env key ctx c1 _ _ vals _ hl1
    rw [← reachedFiles_live env rest c1 _ hl1]
    exact Include_getAllLoop_scan env key rest _ c1 hrest
end

theorem Deferred_nil (ctx : MatchContext) (pool : List Block) :
    Deferred ctx pool (some ctx) [] :=
  ⟨ctx, rfl, by simp, List.nil_sublist _⟩

theorem Deferred_trans (ctx c1 : MatchContext) (p1 p2 : List Block) (o : Option MatchContext)
    (L1 L2 : List Block) (h1 : Deferred ctx p1 (some c1) L1) (h2 : Deferred c1 p2 o L2) :
    Deferred ctx (p1 ++ p2) o (L1 ++ L2) := by
  obtain ⟨c, hc, hf1, hs1⟩ := h1
  obtain ⟨c2, hc2, hf2, hs2⟩ := h2
  cases hc
  exact ⟨c2, hc2, by rw [hf2, hf1, List.append_assoc], hs1.append hs2⟩

theorem Deferred_left (ctx : MatchContext) (p1 p2 : List Block) (o : Option MatchContext)
    (L : List Block) (h : Deferred ctx p1 o L) : Deferred ctx (p1 ++ p2) o L := by
  obtain ⟨c, hc, hf, hs⟩ := h
  exact ⟨c, hc, hf, hs.trans (List.sublist_append_left _ _)⟩

theorem Deferred_right (ctx : MatchContext) (p1 p2 : List Block) (o : Option MatchContext)
    (L : List Block) (h : Deferred ctx p2 o L) : Deferred ctx (p1 ++ p2) o L := by
  obtain ⟨c, hc, hf, hs⟩ := h
  exact ⟨c, hc, hf, hs.trans (List.sublist_append_right _ _)⟩

mutual
theorem Config_Get_deferred (env : Env) (key : String) :
    ∀ (c : Config) (ctx : MatchContext) (r : String × GoError) (o : Option MatchContext),
    Config.Get env c key (some ctx) = .ret (r, o) →
    ∃ L, Deferred ctx (Config.finalBlocks c) o L ∧
      (r = ("", none) → (c.Blocks.filter Block.IsFinal).Sublist L)
  | .mk blocks _ _, ctx, r, o, h => by
    simp only [Config.Get] at h
    simp only [Config.finalBlocks, Config.Blocks]
    exact getLoop_deferred env key blocks ctx r o h
theorem getLoop_deferred (env : Env) (key : String) :
    ∀ (bs : List Block) (ctx : MatchContext) (r : String × GoError) (o : Option MatchContext),
    Config.getLoop env bs key (some ctx) = .ret (r, o) →
    ∃ L, Deferred ctx (finalsInBlocks bs) o L ∧
      (r = ("", none) → (bs.filter Block.IsFinal).Sublist L)
  | [], ctx, r, o, h => by
    simp only [Config.getLoop, Exec.ret.injEq, Prod.mk.injEq] at h
    obtain ⟨_, ho⟩ := h
    subst ho
    exact ⟨[], Deferred_nil ctx _, fun _ => by simp⟩
  | block :: rest, ctx, r, o, h => by
    simp only [Config.getLoop] at h
    by_cases hf : block.IsFinal = true
    · simp only [hf, if_true] at h
      obtain ⟨L, hd, hs⟩ := getLoop_deferred env key rest _ r o h
      refine ⟨block :: L, ?_, ?_⟩
      · have h1 : Deferred ctx [block]
            (some { ctx with FinalBlocks := ctx.FinalBlocks ++ [block] }) [block] :=
          ⟨_, rfl, rfl, List.Sublist.refl _⟩
        have := Deferred_trans ctx _ [block] (finalsInBlocks rest) o [block] L h1 hd
        simpa [finalsInBlocks, hf] using this
      · intro hr
        simp only [List.filter_cons, hf, if_true]
        exact (hs hr).cons₂ block
    · rw [if_neg hf] at h
      have hfilter : (block :: rest).filter Block.IsFinal = rest.filter Block.IsFinal := by
        simp [List.filter_cons, hf]
      have hpool : finalsInBlocks (block :: rest) =
          Block.finalBlocks block ++ finalsInBlocks rest := by
        simp [finalsInBlocks, hf]
      rw [hfilter, hpool]
      cases hm : block.Matches (some ctx) with
      | panic m => simp [hm] at h
      | ret b =>
        cases b with
        | false =>
          simp only [hm] at h
          obtain ⟨L, hd, hs⟩ := getLoop_deferred env key rest ctx r o h
          exact ⟨L, Deferred_right ctx _ _ o L hd, hs⟩
        | true =>
          simp only [hm] at h
          cases hb : handleBlock env block key (some ctx) with
          | panic m => simp [hb] at h
          | ret res =>
            obtain ⟨⟨found, err⟩, a1⟩ := res
            obtain ⟨L1, hd1⟩ := handleBlock_deferred env key block ctx (found, err) a1 hb
            simp only [hb] at h
            by_cases he : err = none
            · by_cases hfound : found = ""
              · simp only [he, hfound, ne_eq, not_true_eq_false, if_false] at h
                obtain ⟨c1, hc1, _, _⟩ := id hd1
                subst hc1
                obtain ⟨L2, hd2, hs2⟩ := getLoop_deferred env key rest c1 r o h
                exact ⟨L1 ++ L2, Deferred_trans ctx c1 _ _ o L1 L2 hd1 hd2,
                  fun hr => (hs2 hr).trans (List.sublist_append_right _ _)⟩
              · simp only [he, hfound, ne_eq, not_true_eq_false, not_false_eq_true, if_false,
                  if_true, Exec.ret.injEq, Prod.mk.injEq] at h
                obtain ⟨hr, ho⟩ := h
                subst ho
                refine ⟨L1, Deferred_left ctx _ _ _ L1 hd1, fun hr2 => ?_⟩
                rw [← hr] at hr2
                simp only [Prod.mk.injEq] at hr2
                exact absurd hr2.1 hfound
            · simp only [he, ne_eq, not_false_eq_true, if_true, Exec.ret.injEq,
                Prod.mk.injEq] at h
              obtain ⟨hr, ho⟩ := h
              subst ho
              refine ⟨L1, Deferred_left ctx _ _ _ L1 hd1, fun hr2 => ?_⟩
              rw [← hr] at hr2
              simp only [Prod.mk.injEq] at hr2
              exact absurd hr2.2 he
theorem handleBlock_deferred (env : Env) (key : String) :
    ∀ (b : Block) (ctx : MatchContext) (r : String × GoError) (o : Option MatchContext),
    handleBlock env b key (some ctx) = .ret (r, o) →
    ∃ L, Deferred ctx (Block.finalBlocks b) o L
  | .Host _ nodes _, ctx, r, o, h => by
    simp only [handleBlock] at h
    simp only [Block.finalBlocks]
    exact handleBlock_loop_deferred env key nodes ctx r o h
  | .Match _ nodes _, ctx, r, o, h => by
    simp only [handleBlock] at h
    simp only [Block.finalBlocks]
    exact handleBlock_loop_deferred env key nodes ctx r o h
theorem handleBlock_loop_deferred (env : Env) (key : String) :
    ∀ (ns : List Node) (ctx : MatchContext) (r : String × GoError) (o : Option MatchContext),
    handleBlock.loop env ns key (some ctx) = .ret (r, o) →
    ∃ L, Deferred ctx (finalsInNodes ns) o L
  | [], ctx, r, o, h => by
    simp only [handleBlock.loop, Exec.ret.injEq, Prod.mk.injEq] at h
    obtain ⟨_, ho⟩ := h
    subst ho
    exact ⟨[], Deferred_nil ctx _⟩
  | .Empty _ :: rest, ctx, r, o, h => by
    simp only [handleBlock.loop] at h
    simp only [finalsInNodes]
    exact handleBlock_loop_deferred env key rest ctx r o h
  | .KV t :: rest, ctx, r, o, h => by
    simp only [handleBlock.loop, addToContext_some] at h
    simp only [finalsInNodes]
    by_cases hk : env.ToLower t.Key = "match"
    · rw [if_pos hk] at h
      simp at h
    · by_cases hit : env.ToLower t.Key = env.ToLower key
      · rw [if_neg hk, if_pos hit] at h
        simp only [Exec.ret.injEq, Prod.mk.injEq] at h
        obtain ⟨_, ho⟩ := h
        subst ho
        exact ⟨[], Deferred_nil ctx _⟩
      · rw [if_neg hk, if_neg hit] at h
        obtain ⟨L, c1, hc1, hf1, hs1⟩ :=
          handleBlock_loop_deferred env key rest (applyDirective env ctx t) r o h
        refine ⟨L, c1, hc1, ?_, hs1⟩
        rw [hf1]
        unfold applyDirective
        split
        · rfl
        · split <;> rfl
  | .Include files d :: rest, ctx, r, o, h => by
    simp only [handleBlock.loop] at h
    simp only [finalsInNodes]
    cases hi : Include.Get env files key (some ctx) with
    | panic m => simp [hi] at h
    | ret res =>
      obtain ⟨val, a1⟩ := res
      obtain ⟨L1, hd1⟩ := Include_Get_deferred env key files ctx val a1 hi
      simp only [hi] at h
      by_cases hval : val = ""
      · simp only [hval, ne_eq, not_true_eq_false, if_false] at h
        obtain ⟨c1, hc1, _, _⟩ := id hd1
        subst hc1
        obtain ⟨L2, hd2⟩ := handleBlock_loop_deferred env key rest c1 r o h
        exact ⟨L1 ++ L2, Deferred_trans ctx c1 _ _ o L1 L2 hd1 hd2⟩
      · simp only [hval, ne_eq, not_false_eq_true, if_true, Exec.ret.injEq,
          Prod.mk.injEq] at h
        obtain ⟨_, ho⟩ := h
        subst ho
        exact ⟨L1, Deferred_left ctx _ _ _ L1 hd1⟩
  | .other _ :: rest, ctx, r, o, h => by
    simp only [handleBlock.loop, Exec.ret.injEq, Prod.mk.injEq] at h
    obtain ⟨_, ho⟩ := h
    subst ho
    exact ⟨[], Deferred_nil ctx _⟩
theorem Include_Get_deferred (env : Env) (key : String) :
    ∀ (fs : List (String × Config)) (ctx : MatchContext) (v : String)
      (o : Option MatchContext),
    Include.Get env fs key (some ctx) = .ret (v, o) →
    ∃ L, Deferred ctx (finalsInFiles fs) o L
  | [], ctx, v, o, h => by
    simp only [Include.Get, Exec.ret.injEq, Prod.mk.injEq] at h
    obtain ⟨_, ho⟩ := h
    subst ho
    exact ⟨[], Deferred_nil ctx _⟩
  | (name, cfg) :: rest, ctx, v, o, h => by
    simp only [Include.Get] at h
    simp only [finalsInFiles]
    cases hc : Config.Get env cfg key (some ctx) with
    | panic m => simp [hc] at h
    | ret res =>
      obtain ⟨⟨val, err⟩, a1⟩ := res
      obtain ⟨L1, hd1, _⟩ := Config_Get_deferred env key cfg ctx (val, err) a1 hc
      simp only [hc] at h
      by_cases hcond : err = none ∧ val ≠ ""
      · simp only [hcond, ne_eq, not_false_eq_true, and_self, if_true, Exec.ret.injEq,
          Prod.mk.injEq] at h
        obtain ⟨_, ho⟩ := h
        subst ho
        exact ⟨L1, Deferred_left ctx _ _ _ L1 hd1⟩
      · simp only [hcond, if_false] at h
        obtain ⟨c1, hc1, _, _⟩ := id hd1
        subst hc1
        obtain ⟨L2, hd2⟩ := Include_Get_deferred env key rest c1 v o h
        exact ⟨L1 ++ L2, Deferred_trans ctx c1 _ _ o L1 L2 hd1 hd2⟩
end

theorem observe_eq_cases {β : Type} (r1 r2 : Exec (β × Option MatchContext))
    (h : observe r1 = observe r2) :
    (∃ m, r1 = .panic m ∧ r2 = .panic m) ∨
    (∃ b a1 a2, r1 = .ret (b, a1) ∧ r2 = .ret (b, a2) ∧
      a1.map MatchContext.live = a2.map MatchContext.live) := by
  cases r1 with
  | panic m1 =>
    cases r2 with
    | panic m2 =>
      simp only [observe, Exec.panic.injEq] at h
      exact Or.inl ⟨m1, rfl, by rw [h]⟩
    | ret x2 =>
      obtain ⟨b2, a2⟩ := x2
      simp [observe] at h
  | ret x1 =>
    obtain ⟨b1, a1⟩ := x1
    cases r2 with
    | panic m2 => simp [observe] at h
    | ret x2 =>
      obtain ⟨b2, a2⟩ := x2
      simp only [observe, Exec.ret.injEq, Prod.mk.injEq] at h
      obtain ⟨hb, ha⟩ := h
      subst hb
      exact Or.inr ⟨b1, a1, a2, rfl, rfl, ha⟩

theorem observe_ret {β : Type} (b : β) (a1 a2 : Option MatchContext)
    (h : a1.map MatchContext.live = a2.map MatchContext.live) :
    observe (Exec.ret (b, a1)) = observe (Exec.ret (b, a2)) := by
  simp [observe, h]

theorem Block_Matches_live_congr (b : Block) (o1 o2 : Option MatchContext)
    (h : o1.map MatchContext.live = o2.map MatchContext.live) :
    b.Matches o1 = b.Matches o2 := by
  cases o1 with
  | none =>
    cases o2 with
    | none => rfl
    | some c2 => simp at h
  | some c1 =>
    cases o2 with
    | none => simp at h
    | some c2 =>
      simp only [Option.map_some', Option.some.injEq] at h
      exact Block_Matches_live b c1 c2 h

theorem addToContext_live_congr (k v : String) (o1 o2 : Option MatchContext)
    (h : o1.map MatchContext.live = o2.map MatchContext.live) :
    (addToContext k v o1).map MatchContext.live = (addToContext k v o2).map MatchContext.live := by
  cases o1 with
  | none =>
    cases o2 with
    | none => rfl
    | some c2 => simp at h
  | some c1 =>
    cases o2 with
    | none => simp at h
    | some c2 =>
      simp only [Option.map_some', Option.some.injEq, MatchContext.live, Prod.mk.injEq] at h
      obtain ⟨hu, hh, hl, ho⟩ := h
      simp only [addToContext]
      by_cases h1 : k = "user"
      · simp [h1, MatchContext.live, hh, hl, ho]
      · by_cases h2 : k = "hostname"
        · simp [h1, h2, MatchContext.live, hu, hl, ho]
        · simp [h1, h2, MatchContext.live, hu, hh, hl, ho]

mutual
theorem Config_Get_live_congr (env : Env) (key : String) :
    ∀ (c : Config) (o1 o2 : Option MatchContext),
    o1.map MatchContext.live = o2.map MatchContext.live →
    observe (Config.Get env c key o1) = observe (Config.Get env c key o2)
  | .mk blocks _ _, o1, o2, h => by
    simp only [Config.Get]
    exact getLoop_live_congr env key blocks o1 o2 h
theorem getLoop_live_congr (env : Env) (key : String) :
    ∀ (bs : List Block) (o1 o2 : Option MatchContext),
    o1.map MatchContext.live = o2.map MatchContext.live →
    observe (Config.getLoop env bs key o1) = observe (Config.getLoop env bs key o2)
  | [], o1, o2, h => by
    simp only [Config.getLoop]
    exact observe_ret _ o1 o2 h
  | block :: rest, o1, o2, h => by
    simp only [Config.getLoop]
    by_cases hf : block.IsFinal = true
    · rw [if_pos hf, if_pos hf]
      cases o1 with
      | none =>
        cases o2 with
        | none => rfl
        | some c2 => simp at h
      | some c1 =>
        cases o2 with
        | none => simp at h
        | some c2 =>
          simp only
          apply getLoop_live_congr env key rest
          simpa [MatchContext.live] using h
    · rw [if_neg hf, if_neg hf, Block_Matches_live_congr block o1 o2 h]
      cases hm : block.Matches o2 with
      | panic m => rfl
      | ret b =>
        cases b with
        | false =>
          simp only
          exact getLoop_live_congr env key rest o1 o2 h
        | true =>
          simp only
          rcases observe_eq_cases _ _ (handleBlock_live_congr env key block o1 o2 h) with
            ⟨m, e1, e2⟩ | ⟨⟨found, err⟩, a1, a2, e1, e2, ha⟩
          · rw [e1, e2]
          · rw [e1, e2]
            simp only
            by_cases he : err = none
            · by_cases hfound : found = ""
              · simp only [he, hfound, ne_eq, not_true_eq_false, if_false]
                exact getLoop_live_congr env key rest a1 a2 ha
              · simp only [he, hfound, ne_eq, not_true_eq_false, not_false_eq_true, if_false,
                  if_true]
                exact observe_ret _ a1 a2 ha
            · simp only [he, ne_eq, not_false_eq_true, if_true]
              exact observe_ret _ a1 a2 ha
theorem handleBlock_live_congr (env : Env) (key : String) :
    ∀ (b : Block) (o1 o2 : Option MatchContext),
    o1.map MatchContext.live = o2.map MatchContext.live →
    observe (handleBlock env b key o1) = observe (handleBlock env b key o2)
  | .Host _ nodes _, o1, o2, h => by
    simp only [handleBlock]
    exact handleBlock_loop_live_congr env key nodes o1 o2 h
  | .Match _ nodes _, o1, o2, h => by
    simp only [handleBlock]
    exact handleBlock_loop_live_congr env key nodes o1 o2 h
theorem handleBlock_loop_live_congr (env : Env) (key : String) :
    ∀ (ns : List Node) (o1 o2 : Option MatchContext),
    o1.map MatchContext.live = o2.map MatchContext.live →
    observe (handleBlock.loop env ns key o1) = observe (handleBlock.loop env ns key o2)
  | [], o1, o2, h => by
    simp only [handleBlock.loop]
    exact observe_ret _ o1 o2 h
  | .Empty _ :: rest, o1, o2, h => by
    simp only [handleBlock.loop]
    exact handleBlock_loop_live_congr env key rest o1 o2 h
  | .KV t :: rest, o1, o2, h => by
    simp only [handleBlock.loop]
    by_cases hk : env.ToLower t.Key = "match"
    · rw [if_pos hk, if_pos hk]
    · rw [if_neg hk, if_neg hk]
      by_cases hit : env.ToLower t.Key = env.ToLower key
      · rw [if_pos hit, if_pos hit]
        exact observe_ret _ o1 o2 h
      · rw [if_neg hit, if_neg hit]
        exact handleBlock_loop_live_congr env key rest _ _ (addToContext_live_congr _ _ o1 o2 h)
  | .Include files d :: rest, o1, o2, h => by
    simp only [handleBlock.loop]
    rcases observe_eq_cases _ _ (Include_Get_live_congr env key files o1 o2 h) with
      ⟨m, e1, e2⟩ | ⟨val, a1, a2, e1, e2, ha⟩
    · rw [e1, e2]
    · rw [e1, e2]
      simp only
      by_cases hval : val = ""
      · simp only [hval, ne_eq, not_true_eq_false, if_false]
        exact handleBlock_loop_live_congr env key rest a1 a2 ha
      · simp only [hval, ne_eq, not_false_eq_true, if_true]
        exact observe_ret _ a1 a2 ha
  | .other _ :: rest, o1, o2, h => by
    simp only [handleBlock.loop]
    exact observe_ret _ o1 o2 h
theorem Include_Get_live_congr (env : Env) (key : String) :
    ∀ (fs : List (String × Config)) (o1 o2 : Option MatchContext),
    o1.map MatchContext.live = o2.map MatchContext.live →
    observe (Include.Get env fs key o1) = observe (Include.Get env fs key o2)
  | [], o1, o2, h => by
    simp only [Include.Get]
    exact observe_ret _ o1 o2 h
  | (name, cfg) :: rest, o1, o2, h => by
    simp only [Include.Get]
    rcases observe_eq_cases _ _ (Config_Get_live_congr env key cfg o1 o2 h) with
      ⟨m, e1, e2⟩ | ⟨⟨val, err⟩, a1, a2, e1, e2, ha⟩
    · rw [e1, e2]
    · rw [e1, e2]
      simp only
      by_cases hcond : err = none ∧ val ≠ ""
      · rw [if_pos hcond, if_pos hcond]
        exact observe_ret _ a1 a2 ha
      · rw [if_neg hcond, if_neg hcond]
        exact Include_Get_live_congr env key rest a1 a2 ha
end

theorem getLoop_withoutFinal (env : Env) (key : String) :
    ∀ (bs : List Block) (c1 c2 : MatchContext), c1.live = c2.live →
    observe (Config.getLoop env bs key (some c1)) =
      observe (Config.getLoop env (bs.filter (fun b => !b.IsFinal)) key (some c2))
  | [], c1, c2, h => by
    simp only [List.filter_nil, Config.getLoop]
    exact observe_ret _ _ _ (by simp [h])
  | block :: rest, c1, c2, h => by
    by_cases hf : block.IsFinal = true
    · have e1 : (block :: rest).filter (fun b => !b.IsFinal) =
          rest.filter (fun b => !b.IsFinal) := by
        simp [List.filter_cons, hf]
      rw [e1, Config.getLoop, if_pos hf]
      exact getLoop_withoutFinal env key rest _ c2 (by simpa [MatchContext.live] using h)
    · have e1 : (block :: rest).filter (fun b => !b.IsFinal) =
          block :: rest.filter (fun b => !b.IsFinal) := by
        simp [List.filter_cons, hf]
      rw [e1, Config.getLoop, Config.getLoop, if_neg hf, if_neg hf,
        Block_Matches_live block c1 c2 h]
      cases hm : block.Matches (some c2) with
      | panic m => rfl
      | ret b =>
        cases b with
        | false =>
          simp only
          exact getLoop_withoutFinal env key rest c1 c2 h
        | true =>
          simp only
          rcases observe_eq_cases _ _
              (handleBlock_live_congr env key block (some c1) (some c2) (by simp [h])) with
            ⟨m, e1, e2⟩ | ⟨⟨found, err⟩, a1, a2, e1, e2, ha⟩
          · rw [e1, e2]
          · obtain ⟨_, d1, hd1, _, _⟩ := handleBlock_deferred env key block c1 _ a1 e1
            obtain ⟨_, d2, hd2, _, _⟩ := handleBlock_deferred env key block c2 _ a2 e2
            subst hd1 hd2
            rw [e1, e2]
            simp only
            by_cases he : err = none
            · by_cases hfound : found = ""
              · simp only [he, hfound, ne_eq, not_true_eq_false, if_false]
                exact getLoop_withoutFinal env key rest d1 d2 (by simpa using ha)
              · simp only [he, hfound, ne_eq, not_true_eq_false, not_false_eq_true, if_false,
                  if_true]
                exact observe_ret _ _ _ ha
            · simp only [he, ne_eq, not_false_eq_true, if_true]
              exact observe_ret _ _ _ ha

mutual
theorem finalBlocks_final : ∀ (c : Config) (b : Block), b ∈ c.finalBlocks → b.IsFinal = true
  | .mk blocks _ _, b, h => by
    simp only [Config.finalBlocks] at h
    exact finalsInBlocks_final blocks b h
theorem finalsInBlocks_final : ∀ (bs : List Block) (b : Block),
    b ∈ finalsInBlocks bs → b.IsFinal = true
  | [], b, h => by simp [finalsInBlocks] at h
  | block :: rest, b, h => by
    simp only [finalsInBlocks, List.mem_append] at h
    rcases h with h | h
    · by_cases hf : block.IsFinal = true
      · rw [if_pos hf] at h
        simp only [List.mem_singleton] at h
        rw [h]
        exact hf
      · rw [if_neg hf] at h
        exact Block_finalBlocks_final block b h
    · exact finalsInBlocks_final rest b h
theorem Block_finalBlocks_final : ∀ (blk : Block) (b : Block),
    b ∈ Block.finalBlocks blk → b.IsFinal = true
  | .Host _ nodes _, b, h => by
    simp only [Block.finalBlocks] at h
    exact finalsInNodes_final nodes b h
  | .Match _ nodes _, b, h => by
    simp only [Block.finalBlocks] at h
    exact finalsInNodes_final nodes b h
theorem finalsInNodes_final : ∀ (ns : List Node) (b : Block),
    b ∈ finalsInNodes ns → b.IsFinal = true
  | [], b, h => by simp [finalsInNodes] at h
  | .Empty _ :: rest, b, h => by
    simp only [finalsInNodes] at h
    exact finalsInNodes_final rest b h
  | .KV _ :: rest, b, h => by
    simp only [finalsInNodes] at h
    exact finalsInNodes_final rest b h
  | .Include files _ :: rest, b, h => by
    simp only [finalsInNodes, List.mem_append] at h
    rcases h with h | h
    · exact finalsInFiles_final files b h
    · exact finalsInNodes_final rest b h
  | .other _ :: rest, b, h => by
    simp only [finalsInNodes] at h
    exact finalsInNodes_final rest b h
theorem finalsInFiles_final : ∀ (fs : List (String × Config)) (b : Block),
    b ∈ finalsInFiles fs → b.IsFinal = true
  | [], b, h => by simp [finalsInFiles] at h
  | (_, cfg) :: rest, b, h => by
    simp only [finalsInFiles, List.mem_append] at h
    rcases h with h | h
    · exact finalBlocks_final cfg b h
    · exact finalsInFiles_final rest b h
end

theorem getLoop_passed (env : Env) (key : String) :
    ∀ (bs : List Block) (ctx : MatchContext) (r : String × GoError) (o : Option MatchContext),
    Config.getLoop env bs key (some ctx) = .ret (r, o) →
    ∃ (pre post L : List Block), bs = pre ++ post ∧
      Config.getLoop env pre key (some ctx) = .ret (r, o) ∧
      Deferred ctx (finalsInBlocks pre) o L ∧
      (pre.filter Block.IsFinal).Sublist L ∧
      (r = ("", none) → post = [])
  | [], ctx, r, o, h => by
    refine ⟨[], [], [], rfl, h, ?_, by simp, fun _ => rfl⟩
    simp only [Config.getLoop, Exec.ret.injEq, Prod.mk.injEq] at h
    obtain ⟨_, ho⟩ := h
    subst ho
    exact Deferred_nil ctx _
  | block :: rest, ctx, r, o, h => by
    rw [Config.getLoop] at h
    by_cases hf : block.IsFinal = true
    · rw [if_pos hf] at h
      obtain ⟨pre, post, L, hsplit, hget, hd, hs, hpost⟩ :=
        getLoop_passed env key rest _ r o h
      refine ⟨block :: pre, post, block :: L, by rw [hsplit, List.cons_append], ?_, ?_, ?_,
        hpost⟩
      · rw [Config.getLoop, if_pos hf]
        exact hget
      · have h1 : Deferred ctx [block]
            (some { ctx with FinalBlocks := ctx.FinalBlocks ++ [block] }) [block] :=
          ⟨_, rfl, rfl, List.Sublist.refl _⟩
        have := Deferred_trans ctx _ [block] (finalsInBlocks pre) o [block] L h1 hd
        simpa [finalsInBlocks, hf] using this
      · simp only [List.filter_cons, hf, if_true]
        exact hs.cons₂ block
    · rw [if_neg hf] at h
      have hfilter : ∀ l : List Block,
          (block :: l).filter Block.IsFinal = l.filter Block.IsFinal := by
        intro l
        simp [List.filter_cons, hf]
      have hpool : ∀ l : List Block, finalsInBlocks (block :: l) =
          Block.finalBlocks block ++ finalsInBlocks l := by
        intro l
        simp [finalsInBlocks, hf]
      cases hm : block.Matches (some ctx) with
      | panic m => simp [hm] at h
      | ret b =>
        cases b with
        | false =>
          simp only [hm] at h
          obtain ⟨pre, post, L, hsplit, hget, hd, hs, hpost⟩ :=
            getLoop_passed env key rest ctx r o h
          refine ⟨block :: pre, post, L, by rw [hsplit, List.cons_append], ?_, ?_, ?_, hpost⟩
          · rw [Config.getLoop, if_neg hf]
            simp only [hm]
            exact hget
          · rw [hpool]
            exact Deferred_right ctx _ _ o L hd
          · rw [hfilter]
            exact hs
        | true =>
          simp only [hm] at h
          cases hb : handleBlock env block key (some ctx) with
          | panic m => simp [hb] at h
          | ret res =>
            obtain ⟨⟨found, err⟩, a1⟩ := res
            obtain ⟨L1, hd1⟩ := handleBlock_deferred env key block ctx (found, err) a1 hb
            simp only [hb] at h
            by_cases hstop : err ≠ none ∨ found ≠ ""
            · have hone : Config.getLoop env [block] key (some ctx) = .ret (r, o) := by
                rw [Config.getLoop, if_neg hf]
                simp only [hm, hb]
                by_cases he : err = none
                · have hfound : found ≠ "" := by
                    rcases hstop with h1 | h1
                    · exact absurd he h1
                    · exact h1
                  simp only [he, hfound, ne_eq, not_true_eq_false, not_false_eq_true, if_false,
                    if_true] at h ⊢
                  exact h
                · simp only [he, ne_eq, not_false_eq_true, if_true] at h ⊢
                  exact h
              have ho : o = a1 ∧ (r = ("", none) → False) := by
                by_cases he : err = none
                · have hfound : found ≠ "" := by
                    rcases hstop with h1 | h1
                    · exact absurd he h1
                    · exact h1
                  simp only [he, hfound, ne_eq, not_true_eq_false, not_false_eq_true, if_false,
                    if_true, Exec.ret.injEq, Prod.mk.injEq] at h
                  refine ⟨h.2.symm, fun hr => ?_⟩
                  rw [← h.1] at hr
                  simp only [Prod.mk.injEq] at hr
                  exact hfound hr.1
                · simp only [he, ne_eq, not_false_eq_true, if_true, Exec.ret.injEq,
                    Prod.mk.injEq] at h
                  refine ⟨h.2.symm, fun hr => ?_⟩
                  rw [← h.1] at hr
                  simp only [Prod.mk.injEq] at hr
                  exact he hr.2
              obtain ⟨ho1, hne⟩ := ho
              subst ho1
              refine ⟨[block], rest, L1, rfl, hone, ?_, ?_, fun hr => (hne hr).elim⟩
              · rw [hpool]
                exact Deferred_left ctx _ _ _ L1 hd1
              · rw [hfilter]
                simp
            · have he : err = none := by
                by_contra hc
                exact hstop (Or.inl hc)
              have hfound : found = "" := by
                by_contra hc
                exact hstop (Or.inr hc)
              simp only [he, hfound, ne_eq, not_true_eq_false, if_false] at h
              obtain ⟨c1, hc1, _, _⟩ := id hd1
              subst hc1
              obtain ⟨pre, post, L2, hsplit, hget, hd2, hs2, hpost⟩ :=
                getLoop_passed env key rest c1 r o h
              refine ⟨block :: pre, post, L1 ++ L2, by rw [hsplit, List.cons_append], ?_, ?_, ?_,
                hpost⟩
              · rw [Config.getLoop, if_neg hf]
                simp only [hm, hb, he, hfound, ne_eq, not_true_eq_false, if_false]
                exact hget
              · rw [hpool]
                exact Deferred_trans ctx c1 _ _ o L1 L2 hd1 hd2
              · rw [hfilter]
                exact hs2.trans (List.sublist_append_right _ _)

mutual
theorem Config_deferred_live (env : Env) : ∀ (c : Config) (c1 c2 : MatchContext),
    c1.live = c2.live → Config.deferred env c c1 = Config.deferred env c c2
  | .mk blocks _ _, c1, c2, h => by
    simp only [Config.deferred]
    exact deferredBlocks_live env blocks c1 c2 h
theorem deferredBlocks_live (env : Env) : ∀ (bs : List Block) (c1 c2 : MatchContext),
    c1.live = c2.live → deferredBlocks env bs c1 = deferredBlocks env bs c2
  | [], _, _, _ => rfl
  | block :: rest, c1, c2, h => by
    simp only [deferredBlocks, Block_Matches_live block c1 c2 h,
      Block_reached_live env block c1 c2 h, Block_deferred_live env block c1 c2 h]
    split
    · rw [deferredBlocks_live env rest c1 c2 h]
    · split
      · rw [deferredBlocks_live env rest _ _ (applyDirectives_live env _ c1 c2 h)]
      · exact deferredBlocks_live env rest c1 c2 h
theorem Block_deferred_live (env : Env) : ∀ (b : Block) (c1 c2 : MatchContext),
    c1.live = c2.live → Block.deferred env b c1 = Block.deferred env b c2
  | .Host _ nodes _, c1, c2, h => by
    simp only [Block.deferred]
    exact deferredNodes_live env nodes c1 c2 h
  | .Match _ nodes _, c1, c2, h => by
    simp only [Block.deferred]
    exact deferredNodes_live env nodes c1 c2 h
theorem deferredNodes_live (env : Env) : ∀ (ns : List Node) (c1 c2 : MatchContext),
    c1.live = c2.live → deferredNodes env ns c1 = deferredNodes env ns c2
  | [], _, _, _ => rfl
  | .Empty _ :: rest, c1, c2, h => by
    simp only [deferredNodes]
    exact deferredNodes_live env rest c1 c2 h
  | .KV t :: rest, c1, c2, h => by
    simp only [deferredNodes]
    exact deferredNodes_live env rest _ _ (applyDirective_live env c1 c2 t h)
  | .Include files _ :: rest, c1, c2, h => by
    simp only [deferredNodes, deferredFiles_live env files c1 c2 h,
      reachedFiles_live env files c1 c2 h]
    rw [deferredNodes_live env rest _ _ (applyDirectives_live env _ c1 c2 h)]
  | .other _ :: rest, c1, c2, h => by
    simp only [deferredNodes]
    exact deferredNodes_live env rest c1 c2 h
theorem deferredFiles_live (env : Env) : ∀ (fs : List (String × Config)) (c1 c2 : MatchContext),
    c1.live = c2.live → deferredFiles env fs c1 = deferredFiles env fs c2
  | [], _, _, _ => rfl
  | (_, cfg) :: rest, c1, c2, h => by
    simp only [deferredFiles, Config_deferred_live env cfg c1 c2 h,
      Config_reached_live env cfg c1 c2 h]
    rw [deferredFiles_live env rest _ _ (applyDirectives_live env _ c1 c2 h)]
end

theorem applyDirective_FinalBlocks (env : Env) (ctx : MatchContext) (t : KV) :
    (applyDirective env ctx t).FinalBlocks = ctx.FinalBlocks := by
  unfold applyDirective
  split
  · rfl
  · split <;> rfl

theorem MissOk_nil (env : Env) (ctx : MatchContext) :
    MissOk env ctx [] [] (.ret (("", none), some ctx)) :=
  ⟨ctx, rfl, rfl, by simp⟩

theorem MissOk_append (env : Env) (ctx c1 : MatchContext) (l1 l2 : List KV)
    (f1 f2 : List Block) (r : Exec ((String × GoError) × Option MatchContext))
    (hl : c1.live = (applyDirectives env ctx l1).live)
    (hf : c1.FinalBlocks = ctx.FinalBlocks ++ f1)
    (hr : MissOk env c1 l2 f2 r) : MissOk env ctx (l1 ++ l2) (f1 ++ f2) r := by
  obtain ⟨c2, hc2, hl2, hf2⟩ := hr
  refine ⟨c2, hc2, ?_, ?_⟩
  · rw [applyDirectives_append]
    exact hl2.trans (applyDirectives_live env l2 _ _ hl)
  · rw [hf2, hf, List.append_assoc]

mutual
theorem Config_Get_miss (env : Env) (key : String) : ∀ (c : Config) (ctx : MatchContext),
    Config.regular env c = true →
    (∀ t ∈ Config.reached env c ctx, keyEquals env key t = false) →
    MissOk env ctx (Config.reached env c ctx) (Config.deferred env c ctx)
      (Config.Get env c key (some ctx))
  | .mk blocks _ _, ctx, h, hmiss => by
    simp only [Config.regular] at h
    simp only [Config.reached] at hmiss
    simp only [Config.reached, Config.deferred, Config.Get]
    exact getLoop_miss env key blocks ctx h hmiss
theorem getLoop_miss (env : Env) (key : String) : ∀ (bs : List Block) (ctx : MatchContext),
    regularBlocks env bs = true →
    (∀ t ∈ reachedBlocks env bs ctx, keyEquals env key t = false) →
    MissOk env ctx (reachedBlocks env bs ctx) (deferredBlocks env bs ctx)
      (Config.getLoop env bs key (some ctx))
  | [], ctx, _, _ => by
    simp only [reachedBlocks, deferredBlocks, Config.getLoop]
    exact MissOk_nil env ctx
  | block :: rest, ctx, h, hmiss => by
    simp only [regularBlocks, Bool.and_eq_true] at h
    obtain ⟨hb, hrest⟩ := h
    by_cases hf : block.IsFinal = true
    · have e1 : Config.getLoop env (block :: rest) key (some ctx) =
          Config.getLoop env rest key
            (some { ctx with FinalBlocks := ctx.FinalBlocks ++ [block] }) := by
        simp [Config.getLoop, hf]
      have e2 : reachedBlocks env (block :: rest) ctx = reachedBlocks env rest ctx := by
        simp [reachedBlocks, hf]
      have e3 : deferredBlocks env (block :: rest) ctx =
          [block] ++ deferredBlocks env rest ctx := by
        simp [deferredBlocks, hf]
      rw [e2] at hmiss
      rw [e1, e2, e3]
      have er := reachedBlocks_live env rest
        { ctx with FinalBlocks := ctx.FinalBlocks ++ [block] } ctx rfl
      have ed := deferredBlocks_live env rest
        { ctx with FinalBlocks := ctx.FinalBlocks ++ [block] } ctx rfl
      have hrec := getLoop_miss env key rest
        { ctx with FinalBlocks := ctx.FinalBlocks ++ [block] } hrest
        (by rw [er]; exact hmiss)
      rw [er, ed] at hrec
      have := MissOk_append env ctx { ctx with FinalBlocks := ctx.FinalBlocks ++ [block] }
        [] _ [block] _ _ rfl rfl hrec
      simpa using this
    · obtain ⟨m, hm⟩ := Block_Matches_regular env block ctx hb
      cases m with
      | false =>
        have e1 : Config.getLoop env (block :: rest) key (some ctx) =
            Config.getLoop env rest key (some ctx) := by
          simp [Config.getLoop, hf, hm]
        have e2 : reachedBlocks env (block :: rest) ctx = reachedBlocks env rest ctx := by
          simp [reachedBlocks, hm]
        have e3 : deferredBlocks env (block :: rest) ctx = deferredBlocks env rest ctx := by
          simp [deferredBlocks, hf, hm]
        rw [e2] at hmiss
        rw [e1, e2, e3]
        exact getLoop_miss env key rest ctx hrest hmiss
      | true =>
        have e2 : reachedBlocks env (block :: rest) ctx =
            Block.reached env block ctx ++
              reachedBlocks env rest (applyDirectives env ctx (Block.reached env block ctx)) := by
          simp [reachedBlocks, hf, hm]
        have e3 : deferredBlocks env (block :: rest) ctx =
            Block.deferred env block ctx ++
              deferredBlocks env rest (applyDirectives env ctx (Block.reached env block ctx)) := by
          simp [deferredBlocks, hf, hm]
        rw [e2] at hmiss
        obtain ⟨c1, hc1, hl1, hf1⟩ := handleBlock_miss env key block ctx hb
          (fun t ht => hmiss t (List.mem_append_left _ ht))
        have e1 : Config.getLoop env (block :: rest) key (some ctx) =
            Config.getLoop env rest key (some c1) := by
          simp [Config.getLoop, hf, hm, hc1]
        rw [e1, e2, e3]
        apply MissOk_append env ctx c1 _ _ _ _ _ hl1 hf1
        rw [← reachedBlocks_live env rest c1 _ hl1, ← deferredBlocks_live env rest c1 _ hl1]
        apply getLoop_miss env key rest c1 hrest
        rw [reachedBlocks_live env rest c1 _ hl1]
        exact fun t ht => hmiss t (List.mem_append_right _ ht)
theorem handleBlock_miss (env : Env) (key : String) : ∀ (b : Block) (ctx : MatchContext),
    Block.regular env b = true →
    (∀ t ∈ Block.reached env b ctx, keyEquals env key t = false) →
    MissOk env ctx (Block.reached env b ctx) (Block.deferred env b ctx)
      (handleBlock env b key (some ctx))
  | .Host _ nodes _, ctx, h, hmiss => by
    simp only [Block.regular] at h
    simp only [Block.reached] at hmiss
    simp only [Block.reached, Block.deferred, handleBlock]
    exact handleBlock_loop_miss env key nodes ctx h hmiss
  | .Match _ nodes _, ctx, h, hmiss => by
    simp only [Block.regular, Bool.and_eq_true] at h
    simp only [Block.reached] at hmiss
    simp only [Block.reached, Block.deferred, handleBlock]
    exact handleBlock_loop_miss env key nodes ctx h.2 hmiss
theorem handleBlock_loop_miss (env : Env) (key : String) :
    ∀ (ns : List Node) (ctx : MatchContext), regularNodes env ns = true →
    (∀ t ∈ reachedNodes env ns ctx, keyEquals env key t = false) →
    MissOk env ctx (reachedNodes env ns ctx) (deferredNodes env ns ctx)
      (handleBlock.loop env ns key (some ctx))
  | [], ctx, _, _ => by
    simp only [reachedNodes, deferredNodes, handleBlock.loop]
    exact MissOk_nil env ctx
  | .Empty _ :: rest, ctx, h, hmiss => by
    simp only [regularNodes] at h
    simp only [reachedNodes] at hmiss
    simp only [reachedNodes, deferredNodes, handleBlock.loop]
    exact handleBlock_loop_miss env key rest ctx h hmiss
  | .KV t :: rest, ctx, h, hmiss => by
    simp only [regularNodes, Bool.and_eq_true, decide_eq_true_eq] at h
    obtain ⟨⟨hk, _⟩, hrest⟩ := h
    simp only [reachedNodes] at hmiss
    simp only [reachedNodes, deferredNodes]
    have hit : ¬ env.ToLower t.Key = env.ToLower key := by
      have := hmiss t (List.mem_cons_self _ _)
      simpa [keyEquals] using this
    have e1 : handleBlock.loop env (.KV t :: rest) key (some ctx) =
        handleBlock.loop env rest key (some (applyDirective env ctx t)) := by
      rw [handleBlock.loop, if_neg hk, if_neg hit, addToContext_some]
    rw [e1]
    have := MissOk_append env ctx (applyDirective env ctx t) [t] _ [] _ _ rfl
      (by rw [applyDirective_FinalBlocks]; simp)
      (handleBlock_loop_miss env key rest (applyDirective env ctx t) hrest
        (fun u hu => hmiss u (List.mem_cons_of_mem _ hu)))
    simpa using this
  | .Include files d :: rest, ctx, h, hmiss => by
    simp only [regularNodes, Bool.and_eq_true] at h
    obtain ⟨hfiles, hrest⟩ := h
    simp only [reachedNodes] at hmiss
    simp only [reachedNodes, deferredNodes]
    obtain ⟨c1, hc1, hl1, hf1⟩ := Include_Get_miss env key files ctx hfiles
      (fun t ht => hmiss t (List.mem_append_left _ ht))
    have e1 : handleBlock.loop env (.Include files d :: rest) key (some ctx) =
        handleBlock.loop env rest key (some c1) := by
      simp [handleBlock.loop, hc1]
    rw [e1]
    apply MissOk_append env ctx c1 _ _ _ _ _ hl1 hf1
    rw [← reachedNodes_live env rest c1 _ hl1, ← deferredNodes_live env rest c1 _ hl1]
    apply handleBlock_loop_miss env key rest c1 hrest
    rw [reachedNodes_live env rest c1 _ hl1]
    exact fun t ht => hmiss t (List.mem_append_right _ ht)
  | .other _ :: _, _, h, _ => by
    simp [regularNodes] at h
theorem Include_Get_miss (env : Env) (key : String) :
    ∀ (fs : List (String × Config)) (ctx : MatchContext), regularFiles env fs = true →
    (∀ t ∈ reachedFiles env fs ctx, keyEquals env key t = false) →
    ∃ c1 : MatchContext, Include.Get env fs key (some ctx) = .ret ("", some c1) ∧
      c1.live = (applyDirectives env ctx (reachedFiles env fs ctx)).live ∧
      c1.FinalBlocks = ctx.FinalBlocks ++ deferredFiles env fs ctx
  | [], ctx, _, _ => by
    simp only [reachedFiles, deferredFiles, Include.Get]
    exact ⟨ctx, rfl, rfl, by simp⟩
  | (name, cfg) :: rest, ctx, h, hmiss => by
    simp only [regularFiles, Bool.and_eq_true] at h
    obtain ⟨hcfg, hrest⟩ := h
    simp only [reachedFiles] at hmiss
    simp only [reachedFiles, deferredFiles]
    obtain ⟨c1, hc1, hl1, hf1⟩ := Config_Get_miss env key cfg ctx hcfg
      (fun t ht => hmiss t (List.mem_append_left _ ht))
    have e1 : Include.Get env ((name, cfg) :: rest) key (some ctx) =
        Include.Get env rest key (some c1) := by
      simp [Include.Get, hc1]
    rw [e1]
    obtain ⟨c2, hc2, hl2, hf2⟩ := Include_Get_miss env key rest c1 hrest
      (by rw [reachedFiles_live env rest c1 _ hl1]
          exact fun t ht => hmiss t (List.mem_append_right _ ht))
    rw [reachedFiles_live env rest c1 _ hl1] at hl2
    rw [deferredFiles_live env rest c1 _ hl1] at hf2
    refine ⟨c2, hc2, ?_, ?_⟩
    · rw [applyDirectives_append]
      exact hl2.trans (applyDirectives_live env _ _ _ hl1)
    · rw [hf2, hf1, List.append_assoc]
end

/-! ## Facts about the lookup over the sources -/

mutual
theorem regular_finalBlocks (env : Env) : ∀ (c : Config), Config.regular env c = true →
    ∀ b ∈ c.finalBlocks, Block.regular env b = true
  | .mk blocks _ _, h, b, hb => by
    simp only [Config.regular] at h
    simp only [Config.finalBlocks] at hb
    exact regular_finalsInBlocks env blocks h b hb
theorem regular_finalsInBlocks (env : Env) : ∀ (bs : List Block),
    regularBlocks env bs = true → ∀ b ∈ finalsInBlocks bs, Block.regular env b = true
  | [], _, b, hb => by simp [finalsInBlocks] at hb
  | block :: rest, h, b, hb => by
    simp only [regularBlocks, Bool.and_eq_true] at h
    simp only [finalsInBlocks, List.mem_append] at hb
    rcases hb with hb | hb
    · by_cases hf : block.IsFinal = true
      · rw [if_pos hf] at hb
        simp only [List.mem_singleton] at hb
        rw [hb]
        exact h.1
      · rw [if_neg hf] at hb
        exact regular_Block_finalBlocks env block h.1 b hb
    · exact regular_finalsInBlocks env rest h.2 b hb
theorem regular_Block_finalBlocks (env : Env) : ∀ (blk : Block),
    Block.regular env blk = true → ∀ b ∈ Block.finalBlocks blk, Block.regular env b = true
  | .Host _ nodes _, h, b, hb => by
    simp only [Block.regular] at h
    simp only [Block.finalBlocks] at hb
    exact regular_finalsInNodes env nodes h b hb
  | .Match _ nodes _, h, b, hb => by
    simp only [Block.regular, Bool.and_eq_true] at h
    simp only [Block.finalBlocks] at hb
    exact regular_finalsInNodes env nodes h.2 b hb
theorem regular_finalsInNodes (env : Env) : ∀ (ns : List Node),
    regularNodes env ns = true → ∀ b ∈ finalsInNodes ns, Block.regular env b = true
  | [], _, b, hb => by simp [finalsInNodes] at hb
  | .Empty _ :: rest, h, b, hb => by
    simp only [regularNodes] at h
    simp only [finalsInNodes] at hb
    exact regular_finalsInNodes env rest h b hb
  | .KV _ :: rest, h, b, hb => by
    simp only [regularNodes, Bool.and_eq_true] at h
    simp only [finalsInNodes] at hb
    exact regular_finalsInNodes env rest h.2 b hb
  | .Include files _ :: rest, h, b, hb => by
    simp only [regularNodes, Bool.and_eq_true] at h
    simp only [finalsInNodes, List.mem_append] at hb
    rcases hb with hb | hb
    · exact regular_finalsInFiles env files h.1 b hb
    · exact regular_finalsInNodes env rest h.2 b hb
  | .other _ :: _, h, _, _ => by simp [regularNodes] at h
theorem regular_finalsInFiles (env : Env) : ∀ (fs : List (String × Config)),
    regularFiles env fs = true → ∀ b ∈ finalsInFiles fs, Block.regular env b = true
  | [], _, b, hb => by simp [finalsInFiles] at hb
  | (_, cfg) :: rest, h, b, hb => by
    simp only [regularFiles, Bool.and_eq_true] at h
    simp only [finalsInFiles, List.mem_append] at hb
    rcases hb with hb | hb
    · exact regular_finalBlocks env cfg h.1 b hb
    · exact regular_finalsInFiles env rest h.2 b hb
end

theorem handleBlock_loop_nil_ctx (env : Env) (key : String) : ∀ (ns : List Node),
    regularNodes env ns = true → ns.all (fun n => !n.isInclude) = true →
    handleBlock.loop env ns key none =
      .ret ((firstValue env key (ns.filterMap Node.directive?), none), none)
  | [], _, _ => rfl
  | .Empty _ :: rest, h, hi => by
    simp only [regularNodes] at h
    simp only [List.all_cons, Bool.and_eq_true] at hi
    simp only [handleBlock.loop, List.filterMap_cons, Node.directive?]
    exact handleBlock_loop_nil_ctx env key rest h hi.2
  | .KV t :: rest, h, hi => by
    simp only [regularNodes, Bool.and_eq_true, decide_eq_true_eq] at h
    obtain ⟨⟨hk, _⟩, hrest⟩ := h
    simp only [List.all_cons, Bool.and_eq_true] at hi
    simp only [List.filterMap_cons, Node.directive?]
    rw [handleBlock.loop, if_neg hk]
    by_cases hit : env.ToLower t.Key = env.ToLower key
    · rw [if_pos hit, firstValue_cons_hit env key t _ (by simp [keyEquals, hit])]
    · rw [if_neg hit, firstValue_cons_miss env key t _ (by simp [keyEquals, hit])]
      simp only [addToContext]
      exact handleBlock_loop_nil_ctx env key rest hrest hi.2
  | .Include _ _ :: _, _, hi => by
    simp [Node.isInclude] at hi
  | .other _ :: _, h, _ => by
    simp [regularNodes] at h

theorem handleBlock_nil_ctx (env : Env) (key : String) (b : Block)
    (h : Block.regular env b = true) (hi : b.noInclude = true) :
    handleBlock env b key none = .ret ((b.value env key, none), none) := by
  cases b with
  | Host ps nodes data =>
    simp only [Block.regular] at h
    simp only [handleBlock, Block.value, Block.directives, Block.GetNodes]
    exact handleBlock_loop_nil_ctx env key nodes h hi
  | Match ps nodes data =>
    simp only [Block.regular, Bool.and_eq_true] at h
    simp only [handleBlock, Block.value, Block.directives, Block.GetNodes]
    exact handleBlock_loop_nil_ctx env key nodes h.2 hi

theorem matchFinalLoop_eq (env : Env) (key : String) (ctx : MatchContext) :
    ∀ (fin : List Block),
    (∀ b ∈ fin, Block.regular env b = true ∧ b.noInclude = true) →
    MatchContext.matchFinalLoop env ctx fin key = .ret (finalValue env key ctx fin, none)
  | [], _ => rfl
  | block :: rest, h => by
    obtain ⟨hb, hi⟩ := h block (List.mem_cons_self _ _)
    have ih := matchFinalLoop_eq env key ctx rest
      (fun b hb => h b (List.mem_cons_of_mem _ hb))
    obtain ⟨m, hm⟩ := Block_Matches_regular env block ctx hb
    rw [MatchContext.matchFinalLoop, hm]
    cases m with
    | false =>
      simp only
      rw [ih]
      simp [finalValue, List.filter_cons, hm]
    | true =>
      simp only [handleBlock_nil_ctx env key block hb hi]
      by_cases hv : block.value env key = ""
      · simp only [hv, ne_eq, not_true_eq_false, if_false]
        rw [ih]
        simp [finalValue, List.filter_cons, hm, hv]
      · simp [finalValue, List.filter_cons, hm, hv]

theorem finalValue_live (env : Env) (key : String) (c1 c2 : MatchContext) (fin : List Block)
    (h : c1.live = c2.live) : finalValue env key c1 fin = finalValue env key c2 fin := by
  have : (fun b : Block => decide (b.Matches (some c1) = .ret true)) =
      (fun b : Block => decide (b.Matches (some c2) = .ret true)) := by
    funext b
    rw [Block_Matches_live b c1 c2 h]
  simp only [finalValue, this]

theorem reachedOpt_live (env : Env) (oc : Option Config) (c1 c2 : MatchContext)
    (h : c1.live = c2.live) : reachedOpt env oc c1 = reachedOpt env oc c2 := by
  cases oc with
  | none => rfl
  | some c => exact Config_reached_live env c c1 c2 h

theorem deferredOpt_live (env : Env) (oc : Option Config) (c1 c2 : MatchContext)
    (h : c1.live = c2.live) : deferredOpt env oc c1 = deferredOpt env oc c2 := by
  cases oc with
  | none => rfl
  | some c => exact Config_deferred_live env c c1 c2 h

theorem regularOpt_finalBlocks (env : Env) (oc : Option Config)
    (h : regularOpt env oc = true) : ∀ b ∈ finalBlocksOpt oc, Block.regular env b = true := by
  cases oc with
  | none =>
    intro b hb
    simp [finalBlocksOpt] at hb
  | some c => exact regular_finalBlocks env c h

theorem findVal_stage_found (env : Env) (key : String) (oc : Option Config)
    (ctx : MatchContext) (hreg : regularOpt env oc = true) :
    (firstValue env key (reachedOpt env oc ctx) ≠ "" →
      rewrittenValue env key (firstValue env key (reachedOpt env oc ctx)) =
        firstValue env key (reachedOpt env oc ctx) →
      env.validate key (firstValue env key (reachedOpt env oc ctx)) = none →
      ∃ c1 : MatchContext, findVal env oc key (some ctx) =
        .ret ((firstValue env key (reachedOpt env oc ctx), none), some c1)) ∧
    (firstValue env key (reachedOpt env oc ctx) = "" →
      ∃ c1 : MatchContext, findVal env oc key (some ctx) = .ret (("", none), some c1) ∧
        c1.live = (applyDirectives env ctx (reachedOpt env oc ctx)).live ∧
        c1.FinalBlocks = ctx.FinalBlocks ++ deferredOpt env oc ctx ∧
        (deferredOpt env oc ctx).Sublist (finalBlocksOpt oc)) := by
  cases oc with
  | none =>
    refine ⟨fun h => absurd rfl h, fun _ => ⟨ctx, rfl, rfl, by simp [deferredOpt], ?_⟩⟩
    simp [deferredOpt]
  | some c =>
    simp only [regularOpt] at hreg
    simp only [reachedOpt, deferredOpt, finalBlocksOpt]
    obtain ⟨⟨c1, hc1, _⟩, hm1⟩ := Config_Get_scan env key c ctx hreg
    constructor
    · intro hv hs hval
      refine ⟨c1, ?_⟩
      simp only [rewrittenValue] at hs
      simp only [findVal, hc1, hs, hval]
      simp [hv]
    · intro hv
      obtain ⟨c2, hc2, hl2, hf2⟩ := Config_Get_miss env key c ctx hreg (hm1 hv)
      obtain ⟨L, ⟨c3, hc3, hf3, hs3⟩, _⟩ := Config_Get_deferred env key c ctx _ _ hc2
      simp only [Option.some.injEq] at hc3
      subst hc3
      have hL : Config.deferred env c ctx = L := by
        rw [hf2] at hf3
        exact List.append_cancel_left hf3
      refine ⟨c2, ?_, hl2, hf2, hL ▸ hs3⟩
      simp only [findVal, hc2]
      simp

/-! ## The claims on the lookup in one config -/

/-- C2 fails on a directive with an empty value: in `emptyValueConfig` the first
directive keyed `Port` in a matching non-final block has the value `""`, yet
`Get` does not stop there and returns the value `22` of the second block. -/
theorem Config_Get_passes_empty_value :
    firstValue sampleEnv "Port"
        (Config.reached sampleEnv emptyValueConfig (NewMatchContext sampleEnv "h" "")) = "" ∧
    (∃ t ∈ Config.reached sampleEnv emptyValueConfig (NewMatchContext sampleEnv "h" ""),
        keyEquals sampleEnv "Port" t = true) ∧
    Config.Get sampleEnv emptyValueConfig "Port" (some (NewMatchContext sampleEnv "h" "")) =
      .ret (("22", none), some (NewMatchContext sampleEnv "h" "")) := by
  refine ⟨by decide, ⟨⟨"Port", "", "", "", false, 2, ⟨1, 3⟩⟩, by decide, by decide⟩, ?_⟩
  rfl

/-- C2 as amended: for a regular config (directive, comment and Include nodes;
no directive keyed `match`; no empty directive value; Match blocks over the four
attributes; included configs likewise) `Get` returns, with a nil error, the
value of the first directive in file order whose key equals the key
case-insensitively inside a non-final block that matches when it is reached,
and `""` when there is none; the hit ends the lookup: the context was changed
by the directives before the hit only, and blocks that follow are not
consulted. -/
theorem Config_Get_first_hit (env : Env) (c : Config) (key : String) (ctx : MatchContext)
    (hreg : Config.regular env c = true) :
    (∃ ctx1 : MatchContext,
      Config.Get env c key (some ctx) =
        .ret ((firstValue env key (Config.reached env c ctx), none), some ctx1) ∧
      ctx1.live =
        (applyDirectives env ctx (beforeHit env key (Config.reached env c ctx))).live) ∧
    (firstValue env key (Config.reached env c ctx) = "" ↔
      ∀ t ∈ Config.reached env c ctx, keyEquals env key t = false) ∧
    (firstValue env key (Config.reached env c ctx) ≠ "" →
      ∀ (more : List Block) (depth : Nat) (pos : Position),
        Config.Get env (.mk (c.Blocks ++ more) depth pos) key (some ctx) =
          Config.Get env c key (some ctx)) := by
  obtain ⟨⟨c1, hc1, hl1⟩, hm1⟩ := Config_Get_scan env key c ctx hreg
  refine ⟨⟨c1, hc1, hl1⟩, ⟨hm1, ?_⟩, ?_⟩
  · intro h
    have := firstValue_append_miss env key _ [] h
    simpa [firstValue] using this
  · intro hv more depth pos
    obtain ⟨blocks, d, p⟩ := c
    simp only [Config.Get, Config.Blocks] at hc1 ⊢
    rw [hc1]
    exact getLoop_append env key more blocks _ _ _ _ hc1 (Or.inl hv)

/-- Witness of `Config_Get_first_hit`: the key `port` looked up in
`sampleConfig` for the alias `testhost2`. -/
theorem Config_Get_first_hit_witness :
    Config.regular sampleEnv sampleConfig = true ∧
    firstValue sampleEnv "port"
      (Config.reached sampleEnv sampleConfig (NewMatchContext sampleEnv "testhost2" "")) =
        "1234" ∧
    (beforeHit sampleEnv "port"
      (Config.reached sampleEnv sampleConfig (NewMatchContext sampleEnv "testhost2" ""))).map
        KV.Key = ["HostName"] ∧
    ((∃ ctx1 : MatchContext,
      Config.Get sampleEnv sampleConfig "port" (some (NewMatchContext sampleEnv "testhost2" "")) =
        .ret ((firstValue sampleEnv "port"
          (Config.reached sampleEnv sampleConfig (NewMatchContext sampleEnv "testhost2" "")),
            none), some ctx1) ∧
      ctx1.live =
        (applyDirectives sampleEnv (NewMatchContext sampleEnv "testhost2" "")
          (beforeHit sampleEnv "port"
            (Config.reached sampleEnv sampleConfig
              (NewMatchContext sampleEnv "testhost2" "")))).live) ∧
    (firstValue sampleEnv "port"
        (Config.reached sampleEnv sampleConfig (NewMatchContext sampleEnv "testhost2" "")) = "" ↔
      ∀ t ∈ Config.reached sampleEnv sampleConfig (NewMatchContext sampleEnv "testhost2" ""),
        keyEquals sampleEnv "port" t = false) ∧
    (firstValue sampleEnv "port"
        (Config.reached sampleEnv sampleConfig (NewMatchContext sampleEnv "testhost2" "")) ≠ "" →
      ∀ (more : List Block) (depth : Nat) (pos : Position),
        Config.Get sampleEnv (.mk (sampleConfig.Blocks ++ more) depth pos) "port"
            (some (NewMatchContext sampleEnv "testhost2" "")) =
          Config.Get sampleEnv sampleConfig "port"
            (some (NewMatchContext sampleEnv "testhost2" "")))) :=
  ⟨by decide, by decide, by decide,
    Config_Get_first_hit sampleEnv sampleConfig "port" (NewMatchContext sampleEnv "testhost2" "")
      (by decide)⟩

/-- C3 fails on a config built with a directive keyed `Match`: the block
matches and holds `Port 22`, yet `GetAll` for `Port` returns no list, it
panics on the directive. -/
theorem Config_GetAll_panics_on_match_key :
    allValues sampleEnv "Port"
        (Config.reached sampleEnv matchKeyedConfig (NewMatchContext sampleEnv "h" "")) = ["22"] ∧
    Config.GetAll sampleEnv matchKeyedConfig "Port" (some (NewMatchContext sampleEnv "h" "")) =
      .panic "can't handle Match directives" := by
  refine ⟨by decide, ?_⟩
  rfl

/-- C3 as amended: for a config whose nodes are directives, comments and
Includes, without a directive keyed `match` and with Match blocks over the four
attributes (included configs likewise), `GetAll` returns with a nil error the
values, in file order, of all directives whose key equals the key
case-insensitively in the non-final blocks that match when they are reached,
the values behind an Include spliced in at its position; it does not stop at
the first hit (the context is changed by every reached directive), and the
list is empty when there is no such directive. -/
theorem Config_GetAll_all_hits (env : Env) (c : Config) (key : String) (ctx : MatchContext)
    (hwf : Config.wellFormed env c = true) :
    (∃ ctx1 : MatchContext,
      Config.GetAll env c key (some ctx) =
        .ret ((allValues env key (Config.reached env c ctx), none), some ctx1) ∧
      ctx1.live = (applyDirectives env ctx (Config.reached env c ctx)).live) ∧
    (allValues env key (Config.reached env c ctx) = [] ↔
      ∀ t ∈ Config.reached env c ctx, keyEquals env key t = false) := by
  obtain ⟨c1, hc1, hl1⟩ := Config_GetAll_scan env key c ctx hwf
  refine ⟨⟨c1, by simpa using hc1, hl1⟩, ?_⟩
  simp [allValues, List.filter_eq_nil_iff]

/-- Witness of `Config_GetAll_all_hits`: both identity files are returned, in
file order. -/
theorem Config_GetAll_all_hits_witness :
    Config.wellFormed sampleEnv identitiesConfig = true ∧
    allValues sampleEnv "IdentityFile"
      (Config.reached sampleEnv identitiesConfig (NewMatchContext sampleEnv "has2identity" ""))
        = ["f1", "f2"] ∧
    ((∃ ctx1 : MatchContext,
      Config.GetAll sampleEnv identitiesConfig "IdentityFile"
          (some (NewMatchContext sampleEnv "has2identity" "")) =
        .ret ((allValues sampleEnv "IdentityFile"
          (Config.reached sampleEnv identitiesConfig
            (NewMatchContext sampleEnv "has2identity" "")), none), some ctx1) ∧
      ctx1.live = (applyDirectives sampleEnv (NewMatchContext sampleEnv "has2identity" "")
        (Config.reached sampleEnv identitiesConfig
          (NewMatchContext sampleEnv "has2identity" ""))).live) ∧
    (allValues sampleEnv "IdentityFile"
        (Config.reached sampleEnv identitiesConfig
          (NewMatchContext sampleEnv "has2identity" "")) = [] ↔
      ∀ t ∈ Config.reached sampleEnv identitiesConfig
          (NewMatchContext sampleEnv "has2identity" ""),
        keyEquals sampleEnv "IdentityFile" t = false)) :=
  ⟨by decide, by decide,
    Config_GetAll_all_hits sampleEnv identitiesConfig "IdentityFile"
      (NewMatchContext sampleEnv "has2identity" "") (by decide)⟩

/-- C5: `Get` never reads a value out of a final block: outcome, returned value
and error, and the live fields of the resulting context (User, Host, LocalUser,
OriginalHost) are those of `Get` on the config with its final blocks removed.
When `Get` returns, its blocks split into the blocks `pre` that it passed and
the blocks `post` that it did not consult (none when the scan ran to its end
with an empty value and a nil error); the resulting `FinalBlocks` are the
former ones followed by a list `L` of final blocks, which holds every final
block of `pre` and nothing but final blocks met in `pre`, in file order. -/
theorem Config_Get_defers_final (env : Env) (c : Config) (key : String) (ctx : MatchContext) :
    observe (Config.Get env c key (some ctx)) =
      observe (Config.Get env c.withoutFinal key (some ctx)) ∧
    (∀ (r : String × GoError) (o : Option MatchContext),
      Config.Get env c key (some ctx) = .ret (r, o) →
      ∃ (c1 : MatchContext) (pre post L : List Block), o = some c1 ∧
        c.Blocks = pre ++ post ∧
        (∀ (depth : Nat) (pos : Position),
          Config.Get env (.mk pre depth pos) key (some ctx) = .ret (r, some c1)) ∧
        c1.FinalBlocks = ctx.FinalBlocks ++ L ∧
        (pre.filter Block.IsFinal).Sublist L ∧
        L.Sublist (finalsInBlocks pre) ∧ (∀ b ∈ L, b.IsFinal = true) ∧
        (r = ("", none) → post = [])) := by
  constructor
  · obtain ⟨blocks, d, p⟩ := c
    simp only [Config.Get, Config.withoutFinal]
    exact getLoop_withoutFinal env key blocks ctx ctx rfl
  · intro r o h
    obtain ⟨blocks, d, p⟩ := c
    simp only [Config.Get] at h
    obtain ⟨pre, post, L, hsplit, hget, ⟨c1, hc1, hf1, hs1⟩, hs, hpost⟩ :=
      getLoop_passed env key blocks ctx r o h
    subst hc1
    refine ⟨c1, pre, post, L, rfl, hsplit, fun _ _ => hget, hf1, hs, hs1, ?_, hpost⟩
    intro b hb
    exact finalsInBlocks_final pre b (hs1.subset hb)

/-! ## The claim on the lookup over the sources -/

/-- C6 as amended: with sources that loaded without error, configs that are
regular and final blocks without Include nodes, when the value that the scans
of the non-final blocks find is one that `findVal` hands on as it is (for a
list-modifier key it is not rewritten by `handleModifiers`, and the validator
accepts it), `GetStrict` returns with a nil error the value of the
specification: the first non-empty value found by scanning the non-final
blocks of the custom, then the user, then the system config; when all yield
nothing the first non-empty value of a matching deferred final block; and
when that yields nothing the default of the key. -/
theorem GetStrict_order (env : Env) (u : UserSettings) (hostAlias key user : String)
    (hload : u.onceErr = none)
    (hcustom : regularOpt env u.customConfig = true)
    (huser : regularOpt env u.userConfig = true)
    (hsystem : regularOpt env u.systemConfig = true)
    (hfinal : ∀ b ∈ finalBlocksOpt u.customConfig ++
        (finalBlocksOpt u.userConfig ++ finalBlocksOpt u.systemConfig), b.noInclude = true)
    (hsame : rewrittenValue env key (u.foundValue env hostAlias key user) =
      u.foundValue env hostAlias key user)
    (hvalid : u.foundValue env hostAlias key user ≠ "" →
      env.validate key (u.foundValue env hostAlias key user) = none) :
    u.GetStrict env hostAlias key user = .ret (u.specValue env hostAlias key user, none) := by
  have hcust : (match u.customConfig with
      | none => (Exec.ret (("", none), some (NewMatchContext env hostAlias user)) :
          Exec ((String × GoError) × Option MatchContext))
      | some c => findVal env (some c) key (some (NewMatchContext env hostAlias user))) =
      findVal env u.customConfig key (some (NewMatchContext env hostAlias user)) := by
    cases u.customConfig <;> rfl
  simp only [UserSettings.GetStrict, hload, ne_eq, not_true_eq_false, false_and, if_false, hcust]
  simp only [UserSettings.specValue]
  obtain ⟨s1hit, s1miss⟩ := findVal_stage_found env key u.customConfig
    (NewMatchContext env hostAlias user) hcustom
  by_cases hv1 : firstValue env key
      (reachedOpt env u.customConfig (NewMatchContext env hostAlias user)) = ""
  · obtain ⟨cA, hA, hlA, hfA, hsA⟩ := s1miss hv1
    obtain ⟨s2hit, s2miss⟩ := findVal_stage_found env key u.userConfig cA huser
    rw [reachedOpt_live env u.userConfig cA _ hlA] at s2hit s2miss
    rw [deferredOpt_live env u.userConfig cA _ hlA] at s2miss
    simp only [hA, hv1, ne_eq, not_true_eq_false, or_self, if_false]
    by_cases hv2 : firstValue env key (reachedOpt env u.userConfig
        (applyDirectives env (NewMatchContext env hostAlias user)
          (reachedOpt env u.customConfig (NewMatchContext env hostAlias user)))) = ""
    · obtain ⟨cB, hB, hlB, hfB, hsB⟩ := s2miss hv2
      have hlB' := hlB.trans (applyDirectives_live env _ cA _ hlA)
      obtain ⟨s3hit, s3miss⟩ := findVal_stage_found env key u.systemConfig cB hsystem
      rw [reachedOpt_live env u.systemConfig cB _ hlB'] at s3hit s3miss
      rw [deferredOpt_live env u.systemConfig cB _ hlB'] at s3miss
      simp only [hB, hv2, ne_eq, not_true_eq_false, or_self, if_false]
      by_cases hv3 : firstValue env key (reachedOpt env u.systemConfig
          (applyDirectives env
            (applyDirectives env (NewMatchContext env hostAlias user)
              (reachedOpt env u.customConfig (NewMatchContext env hostAlias user)))
            (reachedOpt env u.userConfig
              (applyDirectives env (NewMatchContext env hostAlias user)
                (reachedOpt env u.customConfig (NewMatchContext env hostAlias user)))))) = ""
      · obtain ⟨cC, hC, hlC, hfC, hsC⟩ := s3miss hv3
        have hlC' := hlC.trans (applyDirectives_live env _ cB _ hlB')
        simp only [hC, hv3, ne_eq, not_true_eq_false, or_self, if_false]
        have hfin : cC.FinalBlocks =
            deferredOpt env u.customConfig (NewMatchContext env hostAlias user) ++
            (deferredOpt env u.userConfig
              (applyDirectives env (NewMatchContext env hostAlias user)
                (reachedOpt env u.customConfig (NewMatchContext env hostAlias user))) ++
            deferredOpt env u.systemConfig
              (applyDirectives env
                (applyDirectives env (NewMatchContext env hostAlias user)
                  (reachedOpt env u.customConfig (NewMatchContext env hostAlias user)))
                (reachedOpt env u.userConfig
                  (applyDirectives env (NewMatchContext env hostAlias user)
                    (reachedOpt env u.customConfig
                      (NewMatchContext env hostAlias user)))))) := by
          rw [hfC, hfB, hfA]
          simp [NewMatchContext]
        have hreg : ∀ b ∈ cC.FinalBlocks, Block.regular env b = true ∧ b.noInclude = true := by
          intro b hb
          rw [hfin] at hb
          rcases List.mem_append.mp hb with h1 | h23
          · have := hsA.subset h1
            exact ⟨regularOpt_finalBlocks env _ hcustom b this,
              hfinal b (List.mem_append_left _ this)⟩
          · rcases List.mem_append.mp h23 with h2 | h3
            · have := hsB.subset h2
              exact ⟨regularOpt_finalBlocks env _ huser b this,
                hfinal b (List.mem_append_right _ (List.mem_append_left _ this))⟩
            · have := hsC.subset h3
              exact ⟨regularOpt_finalBlocks env _ hsystem b this,
                hfinal b (List.mem_append_right _ (List.mem_append_right _ this))⟩
        have hmf : cC.matchFinal env key = .ret (finalValue env key cC cC.FinalBlocks, none) :=
          matchFinalLoop_eq env key cC cC.FinalBlocks hreg
        rw [hmf, finalValue_live env key cC _ _ hlC', hfin]
        simp only
        by_cases hvf : finalValue env key
            (applyDirectives env
              (applyDirectives env
                (applyDirectives env (NewMatchContext env hostAlias user)
                  (reachedOpt env u.customConfig (NewMatchContext env hostAlias user)))
                (reachedOpt env u.userConfig
                  (applyDirectives env (NewMatchContext env hostAlias user)
                    (reachedOpt env u.customConfig (NewMatchContext env hostAlias user)))))
              (reachedOpt env u.systemConfig
                (applyDirectives env
                  (applyDirectives env (NewMatchContext env hostAlias user)
                    (reachedOpt env u.customConfig (NewMatchContext env hostAlias user)))
                  (reachedOpt env u.userConfig
                    (applyDirectives env (NewMatchContext env hostAlias user)
                      (reachedOpt env u.customConfig
                        (NewMatchContext env hostAlias user)))))))
            (deferredOpt env u.customConfig (NewMatchContext env hostAlias user) ++
            (deferredOpt env u.userConfig
              (applyDirectives env (NewMatchContext env hostAlias user)
                (reachedOpt env u.customConfig (NewMatchContext env hostAlias user))) ++
            deferredOpt env u.systemConfig
              (applyDirectives env
                (applyDirectives env (NewMatchContext env hostAlias user)
                  (reachedOpt env u.customConfig (NewMatchContext env hostAlias user)))
                (reachedOpt env u.userConfig
                  (applyDirectives env (NewMatchContext env hostAlias user)
                    (reachedOpt env u.customConfig
                      (NewMatchContext env hostAlias user))))))) = ""
        · simp [hvf]
        · simp [hvf]
      · have hf : u.foundValue env hostAlias key user = _ :=
          (by simp only [UserSettings.foundValue]; simp only [hv1, hv2, ne_eq,
            not_true_eq_false, if_false]; rfl)
        rw [hf] at hsame hvalid
        obtain ⟨cC, hC⟩ := s3hit hv3 hsame (hvalid hv3)
        simp [hC, hv3]
    · have hf : u.foundValue env hostAlias key user = _ :=
        (by simp only [UserSettings.foundValue]; simp only [hv1, hv2, ne_eq,
          not_true_eq_false, not_false_eq_true, if_false, if_true]; rfl)
      rw [hf] at hsame hvalid
      obtain ⟨cB, hB⟩ := s2hit hv2 hsame (hvalid hv2)
      simp [hB, hv2]
  · have hf : u.foundValue env hostAlias key user = _ :=
      (by simp only [UserSettings.foundValue]; simp only [hv1, ne_eq,
        not_false_eq_true, if_true]; rfl)
    rw [hf] at hsame hvalid
    obtain ⟨cA, hA⟩ := s1hit hv1 hsame (hvalid hv1)
    simp [hA, hv1]

/-- Witness of `GetStrict_order`: `Port` for the alias `testhost2` in
`sampleSettings`, with the validator of `strictEnv`, which checks that a port
is a number; the value `1234` of the normal block wins over the block
`Match final all` that is written before it. -/
theorem GetStrict_order_witness :
    sampleSettings.onceErr = none ∧
    regularOpt strictEnv sampleSettings.customConfig = true ∧
    regularOpt strictEnv sampleSettings.userConfig = true ∧
    regularOpt strictEnv sampleSettings.systemConfig = true ∧
    (∀ b ∈ finalBlocksOpt sampleSettings.customConfig ++
        (finalBlocksOpt sampleSettings.userConfig ++ finalBlocksOpt sampleSettings.systemConfig),
      b.noInclude = true) ∧
    sampleSettings.foundValue strictEnv "testhost2" "Port" "" = "1234" ∧
    strictEnv.validate "Port" "1234" = none ∧
    strictEnv.validate "Port" "notanumber" ≠ none ∧
    sampleSettings.specValue strictEnv "testhost2" "Port" "" = "1234" ∧
    sampleSettings.GetStrict strictEnv "testhost2" "Port" "" =
      .ret (sampleSettings.specValue strictEnv "testhost2" "Port" "", none) :=
  ⟨rfl, by decide, by decide, by decide, by decide, by decide, by decide, by decide, by decide,
    GetStrict_order strictEnv sampleSettings "testhost2" "Port" "" rfl (by decide) (by decide)
      (by decide) (by decide) (by decide) (by decide)⟩

/-- C6 fails for a value that `findVal` does not hand on as it is.  With
`modifierConfig` as the user config, the first non-empty value that the scan
finds for the list-modifier key `Ciphers` is `+a`, and `GetStrict` returns
the rewritten list, the default followed by `a`.  With `invalidPortSettings`
and a validator that checks ports, the scan finds `notanumber` for `Port`,
and `GetStrict` returns the empty string and the error of the validator. -/
theorem GetStrict_rewrites_modifier_value :
    firstValue sampleEnv "Ciphers"
      (Config.reached sampleEnv modifierConfig (NewMatchContext sampleEnv "h" "")) = "+a" ∧
    UserSettings.GetStrict sampleEnv
      { IgnoreErrors := false, customConfig := none, systemConfig := none,
        userConfig := some modifierConfig, onceErr := none } "h" "Ciphers" "" =
      .ret ("aes128-ctr,aes256-ctr,a", none) ∧
    invalidPortSettings.foundValue strictEnv "test.test" "Port" "" = "notanumber" ∧
    invalidPortSettings.GetStrict strictEnv "test.test" "Port" "" =
      .ret ("", strictEnv.validate "Port" "notanumber") ∧
    strictEnv.validate "Port" "notanumber" ≠ none :=
  ⟨by decide, by decide, by decide, by decide, by decide⟩

/-! ## The claims on the case of keys -/

mutual
theorem Config_Get_key_congr (env : Env) (k k2 : String)
    (h : env.ToLower k = env.ToLower k2) :
    ∀ (c : Config) (o : Option MatchContext), Config.Get env c k o = Config.Get env c k2 o
  | .mk blocks _ _, o => by
    simp only [Config.Get]
    exact getLoop_key_congr env k k2 h blocks o
theorem getLoop_key_congr (env : Env) (k k2 : String)
    (h : env.ToLower k = env.ToLower k2) :
    ∀ (bs : List Block) (o : Option MatchContext),
      Config.getLoop env bs k o = Config.getLoop env bs k2 o
  | [], _ => rfl
  | block :: rest, o => by
    simp only [Config.getLoop, handleBlock_key_congr env k k2 h block,
      getLoop_key_congr env k k2 h rest]
theorem handleBlock_key_congr (env : Env) (k k2 : String)
    (h : env.ToLower k = env.ToLower k2) :
    ∀ (b : Block) (o : Option MatchContext), handleBlock env b k o = handleBlock env b k2 o
  | .Host _ nodes _, o => by
    simp only [handleBlock]
    exact handleBlock_loop_key_congr env k k2 h nodes o
  | .Match _ nodes _, o => by
    simp only [handleBlock]
    exact handleBlock_loop_key_congr env k k2 h nodes o
theorem handleBlock_loop_key_congr (env : Env) (k k2 : String)
    (h : env.ToLower k = env.ToLower k2) :
    ∀ (ns : List Node) (o : Option MatchContext),
      handleBlock.loop env ns k o = handleBlock.loop env ns k2 o
  | [], _ => rfl
  | .Empty _ :: rest, o => by
    simp only [handleBlock.loop]
    exact handleBlock_loop_key_congr env k k2 h rest o
  | .KV t :: rest, o => by
    simp only [handleBlock.loop, h, handleBlock_loop_key_congr env k k2 h rest]
  | .Include files _ :: rest, o => by
    simp only [handleBlock.loop, Include_Get_key_congr env k k2 h files,
      handleBlock_loop_key_congr env k k2 h rest]
  | .other _ :: _, _ => rfl
theorem Include_Get_key_congr (env : Env) (k k2 : String)
    (h : env.ToLower k = env.ToLower k2) :
    ∀ (fs : List (String × Config)) (o : Option MatchContext),
      Include.Get env fs k o = Include.Get env fs k2 o
  | [], _ => rfl
  | (_, cfg) :: rest, o => by
    simp only [Include.Get, Config_Get_key_congr env k k2 h cfg,
      Include_Get_key_congr env k k2 h rest]
end

mutual
theorem Config_GetAll_key_congr (env : Env) (k k2 : String)
    (h : env.ToLower k = env.ToLower k2) :
    ∀ (c : Config) (o : Option MatchContext), Config.GetAll env c k o = Config.GetAll env c k2 o
  | .mk blocks _ _, o => by
    simp only [Config.GetAll]
    exact getAllLoop_key_congr env k k2 h blocks [] o
theorem getAllLoop_key_congr (env : Env) (k k2 : String)
    (h : env.ToLower k = env.ToLower k2) :
    ∀ (bs : List Block) (all : List String) (o : Option MatchContext),
      Config.getAllLoop env bs all k o = Config.getAllLoop env bs all k2 o
  | [], _, _ => rfl
  | block :: rest, all, o => by
    simp only [Config.getAllLoop, handleBlockAll_key_congr env k k2 h block,
      getAllLoop_key_congr env k k2 h rest]
theorem handleBlockAll_key_congr (env : Env) (k k2 : String)
    (h : env.ToLower k = env.ToLower k2) :
    ∀ (b : Block) (all : List String) (o : Option MatchContext),
      handleBlockAll env b all k o = handleBlockAll env b all k2 o
  | .Host _ nodes _, all, o => by
    simp only [handleBlockAll]
    exact handleBlockAll_loop_key_congr env k k2 h nodes all o
  | .Match _ nodes _, all, o => by
    simp only [handleBlockAll]
    exact handleBlockAll_loop_key_congr env k k2 h nodes all o
theorem handleBlockAll_loop_key_congr (env : Env) (k k2 : String)
    (h : env.ToLower k = env.ToLower k2) :
    ∀ (ns : List Node) (all : List String) (o : Option MatchContext),
      handleBlockAll.loop env ns all k o = handleBlockAll.loop env ns all k2 o
  | [], _, _ => rfl
  | .Empty _ :: rest, all, o => by
    simp only [handleBlockAll.loop]
    exact handleBlockAll_loop_key_congr env k k2 h rest all o
  | .KV t :: rest, all, o => by
    simp only [handleBlockAll.loop, h, handleBlockAll_loop_key_congr env k k2 h rest]
  | .Include files _ :: rest, all, o => by
    simp only [handleBlockAll.loop, Include_getAllLoop_key_congr env k k2 h files,
      handleBlockAll_loop_key_congr env k k2 h rest]
  | .other _ :: _, _, _ => rfl
theorem Include_getAllLoop_key_congr (env : Env) (k k2 : String)
    (h : env.ToLower k = env.ToLower k2) :
    ∀ (fs : List (String × Config)) (vals : List String) (o : Option MatchContext),
      Include.getAllLoop env fs vals k o = Include.getAllLoop env fs vals k2 o
  | [], _, _ => rfl
  | (_, cfg) :: rest, vals, o => by
    simp only [Include.getAllLoop, Config_GetAll_key_congr env k k2 h cfg,
      Include_getAllLoop_key_congr env k k2 h rest]
end

theorem handleBlock_loop_stored_key (env : Env) (key : String) (t : KV) (k2 : String)
    (post : List Node) (h : env.ToLower t.Key = env.ToLower k2) :
    ∀ (pre : List Node) (o : Option MatchContext),
      handleBlock.loop env (pre ++ .KV t :: post) key o =
        handleBlock.loop env (pre ++ .KV { t with Key := k2 } :: post) key o
  | [], o => by
    simp only [List.nil_append, handleBlock.loop, h]
  | .Empty _ :: pre, o => by
    simp only [List.cons_append, handleBlock.loop]
    exact handleBlock_loop_stored_key env key t k2 post h pre o
  | .KV u :: pre, o => by
    simp only [List.cons_append, handleBlock.loop, List.append_eq,
      handleBlock_loop_stored_key env key t k2 post h pre]
  | .Include files _ :: pre, o => by
    simp only [List.cons_append, handleBlock.loop, List.append_eq,
      handleBlock_loop_stored_key env key t k2 post h pre]
  | .other _ :: _, _ => rfl

theorem handleBlockAll_loop_stored_key (env : Env) (key : String) (t : KV) (k2 : String)
    (post : List Node) (h : env.ToLower t.Key = env.ToLower k2) :
    ∀ (pre : List Node) (all : List String) (o : Option MatchContext),
      handleBlockAll.loop env (pre ++ .KV t :: post) all key o =
        handleBlockAll.loop env (pre ++ .KV { t with Key := k2 } :: post) all key o
  | [], all, o => by
    simp only [List.nil_append, handleBlockAll.loop, h]
  | .Empty _ :: pre, all, o => by
    simp only [List.cons_append, handleBlockAll.loop]
    exact handleBlockAll_loop_stored_key env key t k2 post h pre all o
  | .KV u :: pre, all, o => by
    simp only [List.cons_append, handleBlockAll.loop, List.append_eq,
      handleBlockAll_loop_stored_key env key t k2 post h pre]
  | .Include files _ :: pre, all, o => by
    simp only [List.cons_append, handleBlockAll.loop, List.append_eq,
      handleBlockAll_loop_stored_key env key t k2 post h pre]
  | .other _ :: _, _, _ => rfl

/-- C12: two keys that are equal after lower-casing give the same outcome of
`Get` and of `GetAll`, value, error and resulting context alike, for every
config and every starting context; and a directive of the tree whose key is
replaced by one with the same lower-casing is treated in the same way by the
scan of its block. -/
theorem Config_Get_key_case (env : Env) (c : Config) (k k2 : String)
    (o : Option MatchContext) (h : env.ToLower k = env.ToLower k2) :
    Config.Get env c k o = Config.Get env c k2 o ∧
    Config.GetAll env c k o = Config.GetAll env c k2 o ∧
    (∀ (t : KV) (k3 : String) (pre post : List Node) (all : List String),
      env.ToLower t.Key = env.ToLower k3 →
      handleBlock.loop env (pre ++ .KV t :: post) k o =
        handleBlock.loop env (pre ++ .KV { t with Key := k3 } :: post) k o ∧
      handleBlockAll.loop env (pre ++ .KV t :: post) all k o =
        handleBlockAll.loop env (pre ++ .KV { t with Key := k3 } :: post) all k o) :=
  ⟨Config_Get_key_congr env k k2 h c o, Config_GetAll_key_congr env k k2 h c o,
    fun t k3 pre post all ht =>
      ⟨handleBlock_loop_stored_key env k t k3 post ht pre o,
        handleBlockAll_loop_stored_key env k t k3 post ht pre all o⟩⟩

/-- Witness of `Config_Get_key_case`: the keys `uSER` and `User`. -/
theorem Config_Get_key_case_witness :
    sampleEnv.ToLower "uSER" = sampleEnv.ToLower "User" ∧
    (Config.Get sampleEnv sampleConfig "uSER" (some (NewMatchContext sampleEnv "wap" "")) =
      Config.Get sampleEnv sampleConfig "User" (some (NewMatchContext sampleEnv "wap" "")) ∧
    Config.GetAll sampleEnv sampleConfig "uSER" (some (NewMatchContext sampleEnv "wap" "")) =
      Config.GetAll sampleEnv sampleConfig "User" (some (NewMatchContext sampleEnv "wap" "")) ∧
    (∀ (t : KV) (k3 : String) (pre post : List Node) (all : List String),
      sampleEnv.ToLower t.Key = sampleEnv.ToLower k3 →
      handleBlock.loop sampleEnv (pre ++ .KV t :: post) "uSER"
          (some (NewMatchContext sampleEnv "wap" "")) =
        handleBlock.loop sampleEnv (pre ++ .KV { t with Key := k3 } :: post) "uSER"
          (some (NewMatchContext sampleEnv "wap" "")) ∧
      handleBlockAll.loop sampleEnv (pre ++ .KV t :: post) all "uSER"
          (some (NewMatchContext sampleEnv "wap" "")) =
        handleBlockAll.loop sampleEnv (pre ++ .KV { t with Key := k3 } :: post) all "uSER"
          (some (NewMatchContext sampleEnv "wap" "")))) :=
  ⟨by decide,
    Config_Get_key_case sampleEnv sampleConfig "uSER" "User"
      (some (NewMatchContext sampleEnv "wap" "")) (by decide)⟩

/-- C13 fails for the list-modifier keys: `findVal` looks the key up in
`modifiableKeys` as it was given, so with `modifierConfig` as the user config
the key `Ciphers` gives the rewritten list and the key `ciphers`, equal to it
after lower-casing, gives the stored text `+a`. -/
theorem GetStrict_modifier_key_case :
    sampleEnv.ToLower "Ciphers" = sampleEnv.ToLower "ciphers" ∧
    sampleEnv.Default "Ciphers" = sampleEnv.Default "ciphers" ∧
    UserSettings.GetStrict sampleEnv
      { IgnoreErrors := false, customConfig := none, systemConfig := none,
        userConfig := some modifierConfig, onceErr := none } "h" "Ciphers" "" =
      .ret ("aes128-ctr,aes256-ctr,a", none) ∧
    UserSettings.GetStrict sampleEnv
      { IgnoreErrors := false, customConfig := none, systemConfig := none,
        userConfig := some modifierConfig, onceErr := none } "h" "ciphers" "" =
      .ret ("+a", none) := by
  decide

/-! ## Facts about splitting and joining -/

theorem splitChars_ne_nil (sep : Char) : ∀ cs : List Char, splitChars sep cs ≠ []
  | [] => by simp [splitChars]
  | c :: r => by
    unfold splitChars
    by_cases h : c = sep
    · simp [h]
    · rw [if_neg h]
      cases e : splitChars sep r <;> simp

theorem splitChars_no_sep (sep : Char) :
    ∀ (cs : List Char), ∀ p ∈ splitChars sep cs, sep ∉ p
  | [], p, hp => by
    simp only [splitChars, List.mem_singleton] at hp
    simp [hp]
  | c :: r, p, hp => by
    unfold splitChars at hp
    by_cases h : c = sep
    · rw [if_pos h] at hp
      rcases List.mem_cons.1 hp with e | e
      · simp [e]
      · exact splitChars_no_sep sep r p e
    · rw [if_neg h] at hp
      have ih := splitChars_no_sep sep r
      cases e : splitChars sep r with
      | nil =>
        rw [e] at hp
        simp only [List.mem_singleton] at hp
        subst hp
        simpa using fun hc => h hc.symm
      | cons hd tl =>
        rw [e] at hp ih
        rcases List.mem_cons.1 hp with e1 | e1
        · subst e1
          have := ih hd (List.mem_cons_self _ _)
          intro hm
          rcases List.mem_cons.1 hm with e2 | e2
          · exact h e2.symm
          · exact this e2
        · exact ih p (List.mem_cons_of_mem _ e1)

theorem splitChars_append_sep (sep : Char) (r : List Char) :
    ∀ p : List Char, sep ∉ p → splitChars sep (p ++ sep :: r) = p :: splitChars sep r
  | [], _ => by simp [splitChars]
  | c :: p, hp => by
    have hc : c ≠ sep := fun e => hp (by simp [e])
    have ih := splitChars_append_sep sep r p (fun hm => hp (List.mem_cons_of_mem _ hm))
    simp only [List.cons_append, splitChars, if_neg hc, List.append_eq, ih]

theorem splitChars_single (sep : Char) :
    ∀ p : List Char, sep ∉ p → splitChars sep p = [p]
  | [], _ => rfl
  | c :: p, hp => by
    have hc : c ≠ sep := fun e => hp (by simp [e])
    have ih := splitChars_single sep p (fun hm => hp (List.mem_cons_of_mem _ hm))
    simp only [splitChars, if_neg hc, ih]

theorem stringsSplit_ne_nil (s : String) (sep : Char) : stringsSplit s sep ≠ [] := by
  simp [stringsSplit, splitChars_ne_nil]

theorem stringsSplit_no_sep (s : String) (sep : Char) :
    ∀ a ∈ stringsSplit s sep, sep ∉ a.data := by
  intro a ha
  simp only [stringsSplit, List.mem_map] at ha
  obtain ⟨p, hp, rfl⟩ := ha
  exact splitChars_no_sep sep s.data p hp

theorem stringsJoin_cons (a : String) (sep : String) :
    ∀ l : List String, l ≠ [] → stringsJoin (a :: l) sep = a ++ sep ++ stringsJoin l sep
  | [], h => absurd rfl h
  | _ :: _, _ => rfl

theorem stringsJoin_append (sep : String) (l2 : List String) (h2 : l2 ≠ []) :
    ∀ l1 : List String, l1 ≠ [] →
      stringsJoin (l1 ++ l2) sep = stringsJoin l1 sep ++ sep ++ stringsJoin l2 sep
  | [], h => absurd rfl h
  | [a], _ => by
    rw [List.singleton_append, stringsJoin_cons a sep l2 h2]
    rfl
  | a :: b :: r, _ => by
    have ih := stringsJoin_append sep l2 h2 (b :: r) (by simp)
    rw [List.cons_append, stringsJoin_cons a sep _ (by simp), ih,
      stringsJoin_cons a sep (b :: r) (by simp)]
    simp only [String.append_assoc]

theorem stringsJoin_split (cs : List Char) :
    stringsJoin (stringsSplit (String.mk cs) ',') "," = String.mk cs := by
  induction cs with
  | nil => rfl
  | cons c r ih =>
    simp only [stringsSplit] at ih ⊢
    unfold splitChars
    have hne := splitChars_ne_nil ',' r
    by_cases h : c = ','
    · rw [if_pos h, List.map_cons, stringsJoin_cons _ _ _ (by simpa using hne), ih, h]
      rfl
    · rw [if_neg h]
      cases e : splitChars ',' r with
      | nil => exact absurd e hne
      | cons hd tl =>
        rw [e] at ih
        cases tl with
        | nil =>
          simp only [List.map_cons, List.map_nil, stringsJoin] at ih ⊢
          have e2 : hd = r := congrArg String.data ih
          rw [e2]
        | cons b tl2 =>
          simp only [List.map_cons] at ih ⊢
          rw [stringsJoin_cons _ _ _ (by simp)] at ih ⊢
          have e2 := congrArg String.data ih
          apply String.ext
          simp only [String.data_append, List.append_assoc] at e2 ⊢
          rw [← e2]
          rfl

theorem stringsSplit_join :
    ∀ l : List String, l ≠ [] → (∀ a ∈ l, ',' ∉ a.data) →
      stringsSplit (stringsJoin l ",") ',' = l
  | [], h, _ => absurd rfl h
  | [a], _, hc => by
    simp only [stringsJoin, stringsSplit,
      splitChars_single ',' a.data (hc a (List.mem_singleton_self a)), List.map_cons,
      List.map_nil]
  | a :: b :: r, _, hc => by
    have ih := stringsSplit_join (b :: r) (by simp)
      (fun x hx => hc x (List.mem_cons_of_mem _ hx))
    have ha := hc a (List.mem_cons_self _ _)
    rw [stringsJoin_cons a "," (b :: r) (by simp)]
    simp only [stringsSplit] at ih ⊢
    have e : (a ++ "," ++ stringsJoin (b :: r) ",").data =
        a.data ++ ',' :: (stringsJoin (b :: r) ",").data := by
      simp [String.data_append]
    rw [e, splitChars_append_sep ',' _ a.data ha, List.map_cons, ih]

/-! ## The claims on the list modifiers -/

theorem handleModifiers_plus_eq (env : Env) (rest key : String) :
    handleModifiers env ("+" ++ rest) key =
      stringsJoin (stringsSplit (env.Default key) ',' ++ stringsSplit rest ',') "," := by
  have e : ("+" ++ rest).data = '+' :: rest.data := by
    simp only [String.data_append]
    rfl
  unfold handleModifiers
  rw [e]
  simp

theorem handleModifiers_minus_eq (env : Env) (rest key : String) :
    handleModifiers env ("-" ++ rest) key =
      stringsJoin ((stringsSplit (env.Default key) ',').filter
        (fun a => !(stringsSplit rest ',').contains a)) "," := by
  have e : ("-" ++ rest).data = '-' :: rest.data := by
    simp only [String.data_append]
    rfl
  unfold handleModifiers
  rw [e]
  simp

theorem handleModifiers_caret_eq (env : Env) (rest key : String) :
    handleModifiers env ("^" ++ rest) key =
      stringsJoin ((stringsSplit (env.Default key) ',').foldl
        (fun out a => if out.contains a then out else out ++ [a])
        ((stringsSplit rest ',').filter
          (fun a => (stringsSplit (env.Default key) ',').contains a))) "," := by
  have e : ("^" ++ rest).data = '^' :: rest.data := by
    simp only [String.data_append]
    rfl
  unfold handleModifiers
  rw [e]
  simp

theorem modifier_value_ne_empty (m rest : String) (hm : m.data ≠ []) : m ++ rest ≠ "" := by
  intro h
  have := congrArg String.data h
  simp only [String.data_append] at this
  exact hm (List.append_eq_nil.1 this).1

theorem findVal_modifiable (env : Env) (c : Config) (key v : String)
    (ctx ctx1 : Option MatchContext)
    (hk : modifiableKeys.contains key = true)
    (hget : Config.Get env c key ctx = .ret ((v, none), ctx1)) (hv : v ≠ "")
    (hval : env.validate key (handleModifiers env v key) = none) :
    findVal env (some c) key ctx = .ret ((handleModifiers env v key, none), ctx1) := by
  simp only [findVal, hget, hk, if_true, hval]
  rw [if_neg]
  simp [hv]

theorem foldl_dedup_nodup :
    ∀ (d out : List String), d.Nodup →
      d.foldl (fun out a => if out.contains a then out else out ++ [a]) out =
        out ++ d.filter (fun a => !out.contains a)
  | [], out, _ => by simp
  | a :: d, out, hnd => by
    have ha : a ∉ d := (List.nodup_cons.1 hnd).1
    have hd : d.Nodup := (List.nodup_cons.1 hnd).2
    simp only [List.foldl_cons]
    by_cases h : out.contains a = true
    · rw [if_pos h, foldl_dedup_nodup d out hd]
      have h2 : a ∈ out := by simpa using h
      simp [List.filter_cons, h2]
    · rw [if_neg h, foldl_dedup_nodup d (out ++ [a]) hd]
      have e : d.filter (fun x => !(out ++ [a]).contains x) =
          d.filter (fun x => !out.contains x) := by
        apply List.filter_congr
        intro x hx
        have hxa : x ≠ a := fun e => ha (e ▸ hx)
        simp [hxa]
      rw [e]
      have h2 : a ∉ out := by simpa using h
      simp [List.filter_cons, h2]

/-- C14: for a value `+rest` the function `handleModifiers` returns
`Default(key)` followed by a comma and `rest`, for every key and so for the
four list-modifier keys; and `findVal` returns this text for a key of
`modifiableKeys` whenever the scan finds `+rest` and the validator accepts the
rewritten text. -/
theorem handleModifiers_plus (env : Env) (rest key : String) :
    handleModifiers env ("+" ++ rest) key = env.Default key ++ "," ++ rest ∧
    modifiableKeys = ["Ciphers", "MACs", "HostKeyAlgorithms", "KexAlgorithms"] ∧
    (∀ (c : Config) (ctx ctx1 : Option MatchContext),
      modifiableKeys.contains key = true →
      Config.Get env c key ctx = .ret (("+" ++ rest, none), ctx1) →
      env.validate key (env.Default key ++ "," ++ rest) = none →
      findVal env (some c) key ctx = .ret ((env.Default key ++ "," ++ rest, none), ctx1)) := by
  have e : handleModifiers env ("+" ++ rest) key = env.Default key ++ "," ++ rest := by
    rw [handleModifiers_plus_eq,
      stringsJoin_append "," _ (stringsSplit_ne_nil rest ',') _
        (stringsSplit_ne_nil (env.Default key) ',')]
    have e1 := stringsJoin_split (env.Default key).data
    have e2 := stringsJoin_split rest.data
    rw [e1, e2]
  refine ⟨e, rfl, ?_⟩
  intro c ctx ctx1 hk hget hval
  rw [← e] at hval ⊢
  exact findVal_modifiable env c key _ ctx ctx1 hk hget
    (modifier_value_ne_empty "+" rest (by decide)) hval

/-- C15: for a value `-rest` the function `handleModifiers` returns the
comma-joined list of the entries of `Default(key)` that do not occur in the
comma-split of `rest`, in default order: the kept list is a sublist of the
default list, its members are exactly the default entries not named in
`rest`, a non-empty kept list is the comma-split of the result, and `findVal`
returns this text for a key of `modifiableKeys`. -/
theorem handleModifiers_minus (env : Env) (rest key : String) :
    handleModifiers env ("-" ++ rest) key =
      stringsJoin ((stringsSplit (env.Default key) ',').filter
        (fun a => !(stringsSplit rest ',').contains a)) "," ∧
    ((stringsSplit (env.Default key) ',').filter
        (fun a => !(stringsSplit rest ',').contains a)).Sublist
      (stringsSplit (env.Default key) ',') ∧
    (∀ a : String,
      a ∈ (stringsSplit (env.Default key) ',').filter
          (fun a => !(stringsSplit rest ',').contains a) ↔
        a ∈ stringsSplit (env.Default key) ',' ∧ a ∉ stringsSplit rest ',') ∧
    ((stringsSplit (env.Default key) ',').filter
        (fun a => !(stringsSplit rest ',').contains a) ≠ [] →
      stringsSplit (handleModifiers env ("-" ++ rest) key) ',' =
        (stringsSplit (env.Default key) ',').filter
          (fun a => !(stringsSplit rest ',').contains a)) ∧
    (∀ (c : Config) (ctx ctx1 : Option MatchContext),
      modifiableKeys.contains key = true →
      Config.Get env c key ctx = .ret (("-" ++ rest, none), ctx1) →
      env.validate key (handleModifiers env ("-" ++ rest) key) = none →
      findVal env (some c) key ctx =
        .ret ((stringsJoin ((stringsSplit (env.Default key) ',').filter
          (fun a => !(stringsSplit rest ',').contains a)) ",", none), ctx1)) := by
  have e := handleModifiers_minus_eq env rest key
  refine ⟨e, List.filter_sublist _, ?_, ?_, ?_⟩
  · intro a
    simp [List.mem_filter]
  · intro hne
    rw [e]
    apply stringsSplit_join _ hne
    intro a ha
    exact stringsSplit_no_sep _ ',' a (List.mem_filter.1 ha).1
  · intro c ctx ctx1 hk hget hval
    rw [← e]
    exact findVal_modifiable env c key _ ctx ctx1 hk hget
      (modifier_value_ne_empty "-" rest (by decide)) hval

/-! ## The claim on the error of the lookup over the sources -/

theorem findVal_stage_checked (env : Env) (key : String) (oc : Option Config)
    (ctx : MatchContext) (hreg : regularOpt env oc = true) :
    ∃ c1 : MatchContext,
      findVal env oc key (some ctx) =
        .ret (((checkedValue env key (firstValue env key (reachedOpt env oc ctx))).1,
          (checkedValue env key (firstValue env key (reachedOpt env oc ctx))).2), some c1) ∧
      c1.live = (applyDirectives env ctx (beforeHit env key (reachedOpt env oc ctx))).live ∧
      ∃ L : List Block, c1.FinalBlocks = ctx.FinalBlocks ++ L ∧
        L.Sublist (finalBlocksOpt oc) := by
  cases oc with
  | none =>
    refine ⟨ctx, rfl, rfl, [], by simp, by simp [finalBlocksOpt]⟩
  | some c =>
    simp only [regularOpt] at hreg
    simp only [reachedOpt, finalBlocksOpt]
    obtain ⟨⟨c1, hc1, hl1⟩, _⟩ := Config_Get_scan env key c ctx hreg
    obtain ⟨L, ⟨c2, hc2, hf2, hs2⟩, _⟩ := Config_Get_deferred env key c ctx _ _ hc1
    simp only [Option.some.injEq] at hc2
    subst hc2
    refine ⟨c1, ?_, hl1, L, hf2, hs2⟩
    simp only [findVal, hc1, checkedValue, rewrittenValue]
    by_cases hv : firstValue env key (Config.reached env c ctx) = ""
    · simp [hv]
    · simp only [hv, ne_eq, not_true_eq_false, or_self, if_false]
      cases env.validate key
        (if modifiableKeys.contains key = true then
          handleModifiers env (firstValue env key (Config.reached env c ctx)) key
        else firstValue env key (Config.reached env c ctx)) <;> rfl

theorem matchFinal_no_error (env : Env) (key : String) (c : MatchContext)
    (h : ∀ b ∈ c.FinalBlocks, Block.regular env b = true ∧ b.noInclude = true)
    (ctx2 : Option MatchContext) (h2 : ctx2 = some c) :
    ∃ val : String,
      (match ctx2 with
        | none => (Exec.panic nilDeref : Exec (String × GoError))
        | some c2 =>
          match c2.matchFinal env key with
          | .panic m => .panic m
          | .ret (val3, err3) =>
            if err3 ≠ none ∨ val3 ≠ "" then .ret (val3, err3)
            else .ret (env.Default key, none)) = .ret (val, none) := by
  subst h2
  have hmf : c.matchFinal env key = .ret (finalValue env key c c.FinalBlocks, none) :=
    matchFinalLoop_eq env key c c.FinalBlocks h
  simp only [hmf]
  by_cases hv : finalValue env key c c.FinalBlocks = ""
  · exact ⟨env.Default key, by simp [hv]⟩
  · exact ⟨finalValue env key c c.FinalBlocks, by simp [hv]⟩

/-- C20 as amended: when the sources are regular configs whose final blocks
hold no Include node, `GetStrict` returns a value and an error, and the error
is the one of the specification: the recorded load error when a file could
not be parsed and `IgnoreErrors` is false; else the error with which the
validator rejects the value found in the first of the custom, user and system
config that ends the lookup; and nil in every other case. -/
theorem GetStrict_error (env : Env) (u : UserSettings) (hostAlias key user : String)
    (hcustom : regularOpt env u.customConfig = true)
    (huser : regularOpt env u.userConfig = true)
    (hsystem : regularOpt env u.systemConfig = true)
    (hfinal : ∀ b ∈ finalBlocksOpt u.customConfig ++
        (finalBlocksOpt u.userConfig ++ finalBlocksOpt u.systemConfig), b.noInclude = true) :
    ∃ val : String,
      u.GetStrict env hostAlias key user = .ret (val, u.specError env hostAlias key user) := by
  by_cases hload : u.onceErr ≠ none ∧ u.IgnoreErrors = false
  · exact ⟨"", by simp only [UserSettings.GetStrict, UserSettings.specError, if_pos hload]⟩
  · have hcust : (match u.customConfig with
        | none => (Exec.ret (("", none), some (NewMatchContext env hostAlias user)) :
            Exec ((String × GoError) × Option MatchContext))
        | some c => findVal env (some c) key (some (NewMatchContext env hostAlias user))) =
        findVal env u.customConfig key (some (NewMatchContext env hostAlias user)) := by
      cases u.customConfig <;> rfl
    simp only [UserSettings.GetStrict, UserSettings.specError, if_neg hload, hcust]
    obtain ⟨cA, hA, hlA, LA, hfA, hsA⟩ := findVal_stage_checked env key u.customConfig
      (NewMatchContext env hostAlias user) hcustom
    rw [hA]
    simp only
    by_cases h1 : (checkedValue env key (firstValue env key (reachedOpt env u.customConfig
        (NewMatchContext env hostAlias user)))).2 ≠ none ∨
        (checkedValue env key (firstValue env key (reachedOpt env u.customConfig
        (NewMatchContext env hostAlias user)))).1 ≠ ""
    · rw [if_pos h1, if_pos h1]
      exact ⟨_, rfl⟩
    · rw [if_neg h1, if_neg h1]
      obtain ⟨cB, hB, hlB, LB, hfB, hsB⟩ := findVal_stage_checked env key u.userConfig cA huser
      rw [reachedOpt_live env u.userConfig cA _ hlA] at hB hlB
      have hlB2 := hlB.trans (applyDirectives_live env _ cA _ hlA)
      rw [hB]
      simp only
      by_cases h2 : (checkedValue env key (firstValue env key (reachedOpt env u.userConfig
          (applyDirectives env (NewMatchContext env hostAlias user)
            (beforeHit env key (reachedOpt env u.customConfig
              (NewMatchContext env hostAlias user))))))).2 ≠ none ∨
          (checkedValue env key (firstValue env key (reachedOpt env u.userConfig
          (applyDirectives env (NewMatchContext env hostAlias user)
            (beforeHit env key (reachedOpt env u.customConfig
              (NewMatchContext env hostAlias user))))))).1 ≠ ""
      · rw [if_pos h2, if_pos h2]
        exact ⟨_, rfl⟩
      · rw [if_neg h2, if_neg h2]
        obtain ⟨cC, hC, _, LC, hfC, hsC⟩ :=
          findVal_stage_checked env key u.systemConfig cB hsystem
        rw [reachedOpt_live env u.systemConfig cB _ hlB2] at hC
        rw [hC]
        simp only
        by_cases h3 : (checkedValue env key (firstValue env key (reachedOpt env u.systemConfig
            (applyDirectives env
              (applyDirectives env (NewMatchContext env hostAlias user)
                (beforeHit env key (reachedOpt env u.customConfig
                  (NewMatchContext env hostAlias user))))
              (beforeHit env key (reachedOpt env u.userConfig
                (applyDirectives env (NewMatchContext env hostAlias user)
                  (beforeHit env key (reachedOpt env u.customConfig
                    (NewMatchContext env hostAlias user)))))))))).2 ≠ none ∨
            (checkedValue env key (firstValue env key (reachedOpt env u.systemConfig
            (applyDirectives env
              (applyDirectives env (NewMatchContext env hostAlias user)
                (beforeHit env key (reachedOpt env u.customConfig
                  (NewMatchContext env hostAlias user))))
              (beforeHit env key (reachedOpt env u.userConfig
                (applyDirectives env (NewMatchContext env hostAlias user)
                  (beforeHit env key (reachedOpt env u.customConfig
                    (NewMatchContext env hostAlias user)))))))))).1 ≠ ""
        · rw [if_pos h3, if_pos h3]
          exact ⟨_, rfl⟩
        · rw [if_neg h3, if_neg h3]
          have hreg : ∀ b ∈ cC.FinalBlocks,
              Block.regular env b = true ∧ b.noInclude = true := by
            intro b hb
            rw [hfC, hfB, hfA] at hb
            simp only [NewMatchContext, List.nil_append, List.mem_append] at hb
            rcases hb with (h1 | h2) | h3
            · have := hsA.subset h1
              exact ⟨regularOpt_finalBlocks env _ hcustom b this,
                hfinal b (List.mem_append_left _ this)⟩
            · have := hsB.subset h2
              exact ⟨regularOpt_finalBlocks env _ huser b this,
                hfinal b (List.mem_append_right _ (List.mem_append_left _ this))⟩
            · have := hsC.subset h3
              exact ⟨regularOpt_finalBlocks env _ hsystem b this,
                hfinal b (List.mem_append_right _ (List.mem_append_right _ this))⟩
          exact matchFinal_no_error env key cC hreg (some cC) rfl

/-- Witness of `GetStrict_error`: `Port` for the alias `test.test` in
`invalidPortSettings`, whose files all loaded; the error is the one of the
validator. -/
theorem GetStrict_error_witness :
    regularOpt strictEnv invalidPortSettings.customConfig = true ∧
    regularOpt strictEnv invalidPortSettings.userConfig = true ∧
    regularOpt strictEnv invalidPortSettings.systemConfig = true ∧
    (∀ b ∈ finalBlocksOpt invalidPortSettings.customConfig ++
        (finalBlocksOpt invalidPortSettings.userConfig ++
          finalBlocksOpt invalidPortSettings.systemConfig), b.noInclude = true) ∧
    ∃ val : String,
      invalidPortSettings.GetStrict strictEnv "test.test" "Port" "" =
        .ret (val, invalidPortSettings.specError strictEnv "test.test" "Port" "") :=
  ⟨by decide, by decide, by decide, by decide,
    GetStrict_error strictEnv invalidPortSettings "test.test" "Port" ""
      (by decide) (by decide) (by decide) (by decide)⟩

/-- C20 fails when the validator rejects the value that was found: in
`invalidPortSettings` every file was parsed and no error was recorded, yet
`GetStrict` returns for `Port` the error of the validator, as the test
`TestGetInvalidPort` expects. -/
theorem GetStrict_returns_validation_error :
    invalidPortSettings.onceErr = none ∧
    invalidPortSettings.IgnoreErrors = false ∧
    invalidPortSettings.GetStrict strictEnv "test.test" "Port" "" =
      .ret ("", some ("ssh_config: strconv.ParseUint: parsing " ++ String.mk [Char.ofNat 34] ++
        "notanumber" ++ String.mk [Char.ofNat 34] ++ ": invalid syntax")) := by
  decide

/-! ## Facts about the parser -/

theorem parseLoop_ok (parse : String → Nat → Except PanicValue (Except ErrorValue Config))
    (depth : Nat) :
    ∀ (ms : List String) (files : List (String × Config)),
      NewInclude.parseLoop parse depth ms = .ok (.ok files) →
      files.map Prod.fst = ms ∧ ∀ fc ∈ files, parse fc.1 depth = .ok (.ok fc.2)
  | [], files, h => by
    simp only [NewInclude.parseLoop, Except.ok.injEq] at h
    subst h
    simp
  | m :: rest, files, h => by
    simp only [NewInclude.parseLoop] at h
    cases hp : parse m depth with
    | error pv => rw [hp] at h; simp at h
    | ok r =>
      cases r with
      | error e => rw [hp] at h; simp at h
      | ok config =>
        rw [hp] at h
        simp only at h
        cases hr : NewInclude.parseLoop parse depth rest with
        | error pv => rw [hr] at h; simp at h
        | ok r2 =>
          cases r2 with
          | error e => rw [hr] at h; simp at h
          | ok fs =>
            rw [hr] at h
            simp only [Except.ok.injEq] at h
            subst h
            obtain ⟨h1, h2⟩ := parseLoop_ok parse depth rest fs hr
            refine ⟨by simp [h1], ?_⟩
            intro fc hfc
            rcases List.mem_cons.1 hfc with e | e
            · subst e
              exact hp
            · exact h2 fc e

theorem NewInclude_ok (os : OS)
    (parse : String → Nat → Except PanicValue (Except ErrorValue Config))
    (directives : List String) (hasEquals : Bool) (pos : Position) (comment : String)
    (system : Bool) (depth : Nat) (n : Node)
    (h : NewInclude os parse directives hasEquals pos comment system depth = .ok (.ok n)) :
    depth ≤ maxRecurseDepth ∧
    ∃ files : List (String × Config),
      n = .Include files
        { Comment := comment, directives := directives, leadingSpace := pos.Col - 1,
          position := pos, depth := depth, hasEquals := hasEquals } ∧
      ∀ fc ∈ files, parse fc.1 depth = .ok (.ok fc.2) := by
  unfold NewInclude at h
  by_cases hd : depth > maxRecurseDepth
  · rw [if_pos hd] at h
    simp at h
  · rw [if_neg hd] at h
    refine ⟨Nat.le_of_not_lt hd, ?_⟩
    cases hg : NewInclude.globLoop os system directives with
    | error e => rw [hg] at h; simp at h
    | ok found =>
      rw [hg] at h
      simp only at h
      cases hp : NewInclude.parseLoop parse depth (removeDups found) with
      | error pv => rw [hp] at h; simp at h
      | ok r =>
        cases r with
        | error e => rw [hp] at h; simp at h
        | ok files =>
          rw [hp] at h
          simp only [Except.ok.injEq] at h
          exact ⟨files, h.symm, (parseLoop_ok parse depth _ files hp).2⟩

theorem matchBranch_ok (env : Env) (os : OS) (p : sshParser) (hasEquals : Bool) (val : token)
    (comment : String) (p1 : sshParser)
    (h : parseKV.matchBranch env os p hasEquals val comment = .ok p1) :
    p1.tokens = p.tokens ∧ p1.system = p.system ∧ p1.depth = p.depth ∧
    ∃ b : Block, b.GetNodes = [] ∧ p1.config = p.config.appendBlock b := by
  unfold parseKV.matchBranch at h
  simp only at h
  split at h
  · simp at h
  · split at h
    · simp at h
    · split at h
      · simp only [Except.ok.injEq] at h
        subst h
        refine ⟨rfl, rfl, rfl, _, ?_, rfl⟩
        rfl
      · split at h
        · simp at h
        · split at h
          · simp at h
          · simp only [Except.ok.injEq] at h
            subst h
            refine ⟨rfl, rfl, rfl, _, ?_, rfl⟩
            rfl

theorem hostBranch_ok (os : OS) (p : sshParser) (hasEquals : Bool) (val : token)
    (comment : String) (p1 : sshParser)
    (h : parseKV.hostBranch os p hasEquals val comment = .ok p1) :
    p1.tokens = p.tokens ∧ p1.system = p.system ∧ p1.depth = p.depth ∧
    ∃ b : Block, b.GetNodes = [] ∧ p1.config = p.config.appendBlock b := by
  unfold parseKV.hostBranch at h
  split at h
  · simp at h
  · simp only [Except.ok.injEq] at h
    subst h
    refine ⟨rfl, rfl, rfl, _, ?_, rfl⟩
    rfl

theorem nodeBranch_ok (env : Env) (os : OS)
    (parse : String → Nat → Except PanicValue (Except ErrorValue Config))
    (p : sshParser) (key : token) (hasEquals : Bool) (val : token) (comment : String)
    (p1 : sshParser)
    (h : parseKV.nodeBranch env os parse p key hasEquals val comment = .ok p1) :
    p1.tokens = p.tokens ∧ p1.system = p.system ∧ p1.depth = p.depth ∧
    ∃ n : Node, p.config.appendNode n = some p1.config ∧ madeNode parse p.depth n := by
  unfold parseKV.nodeBranch at h
  split at h
  · simp at h
  · split at h
    · split at h
      · simp at h
      · split at h <;> simp at h
      · rename_i inc hinc
        obtain ⟨hd, files, hn, hf⟩ := NewInclude_ok os parse _ _ _ _ _ _ _ hinc
        split at h
        · simp at h
        · rename_i c hc
          simp only [Except.ok.injEq] at h
          subst h
          refine ⟨rfl, rfl, rfl, inc, hc, ?_⟩
          subst hn
          exact ⟨rfl, hd, hf⟩
    · simp only at h
      split at h
      · simp at h
      · rename_i c hc
        simp only [Except.ok.injEq] at h
        subst h
        exact ⟨rfl, rfl, rfl, _, hc, trivial⟩

theorem dispatch_ok (env : Env) (os : OS)
    (parse : String → Nat → Except PanicValue (Except ErrorValue Config))
    (p : sshParser) (key : token) (hasEquals : Bool) (val : token) (comment : String)
    (p1 : sshParser)
    (h : (if env.ToLower key.val = "match" then
            parseKV.matchBranch env os p hasEquals val comment
          else if env.ToLower key.val = "host" then
            parseKV.hostBranch os p hasEquals val comment
          else parseKV.nodeBranch env os parse p key hasEquals val comment) = .ok p1) :
    p1.tokens = p.tokens ∧ p1.system = p.system ∧ p1.depth = p.depth ∧
    Extends parse p.depth p.config p1.config := by
  split at h
  · obtain ⟨h1, h2, h3, h4⟩ := matchBranch_ok env os p hasEquals val comment p1 h
    exact ⟨h1, h2, h3, Or.inl h4⟩
  · split at h
    · obtain ⟨h1, h2, h3, h4⟩ := hostBranch_ok os p hasEquals val comment p1 h
      exact ⟨h1, h2, h3, Or.inl h4⟩
    · obtain ⟨h1, h2, h3, h4⟩ := nodeBranch_ok env os parse p key hasEquals val comment p1 h
      exact ⟨h1, h2, h3, Or.inr h4⟩

theorem parseKV_ok (env : Env) (os : OS)
    (parse : String → Nat → Except PanicValue (Except ErrorValue Config))
    (p p1 : sshParser) (h : p.parseKV env os parse = .ok p1) :
    p1.system = p.system ∧ p1.depth = p.depth ∧
    (∃ k, 0 < k ∧ k ≤ p.tokens.length ∧ p1.tokens = p.tokens.drop k) ∧
    Extends parse p.depth p.config p1.config := by
  unfold sshParser.parseKV at h
  simp only [sshParser.getToken, sshParser.peek] at h
  cases ht : p.tokens with
  | nil =>
    rw [ht] at h
    simp at h
  | cons key ts =>
    rw [ht] at h
    simp only [List.head?_cons, List.tail_cons] at h
    cases ts with
    | nil => simp at h
    | cons val0 ts2 =>
      simp only [List.head?_cons, List.tail_cons] at h
      by_cases he : val0.typ = .tokenEquals
      · simp only [he, decide_True, if_true] at h
        cases ts2 with
        | nil =>
          simp only [List.head?_nil, List.tail_nil] at h
          split at h
          · simp at h
          · split at h
            · simp at h
            · split at h <;> simp at h
        | cons val ts3 =>
          simp only [List.head?_cons, List.tail_cons] at h
          obtain ⟨h1, h2, h3, h4⟩ := dispatch_ok env os parse _ key true val _ p1 h
          refine ⟨h2.trans ?_, h3.trans ?_, ?_, ?_⟩
          · split <;> rfl
          · split <;> rfl
          · rw [h1]
            split
            · cases ts3 with
              | nil => exact ⟨3, by omega, by simp, by simp⟩
              | cons c r => exact ⟨4, by omega, by simp, by simp⟩
            · exact ⟨3, by omega, by simp, by simp⟩
          · have e : ∀ q : sshParser, q.depth = p.depth → q.config = p.config →
                Extends parse q.depth q.config p1.config →
                Extends parse p.depth p.config p1.config := by
              intro q hq1 hq2 hq
              rw [hq1, hq2] at hq
              exact hq
            apply e _ _ _ h4
            · split <;> rfl
            · split <;> rfl
      · simp only [he, decide_False, Bool.false_eq_true, if_false] at h
        obtain ⟨h1, h2, h3, h4⟩ := dispatch_ok env os parse _ key false val0 _ p1 h
        refine ⟨h2.trans ?_, h3.trans ?_, ?_, ?_⟩
        · split <;> rfl
        · split <;> rfl
        · rw [h1]
          split
          · cases ts2 with
            | nil => exact ⟨2, by omega, by simp, by simp⟩
            | cons c r => exact ⟨3, by omega, by simp, by simp⟩
          · exact ⟨2, by omega, by simp, by simp⟩
        · have e : ∀ q : sshParser, q.depth = p.depth → q.config = p.config →
              Extends parse q.depth q.config p1.config →
              Extends parse p.depth p.config p1.config := by
            intro q hq1 hq2 hq
            rw [hq1, hq2] at hq
            exact hq
          apply e _ _ _ h4
          · split <;> rfl
          · split <;> rfl

theorem parseComment_ok (parse : String → Nat → Except PanicValue (Except ErrorValue Config))
    (p p1 : sshParser) (h : p.parseComment = .ok p1) :
    p1.system = p.system ∧ p1.depth = p.depth ∧
    (∃ k, 0 < k ∧ k ≤ p.tokens.length ∧ p1.tokens = p.tokens.drop k) ∧
    Extends parse p.depth p.config p1.config := by
  unfold sshParser.parseComment at h
  simp only [sshParser.getToken] at h
  cases ht : p.tokens with
  | nil =>
    rw [ht] at h
    simp at h
  | cons c ts =>
    rw [ht] at h
    simp only [List.head?_cons, List.tail_cons] at h
    split at h
    · simp at h
    · rename_i c1 hc1
      simp only [Except.ok.injEq] at h
      subst h
      refine ⟨rfl, rfl, ⟨1, by omega, by simp, by simp⟩, Or.inr ⟨_, hc1, trivial⟩⟩

theorem runLoop_ok (env : Env) (os : OS)
    (parse : String → Nat → Except PanicValue (Except ErrorValue Config))
    (Q : Config → Prop) (depth : Nat)
    (hQ : ∀ c c1 : Config, Q c → Extends parse depth c c1 → Q c1) :
    ∀ (n : Nat) (p p1 : sshParser), p.depth = depth → Q p.config →
      sshParser.runLoop env os parse n p = .ok p1 →
      Q p1.config ∧ p1.depth = depth ∧ p1.system = p.system
  | 0, p, p1, _, _, h => by simp [sshParser.runLoop] at h
  | n + 1, p, p1, hd, hq, h => by
    simp only [sshParser.runLoop] at h
    split at h
    · simp at h
    · simp only [Except.ok.injEq] at h
      subst h
      exact ⟨hq, hd, rfl⟩
    · split at h
      · simp at h
      · rename_i p2 hp2
        obtain ⟨h1, h2, _, h4⟩ := parseComment_ok parse p p2 hp2
        rw [hd] at h4
        obtain ⟨r1, r2, r3⟩ := runLoop_ok env os parse Q depth hQ n p2 p1 (h2.trans hd)
          (hQ _ _ hq h4) h
        exact ⟨r1, r2, r3.trans h1⟩
    · split at h
      · simp at h
      · rename_i p2 hp2
        obtain ⟨h1, h2, _, h4⟩ := parseKV_ok env os parse p p2 hp2
        rw [hd] at h4
        obtain ⟨r1, r2, r3⟩ := runLoop_ok env os parse Q depth hQ n p2 p1 (h2.trans hd)
          (hQ _ _ hq h4) h
        exact ⟨r1, r2, r3.trans h1⟩

theorem decodeTokens_ok (env : Env) (os : OS)
    (parse : String → Nat → Except PanicValue (Except ErrorValue Config))
    (Q : Config → Prop) (flow : List token) (system : Bool) (depth : Nat)
    (hQ : ∀ c c1 : Config, Q c → Extends parse depth c c1 → Q c1)
    (h0 : Q (.mk newConfig.Blocks 0 ⟨1, 1⟩)) (c : Config)
    (h : decodeTokens env os parse flow system depth = .ok (.ok c)) : Q c := by
  unfold decodeTokens parseSSH at h
  have hn : newConfig = .mk newConfig.Blocks 0 ⟨0, 0⟩ := rfl
  rw [hn] at h
  simp only at h
  cases hr : sshParser.run env os parse
      { config := .mk newConfig.Blocks 0 ⟨1, 1⟩, tokens := flow, system := system,
        depth := depth } with
  | error pv =>
    rw [hr] at h
    cases pv with
    | str m => simp at h
    | err e =>
      simp only at h
      split at h <;> simp at h
    | runtimeError m => simp at h
    | outOfFuel => simp at h
  | ok p1 =>
    rw [hr] at h
    simp only [Except.ok.injEq] at h
    subst h
    exact (runLoop_ok env os parse Q depth hQ _ _ p1 rfl h0 hr).1

theorem depthsInBlocks_append :
    ∀ l1 l2 : List Block, depthsInBlocks (l1 ++ l2) = depthsInBlocks l1 ++ depthsInBlocks l2
  | [], l2 => by simp [depthsInBlocks]
  | b :: l1, l2 => by
    simp [depthsInBlocks, depthsInBlocks_append l1 l2]

theorem depthsInNodes_append :
    ∀ l1 l2 : List Node, depthsInNodes (l1 ++ l2) = depthsInNodes l1 ++ depthsInNodes l2
  | [], l2 => by simp [depthsInNodes]
  | .Empty _ :: l1, l2 => by simp [depthsInNodes, depthsInNodes_append l1 l2]
  | .KV _ :: l1, l2 => by simp [depthsInNodes, depthsInNodes_append l1 l2]
  | .Include _ _ :: l1, l2 => by simp [depthsInNodes, depthsInNodes_append l1 l2]
  | .other _ :: l1, l2 => by simp [depthsInNodes, depthsInNodes_append l1 l2]

theorem Block_includeDepths_eq (b : Block) : b.includeDepths = depthsInNodes b.GetNodes := by
  cases b <;> simp [Block.includeDepths, Block.GetNodes]

theorem Block_GetNodes_SetNodes (b : Block) (ns : List Node) : (b.SetNodes ns).GetNodes = ns := by
  cases b <;> rfl

theorem includeDepths_appendBlock (c : Config) (b : Block) :
    (c.appendBlock b).includeDepths = c.includeDepths ++ b.includeDepths := by
  cases c with
  | mk bs d pos =>
    simp [Config.appendBlock, Config.includeDepths, depthsInBlocks_append, depthsInBlocks]

theorem includeDepths_appendNode (c c1 : Config) (n : Node) (h : c.appendNode n = some c1) :
    c1.includeDepths = c.includeDepths ++ depthsInNodes [n] := by
  cases c with
  | mk bs d pos =>
    simp only [Config.appendNode] at h
    cases hl : bs.getLast? with
    | none => rw [hl] at h; simp at h
    | some last =>
      rw [hl] at h
      simp only [Option.some.injEq] at h
      subst h
      have hb : bs.dropLast ++ [last] = bs := List.dropLast_append_getLast? last hl
      have e1 : depthsInBlocks bs = depthsInBlocks bs.dropLast ++ last.includeDepths := by
        conv_lhs => rw [← hb]
        simp [depthsInBlocks_append, depthsInBlocks]
      simp only [Config.includeDepths, depthsInBlocks_append, depthsInBlocks, e1,
        Block_includeDepths_eq, Block_GetNodes_SetNodes, depthsInNodes_append,
        List.append_nil, List.append_assoc]

theorem includeDepths_extends
    (parse : String → Nat → Except PanicValue (Except ErrorValue Config)) (depth : Nat)
    (P : Nat → Prop)
    (hP : (depth + 1) % 256 ≤ maxRecurseDepth → P ((depth + 1) % 256))
    (hparse : (depth + 1) % 256 ≤ maxRecurseDepth → ∀ (f : String) (c : Config),
      parse f ((depth + 1) % 256) = .ok (.ok c) → ∀ k ∈ c.includeDepths, P k)
    (c c1 : Config) (hc : ∀ k ∈ c.includeDepths, P k) (hx : Extends parse depth c c1) :
    ∀ k ∈ c1.includeDepths, P k := by
  rcases hx with ⟨b, hb, rfl⟩ | ⟨n, hn, hm⟩
  · intro k hk
    rw [includeDepths_appendBlock, Block_includeDepths_eq, hb] at hk
    simp only [depthsInNodes, List.append_nil] at hk
    exact hc k hk
  · intro k hk
    rw [includeDepths_appendNode c c1 n hn] at hk
    rcases List.mem_append.1 hk with h1 | h1
    · exact hc k h1
    · cases n with
      | Empty e => simp [depthsInNodes] at h1
      | KV t => simp [depthsInNodes] at h1
      | other s => simp [depthsInNodes] at h1
      | Include files d =>
        obtain ⟨hd1, hd2, hf⟩ := hm
        simp only [depthsInNodes, List.append_nil, List.mem_cons] at h1
        rw [hd1] at hd2
        rcases h1 with h1 | h1
        · rw [h1, hd1]
          exact hP hd2
        · have key : ∀ (fs : List (String × Config)),
              (∀ fc ∈ fs, parse fc.1 d.depth = .ok (.ok fc.2)) →
              ∀ k ∈ depthsInFiles fs, P k := by
            intro fs
            induction fs with
            | nil => intro _ k hk; simp [depthsInFiles] at hk
            | cons fc fs ih =>
              intro hfs k hk
              obtain ⟨name, cfg⟩ := fc
              simp only [depthsInFiles, List.mem_append] at hk
              rcases hk with hk | hk
              · have := hfs (name, cfg) (List.mem_cons_self _ _)
                rw [hd1] at this
                exact hparse hd2 name cfg this k hk
              · exact ih (fun fc hfc => hfs fc (List.mem_cons_of_mem _ hfc)) k hk
          exact key files hf k h1

/-! ## The claim on the depth of Include nodes -/

theorem parseWithDepthN_includeDepths (env : Env) (os : OS) :
    ∀ (n : Nat) (f : String) (d : Nat) (c : Config),
      parseWithDepthN env os n f d = .ok (.ok c) →
      ∀ k ∈ c.includeDepths, k ≤ maxRecurseDepth ∧ (d ≤ maxRecurseDepth → d < k)
  | 0, f, d, c, h => by simp [parseWithDepthN] at h
  | n + 1, f, d, c, h => by
    simp only [parseWithDepthN] at h
    cases hr : os.ReadFile f with
    | error e => rw [hr] at h; simp at h
    | ok b =>
      rw [hr] at h
      simp only [decodeBytes] at h
      refine decodeTokens_ok env os (parseWithDepthN env os n)
        (fun c => ∀ k ∈ c.includeDepths, k ≤ maxRecurseDepth ∧ (d ≤ maxRecurseDepth → d < k))
        _ _ d ?_ ?_ c h
      · intro c0 c1 hc0 hx
        refine includeDepths_extends (parseWithDepthN env os n) d _ ?_ ?_ c0 c1 hc0 hx
        · intro h5
          refine ⟨h5, fun hd => ?_⟩
          simp only [maxRecurseDepth] at hd
          omega
        · intro h5 f1 c2 hp k hk
          obtain ⟨r1, r2⟩ := parseWithDepthN_includeDepths env os n f1 _ c2 hp k hk
          refine ⟨r1, fun hd => ?_⟩
          have := r2 h5
          simp only [maxRecurseDepth] at hd
          omega
      · intro k hk
        simp [Config.includeDepths, newConfig, Config.Blocks, depthsInBlocks,
          Block.includeDepths, depthsInNodes] at hk

theorem ownIncludeDepths_appendBlock (c : Config) (b : Block) :
    (c.appendBlock b).ownIncludeDepths =
      c.ownIncludeDepths ++ b.GetNodes.filterMap Node.includeDepth? := by
  cases c with
  | mk bs d pos => simp [Config.appendBlock, Config.ownIncludeDepths, Config.Blocks]

theorem ownIncludeDepths_appendNode (c c1 : Config) (n : Node)
    (h : c.appendNode n = some c1) :
    c1.ownIncludeDepths = c.ownIncludeDepths ++ [n].filterMap Node.includeDepth? := by
  cases c with
  | mk bs d pos =>
    simp only [Config.appendNode] at h
    cases hl : bs.getLast? with
    | none => rw [hl] at h; simp at h
    | some last =>
      rw [hl] at h
      simp only [Option.some.injEq] at h
      subst h
      have hb : bs.dropLast ++ [last] = bs := List.dropLast_append_getLast? last hl
      simp only [Config.ownIncludeDepths, Config.Blocks]
      conv_rhs => rw [← hb]
      simp [Block_GetNodes_SetNodes, List.filterMap_append]

theorem ownIncludeDepths_extends
    (parse : String → Nat → Except PanicValue (Except ErrorValue Config)) (depth : Nat)
    (c c1 : Config) (hc : ∀ k ∈ c.ownIncludeDepths, k = (depth + 1) % 256)
    (hx : Extends parse depth c c1) :
    ∀ k ∈ c1.ownIncludeDepths, k = (depth + 1) % 256 := by
  rcases hx with ⟨b, hb, rfl⟩ | ⟨n, hn, hm⟩
  · intro k hk
    rw [ownIncludeDepths_appendBlock, hb] at hk
    simp only [List.filterMap_nil, List.append_nil] at hk
    exact hc k hk
  · intro k hk
    rw [ownIncludeDepths_appendNode c c1 n hn] at hk
    rcases List.mem_append.1 hk with h1 | h1
    · exact hc k h1
    · cases n with
      | Empty e => simp [Node.includeDepth?] at h1
      | KV t => simp [Node.includeDepth?] at h1
      | other s => simp [Node.includeDepth?] at h1
      | Include files d =>
        simp [Node.includeDepth?] at h1
        rw [h1]
        exact hm.1

/-- C17: `NewInclude` returns `ErrDepthExceeded` for every depth above 5,
whatever the file system, the nested parser and the other arguments; and in a
config that `parseWithDepth` returns for the depth `d` every Include node,
those of the included configs among them, has a depth of at most 5, the
Include nodes of the config itself have the depth `d + 1` (as an 8-bit
number), and for `d` up to 5 every depth in the tree is above `d`. -/
theorem NewInclude_depth_limit (env : Env) (os : OS) (n : Nat) (f : String) (d : Nat)
    (c : Config) (h : parseWithDepthN env os n f d = .ok (.ok c)) :
    (∀ (os1 : OS) (parse : String → Nat → Except PanicValue (Except ErrorValue Config))
        (directives : List String) (hasEquals : Bool) (pos : Position) (comment : String)
        (system : Bool) (depth : Nat), depth > 5 →
      NewInclude os1 parse directives hasEquals pos comment system depth =
        .ok (.error .ErrDepthExceeded)) ∧
    (∀ k ∈ c.includeDepths, k ≤ 5) ∧
    (∀ k ∈ c.ownIncludeDepths, k = (d + 1) % 256) ∧
    (d ≤ 5 → ∀ k ∈ c.includeDepths, d < k) := by
  refine ⟨?_, ?_, ?_, ?_⟩
  · intro os1 parse directives hasEquals pos comment system depth hd
    simp [NewInclude, maxRecurseDepth, hd]
  · intro k hk
    exact (parseWithDepthN_includeDepths env os n f d c h k hk).1
  · cases n with
    | zero => simp [parseWithDepthN] at h
    | succ m =>
      simp only [parseWithDepthN] at h
      cases hr : os.ReadFile f with
      | error e => rw [hr] at h; simp at h
      | ok b =>
        rw [hr] at h
        simp only [decodeBytes] at h
        refine decodeTokens_ok env os (parseWithDepthN env os m)
          (fun c => ∀ k ∈ c.ownIncludeDepths, k = (d + 1) % 256) _ _ d ?_ ?_ c h
        · intro c0 c1 hc0 hx
          exact ownIncludeDepths_extends _ d c0 c1 hc0 hx
        · intro k hk
          simp [Config.ownIncludeDepths, newConfig, Config.Blocks, Block.GetNodes] at hk
  · intro hd k hk
    exact (parseWithDepthN_includeDepths env os n f d c h k hk).2 hd

/-- Witness of `NewInclude_depth_limit`: the sample file `config`, whose line
`Include b` gives an Include node of depth 1. -/
theorem NewInclude_depth_limit_witness :
    parseWithDepthN sampleEnv sampleOS 7 "/home/me/.ssh/config" 0 = .ok (.ok decodedConfig) ∧
    decodedConfig.includeDepths = [1] ∧
    ((∀ (os1 : OS) (parse : String → Nat → Except PanicValue (Except ErrorValue Config))
        (directives : List String) (hasEquals : Bool) (pos : Position) (comment : String)
        (system : Bool) (depth : Nat), depth > 5 →
      NewInclude os1 parse directives hasEquals pos comment system depth =
        .ok (.error .ErrDepthExceeded)) ∧
    (∀ k ∈ decodedConfig.includeDepths, k ≤ 5) ∧
    (∀ k ∈ decodedConfig.ownIncludeDepths, k = (0 + 1) % 256) ∧
    (0 ≤ 5 → ∀ k ∈ decodedConfig.includeDepths, 0 < k)) :=
  ⟨rfl, by decide!,
    NewInclude_depth_limit sampleEnv sampleOS 7 "/home/me/.ssh/config" 0 decodedConfig rfl⟩

/-! ## Facts about the failures of the parser -/

theorem matchLoop_error (os : OS) (val : token) :
    ∀ (l : List String) (acc : List (String × Pattern)) (pv : PanicValue),
      parseKV.matchLoop os val l acc = .error pv →
      ∃ msg : String, pv = .str (os.posString val.Position ++ ": " ++ msg)
  | [], acc, pv, h => by simp [parseKV.matchLoop] at h
  | [_], acc, pv, h => by simp [parseKV.matchLoop] at h
  | k :: v :: rest, acc, pv, h => by
    simp only [parseKV.matchLoop] at h
    split at h
    · simp only [raiseErrorf, Except.error.injEq] at h
      exact ⟨_, h.symm⟩
    · split at h
      · simp only [raiseErrorf, Except.error.injEq] at h
        exact ⟨_, h.symm⟩
      · exact matchLoop_error os val rest _ pv h

theorem hostLoop_error (os : OS) (val : token) :
    ∀ (l : List String) (pv : PanicValue),
      parseKV.hostLoop os val l = .error pv →
      ∃ msg : String, pv = .str (os.posString val.Position ++ ": " ++ msg)
  | [], pv, h => by simp [parseKV.hostLoop] at h
  | s :: rest, pv, h => by
    simp only [parseKV.hostLoop] at h
    split at h
    · exact hostLoop_error os val rest pv h
    · split at h
      · simp only [raiseErrorf, Except.error.injEq] at h
        exact ⟨_, h.symm⟩
      · split at h
        · rename_i pv1 h1
          simp only [Except.error.injEq] at h
          subst h
          exact hostLoop_error os val rest _ h1
        · simp at h

theorem matchBranch_error (env : Env) (os : OS) (p : sshParser) (hasEquals : Bool)
    (val : token) (comment : String) (pv : PanicValue)
    (h : parseKV.matchBranch env os p hasEquals val comment = .error pv) :
    ∃ msg : String, pv = .str (os.posString val.Position ++ ": " ++ msg) := by
  unfold parseKV.matchBranch at h
  simp only at h
  split at h
  · simp only [raiseErrorf, Except.error.injEq] at h
    exact ⟨_, h.symm⟩
  · split at h
    · simp only [raiseErrorf, Except.error.injEq] at h
      exact ⟨_, h.symm⟩
    · split at h
      · simp at h
      · split at h
        · simp only [raiseErrorf, Except.error.injEq] at h
          exact ⟨_, h.symm⟩
        · split at h
          · rename_i pv1 h1
            simp only [Except.error.injEq] at h
            subst h
            exact matchLoop_error os
              { typ := val.typ, val := trimRightSpace val.val, Position := val.Position }
              _ _ _ h1
          · simp at h

theorem hostBranch_error (os : OS) (p : sshParser) (hasEquals : Bool) (val : token)
    (comment : String) (pv : PanicValue)
    (h : parseKV.hostBranch os p hasEquals val comment = .error pv) :
    ∃ msg : String, pv = .str (os.posString val.Position ++ ": " ++ msg) := by
  unfold parseKV.hostBranch at h
  split at h
  · rename_i pv1 h1
    simp only [Except.error.injEq] at h
    subst h
    exact hostLoop_error os val _ _ h1
  · simp at h

theorem parseLoop_error (parse : String → Nat → Except PanicValue (Except ErrorValue Config))
    (depth : Nat) :
    ∀ (ms : List String) (pv : PanicValue),
      NewInclude.parseLoop parse depth ms = .error pv → ∃ f ∈ ms, parse f depth = .error pv
  | [], pv, h => by simp [NewInclude.parseLoop] at h
  | m :: rest, pv, h => by
    simp only [NewInclude.parseLoop] at h
    cases hp : parse m depth with
    | error pv1 =>
      rw [hp] at h
      simp only [Except.error.injEq] at h
      subst h
      exact ⟨m, List.mem_cons_self _ _, hp⟩
    | ok r =>
      cases r with
      | error e => rw [hp] at h; simp at h
      | ok config =>
        rw [hp] at h
        simp only at h
        cases hr : NewInclude.parseLoop parse depth rest with
        | error pv1 =>
          rw [hr] at h
          simp only [Except.error.injEq] at h
          subst h
          obtain ⟨f, hf, hpf⟩ := parseLoop_error parse depth rest _ hr
          exact ⟨f, List.mem_cons_of_mem _ hf, hpf⟩
        | ok r2 =>
          rw [hr] at h
          cases r2 <;> simp at h

theorem NewInclude_error (os : OS)
    (parse : String → Nat → Except PanicValue (Except ErrorValue Config))
    (directives : List String) (hasEquals : Bool) (pos : Position) (comment : String)
    (system : Bool) (depth : Nat) (pv : PanicValue)
    (h : NewInclude os parse directives hasEquals pos comment system depth = .error pv) :
    depth ≤ maxRecurseDepth ∧ ∃ f : String, parse f depth = .error pv := by
  unfold NewInclude at h
  by_cases hd : depth > maxRecurseDepth
  · rw [if_pos hd] at h
    simp at h
  · rw [if_neg hd] at h
    refine ⟨Nat.le_of_not_lt hd, ?_⟩
    cases hg : NewInclude.globLoop os system directives with
    | error e => rw [hg] at h; simp at h
    | ok found =>
      rw [hg] at h
      simp only at h
      cases hp : NewInclude.parseLoop parse depth (removeDups found) with
      | error pv1 =>
        rw [hp] at h
        simp only [Except.error.injEq] at h
        subst h
        obtain ⟨f, _, hf⟩ := parseLoop_error parse depth _ _ hp
        exact ⟨f, hf⟩
      | ok r =>
        rw [hp] at h
        cases r <;> simp at h

theorem appendNode_isSome (c : Config) (n : Node) (h : c.Blocks ≠ []) :
    ∃ c1 : Config, c.appendNode n = some c1 := by
  cases c with
  | mk bs d pos =>
    simp only [Config.Blocks] at h
    simp only [Config.appendNode]
    cases hl : bs.getLast? with
    | none => exact absurd (List.getLast?_eq_none_iff.1 hl) h
    | some last => exact ⟨_, rfl⟩

theorem Extends_Blocks (parse : String → Nat → Except PanicValue (Except ErrorValue Config))
    (depth : Nat) (c c1 : Config) (_ : c.Blocks ≠ []) (hx : Extends parse depth c c1) :
    c1.Blocks ≠ [] := by
  rcases hx with ⟨b, _, rfl⟩ | ⟨n, hn, _⟩
  · cases c with
    | mk bs d pos => simp [Config.appendBlock, Config.Blocks]
  · cases c with
    | mk bs d pos =>
      simp only [Config.appendNode] at hn
      cases hl : bs.getLast? with
      | none => rw [hl] at hn; simp at hn
      | some last =>
        rw [hl] at hn
        simp only [Option.some.injEq] at hn
        subst hn
        simp [Config.Blocks]

theorem nodeBranch_error (env : Env) (os : OS)
    (parse : String → Nat → Except PanicValue (Except ErrorValue Config))
    (p : sshParser) (key : token) (hasEquals : Bool) (val : token) (comment : String)
    (pv : PanicValue) (hb : p.config.Blocks ≠ [])
    (h : parseKV.nodeBranch env os parse p key hasEquals val comment = .error pv) :
    (∃ msg : String, pv = .str (os.posString val.Position ++ ": " ++ msg)) ∨
    pv = .err .ErrDepthExceeded ∨
    ((p.depth + 1) % 256 ≤ maxRecurseDepth ∧
      ∃ f : String, parse f ((p.depth + 1) % 256) = .error pv) := by
  unfold parseKV.nodeBranch at h
  split at h
  · rename_i hl
    exact absurd (List.getLast?_eq_none_iff.1 hl) hb
  · split at h
    · split at h
      · rename_i pv1 h1
        simp only [Except.error.injEq] at h
        subst h
        exact Or.inr (Or.inr (NewInclude_error os parse _ _ _ _ _ _ _ h1))
      · split at h
        · rename_i he
          simp only [raiseError, he, if_true, Except.error.injEq] at h
          exact Or.inr (Or.inl h.symm)
        · simp only [raiseErrorf, Except.error.injEq] at h
          exact Or.inl ⟨_, h.symm⟩
      · rename_i inc _
        obtain ⟨c1, hc1⟩ := appendNode_isSome p.config inc hb
        rw [hc1] at h
        simp at h
    · simp only at h
      split at h
      · rename_i hn
        obtain ⟨c1, hc1⟩ := appendNode_isSome p.config
          (.KV { Key := key.val, Value := trimRightSpace val.val,
                 spaceAfterValue := sliceFrom val.val (trimRightSpace val.val),
                 Comment := comment, hasEquals := hasEquals,
                 leadingSpace := key.Position.Col - 1, position := key.Position }) hb
        rw [hc1] at hn
        simp at hn
      · simp at h

theorem dispatch_error (env : Env) (os : OS)
    (parse : String → Nat → Except PanicValue (Except ErrorValue Config))
    (p : sshParser) (key : token) (hasEquals : Bool) (val : token) (comment : String)
    (pv : PanicValue) (hb : p.config.Blocks ≠ [])
    (h : (if env.ToLower key.val = "match" then
            parseKV.matchBranch env os p hasEquals val comment
          else if env.ToLower key.val = "host" then
            parseKV.hostBranch os p hasEquals val comment
          else parseKV.nodeBranch env os parse p key hasEquals val comment) = .error pv) :
    (∃ msg : String, pv = .str (os.posString val.Position ++ ": " ++ msg)) ∨
    pv = .err .ErrDepthExceeded ∨
    ((p.depth + 1) % 256 ≤ maxRecurseDepth ∧
      ∃ f : String, parse f ((p.depth + 1) % 256) = .error pv) := by
  split at h
  · exact Or.inl (matchBranch_error env os p hasEquals val comment pv h)
  · split at h
    · exact Or.inl (hostBranch_error os p hasEquals val comment pv h)
    · exact nodeBranch_error env os parse p key hasEquals val comment pv hb h

theorem parseComment_error (p : sshParser) (pv : PanicValue) (hb : p.config.Blocks ≠ [])
    (ht : p.tokens ≠ []) : p.parseComment ≠ .error pv := by
  intro h
  unfold sshParser.parseComment at h
  simp only [sshParser.getToken] at h
  cases hts : p.tokens with
  | nil => exact ht hts
  | cons c ts =>
    rw [hts] at h
    simp only [List.head?_cons, List.tail_cons] at h
    obtain ⟨c1, hc1⟩ := appendNode_isSome p.config
      (.Empty { Comment := c.val, leadingSpace := c.Position.Col - 2,
                position := c.Position }) hb
    rw [hc1] at h
    simp at h

theorem keysHaveValues_drop : ∀ (k : Nat) (l : List token),
    keysHaveValues l = true → keysHaveValues (l.drop k) = true
  | 0, l, h => by simpa using h
  | k + 1, [], _ => by simp [keysHaveValues]
  | k + 1, t :: rest, h => by
    simp only [keysHaveValues, Bool.and_eq_true] at h
    simpa using keysHaveValues_drop k rest h.2

theorem sampleOS_keysHaveValues (f b : String) (_ : sampleOS.ReadFile f = .ok b) :
    keysHaveValues (sampleOS.lexSSH b) = true := by
  simp only [sampleOS]
  split
  · decide
  · split
    · decide
    · split
      · decide
      · split <;> decide

/-- C19 fails in two ways.  A stream that ends after a key token makes the
parser read a field of a nil token, and the decoder raises this run-time
panic again.  And the file `loop` of the sample file system, which includes
itself, makes the decoder return `ErrDepthExceeded`, whose message starts with
no position: none of the positions of the stream is a prefix of it. -/
theorem decodeTokens_panics_and_unpositioned :
    decodeTokens sampleEnv sampleOS (parseWithDepth sampleEnv sampleOS)
        [sampleToken .tokenKey "Port" 1 1] false 0 = .error (.runtimeError nilDeref) ∧
    decodeTokens sampleEnv sampleOS (parseWithDepth sampleEnv sampleOS) loopTokens false 0 =
      .ok (.error .ErrDepthExceeded) ∧
    ErrorValue.Error .ErrDepthExceeded = "ssh_config: max recurse depth exceeded" ∧
    loopTokens.all (fun tok =>
      !stringsHasPrefix (ErrorValue.Error .ErrDepthExceeded)
        (sampleOS.posString tok.Position)) = true :=
  ⟨rfl, rfl, rfl, by decide!⟩

/-! ## The claim on files that include themselves -/

theorem stringsJoin_split_char (c : Char) (cs : List Char) :
    stringsJoin (stringsSplit (String.mk cs) c) (String.mk [c]) = String.mk cs := by
  induction cs with
  | nil => rfl
  | cons d r ih =>
    simp only [stringsSplit] at ih ⊢
    unfold splitChars
    have hne := splitChars_ne_nil c r
    by_cases h : d = c
    · rw [if_pos h, List.map_cons, stringsJoin_cons _ _ _ (by simpa using hne), ih, h]
      rfl
    · rw [if_neg h]
      cases e : splitChars c r with
      | nil => exact absurd e hne
      | cons hd tl =>
        rw [e] at ih
        cases tl with
        | nil =>
          simp only [List.map_cons, List.map_nil, stringsJoin] at ih ⊢
          have e2 : hd = r := congrArg String.data ih
          rw [e2]
        | cons b tl2 =>
          simp only [List.map_cons] at ih ⊢
          rw [stringsJoin_cons _ _ _ (by simp)] at ih ⊢
          have e2 := congrArg String.data ih
          apply String.ext
          simp only [String.data_append, List.append_assoc] at e2 ⊢
          rw [← e2]
          rfl

theorem trimRightSpace_sliceFrom (s : String) :
    trimRightSpace s ++ sliceFrom s (trimRightSpace s) = s := by
  apply String.ext
  simp only [trimRightSpace, sliceFrom, String.data_append]
  have h := List.takeWhile_append_dropWhile unicodeIsSpace s.data.reverse
  have h2 : s.data = (s.data.reverse.dropWhile unicodeIsSpace).reverse ++
      (s.data.reverse.takeWhile unicodeIsSpace).reverse := by
    rw [← List.reverse_append, h, List.reverse_reverse]
  have h3 : ∀ (A B l : List Char), l = A ++ B → List.drop A.length l = B := by
    intro A B l e
    rw [e, List.drop_left]
  rw [h3 _ _ _ h2]
  exact h2.symm

theorem runLoop_comment_step (env : Env) (os : OS)
    (parse : String → Nat → Except PanicValue (Except ErrorValue Config))
    (p : sshParser) (tok : token) (rest : List token) (n : Nat)
    (ht : p.tokens = tok :: rest)
    (hty : tok.typ = .tokenComment ∨ tok.typ = .tokenEmptyLine) :
    sshParser.runLoop env os parse (n + 1) p =
      match p.config.appendNode
          (.Empty { Comment := tok.val, leadingSpace := tok.Position.Col - 2,
                    position := tok.Position }) with
      | none => .error (.runtimeError indexOutOfRange)
      | some c =>
        sshParser.runLoop env os parse n
          { config := c, tokens := rest, system := p.system, depth := p.depth } := by
  have hs : p.parseStart os = .ok (some .parseComment) := by
    simp only [sshParser.parseStart, sshParser.peek, ht, List.head?_cons]
    rcases hty with h | h <;> rw [h]
  simp only [sshParser.runLoop, hs, sshParser.parseComment, sshParser.getToken, ht,
    List.head?_cons, List.tail_cons]
  cases p.config.appendNode
      (.Empty { Comment := tok.val, leadingSpace := tok.Position.Col - 2,
                position := tok.Position }) <;> rfl

theorem runLoop_key_step (env : Env) (os : OS)
    (parse : String → Nat → Except PanicValue (Except ErrorValue Config))
    (p : sshParser) (tok : token) (rest : List token) (n : Nat)
    (ht : p.tokens = tok :: rest) (hty : tok.typ = .tokenKey) :
    sshParser.runLoop env os parse (n + 1) p =
      match p.parseKV env os parse with
      | .error pv => .error pv
      | .ok p1 => sshParser.runLoop env os parse n p1 := by
  have hs : p.parseStart os = .ok (some .parseKV) := by
    simp only [sshParser.parseStart, sshParser.peek, ht, List.head?_cons]
    rw [hty]
  simp only [sshParser.runLoop, hs]

theorem stringsRepeat_blank (n : Nat) : stringsRepeat " " (n : Int) = .ret (blanks n) := by
  have h : ¬ ((n : Int) < 0) := by omega
  have e : ∀ k : Nat, (List.replicate k [' ']).flatten = List.replicate k ' ' := by
    intro k
    induction k with
    | zero => rfl
    | succ k ih => simp [List.replicate_succ, ih]
  have d : (" " : String).data = [' '] := rfl
  simp only [stringsRepeat, h, if_false, blanks, Int.toNat_ofNat, d, e]

theorem parseKV_plain (env : Env) (os : OS)
    (parse : String → Nat → Except PanicValue (Except ErrorValue Config))
    (p : sshParser) (key val : token) (rest : List token)
    (ht : p.tokens = key :: val :: rest) (hv : val.typ ≠ .tokenEquals)
    (hrest : ∀ t, rest.head? = some t →
      ¬ (t.typ = .tokenComment ∧ t.Position.Line = val.Position.Line)) :
    p.parseKV env os parse =
      (if env.ToLower key.val = "match" then
        parseKV.matchBranch env os { p with tokens := rest } false val ""
      else if env.ToLower key.val = "host" then
        parseKV.hostBranch os { p with tokens := rest } false val ""
      else parseKV.nodeBranch env os parse { p with tokens := rest } key false val "") := by
  unfold sshParser.parseKV
  simp only [sshParser.getToken, sshParser.peek, ht, List.head?_cons, List.tail_cons]
  cases rest with
  | nil => simp [hv]
  | cons t r =>
    have := hrest t rfl
    simp [hv, this]

theorem matchLoop_accepted (os : OS) (val : token) :
    ∀ (l : List String) (acc : List (String × Pattern)), pairsAccepted l = true →
      l.length % 2 = 0 ∧ ∃ r, parseKV.matchLoop os val l acc = .ok r
  | [], acc, _ => ⟨rfl, acc, rfl⟩
  | [_], acc, h => by simp [pairsAccepted] at h
  | k :: v :: rest, acc, h => by
    simp only [pairsAccepted, Bool.and_eq_true] at h
    obtain ⟨⟨hk, hv⟩, hr⟩ := h
    cases hp : NewPattern v with
    | error e => rw [hp] at hv; simp at hv
    | ok pat =>
      obtain ⟨h1, r, h2⟩ := matchLoop_accepted os val rest (mapInsert acc k pat) hr
      refine ⟨by simp only [List.length_cons]; omega, r, ?_⟩
      simp only [parseKV.matchLoop, hk, hp]
      simpa using h2

theorem matchLoop_rejected (os : OS) (val : token) :
    ∀ (l : List String) (acc : List (String × Pattern)), pairsAccepted l = false →
      l.length % 2 ≠ 0 ∨ ∃ pv, parseKV.matchLoop os val l acc = .error pv
  | [], acc, h => by simp [pairsAccepted] at h
  | [_], acc, _ => Or.inl (by simp)
  | k :: v :: rest, acc, h => by
    by_cases hk : allowedMatchKeywords.contains k = true
    · cases hp : NewPattern v with
      | error e =>
        exact Or.inr ⟨_, by simp only [parseKV.matchLoop, hk, hp]; rfl⟩
      | ok pat =>
        have hr : pairsAccepted rest = false := by
          simp only [pairsAccepted, hk, hp, Bool.and_self, Bool.true_and] at h
          exact h
        rcases matchLoop_rejected os val rest (mapInsert acc k pat) hr with h1 | ⟨pv, h2⟩
        · exact Or.inl (by simp only [List.length_cons]; omega)
        · refine Or.inr ⟨pv, ?_⟩
          simp only [parseKV.matchLoop, hk, hp]
          simpa using h2
    · have hk2 : allowedMatchKeywords.contains k = false := by simpa using hk
      exact Or.inr ⟨raiseErrorf os val ("Match keyword not supported: " ++ k),
        by simp only [parseKV.matchLoop, hk2, if_true]⟩

theorem matchBranch_accepted (env : Env) (os : OS) (p : sshParser) (hasEquals : Bool)
    (val : token) (comment : String)
    (h : matchValueAccepted (env.ToLower (trimRightSpace val.val)) = true) :
    ∃ b : Block, b.GetNodes = [] ∧
      parseKV.matchBranch env os p hasEquals val comment =
        .ok { p with config := p.config.appendBlock b } := by
  simp only [matchValueAccepted, Bool.and_eq_true, Bool.not_eq_true', decide_eq_true_eq,
    Bool.or_eq_true] at h
  obtain ⟨⟨h1, h2⟩, h3⟩ := h
  unfold parseKV.matchBranch
  simp only [h1, Bool.false_eq_true, if_false, h2]
  by_cases ha : env.ToLower (trimRightSpace val.val) = "final all" ∨
      env.ToLower (trimRightSpace val.val) = "all"
  · rw [if_pos ha]
    refine ⟨_, ?_, rfl⟩
    rfl
  · rw [if_neg ha]
    rcases h3 with h3 | h3
    · exact absurd h3 ha
    · obtain ⟨he, r, hr⟩ := matchLoop_accepted os
        { typ := val.typ, val := trimRightSpace val.val, Position := val.Position } _ [] h3
      simp only [he, ne_eq, not_true_eq_false, if_false, hr]
      refine ⟨_, ?_, rfl⟩
      rfl

theorem matchBranch_rejected (env : Env) (os : OS) (p : sshParser) (hasEquals : Bool)
    (val : token) (comment : String)
    (h : matchValueAccepted (env.ToLower (trimRightSpace val.val)) = false) :
    ∃ msg : String,
      parseKV.matchBranch env os p hasEquals val comment =
        .error (.str (os.posString val.Position ++ ": " ++ msg)) := by
  have key : ∃ pv, parseKV.matchBranch env os p hasEquals val comment = .error pv := by
    unfold parseKV.matchBranch
    simp only
    by_cases h1 : stringsHasPrefix (env.ToLower (trimRightSpace val.val)) "canonical" = true
    · rw [if_pos h1]
      exact ⟨_, rfl⟩
    · rw [if_neg h1]
      by_cases h2 : env.ToLower (trimRightSpace val.val) = "final"
      · rw [if_pos h2]
        exact ⟨_, rfl⟩
      · rw [if_neg h2]
        have h1b : stringsHasPrefix (env.ToLower (trimRightSpace val.val)) "canonical" = false := by
          simpa using h1
        simp only [matchValueAccepted, h1b, Bool.not_false, Bool.true_and, ne_eq, h2,
          not_false_eq_true, decide_True, Bool.or_eq_false_iff, decide_eq_false_iff_not] at h
        rw [if_neg h.1]
        rcases matchLoop_rejected os
          { typ := val.typ, val := trimRightSpace val.val, Position := val.Position } _ []
          h.2 with h3 | ⟨pv, h3⟩
        · rw [if_pos h3]
          exact ⟨_, rfl⟩
        · by_cases h4 : (stringsSplit (env.ToLower (trimRightSpace val.val)) ' ').length % 2 ≠ 0
          · rw [if_pos h4]
            exact ⟨_, rfl⟩
          · rw [if_neg h4, h3]
            exact ⟨_, rfl⟩
  obtain ⟨pv, hpv⟩ := key
  obtain ⟨msg, hmsg⟩ := matchBranch_error env os p hasEquals val comment pv hpv
  exact ⟨msg, by rw [hpv, hmsg]⟩

/-- C22: when the trimmed value of a `Match` directive reads `all` or
`final all` in lower case, the branch appends a `Host` block, not a `Match`
block, whose only pattern is `matchAll`, the pattern `*` of the implicit block
of `newConfig`; the block matches every context that the implicit block
matches, and it is final exactly when the value reads `final all`. -/
theorem parseKV_match_all (env : Env) (os : OS) (p : sshParser) (hasEquals : Bool)
    (val : token) (comment : String)
    (h : env.ToLower (trimRightSpace val.val) = "all" ∨
      env.ToLower (trimRightSpace val.val) = "final all") :
    parseKV.matchBranch env os p hasEquals val comment =
      .ok { p with
        config := p.config.appendBlock
          (.Host [matchAll] []
            { EOLComment := comment,
              spaceBeforeComment := sliceFrom val.val (trimRightSpace val.val),
              hasEquals := hasEquals, leadingSpace := 0, implicit := false,
              Final := decide (env.ToLower (trimRightSpace val.val) = "final all") }) } ∧
    matchAll = ⟨"*", ⟨[(Atom.dot, Rep.star)]⟩, false⟩ ∧
    newConfig.Blocks = [.Host [matchAll] [] ⟨"", "", false, 0, true, false⟩] ∧
    (∀ (ctx : Option MatchContext) (nodes : List Node) (data : BlockData),
      Block.Matches (.Host [matchAll] nodes data) ctx =
        Block.Matches (.Host [matchAll] [] ⟨"", "", false, 0, true, false⟩) ctx) ∧
    (Block.IsFinal
        (.Host [matchAll] []
          { EOLComment := comment,
            spaceBeforeComment := sliceFrom val.val (trimRightSpace val.val),
            hasEquals := hasEquals, leadingSpace := 0, implicit := false,
            Final := decide (env.ToLower (trimRightSpace val.val) = "final all") }) = true ↔
      env.ToLower (trimRightSpace val.val) = "final all") := by
  refine ⟨?_, by decide, rfl, fun _ _ _ => rfl, by simp [Block.IsFinal, Block.data]⟩
  have h1 : stringsHasPrefix (env.ToLower (trimRightSpace val.val)) "canonical" = false := by
    rcases h with h | h <;> rw [h] <;> decide
  have h2 : env.ToLower (trimRightSpace val.val) ≠ "final" := by
    rcases h with h | h <;> rw [h] <;> decide
  unfold parseKV.matchBranch
  simp only [h1, Bool.false_eq_true, if_false, h2]
  rw [if_pos (Or.symm h)]

/-- Witness of `parseKV_match_all`: the value `Final ALL` followed by two
blanks. -/
theorem parseKV_match_all_witness :
    (sampleEnv.ToLower (trimRightSpace (sampleToken (.other 0) "Final ALL  " 1 7).val) = "all" ∨
      sampleEnv.ToLower (trimRightSpace (sampleToken (.other 0) "Final ALL  " 1 7).val) =
        "final all") ∧
    parseKV.matchBranch sampleEnv sampleOS (initialParser [] false 0) false
        (sampleToken (.other 0) "Final ALL  " 1 7) "" =
      .ok { initialParser [] false 0 with
        config := (initialParser [] false 0).config.appendBlock
          (.Host [matchAll] []
            { EOLComment := "", spaceBeforeComment := "  ", hasEquals := false,
              leadingSpace := 0, implicit := false, Final := true }) } :=
  ⟨by decide,
    (parseKV_match_all sampleEnv sampleOS (initialParser [] false 0) false
      (sampleToken (.other 0) "Final ALL  " 1 7) "" (by decide)).1.trans rfl⟩

theorem hostLoop_compileWords (os : OS) (val : token) :
    ∀ l : List String,
      parseKV.hostLoop os val l =
        match compileWords (l.filter (fun w => decide (w ≠ ""))) with
        | .ok patterns => .ok patterns
        | .error e => .error (raiseErrorf os val ("Invalid host pattern: " ++ e))
  | [] => rfl
  | s :: rest => by
    by_cases h : s = ""
    · simp only [parseKV.hostLoop, h, if_true, List.filter_cons, ne_eq, not_true_eq_false,
        decide_False, Bool.false_eq_true, if_false]
      exact hostLoop_compileWords os val rest
    · simp only [parseKV.hostLoop, h, if_false, List.filter_cons, ne_eq, not_false_eq_true,
        decide_True, if_true, compileWords, hostLoop_compileWords os val rest]
      cases NewPattern s with
      | error e => rfl
      | ok pat =>
        simp only
        cases compileWords (rest.filter (fun w => decide (w ≠ ""))) <;> rfl

theorem splitChars_flatten (sep : Char) :
    ∀ l : List Char, (splitChars sep l).flatten = l.filter (fun c => decide (c ≠ sep))
  | [] => rfl
  | c :: r => by
    have ih := splitChars_flatten sep r
    unfold splitChars
    by_cases h : c = sep
    · simp [h, ih]
    · rw [if_neg h]
      cases e : splitChars sep r with
      | nil => exact absurd e (splitChars_ne_nil sep r)
      | cons hd tl =>
        rw [e] at ih
        simp only [List.flatten_cons] at ih
        simp only [List.flatten_cons, List.cons_append, List.filter_cons, ne_eq, h,
          not_false_eq_true, decide_True, if_true]
        rw [← ih]

theorem blankWords_flatten (s : String) :
    ((blankWords s).map String.data).flatten = s.data.filter (fun c => decide (c ≠ ' ')) := by
  rw [← splitChars_flatten ' ' s.data]
  simp only [blankWords, stringsSplit]
  generalize splitChars ' ' s.data = l
  induction l with
  | nil => rfl
  | cons a t ih =>
    by_cases ha : a = []
    · subst ha
      have : (String.mk [] : String) = "" := rfl
      simpa [List.filter_cons, this] using ih
    · have hne : ¬ String.mk a = "" := fun e => ha (congrArg String.data e)
      simp only [List.map_cons, List.filter_cons, ne_eq, hne, not_false_eq_true, decide_True,
        if_true, List.flatten_cons, ih]

/-- C29 as amended: the branch of `parseKV` for a `Host` directive cuts the
value at its blanks (one or several between two words) into the non-empty
words, which hold no blank and together are the value without its blanks,
compiles them with `NewPattern` in order and appends a `Host` block without
nodes that holds exactly these patterns in this order; a word that does not
compile makes the branch panic with the position of the value and the error
of `NewPattern`.  `parseKV` takes this branch for a key that reads `host`. -/
theorem parseKV_host_words (env : Env) (os : OS) (p : sshParser) (hasEquals : Bool)
    (val : token) (comment : String) :
    parseKV.hostBranch os p hasEquals val comment =
      (match compileWords (blankWords val.val) with
       | .ok patterns =>
         .ok { p with
           config := p.config.appendBlock
             (.Host patterns []
               { EOLComment := comment,
                 spaceBeforeComment := sliceFrom val.val (trimRightSpace val.val),
                 hasEquals := hasEquals, leadingSpace := 0, implicit := false,
                 Final := false }) }
       | .error e =>
         .error (.str (os.posString val.Position ++ ": " ++ ("Invalid host pattern: " ++ e)))) ∧
    (∀ w ∈ blankWords val.val, w ≠ "" ∧ ' ' ∉ w.data) ∧
    ((blankWords val.val).map String.data).flatten =
      val.val.data.filter (fun c => decide (c ≠ ' ')) ∧
    (∀ (parse : String → Nat → Except PanicValue (Except ErrorValue Config))
        (q : sshParser) (key : token) (rest : List token),
      q.tokens = key :: val :: rest → env.ToLower key.val = "host" →
      val.typ ≠ .tokenEquals →
      (∀ t, rest.head? = some t →
        ¬ (t.typ = .tokenComment ∧ t.Position.Line = val.Position.Line)) →
      q.parseKV env os parse = parseKV.hostBranch os { q with tokens := rest } false val "") := by
  refine ⟨?_, ?_, blankWords_flatten val.val, ?_⟩
  · unfold parseKV.hostBranch
    rw [hostLoop_compileWords]
    simp only [blankWords]
    cases compileWords ((stringsSplit val.val ' ').filter (fun w => decide (w ≠ ""))) <;> rfl
  · intro w hw
    simp only [blankWords, List.mem_filter, decide_eq_true_eq] at hw
    exact ⟨hw.2, stringsSplit_no_sep val.val ' ' w hw.1⟩
  · intro parse q key rest ht hk hv hrest
    have hm : ("host" : String) ≠ "match" := by decide
    rw [parseKV_plain env os parse q key val rest ht hv hrest, hk, if_neg hm, if_pos rfl]

/-- C29 fails for a tab: the value `a`, tab, `b` of a `Host` directive is one
word for the parser, and the block that is appended holds one pattern. -/
theorem parseKV_host_tab_one_word :
    blankWords "a\tb" = ["a\tb"] ∧
    (parseKV.hostBranch sampleOS (initialParser [] false 0) false
        (sampleToken (.other 0) "a\tb" 1 6) "").map (fun q => patternTexts q.config) =
      .ok [["*"], ["a\tb"]] := by
  decide!

/-- C30 fails for a `Host` line that is indented: for the tokens of the text
`Host a` after two blanks, where the key starts at column 3, the decoder
returns a config whose text is `Host a` without the two blanks; the line
`Port 22` after four blanks keeps its indent.  It fails for a negated pattern
as well: the line `Host !a b` is printed as `Host a b`. -/
theorem Host_String_without_indent :
    (decodeTokens sampleEnv sampleOS (parseWithDepth sampleEnv sampleOS)
        [ sampleToken .tokenKey "Host" 1 3, sampleToken (.other 0) "a" 1 8,
          sampleToken .tokenKey "Port" 2 5, sampleToken (.other 0) "22" 2 10,
          sampleToken .tokenEOF "" 3 1 ] false 0).map
      (fun r => r.map Config.String) = .ok (.ok (.ret "Host a\n    Port 22\n")) ∧
    (decodeTokens sampleEnv sampleOS (parseWithDepth sampleEnv sampleOS)
        [ sampleToken .tokenKey "Host" 1 1, sampleToken (.other 0) "!a b" 1 6,
          sampleToken .tokenEOF "" 2 1 ] false 0).map
      (fun r => r.map Config.String) = .ok (.ok (.ret "Host a b\n")) := by
  exact ⟨by decide!, by decide!⟩

/-! ## The claims on the fallbacks and on the deferred final blocks -/

/-- C23 fails for the identity-file key in another case: when no config
yields a value, `GetAllStrict` returns the default of the key when it is not
empty, else the default identity list only when the key is spelled exactly
`IdentityFile`, else no value.  With `sampleConfig` as the user config and the
alias `randomhost` the key `IdentityFile` gives the default identity list and
the key `identityfile`, which is the same key case-insensitively, gives the
empty list. -/
theorem GetAllStrict_identity_key_exact (env : Env) (ids : List String)
    (hostAlias key user : String) :
    UserSettings.GetAllStrict env ids noSettings hostAlias key user =
      .ret (if env.Default key ≠ "" then [env.Default key]
            else if key = "IdentityFile" then ids else [], none) ∧
    sampleEnv.ToLower "identityfile" = sampleEnv.ToLower "IdentityFile" ∧
    UserSettings.GetAllStrict sampleEnv ["~/.ssh/id_rsa", "~/.ssh/id_ed25519"]
        (settingsOf sampleConfig) "randomhost" "IdentityFile" "" =
      .ret (["~/.ssh/id_rsa", "~/.ssh/id_ed25519"], none) ∧
    UserSettings.GetAllStrict sampleEnv ["~/.ssh/id_rsa", "~/.ssh/id_ed25519"]
        (settingsOf sampleConfig) "randomhost" "identityfile" "" = .ret ([], none) := by
  refine ⟨?_, by decide, by decide!, by decide!⟩
  simp only [UserSettings.GetAllStrict, noSettings, findAll, NewMatchContext,
    MatchContext.matchFinalAll, MatchContext.matchFinalAllLoop, ne_eq, not_true_eq_false,
    false_and, or_self, if_false]
  by_cases h1 : env.Default key = ""
  · by_cases h2 : key = "IdentityFile"
    · subst h2
      simp [h1]
    · simp [h1, h2]
  · simp [h1]

/-- C26 fails for a pattern with an upper-case letter and for an attribute
that is written twice.  The value `host Foo` is accepted and the pattern `Foo`
matches the host `Foo`, yet the block does not match a context whose host is
`Foo`; it matches the host `foo`.  The value `host a host b` is accepted and
the pattern `a` does not match the host `b`, yet the block matches a context
whose host is `b`. -/
theorem Match_value_lowered_and_overwritten :
    matchValueAccepted (sampleEnv.ToLower "host Foo") = true ∧
    writtenPairs "host Foo" = ["host", "Foo"] ∧
    (NewPattern "Foo").map (fun p => (p.regex.MatchString "Foo", p.not)) = .ok (true, false) ∧
    matchDirectiveMatches "host Foo" (NewMatchContext sampleEnv "Foo" "") =
      .ok (some (.ret false)) ∧
    matchDirectiveMatches "host Foo" (NewMatchContext sampleEnv "foo" "") =
      .ok (some (.ret true)) ∧
    matchValueAccepted (sampleEnv.ToLower "host a host b") = true ∧
    writtenPairs "host a host b" = ["host", "a", "host", "b"] ∧
    (NewPattern "a").map (fun p => (p.regex.MatchString "b", p.not)) = .ok (false, false) ∧
    matchDirectiveMatches "host a host b" (NewMatchContext sampleEnv "b" "") =
      .ok (some (.ret true)) := by
  decide!

/-- C27 fails: for the config decoded from `Match final all` with the line
`Ciphers +a,b`, `GetStrict` returns the value `+a,b` as it is written, while
for the same line under `Match all` it returns the default followed by
`,a,b`. -/
theorem GetStrict_final_value_not_rewritten :
    (decodeTokens sampleEnv sampleOS (parseWithDepth sampleEnv sampleOS)
        finalCiphersTokens false 0).map
      (fun r => r.map (fun c => (patternTexts c, c.Blocks.map Block.IsFinal))) =
        .ok (.ok ([["*"], ["*"]], [false, true])) ∧
    modifiableKeys.contains "Ciphers" = true ∧
    sampleEnv.Default "Ciphers" ++ ",a,b" = "aes128-ctr,aes256-ctr,a,b" ∧
    UserSettings.GetStrict sampleEnv (settingsOf (configOfTokens plainCiphersTokens))
        "h" "Ciphers" "" = .ret ("aes128-ctr,aes256-ctr,a,b", none) ∧
    UserSettings.GetStrict sampleEnv (settingsOf (configOfTokens finalCiphersTokens))
        "h" "Ciphers" "" = .ret ("+a,b", none) := by
  decide!

/-- C28 fails: for the config decoded from `Match final all` with the line
`Include b`, where the file `b` holds `Port 22`, the final block is deferred
and matches, and `matchFinal` and `matchFinalAll` panic on the nil context
that they hand to the `Include`; so do `GetStrict` and `GetAllStrict`.  Under
`Match all` the same `Include` yields the value `22`. -/
theorem matchFinal_include_nil_context :
    (decodeTokens sampleEnv sampleOS (parseWithDepth sampleEnv sampleOS)
        finalIncludeTokens false 0).map
      (fun r => r.map (fun c => c.Blocks.map
        (fun b => (b.IsFinal, b.GetNodes.map Node.isInclude,
          b.Matches (some (deferredContext c)))))) =
        .ok (.ok [(false, [], .ret true), (true, [true], .ret true)]) ∧
    (deferredContext (configOfTokens finalIncludeTokens)).matchFinal sampleEnv "Port" =
      .panic nilDeref ∧
    (deferredContext (configOfTokens finalIncludeTokens)).matchFinalAll sampleEnv "Port" =
      .panic nilDeref ∧
    UserSettings.GetStrict sampleEnv (settingsOf (configOfTokens finalIncludeTokens))
        "h" "Port" "" = .panic nilDeref ∧
    UserSettings.GetAllStrict sampleEnv [] (settingsOf (configOfTokens finalIncludeTokens))
        "h" "Port" "" = .panic nilDeref ∧
    UserSettings.GetStrict sampleEnv (settingsOf (configOfTokens plainIncludeTokens))
        "h" "Port" "" = .ret ("22", none) ∧
    UserSettings.GetAllStrict sampleEnv [] (settingsOf (configOfTokens plainIncludeTokens))
        "h" "Port" "" = .ret (["22"], none) := by
  exact ⟨by decide!, by decide!, by decide!, by decide!, by decide!, by decide!, by decide!⟩

/-! ## The claims on the context of a lookup and on the text of a config -/

theorem Frame_refl (ctx : MatchContext) : Frame ctx (some ctx) := ⟨ctx, rfl, rfl, rfl⟩

theorem Frame_trans (ctx c1 : MatchContext) (o : Option MatchContext)
    (h1 : Frame ctx (some c1)) (h2 : Frame c1 o) : Frame ctx o := by
  obtain ⟨a, ha, h3, h4⟩ := h1
  obtain ⟨b, hb, h5, h6⟩ := h2
  cases ha
  exact ⟨b, hb, h5.trans h3, h6.trans h4⟩

theorem applyDirective_frame (env : Env) (ctx : MatchContext) (t : KV) :
    Frame ctx (some (applyDirective env ctx t)) := by
  refine ⟨_, rfl, ?_, ?_⟩ <;>
  · unfold applyDirective
    split
    · rfl
    · split <;> rfl

mutual
theorem Config_Get_frame (env : Env) (key : String) :
    ∀ (c : Config) (ctx : MatchContext) (r : String × GoError) (o : Option MatchContext),
    Config.Get env c key (some ctx) = .ret (r, o) → Frame ctx o
  | .mk blocks _ _, ctx, r, o, h => by
    simp only [Config.Get] at h
    exact getLoop_frame env key blocks ctx r o h
theorem getLoop_frame (env : Env) (key : String) :
    ∀ (bs : List Block) (ctx : MatchContext) (r : String × GoError) (o : Option MatchContext),
    Config.getLoop env bs key (some ctx) = .ret (r, o) → Frame ctx o
  | [], ctx, r, o, h => by
    simp only [Config.getLoop, Exec.ret.injEq, Prod.mk.injEq] at h
    obtain ⟨_, ho⟩ := h
    subst ho
    exact Frame_refl ctx
  | block :: rest, ctx, r, o, h => by
    simp only [Config.getLoop] at h
    by_cases hf : block.IsFinal = true
    · simp only [hf, if_true] at h
      exact Frame_trans ctx { ctx with FinalBlocks := ctx.FinalBlocks ++ [block] } o
        ⟨_, rfl, rfl, rfl⟩ (getLoop_frame env key rest _ r o h)
    · rw [if_neg hf] at h
      cases hm : block.Matches (some ctx) with
      | panic m => simp [hm] at h
      | ret b =>
        cases b with
        | false =>
          simp only [hm] at h
          exact getLoop_frame env key rest ctx r o h
        | true =>
          simp only [hm] at h
          cases hb : handleBlock env block key (some ctx) with
          | panic m => simp [hb] at h
          | ret res =>
            obtain ⟨⟨found, err⟩, a1⟩ := res
            have hd1 := handleBlock_frame env key block ctx (found, err) a1 hb
            simp only [hb] at h
            by_cases he : err = none
            · by_cases hfound : found = ""
              · simp only [he, hfound, ne_eq, not_true_eq_false, if_false] at h
                obtain ⟨c1, hc1, _, _⟩ := id hd1
                subst hc1
                exact Frame_trans ctx c1 o hd1 (getLoop_frame env key rest c1 r o h)
              · simp only [he, hfound, ne_eq, not_true_eq_false, not_false_eq_true, if_false,
                  if_true, Exec.ret.injEq, Prod.mk.injEq] at h
                obtain ⟨_, ho⟩ := h
                subst ho
                exact hd1
            · simp only [he, ne_eq, not_false_eq_true, if_true, Exec.ret.injEq,
                Prod.mk.injEq] at h
              obtain ⟨_, ho⟩ := h
              subst ho
              exact hd1
theorem handleBlock_frame (env : Env) (key : String) :
    ∀ (b : Block) (ctx : MatchContext) (r : String × GoError) (o : Option MatchContext),
    handleBlock env b key (some ctx) = .ret (r, o) → Frame ctx o
  | .Host _ nodes _, ctx, r, o, h => by
    simp only [handleBlock] at h
    exact handleBlock_loop_frame env key nodes ctx r o h
  | .Match _ nodes _, ctx, r, o, h => by
    simp only [handleBlock] at h
    exact handleBlock_loop_frame env key nodes ctx r o h
theorem handleBlock_loop_frame (env : Env) (key : String) :
    ∀ (ns : List Node) (ctx : MatchContext) (r : String × GoError) (o : Option MatchContext),
    handleBlock.loop env ns key (some ctx) = .ret (r, o) → Frame ctx o
  | [], ctx, r, o, h => by
    simp only [handleBlock.loop, Exec.ret.injEq, Prod.mk.injEq] at h
    obtain ⟨_, ho⟩ := h
    subst ho
    exact Frame_refl ctx
  | .Empty _ :: rest, ctx, r, o, h => by
    simp only [handleBlock.loop] at h
    exact handleBlock_loop_frame env key rest ctx r o h
  | .KV t :: rest, ctx, r, o, h => by
    simp only [handleBlock.loop, addToContext_some] at h
    by_cases hk : env.ToLower t.Key = "match"
    · rw [if_pos hk] at h
      simp at h
    · by_cases hit : env.ToLower t.Key = env.ToLower key
      · rw [if_neg hk, if_pos hit] at h
        simp only [Exec.ret.injEq, Prod.mk.injEq] at h
        obtain ⟨_, ho⟩ := h
        subst ho
        exact Frame_refl ctx
      · rw [if_neg hk, if_neg hit] at h
        exact Frame_trans ctx _ o (applyDirective_frame env ctx t)
          (handleBlock_loop_frame env key rest (applyDirective env ctx t) r o h)
  | .Include files d :: rest, ctx, r, o, h => by
    simp only [handleBlock.loop] at h
    cases hi : Include.Get env files key (some ctx) with
    | panic m => simp [hi] at h
    | ret res =>
      obtain ⟨val, a1⟩ := res
      have hd1 := Include_Get_frame env key files ctx val a1 hi
      simp only [hi] at h
      by_cases hval : val = ""
      · simp only [hval, ne_eq, not_true_eq_false, if_false] at h
        obtain ⟨c1, hc1, _, _⟩ := id hd1
        subst hc1
        exact Frame_trans ctx c1 o hd1 (handleBlock_loop_frame env key rest c1 r o h)
      · simp only [hval, ne_eq, not_false_eq_true, if_true, Exec.ret.injEq,
          Prod.mk.injEq] at h
        obtain ⟨_, ho⟩ := h
        subst ho
        exact hd1
  | .other _ :: rest, ctx, r, o, h => by
    simp only [handleBlock.loop, Exec.ret.injEq, Prod.mk.injEq] at h
    obtain ⟨_, ho⟩ := h
    subst ho
    exact Frame_refl ctx
theorem Include_Get_frame (env : Env) (key : String) :
    ∀ (fs : List (String × Config)) (ctx : MatchContext) (v : String)
      (o : Option MatchContext),
    Include.Get env fs key (some ctx) = .ret (v, o) → Frame ctx o
  | [], ctx, v, o, h => by
    simp only [Include.Get, Exec.ret.injEq, Prod.mk.injEq] at h
    obtain ⟨_, ho⟩ := h
    subst ho
    exact Frame_refl ctx
  | (name, cfg) :: rest, ctx, v, o, h => by
    simp only [Include.Get] at h
    cases hc : Config.Get env cfg key (some ctx) with
    | panic m => simp [hc] at h
    | ret res =>
      obtain ⟨⟨val, err⟩, a1⟩ := res
      have hd1 := Config_Get_frame env key cfg ctx (val, err) a1 hc
      simp only [hc] at h
      by_cases hcond : err = none ∧ val ≠ ""
      · simp only [hcond, ne_eq, not_false_eq_true, and_self, if_true, Exec.ret.injEq,
          Prod.mk.injEq] at h
        obtain ⟨_, ho⟩ := h
        subst ho
        exact hd1
      · simp only [hcond, if_false] at h
        obtain ⟨c1, hc1, _, _⟩ := id hd1
        subst hc1
        exact Frame_trans ctx c1 o hd1 (Include_Get_frame env key rest c1 v o h)
end

/-- C24: in a matching non-final block a directive that `Get` passes (its key
is neither `match` nor the key looked up) whose lower-cased key is `user`
sets `User` to its value, one whose lower-cased key is `hostname` sets `Host`,
any other leaves the context as it is; the block after a matching block
without a hit is evaluated in the context that the block left; a block that
does not match is skipped with the context unchanged; whatever the config,
the context that `Get` leaves has the `OriginalHost` and the `LocalUser` it
started with.  For a regular config `Get` returns the first hit of the
reached directives, and `User` and `Host` are the ones that the directives
before the hit have set. -/
theorem Config_Get_updates_context (env : Env) (c : Config) (key : String)
    (ctx : MatchContext) (hreg : Config.regular env c = true) :
    (∃ ctx1 : MatchContext,
      Config.Get env c key (some ctx) =
        .ret ((firstValue env key (Config.reached env c ctx), none), some ctx1) ∧
      ctx1.User =
        (applyDirectives env ctx (beforeHit env key (Config.reached env c ctx))).User ∧
      ctx1.Host =
        (applyDirectives env ctx (beforeHit env key (Config.reached env c ctx))).Host ∧
      ctx1.OriginalHost = ctx.OriginalHost ∧ ctx1.LocalUser = ctx.LocalUser) ∧
    (∀ (t : KV) (rest : List Node),
      env.ToLower t.Key ≠ "match" → env.ToLower t.Key ≠ env.ToLower key →
      handleBlock.loop env (.KV t :: rest) key (some ctx) =
        handleBlock.loop env rest key
          (some (if env.ToLower t.Key = "user" then { ctx with User := t.Value }
                 else if env.ToLower t.Key = "hostname" then { ctx with Host := t.Value }
                 else ctx))) ∧
    (∀ (block : Block) (rest : List Block) (o : Option MatchContext),
      block.IsFinal = false → block.Matches (some ctx) = .ret true →
      handleBlock env block key (some ctx) = .ret (("", none), o) →
      Config.getLoop env (block :: rest) key (some ctx) = Config.getLoop env rest key o) ∧
    (∀ (block : Block) (rest : List Block),
      block.IsFinal = false → block.Matches (some ctx) = .ret false →
      Config.getLoop env (block :: rest) key (some ctx) =
        Config.getLoop env rest key (some ctx)) ∧
    (∀ (c2 : Config) (r : String × GoError) (o : Option MatchContext),
      Config.Get env c2 key (some ctx) = .ret (r, o) →
      ∃ c1 : MatchContext, o = some c1 ∧ c1.OriginalHost = ctx.OriginalHost ∧
        c1.LocalUser = ctx.LocalUser) := by
  refine ⟨?_, ?_, ?_, ?_, ?_⟩
  · obtain ⟨⟨c1, hc1, hl1⟩, _⟩ := Config_Get_scan env key c ctx hreg
    obtain ⟨c2, hc2, ho, hu⟩ := Config_Get_frame env key c ctx _ _ hc1
    cases hc2
    simp only [MatchContext.live, Prod.mk.injEq] at hl1
    exact ⟨c1, hc1, hl1.1, hl1.2.1, ho, hu⟩
  · intro t rest hk hit
    simp only [handleBlock.loop, addToContext_some, if_neg hk, if_neg hit, applyDirective]
  · intro block rest o hf hm hb
    simp [Config.getLoop, hf, hm, hb]
  · intro block rest hf hm
    simp [Config.getLoop, hf, hm]
  · intro c2 r o h
    exact Config_Get_frame env key c2 ctx r o h

/-- Witness of `Config_Get_updates_context`: the key `Port` looked up in
`conditionConfig` for the alias `testhost`.  The block `Match host h` does
not match the context of the alias, it matches once `HostName h` has set the
host, and the lookup returns its port. -/
theorem Config_Get_updates_context_witness :
    Config.regular sampleEnv conditionConfig = true ∧
    (conditionConfig.Blocks.map
      (fun b => b.Matches (some (NewMatchContext sampleEnv "testhost" "")))) =
        [.ret true, .ret true, .ret false] ∧
    (conditionConfig.Blocks.map
      (fun b => b.Matches
        (some { NewMatchContext sampleEnv "testhost" "" with Host := "h" }))) =
        [.ret true, .ret true, .ret true] ∧
    firstValue sampleEnv "Port"
      (Config.reached sampleEnv conditionConfig (NewMatchContext sampleEnv "testhost" "")) =
        "2222" ∧
    (applyDirectives sampleEnv (NewMatchContext sampleEnv "testhost" "")
      (beforeHit sampleEnv "Port"
        (Config.reached sampleEnv conditionConfig
          (NewMatchContext sampleEnv "testhost" "")))).live = ("", "h", "me", "testhost") ∧
    (∃ ctx1 : MatchContext,
      Config.Get sampleEnv conditionConfig "Port"
          (some (NewMatchContext sampleEnv "testhost" "")) =
        .ret ((firstValue sampleEnv "Port"
          (Config.reached sampleEnv conditionConfig (NewMatchContext sampleEnv "testhost" "")),
            none), some ctx1) ∧
      ctx1.User =
        (applyDirectives sampleEnv (NewMatchContext sampleEnv "testhost" "")
          (beforeHit sampleEnv "Port"
            (Config.reached sampleEnv conditionConfig
              (NewMatchContext sampleEnv "testhost" "")))).User ∧
      ctx1.Host =
        (applyDirectives sampleEnv (NewMatchContext sampleEnv "testhost" "")
          (beforeHit sampleEnv "Port"
            (Config.reached sampleEnv conditionConfig
              (NewMatchContext sampleEnv "testhost" "")))).Host ∧
      ctx1.OriginalHost = (NewMatchContext sampleEnv "testhost" "").OriginalHost ∧
      ctx1.LocalUser = (NewMatchContext sampleEnv "testhost" "").LocalUser) :=
  ⟨by decide, by decide, by decide, by decide, by decide,
    (Config_Get_updates_context sampleEnv conditionConfig "Port"
      (NewMatchContext sampleEnv "testhost" "") (by decide)).1⟩

theorem stringsRepeat_cases (s : String) (n : Int) :
    (0 ≤ n ∧ ∃ t, stringsRepeat s n = .ret t) ∨
      (n < 0 ∧ stringsRepeat s n = .panic "strings: negative Repeat count") := by
  unfold stringsRepeat
  by_cases h : n < 0
  · exact Or.inr ⟨h, by simp [h]⟩
  · exact Or.inl ⟨by omega, by simp [h]⟩

theorem Node_String_ret_iff (n : Node) :
    (∃ t, n.String = .ret t) ↔ nodeIndentOk n = true := by
  cases n with
  | Empty e =>
    simp only [Node.String, Empty.String, nodeIndentOk, Bool.or_eq_true, decide_eq_true_eq]
    by_cases hc : e.Comment = ""
    · simp [hc]
    · rcases stringsRepeat_cases " " e.leadingSpace with ⟨h0, t, ht⟩ | ⟨h0, hp⟩
      · simp [hc, ht, h0]
      · have h1 : ¬ 0 ≤ e.leadingSpace := by omega
        simp [hc, hp, h1]
  | KV k =>
    simp only [Node.String, KV.String, nodeIndentOk, decide_eq_true_eq]
    rcases stringsRepeat_cases " " k.leadingSpace with ⟨h0, t, ht⟩ | ⟨h0, hp⟩
    · simp [ht, h0]
    · have h1 : ¬ 0 ≤ k.leadingSpace := by omega
      simp [hp, h1]
  | Include files d =>
    simp only [Node.String, IncludeData.String, nodeIndentOk, decide_eq_true_eq]
    rcases stringsRepeat_cases " " d.leadingSpace with ⟨h0, t, ht⟩ | ⟨h0, hp⟩
    · simp [ht, h0]
    · have h1 : ¬ 0 ≤ d.leadingSpace := by omega
      simp [hp, h1]
  | other descr => simp [Node.String, nodeIndentOk]

theorem nodesString_ret_iff :
    ∀ ns : List Node, (∃ t, Host.nodesString ns = .ret t) ↔ ns.all nodeIndentOk = true
  | [] => by simp [Host.nodesString]
  | n :: rest => by
    have ih := nodesString_ret_iff rest
    have hn := Node_String_ret_iff n
    simp only [Host.nodesString, List.all_cons, Bool.and_eq_true]
    rw [← hn, ← ih]
    cases n.String with
    | panic m => simp
    | ret s =>
      cases Host.nodesString rest with
      | panic m => simp
      | ret t => simp

theorem headerString_ret_iff (ps : List Pattern) (data : BlockData) :
    (∃ t, Host.headerString ps data = .ret t) ↔
      (data.implicit = true ∨ 0 ≤ data.leadingSpace) := by
  unfold Host.headerString
  by_cases hi : data.implicit = true
  · simp [hi]
  · have hi2 : data.implicit = false := by simpa using hi
    rcases stringsRepeat_cases " " data.leadingSpace with ⟨h0, t, ht⟩ | ⟨h0, hp⟩
    · simp [hi2, ht, h0]
    · have h1 : ¬ 0 ≤ data.leadingSpace := by omega
      simp [hi2, hp, h1]

theorem Block_String_ret_iff (b : Block) :
    (∃ t, b.String = .ret t) ↔ (blockIsMatch b = false ∧ blockIndentOk b = true) := by
  cases b with
  | Match ps nodes data => simp [Block.String, blockIsMatch]
  | Host ps nodes data =>
    have hn := nodesString_ret_iff nodes
    have hh := headerString_ret_iff ps data
    simp only [Block.String, blockIsMatch, blockIndentOk, Block.data, Block.GetNodes,
      Bool.and_eq_true, Bool.or_eq_true, decide_eq_true_eq, true_and]
    rw [← hn, ← hh]
    cases Host.headerString ps data with
    | panic m => simp
    | ret s =>
      cases Host.nodesString nodes with
      | panic m => simp
      | ret t => simp

theorem marshal_ret_iff :
    ∀ bs : List Block, (∃ t, marshal bs = .ret t) ↔
      bs.all (fun b => !blockIsMatch b && blockIndentOk b) = true
  | [] => by simp [marshal]
  | b :: rest => by
    have ih := marshal_ret_iff rest
    have hb := Block_String_ret_iff b
    simp only [marshal, List.all_cons, Bool.and_eq_true, Bool.not_eq_true']
    rw [← ih, ← hb]
    cases b.String with
    | panic m => simp
    | ret s =>
      cases marshal rest with
      | panic m => simp
      | ret t => simp

/-! ## The claims on the files of an Include and on the two lookups -/

theorem removeDups_foldl :
    ∀ (l seen out : List String),
      (l.foldl
        (fun (st : List String × List String) v =>
          if st.1.contains v then st else (v :: st.1, st.2 ++ [v]))
        (seen, out)).2 = out ++ firstSeen seen l
  | [], seen, out => by simp [firstSeen]
  | v :: l, seen, out => by
    simp only [List.foldl_cons, firstSeen]
    by_cases h : seen.contains v = true
    · simp only [h, if_true]
      exact removeDups_foldl l seen out
    · simp only [h, if_false, Bool.false_eq_true]
      rw [removeDups_foldl l (v :: seen) (out ++ [v])]
      simp

theorem removeDups_eq (arr : List String) : removeDups arr = firstSeen [] arr := by
  unfold removeDups
  rw [removeDups_foldl]
  simp

theorem firstSeen_cons_mem (seen l : List String) (v : String) (h : v ∈ seen) :
    firstSeen seen (v :: l) = firstSeen seen l := by
  have h2 : seen.contains v = true := by simpa using h
  simp only [firstSeen, h2, if_true]

theorem firstSeen_cons_not_mem (seen l : List String) (v : String) (h : v ∉ seen) :
    firstSeen seen (v :: l) = v :: firstSeen (v :: seen) l := by
  have h2 : seen.contains v = false := by simpa using h
  simp only [firstSeen, h2, Bool.false_eq_true, if_false]

theorem firstSeen_congr :
    ∀ (l s1 s2 : List String), (∀ x ∈ l, (x ∈ s1 ↔ x ∈ s2)) → firstSeen s1 l = firstSeen s2 l
  | [], _, _, _ => by simp [firstSeen]
  | v :: l, s1, s2, h => by
    by_cases hv : v ∈ s1
    · have hv2 : v ∈ s2 := (h v (List.mem_cons_self v l)).1 hv
      rw [firstSeen_cons_mem s1 l v hv, firstSeen_cons_mem s2 l v hv2]
      exact firstSeen_congr l s1 s2 (fun x hx => h x (List.mem_cons_of_mem v hx))
    · have hv2 : v ∉ s2 := fun e => hv ((h v (List.mem_cons_self v l)).2 e)
      rw [firstSeen_cons_not_mem s1 l v hv, firstSeen_cons_not_mem s2 l v hv2]
      congr 1
      apply firstSeen_congr l (v :: s1) (v :: s2)
      intro x hx
      simp only [List.mem_cons]
      rw [h x (List.mem_cons_of_mem v hx)]

theorem firstSeen_filter (p : String → Bool) :
    ∀ (l seen : List String), (∀ x ∈ l, p x = false → x ∈ seen) →
      firstSeen seen (l.filter p) = firstSeen seen l
  | [], _, _ => by simp [firstSeen]
  | v :: l, seen, h => by
    have hl : ∀ x ∈ l, p x = false → x ∈ seen := fun x hx => h x (List.mem_cons_of_mem v hx)
    by_cases hp : p v = true
    · simp only [List.filter_cons, hp, if_true]
      by_cases hv : v ∈ seen
      · rw [firstSeen_cons_mem seen _ v hv, firstSeen_cons_mem seen _ v hv]
        exact firstSeen_filter p l seen hl
      · rw [firstSeen_cons_not_mem seen _ v hv, firstSeen_cons_not_mem seen _ v hv]
        congr 1
        exact firstSeen_filter p l (v :: seen)
          (fun x hx hpx => List.mem_cons_of_mem v (hl x hx hpx))
    · have hp2 : p v = false := by simpa using hp
      have hv : v ∈ seen := h v (List.mem_cons_self v l) hp2
      simp only [List.filter_cons, hp2, Bool.false_eq_true, if_false]
      rw [firstSeen_cons_mem seen _ v hv]
      exact firstSeen_filter p l seen hl

theorem firstSeen_mem :
    ∀ (l seen : List String) (x : String), x ∈ firstSeen seen l ↔ (x ∈ l ∧ x ∉ seen)
  | [], _, x => by simp [firstSeen]
  | v :: l, seen, x => by
    by_cases hv : v ∈ seen
    · rw [firstSeen_cons_mem seen l v hv, firstSeen_mem l seen x]
      simp only [List.mem_cons]
      constructor
      · rintro ⟨h1, h2⟩
        exact ⟨Or.inr h1, h2⟩
      · rintro ⟨h1 | h1, h2⟩
        · subst h1
          exact absurd hv h2
        · exact ⟨h1, h2⟩
    · rw [firstSeen_cons_not_mem seen l v hv]
      simp only [List.mem_cons, firstSeen_mem l (v :: seen) x, not_or]
      constructor
      · rintro (h1 | ⟨h1, _, h3⟩)
        · subst h1
          exact ⟨Or.inl rfl, hv⟩
        · exact ⟨Or.inr h1, h3⟩
      · rintro ⟨h1 | h1, h2⟩
        · exact Or.inl h1
        · by_cases hx : x = v
          · exact Or.inl hx
          · exact Or.inr ⟨h1, hx, h2⟩

theorem firstSeen_nodup : ∀ (l seen : List String), (firstSeen seen l).Nodup
  | [], _ => by simp [firstSeen]
  | v :: l, seen => by
    by_cases hv : v ∈ seen
    · rw [firstSeen_cons_mem seen l v hv]
      exact firstSeen_nodup l seen
    · rw [firstSeen_cons_not_mem seen l v hv, List.nodup_cons]
      refine ⟨?_, firstSeen_nodup l (v :: seen)⟩
      rw [firstSeen_mem]
      simp

theorem firstSeen_sublist : ∀ (l seen : List String), (firstSeen seen l).Sublist l
  | [], _ => by simp [firstSeen]
  | v :: l, seen => by
    by_cases hv : v ∈ seen
    · rw [firstSeen_cons_mem seen l v hv]
      exact (firstSeen_sublist l seen).cons v
    · rw [firstSeen_cons_not_mem seen l v hv]
      exact (firstSeen_sublist l (v :: seen)).cons₂ v

theorem firstSeen_of_nodup :
    ∀ (l seen : List String), l.Nodup → (∀ x ∈ l, x ∉ seen) → firstSeen seen l = l
  | [], _, _, _ => by simp [firstSeen]
  | v :: l, seen, hnd, hdis => by
    have hv : v ∉ seen := hdis v (List.mem_cons_self v l)
    rw [firstSeen_cons_not_mem seen l v hv]
    congr 1
    apply firstSeen_of_nodup l (v :: seen) (List.nodup_cons.1 hnd).2
    intro x hx
    simp only [List.mem_cons, not_or]
    refine ⟨?_, hdis x (List.mem_cons_of_mem v hx)⟩
    intro e
    subst e
    exact (List.nodup_cons.1 hnd).1 hx

/-- C32: `removeDups` returns the distinct elements of its argument in the
order of their first occurrence: the first element comes first and is
followed by what `removeDups` makes of the later elements that differ from
it; the result holds no element twice, holds exactly the elements of the
argument, is a subsequence of it, and `removeDups` leaves it as it is. -/
theorem removeDups_first_occurrences (arr : List String) :
    (removeDups arr).Nodup ∧
    (∀ x, x ∈ removeDups arr ↔ x ∈ arr) ∧
    (removeDups arr).Sublist arr ∧
    removeDups (removeDups arr) = removeDups arr ∧
    removeDups [] = [] ∧
    (∀ (a : String) (rest : List String),
      removeDups (a :: rest) = a :: removeDups (rest.filter (fun x => decide (x ≠ a)))) := by
  refine ⟨?_, ?_, ?_, ?_, rfl, ?_⟩
  · rw [removeDups_eq]
    exact firstSeen_nodup arr []
  · intro x
    rw [removeDups_eq, firstSeen_mem]
    simp
  · rw [removeDups_eq]
    exact firstSeen_sublist arr []
  · rw [removeDups_eq (removeDups arr), removeDups_eq arr]
    exact firstSeen_of_nodup _ [] (firstSeen_nodup arr []) (by simp)
  · intro a rest
    rw [removeDups_eq, removeDups_eq, firstSeen_cons_not_mem [] rest a (by simp)]
    congr 1
    rw [← firstSeen_filter (fun x => decide (x ≠ a)) rest [a] (by
      intro x _ hx
      simpa using hx)]
    apply firstSeen_congr
    intro x hx
    have := (List.mem_filter.1 hx).2
    simp only [ne_eq, decide_eq_true_eq] at this
    simp [this]

theorem handleModifiers_caret_split (env : Env) (rest key : String)
    (hnd : (stringsSplit (env.Default key) ',').Nodup) :
    stringsSplit (handleModifiers env ("^" ++ rest) key) ',' =
      (stringsSplit rest ',').filter
          (fun a => (stringsSplit (env.Default key) ',').contains a) ++
        (stringsSplit (env.Default key) ',').filter
          (fun a => !((stringsSplit rest ',').filter
            (fun a => (stringsSplit (env.Default key) ',').contains a)).contains a) := by
  have e : handleModifiers env ("^" ++ rest) key =
      stringsJoin
        ((stringsSplit rest ',').filter
            (fun a => (stringsSplit (env.Default key) ',').contains a) ++
          (stringsSplit (env.Default key) ',').filter
            (fun a => !((stringsSplit rest ',').filter
              (fun a => (stringsSplit (env.Default key) ',').contains a)).contains a)) "," := by
    rw [handleModifiers_caret_eq, foldl_dedup_nodup _ _ hnd]
  have hmem : ∀ a ∈ (stringsSplit rest ',').filter
          (fun a => (stringsSplit (env.Default key) ',').contains a) ++
        (stringsSplit (env.Default key) ',').filter
          (fun a => !((stringsSplit rest ',').filter
            (fun a => (stringsSplit (env.Default key) ',').contains a)).contains a),
      a ∈ stringsSplit (env.Default key) ',' := by
    intro a ha
    rcases List.mem_append.1 ha with h | h
    · have := (List.mem_filter.1 h).2
      simpa using this
    · exact (List.mem_filter.1 h).1
  have hne : (stringsSplit rest ',').filter
          (fun a => (stringsSplit (env.Default key) ',').contains a) ++
        (stringsSplit (env.Default key) ',').filter
          (fun a => !((stringsSplit rest ',').filter
            (fun a => (stringsSplit (env.Default key) ',').contains a)).contains a) ≠ [] := by
    intro h
    obtain ⟨h1, h2⟩ := List.append_eq_nil.1 h
    cases hd : stringsSplit (env.Default key) ',' with
    | nil => exact stringsSplit_ne_nil _ _ hd
    | cons x xs =>
      rw [hd] at h1 h2
      rw [h1] at h2
      simp at h2
  have es := stringsSplit_join _ hne (fun a ha => stringsSplit_no_sep _ ',' a (hmem a ha))
  rw [← e] at es
  exact es

theorem named_then_others_perm (d cur : List String) (hd : d.Nodup)
    (hc : (cur.filter (fun a => d.contains a)).Nodup) :
    (cur.filter (fun a => d.contains a) ++
      d.filter (fun a => !(cur.filter (fun a => d.contains a)).contains a)).Perm d := by
  have h1 : (d.filter (fun a => (cur.filter (fun a => d.contains a)).contains a) ++
      d.filter (fun a => !(cur.filter (fun a => d.contains a)).contains a)).Perm d :=
    List.filter_append_perm _ d
  have h2 : (cur.filter (fun a => d.contains a)).Perm
      (d.filter (fun a => (cur.filter (fun a => d.contains a)).contains a)) := by
    rw [List.perm_ext_iff_of_nodup hc (hd.filter _)]
    intro a
    have e1 : ∀ (l : List String) (x : String), l.contains x = true ↔ x ∈ l := by
      intro l x
      simp
    simp only [List.mem_filter, e1]
    tauto
  exact (List.Perm.append_right _ h2).trans h1

/-- C37 fails for a value that names a default entry twice: for `Ciphers`,
whose default list `aes128-ctr,aes256-ctr` has no repeated entry, the value
`^aes128-ctr,aes128-ctr` is rewritten to a list that holds `aes128-ctr` twice. -/
theorem handleModifiers_caret_repeats_entry :
    modifiableKeys.contains "Ciphers" = true ∧
    stringsSplit (sampleEnv.Default "Ciphers") ',' = ["aes128-ctr", "aes256-ctr"] ∧
    handleModifiers sampleEnv "^aes128-ctr,aes128-ctr" "Ciphers" =
      "aes128-ctr,aes128-ctr,aes256-ctr" ∧
    (stringsSplit (handleModifiers sampleEnv "^aes128-ctr,aes128-ctr" "Ciphers") ',').count
      "aes128-ctr" = 2 ∧
    (stringsSplit (sampleEnv.Default "Ciphers") ',').count "aes128-ctr" = 1 := by
  exact ⟨by decide, by decide, by decide, by decide, by decide⟩

/-- C37 as amended: when the default list of the key has no repeated entry
and the value `^rest` names no default entry more than once, the comma-split
of the result of `handleModifiers` is a reordering of the default list: every
text occurs in it as many times as in the default list, so it holds every
default entry and nothing else, whatever other entries `rest` names. -/
theorem handleModifiers_caret_perm (env : Env) (rest key : String)
    (hnd : (stringsSplit (env.Default key) ',').Nodup)
    (hcur : ((stringsSplit rest ',').filter
      (fun a => (stringsSplit (env.Default key) ',').contains a)).Nodup) :
    (stringsSplit (handleModifiers env ("^" ++ rest) key) ',').Perm
      (stringsSplit (env.Default key) ',') ∧
    (∀ a : String,
      (stringsSplit (handleModifiers env ("^" ++ rest) key) ',').count a =
        (stringsSplit (env.Default key) ',').count a) ∧
    (∀ a : String, a ∈ stringsSplit (handleModifiers env ("^" ++ rest) key) ',' ↔
      a ∈ stringsSplit (env.Default key) ',') := by
  have hp : (stringsSplit (handleModifiers env ("^" ++ rest) key) ',').Perm
      (stringsSplit (env.Default key) ',') := by
    rw [handleModifiers_caret_split env rest key hnd]
    exact named_then_others_perm _ _ hnd hcur
  exact ⟨hp, fun a => hp.count_eq a, fun a => hp.mem_iff⟩

/-- Witness of `handleModifiers_caret_perm`: the value `^aes256-ctr,zzz,zzz`
for `Ciphers` with the default list `aes128-ctr,aes256-ctr`. -/
theorem handleModifiers_caret_perm_witness :
    handleModifiers sampleEnv ("^" ++ "aes256-ctr,zzz,zzz") "Ciphers" =
      "aes256-ctr,aes128-ctr" ∧
    (stringsSplit (handleModifiers sampleEnv ("^" ++ "aes256-ctr,zzz,zzz") "Ciphers") ',').Perm
      (stringsSplit (sampleEnv.Default "Ciphers") ',') :=
  ⟨by decide,
    (handleModifiers_caret_perm sampleEnv "aes256-ctr,zzz,zzz" "Ciphers" (by decide)
      (by decide)).1⟩

mutual
theorem regular_wellFormed (env : Env) : ∀ (c : Config),
    Config.regular env c = true → Config.wellFormed env c = true
  | .mk blocks _ _, h => by
    simp only [Config.regular] at h
    simp only [Config.wellFormed]
    exact regularBlocks_wellFormed env blocks h
theorem regularBlocks_wellFormed (env : Env) : ∀ (bs : List Block),
    regularBlocks env bs = true → wellFormedBlocks env bs = true
  | [], _ => rfl
  | b :: rest, h => by
    simp only [regularBlocks, Bool.and_eq_true] at h
    simp only [wellFormedBlocks, Bool.and_eq_true]
    exact ⟨Block_regular_wellFormed env b h.1, regularBlocks_wellFormed env rest h.2⟩
theorem Block_regular_wellFormed (env : Env) : ∀ (b : Block),
    Block.regular env b = true → Block.wellFormed env b = true
  | .Host _ nodes _, h => by
    simp only [Block.regular] at h
    simp only [Block.wellFormed]
    exact regularNodes_wellFormed env nodes h
  | .Match ps nodes _, h => by
    simp only [Block.regular, Bool.and_eq_true] at h
    simp only [Block.wellFormed, Bool.and_eq_true]
    exact ⟨h.1, regularNodes_wellFormed env nodes h.2⟩
theorem regularNodes_wellFormed (env : Env) : ∀ (ns : List Node),
    regularNodes env ns = true → wellFormedNodes env ns = true
  | [], _ => rfl
  | .Empty _ :: rest, h => by
    simp only [regularNodes] at h
    simp only [wellFormedNodes]
    exact regularNodes_wellFormed env rest h
  | .KV t :: rest, h => by
    simp only [regularNodes, Bool.and_eq_true] at h
    simp only [wellFormedNodes, Bool.and_eq_true]
    exact ⟨h.1.1, regularNodes_wellFormed env rest h.2⟩
  | .Include files _ :: rest, h => by
    simp only [regularNodes, Bool.and_eq_true] at h
    simp only [wellFormedNodes, Bool.and_eq_true]
    exact ⟨regularFiles_wellFormed env files h.1, regularNodes_wellFormed env rest h.2⟩
  | .other _ :: _, h => by simp [regularNodes] at h
theorem regularFiles_wellFormed (env : Env) : ∀ (fs : List (String × Config)),
    regularFiles env fs = true → wellFormedFiles env fs = true
  | [], _ => rfl
  | (_, cfg) :: rest, h => by
    simp only [regularFiles, Bool.and_eq_true] at h
    simp only [wellFormedFiles, Bool.and_eq_true]
    exact ⟨regular_wellFormed env cfg h.1, regularFiles_wellFormed env rest h.2⟩
end

theorem allValues_headD (env : Env) (key : String) :
    ∀ l : List KV, (allValues env key l).headD "" = firstValue env key l
  | [] => rfl
  | t :: l => by
    by_cases h : keyEquals env key t = true
    · simp [allValues, firstValue, List.filter_cons, List.find?_cons, h]
    · have h2 : keyEquals env key t = false := by simpa using h
      have ih := allValues_headD env key l
      simp only [allValues, firstValue] at ih
      simp only [allValues, firstValue, List.filter_cons, List.find?_cons, h2,
        Bool.false_eq_true, if_false]
      exact ih

/-- C36 fails on a config with a directive keyed `Match` after the hit: in
`matchAfterHitConfig` every node is a directive with a non-empty value; `Get`
returns `22` for `Port`, and `GetAll`, which does not stop at the hit, panics
on the directive that follows. -/
theorem Config_GetAll_panics_after_hit :
    matchAfterHitConfig.Blocks.all (fun b => b.GetNodes.all (fun n =>
      match n with
      | .KV t => decide (t.Value ≠ "")
      | _ => false)) = true ∧
    Config.Get sampleEnv matchAfterHitConfig "Port" (some (NewMatchContext sampleEnv "h" "")) =
      .ret (("22", none), some (NewMatchContext sampleEnv "h" "")) ∧
    Config.GetAll sampleEnv matchAfterHitConfig "Port"
        (some (NewMatchContext sampleEnv "h" "")) =
      .panic "can't handle Match directives" := by
  refine ⟨by decide, ?_, ?_⟩ <;> rfl

/-- C36 as amended: for a regular config (directive, comment and Include
nodes; no directive keyed `match`; no empty directive value; Match blocks over
the four attributes; included configs likewise), every key and every
starting context, `GetAll` returns a list with a nil error, `Get` returns
with a nil error the first element of this list, and `""` when the list is
empty; the result of `Get` is `""` exactly when the list is empty. -/
theorem Config_Get_head_of_GetAll (env : Env) (c : Config) (key : String)
    (ctx : MatchContext) (hreg : Config.regular env c = true) :
    ∃ (all : List String) (ctxG ctxA : MatchContext),
      Config.GetAll env c key (some ctx) = .ret ((all, none), some ctxA) ∧
      Config.Get env c key (some ctx) = .ret ((all.headD "", none), some ctxG) ∧
      (all.headD "" = "" ↔ all = []) := by
  obtain ⟨⟨c1, hc1, _⟩, hm⟩ := Config_Get_scan env key c ctx hreg
  obtain ⟨c2, hc2, _⟩ := Config_GetAll_scan env key c ctx (regular_wellFormed env c hreg)
  refine ⟨allValues env key (Config.reached env c ctx), c1, c2, by simpa using hc2, ?_, ?_⟩
  · rw [allValues_headD]
    exact hc1
  · rw [allValues_headD]
    constructor
    · intro h
      have := hm h
      simp only [allValues, List.map_eq_nil_iff, List.filter_eq_nil_iff]
      intro t ht
      simp [this t ht]
    · intro h
      rw [← allValues_headD, h]
      rfl

/-- Witness of `Config_Get_head_of_GetAll`: the key `port` looked up in
`sampleConfig` for the alias `testhost2`, where `GetAll` returns the list
with the one value `1234`. -/
theorem Config_Get_head_of_GetAll_witness :
    Config.regular sampleEnv sampleConfig = true ∧
    allValues sampleEnv "port"
      (Config.reached sampleEnv sampleConfig (NewMatchContext sampleEnv "testhost2" "")) =
        ["1234"] ∧
    ∃ (all : List String) (ctxG ctxA : MatchContext),
      Config.GetAll sampleEnv sampleConfig "port"
          (some (NewMatchContext sampleEnv "testhost2" "")) =
        .ret ((all, none), some ctxA) ∧
      Config.Get sampleEnv sampleConfig "port"
          (some (NewMatchContext sampleEnv "testhost2" "")) =
        .ret ((all.headD "", none), some ctxG) ∧
      (all.headD "" = "" ↔ all = []) :=
  ⟨by decide, by decide,
    Config_Get_head_of_GetAll sampleEnv sampleConfig "port"
      (NewMatchContext sampleEnv "testhost2" "") (by decide)⟩

theorem getLoop_error_empty (env : Env) (key : String) :
    ∀ (bs : List Block) (ctx : Option MatchContext) (v : String) (e : GoError)
      (o : Option MatchContext),
      Config.getLoop env bs key ctx = .ret ((v, e), o) → e ≠ none → v = ""
  | [], ctx, v, e, o, h, he => by
    simp only [Config.getLoop, Exec.ret.injEq, Prod.mk.injEq] at h
    exact absurd h.1.2.symm he
  | block :: rest, ctx, v, e, o, h, he => by
    simp only [Config.getLoop] at h
    by_cases hf : block.IsFinal = true
    · simp only [hf, if_true] at h
      cases ctx with
      | none => simp at h
      | some c => exact getLoop_error_empty env key rest _ v e o h he
    · rw [if_neg hf] at h
      cases hm : block.Matches ctx with
      | panic m => simp [hm] at h
      | ret b =>
        cases b with
        | false =>
          simp only [hm] at h
          exact getLoop_error_empty env key rest ctx v e o h he
        | true =>
          simp only [hm] at h
          cases hb : handleBlock env block key ctx with
          | panic m => simp [hb] at h
          | ret res =>
            obtain ⟨⟨found, err⟩, a1⟩ := res
            simp only [hb] at h
            by_cases herr : err = none
            · by_cases hfound : found = ""
              · simp only [herr, hfound, ne_eq, not_true_eq_false, if_false] at h
                exact getLoop_error_empty env key rest a1 v e o h he
              · simp only [herr, hfound, ne_eq, not_true_eq_false, not_false_eq_true, if_false,
                  if_true, Exec.ret.injEq, Prod.mk.injEq] at h
                exact absurd h.1.2.symm he
            · simp only [herr, ne_eq, not_false_eq_true, if_true, Exec.ret.injEq,
                Prod.mk.injEq] at h
              exact h.1.1.symm

theorem getAllLoop_error_nil (env : Env) (key : String) :
    ∀ (bs : List Block) (all : List String) (ctx : Option MatchContext) (v : List String)
      (e : GoError) (o : Option MatchContext),
      Config.getAllLoop env bs all key ctx = .ret ((v, e), o) → e ≠ none → v = []
  | [], all, ctx, v, e, o, h, he => by
    simp only [Config.getAllLoop, Exec.ret.injEq, Prod.mk.injEq] at h
    exact absurd h.1.2.symm he
  | block :: rest, all, ctx, v, e, o, h, he => by
    simp only [Config.getAllLoop] at h
    by_cases hf : block.IsFinal = true
    · simp only [hf, if_true] at h
      cases ctx with
      | none => simp at h
      | some c => exact getAllLoop_error_nil env key rest all _ v e o h he
    · rw [if_neg hf] at h
      cases hm : block.Matches ctx with
      | panic m => simp [hm] at h
      | ret b =>
        cases b with
        | false =>
          simp only [hm] at h
          exact getAllLoop_error_nil env key rest all ctx v e o h he
        | true =>
          simp only [hm] at h
          cases hb : handleBlockAll env block all key ctx with
          | panic m => simp [hb] at h
          | ret res =>
            obtain ⟨⟨all1, err⟩, a1⟩ := res
            simp only [hb] at h
            by_cases herr : err = none
            · simp only [herr, ne_eq, not_true_eq_false, if_false] at h
              exact getAllLoop_error_nil env key rest all1 a1 v e o h he
            · simp only [herr, ne_eq, not_false_eq_true, if_true, Exec.ret.injEq,
                Prod.mk.injEq] at h
              exact h.1.1.symm

theorem Include_Get_single (env : Env) (key : String) (ctx : Option MatchContext)
    (name : String) (cfg : Config) :
    Include.Get env [(name, cfg)] key ctx =
      match Config.Get env cfg key ctx with
      | .panic m => .panic m
      | .ret ((v, _), ctx1) => .ret (v, ctx1) := by
  simp only [Include.Get]
  cases hc : Config.Get env cfg key ctx with
  | panic m => rfl
  | ret res =>
    obtain ⟨⟨v, e⟩, o⟩ := res
    simp only
    by_cases hcond : e = none ∧ v ≠ ""
    · rw [if_pos hcond]
    · rw [if_neg hcond]
      have hv : v = "" := by
        by_cases he : e = none
        · by_contra hne
          exact hcond ⟨he, hne⟩
        · cases cfg with
          | mk blocks d pos =>
            simp only [Config.Get] at hc
            exact getLoop_error_empty env key blocks ctx v e o hc he
      rw [hv]

theorem Include_Get_append (env : Env) (key : String) :
    ∀ (fs1 fs2 : List (String × Config)) (ctx : Option MatchContext),
      Include.Get env (fs1 ++ fs2) key ctx =
        match Include.Get env fs1 key ctx with
        | .panic m => .panic m
        | .ret (v, ctx1) => if v ≠ "" then .ret (v, ctx1) else Include.Get env fs2 key ctx1
  | [], fs2, ctx => by simp [Include.Get]
  | (name, cfg) :: fs1, fs2, ctx => by
    simp only [List.cons_append, Include.Get, List.append_eq]
    cases hc : Config.Get env cfg key ctx with
    | panic m => rfl
    | ret res =>
      obtain ⟨⟨v, e⟩, o⟩ := res
      simp only
      by_cases hcond : e = none ∧ v ≠ ""
      · simp only [hcond, ne_eq, not_false_eq_true, and_self, if_true]
      · rw [if_neg hcond, if_neg hcond]
        exact Include_Get_append env key fs1 fs2 o

theorem Include_Get_first (env : Env) (key : String) :
    ∀ (files : List (String × Config)) (ctx : Option MatchContext) (v : String)
      (o : Option MatchContext),
      Include.Get env files key ctx = .ret (v, o) → v ≠ "" →
      ∃ (fs1 : List (String × Config)) (name : String) (cfg : Config)
        (fs2 : List (String × Config)) (ctx1 : Option MatchContext),
        files = fs1 ++ (name, cfg) :: fs2 ∧
        Include.Get env fs1 key ctx = .ret ("", ctx1) ∧
        Config.Get env cfg key ctx1 = .ret ((v, none), o)
  | [], ctx, v, o, h, hv => by
    simp only [Include.Get, Exec.ret.injEq, Prod.mk.injEq] at h
    exact absurd h.1.symm hv
  | (name, cfg) :: rest, ctx, v, o, h, hv => by
    simp only [Include.Get] at h
    cases hc : Config.Get env cfg key ctx with
    | panic m => simp [hc] at h
    | ret res =>
      obtain ⟨⟨val, e⟩, a1⟩ := res
      simp only [hc] at h
      by_cases hcond : e = none ∧ val ≠ ""
      · rw [if_pos hcond] at h
        simp only [Exec.ret.injEq, Prod.mk.injEq] at h
        obtain ⟨h1, h2⟩ := h
        subst h1 h2
        refine ⟨[], name, cfg, rest, ctx, rfl, rfl, ?_⟩
        rw [hc, hcond.1]
      · rw [if_neg hcond] at h
        obtain ⟨fs1, n2, c2, fs2, ctx1, hfiles, hpre, hget⟩ :=
          Include_Get_first env key rest a1 v o h hv
        refine ⟨(name, cfg) :: fs1, n2, c2, fs2, ctx1, by rw [hfiles]; rfl, ?_, hget⟩
        simp only [Include.Get, hc, if_neg hcond]
        exact hpre

theorem Include_getAllLoop_acc (env : Env) (key : String) :
    ∀ (files : List (String × Config)) (vals : List String) (ctx : Option MatchContext),
      Include.getAllLoop env files vals key ctx =
        match Include.getAllLoop env files [] key ctx with
        | .panic m => .panic m
        | .ret ((v, e), ctx1) => .ret ((vals ++ v, e), ctx1)
  | [], vals, ctx => by simp [Include.getAllLoop]
  | (name, cfg) :: rest, vals, ctx => by
    simp only [Include.getAllLoop]
    cases hc : Config.GetAll env cfg key ctx with
    | panic m => rfl
    | ret res =>
      obtain ⟨⟨val, e⟩, a1⟩ := res
      simp only
      rw [Include_getAllLoop_acc env key rest (if e = none ∧ val.length ≠ 0 then vals ++ val
          else vals) a1,
        Include_getAllLoop_acc env key rest (if e = none ∧ val.length ≠ 0 then [] ++ val
          else []) a1]
      cases Include.getAllLoop env rest [] key a1 with
      | panic m => rfl
      | ret res2 =>
        obtain ⟨⟨v2, e2⟩, a2⟩ := res2
        simp only
        by_cases hcond : e = none ∧ val.length ≠ 0
        · simp only [hcond, ne_eq, not_false_eq_true, and_self, if_true, List.nil_append,
            List.append_assoc]
        · simp only [hcond, if_false, List.nil_append]

theorem Include_getAllLoop_error (env : Env) (key : String) :
    ∀ (files : List (String × Config)) (vals : List String) (ctx : Option MatchContext)
      (v : List String) (e : GoError) (o : Option MatchContext),
      Include.getAllLoop env files vals key ctx = .ret ((v, e), o) → e = none
  | [], vals, ctx, v, e, o, h => by
    simp only [Include.getAllLoop, Exec.ret.injEq, Prod.mk.injEq] at h
    exact h.1.2.symm
  | (name, cfg) :: rest, vals, ctx, v, e, o, h => by
    simp only [Include.getAllLoop] at h
    cases hc : Config.GetAll env cfg key ctx with
    | panic m => simp [hc] at h
    | ret res =>
      obtain ⟨⟨val, e1⟩, a1⟩ := res
      simp only [hc] at h
      exact Include_getAllLoop_error env key rest _ a1 v e o h

theorem Include_GetAll_single (env : Env) (key : String) (ctx : Option MatchContext)
    (name : String) (cfg : Config) :
    Include.GetAll env [(name, cfg)] key ctx =
      match Config.GetAll env cfg key ctx with
      | .panic m => .panic m
      | .ret ((vals, _), ctx1) => .ret ((vals, none), ctx1) := by
  simp only [Include.GetAll, Include.getAllLoop]
  cases hc : Config.GetAll env cfg key ctx with
  | panic m => rfl
  | ret res =>
    obtain ⟨⟨val, e⟩, o⟩ := res
    simp only [List.nil_append]
    by_cases hcond : e = none ∧ val.length ≠ 0
    · rw [if_pos hcond]
    · rw [if_neg hcond]
      have hv : val = [] := by
        by_cases he : e = none
        · by_contra hne
          exact hcond ⟨he, fun h0 => hne (List.length_eq_zero.1 h0)⟩
        · cases cfg with
          | mk blocks d pos =>
            simp only [Config.GetAll] at hc
            exact getAllLoop_error_nil env key blocks [] ctx val e o hc he
      rw [hv]

theorem Include_GetAll_append (env : Env) (key : String) :
    ∀ (fs1 fs2 : List (String × Config)) (ctx : Option MatchContext),
      Include.GetAll env (fs1 ++ fs2) key ctx =
        match Include.GetAll env fs1 key ctx with
        | .panic m => .panic m
        | .ret ((v1, _), ctx1) =>
          match Include.GetAll env fs2 key ctx1 with
          | .panic m => .panic m
          | .ret ((v2, _), ctx2) => .ret ((v1 ++ v2, none), ctx2)
  | [], fs2, ctx => by
    simp only [List.nil_append, Include.GetAll, Include.getAllLoop]
    cases h : Include.getAllLoop env fs2 [] key ctx with
    | panic m => rfl
    | ret res =>
      obtain ⟨⟨v2, e2⟩, a2⟩ := res
      have := Include_getAllLoop_error env key fs2 [] ctx v2 e2 a2 h
      subst this
      simp
  | (name, cfg) :: fs1, fs2, ctx => by
    have ih := Include_GetAll_append env key fs1 fs2
    simp only [Include.GetAll] at ih ⊢
    simp only [List.cons_append, Include.getAllLoop, List.append_eq]
    cases hc : Config.GetAll env cfg key ctx with
    | panic m => rfl
    | ret res =>
      obtain ⟨⟨val, e⟩, a1⟩ := res
      simp only
      rw [Include_getAllLoop_acc env key (fs1 ++ fs2), Include_getAllLoop_acc env key fs1, ih a1]
      cases Include.getAllLoop env fs1 [] key a1 with
      | panic m => rfl
      | ret res1 =>
        obtain ⟨⟨v1, e1⟩, b1⟩ := res1
        simp only
        cases Include.getAllLoop env fs2 [] key b1 with
        | panic m => rfl
        | ret res2 =>
          obtain ⟨⟨v2, e2⟩, b2⟩ := res2
          simp only [List.append_assoc]

theorem Include_Get_names (env : Env) (key : String) :
    ∀ (files files2 : List (String × Config)) (ctx : Option MatchContext),
      files.map Prod.snd = files2.map Prod.snd →
      Include.Get env files key ctx = Include.Get env files2 key ctx
  | [], [], _, _ => rfl
  | [], _ :: _, _, h => by simp at h
  | _ :: _, [], _, h => by simp at h
  | (n1, c1) :: r1, (n2, c2) :: r2, ctx, h => by
    simp only [List.map_cons, List.cons.injEq] at h
    obtain ⟨hc, hr⟩ := h
    subst hc
    simp only [Include.Get]
    cases Config.Get env c1 key ctx with
    | panic m => rfl
    | ret res =>
      obtain ⟨⟨v, e⟩, o⟩ := res
      simp only
      rw [Include_Get_names env key r1 r2 o hr]

theorem Include_getAllLoop_names (env : Env) (key : String) :
    ∀ (files files2 : List (String × Config)) (vals : List String)
      (ctx : Option MatchContext),
      files.map Prod.snd = files2.map Prod.snd →
      Include.getAllLoop env files vals key ctx = Include.getAllLoop env files2 vals key ctx
  | [], [], _, _, _ => rfl
  | [], _ :: _, _, _, h => by simp at h
  | _ :: _, [], _, _, h => by simp at h
  | (n1, c1) :: r1, (n2, c2) :: r2, vals, ctx, h => by
    simp only [List.map_cons, List.cons.injEq] at h
    obtain ⟨hc, hr⟩ := h
    subst hc
    simp only [Include.getAllLoop]
    cases Config.GetAll env c1 key ctx with
    | panic m => rfl
    | ret res =>
      obtain ⟨⟨v, e⟩, o⟩ := res
      simp only
      rw [Include_getAllLoop_names env key r1 r2 _ o hr]

/-- C33: `(*Include).Get` and `(*Include).GetAll` go through the included
configs in the order of the match list.  For one file `Get` returns what
`Config.Get` yields and `GetAll` what `Config.GetAll` yields, with a nil
error; for a list in two parts `Get` returns the non-empty value of the
first part when there is one and else what the second part yields in the
context that the first part left, and `GetAll` returns the values of the
first part followed by the values of the second part; a non-empty result of
`Get` is the value of the first config that yields one, every config before
it having yielded none.  The results depend on the configs and their order
only, not on the file names, so they are the same on every lookup. -/
theorem Include_Get_order (env : Env) (key : String) (ctx : Option MatchContext) :
    Include.Get env [] key ctx = .ret ("", ctx) ∧
    (∀ (name : String) (cfg : Config),
      Include.Get env [(name, cfg)] key ctx =
        match Config.Get env cfg key ctx with
        | .panic m => .panic m
        | .ret ((v, _), ctx1) => .ret (v, ctx1)) ∧
    (∀ fs1 fs2 : List (String × Config),
      Include.Get env (fs1 ++ fs2) key ctx =
        match Include.Get env fs1 key ctx with
        | .panic m => .panic m
        | .ret (v, ctx1) =>
          if v ≠ "" then .ret (v, ctx1) else Include.Get env fs2 key ctx1) ∧
    (∀ (files : List (String × Config)) (v : String) (o : Option MatchContext),
      Include.Get env files key ctx = .ret (v, o) → v ≠ "" →
      ∃ (fs1 : List (String × Config)) (name : String) (cfg : Config)
        (fs2 : List (String × Config)) (ctx1 : Option MatchContext),
        files = fs1 ++ (name, cfg) :: fs2 ∧
        Include.Get env fs1 key ctx = .ret ("", ctx1) ∧
        Config.Get env cfg key ctx1 = .ret ((v, none), o)) ∧
    Include.GetAll env [] key ctx = .ret (([], none), ctx) ∧
    (∀ (name : String) (cfg : Config),
      Include.GetAll env [(name, cfg)] key ctx =
        match Config.GetAll env cfg key ctx with
        | .panic m => .panic m
        | .ret ((vals, _), ctx1) => .ret ((vals, none), ctx1)) ∧
    (∀ fs1 fs2 : List (String × Config),
      Include.GetAll env (fs1 ++ fs2) key ctx =
        match Include.GetAll env fs1 key ctx with
        | .panic m => .panic m
        | .ret ((v1, _), ctx1) =>
          match Include.GetAll env fs2 key ctx1 with
          | .panic m => .panic m
          | .ret ((v2, _), ctx2) => .ret ((v1 ++ v2, none), ctx2)) ∧
    (∀ files files2 : List (String × Config), files.map Prod.snd = files2.map Prod.snd →
      Include.Get env files key ctx = Include.Get env files2 key ctx ∧
      Include.GetAll env files key ctx = Include.GetAll env files2 key ctx) :=
  ⟨rfl, Include_Get_single env key ctx, fun fs1 fs2 => Include_Get_append env key fs1 fs2 ctx,
    fun files v o => Include_Get_first env key files ctx v o, rfl,
    Include_GetAll_single env key ctx,
    fun fs1 fs2 => Include_GetAll_append env key fs1 fs2 ctx,
    fun files files2 h => ⟨Include_Get_names env key files files2 ctx h,
      Include_getAllLoop_names env key files files2 [] ctx h⟩⟩

/-! ## The claims on the nodes and blocks that the parser makes -/

theorem cutLine_key (t : token) (rest : List token) (key : token) (equals : Bool)
    (val : token) (comment : String) (r : List token)
    (h : cutLine (t :: rest) = some (key, equals, val, comment, r)) :
    key = t ∧ r.length < (t :: rest).length := by
  cases rest with
  | nil => simp [cutLine] at h
  | cons v r1 =>
    simp only [cutLine] at h
    by_cases hv : v.typ = .tokenEquals
    · simp only [hv, if_true, decide_True] at h
      cases r1 with
      | nil => simp at h
      | cons val0 r2 =>
        simp only at h
        cases r2 with
        | nil =>
          simp only [Option.some.injEq, Prod.mk.injEq] at h
          obtain ⟨h1, _, _, _, h5⟩ := h
          subst h5
          exact ⟨h1.symm, by simp⟩
        | cons c r3 =>
          simp only at h
          split at h
          · simp only [Option.some.injEq, Prod.mk.injEq] at h
            obtain ⟨h1, _, _, _, h5⟩ := h
            subst h5
            exact ⟨h1.symm, by simp only [List.length_cons]; omega⟩
          · simp only [Option.some.injEq, Prod.mk.injEq] at h
            obtain ⟨h1, _, _, _, h5⟩ := h
            subst h5
            exact ⟨h1.symm, by simp only [List.length_cons]; omega⟩
    · simp only [hv, if_false, decide_False] at h
      cases r1 with
      | nil =>
        simp only [Option.some.injEq, Prod.mk.injEq] at h
        obtain ⟨h1, _, _, _, h5⟩ := h
        subst h5
        exact ⟨h1.symm, by simp⟩
      | cons c r3 =>
        simp only at h
        split at h
        · simp only [Option.some.injEq, Prod.mk.injEq] at h
          obtain ⟨h1, _, _, _, h5⟩ := h
          subst h5
          exact ⟨h1.symm, by simp only [List.length_cons]; omega⟩
        · simp only [Option.some.injEq, Prod.mk.injEq] at h
          obtain ⟨h1, _, _, _, h5⟩ := h
          subst h5
          exact ⟨h1.symm, by simp only [List.length_cons]; omega⟩

theorem parseKV_cutLine (env : Env) (os : OS)
    (parse : String → Nat → Except PanicValue (Except ErrorValue Config))
    (p : sshParser) (key : token) (equals : Bool) (val : token) (comment : String)
    (rest : List token)
    (hcut : cutLine p.tokens = some (key, equals, val, comment, rest)) :
    p.parseKV env os parse =
      (if env.ToLower key.val = "match" then
        parseKV.matchBranch env os { p with tokens := rest } equals val comment
      else if env.ToLower key.val = "host" then
        parseKV.hostBranch os { p with tokens := rest } equals val comment
      else parseKV.nodeBranch env os parse { p with tokens := rest } key equals val comment) := by
  unfold sshParser.parseKV
  simp only [sshParser.getToken, sshParser.peek]
  cases ht : p.tokens with
  | nil => rw [ht] at hcut; simp [cutLine] at hcut
  | cons k ts =>
    rw [ht] at hcut
    cases ts with
    | nil => simp [cutLine] at hcut
    | cons v r1 =>
      simp only [cutLine] at hcut
      by_cases hv : v.typ = .tokenEquals
      · simp only [hv, if_true, decide_True] at hcut
        cases r1 with
        | nil => simp at hcut
        | cons val0 r2 =>
          simp only at hcut
          cases r2 with
          | nil =>
            simp only [Option.some.injEq, Prod.mk.injEq] at hcut
            obtain ⟨rfl, rfl, rfl, rfl, rfl⟩ := hcut
            simp [hv]
          | cons c r3 =>
            simp only at hcut
            by_cases hs : c.typ = .tokenComment ∧ c.Position.Line = val0.Position.Line
            · rw [if_pos hs] at hcut
              simp only [Option.some.injEq, Prod.mk.injEq] at hcut
              obtain ⟨rfl, rfl, rfl, rfl, rfl⟩ := hcut
              simp [hv, hs]
            · rw [if_neg hs] at hcut
              simp only [Option.some.injEq, Prod.mk.injEq] at hcut
              obtain ⟨rfl, rfl, rfl, rfl, rfl⟩ := hcut
              simp [hv, hs]
      · simp only [hv, if_false, decide_False] at hcut
        cases r1 with
        | nil =>
          simp only [Option.some.injEq, Prod.mk.injEq] at hcut
          obtain ⟨rfl, rfl, rfl, rfl, rfl⟩ := hcut
          simp [hv]
        | cons c r3 =>
          simp only at hcut
          by_cases hs : c.typ = .tokenComment ∧ c.Position.Line = v.Position.Line
          · rw [if_pos hs] at hcut
            simp only [Option.some.injEq, Prod.mk.injEq] at hcut
            obtain ⟨rfl, rfl, rfl, rfl, rfl⟩ := hcut
            simp [hv, hs]
          · rw [if_neg hs] at hcut
            simp only [Option.some.injEq, Prod.mk.injEq] at hcut
            obtain ⟨rfl, rfl, rfl, rfl, rfl⟩ := hcut
            simp [hv, hs]

theorem parseKV_cutLine_none (env : Env) (os : OS)
    (parse : String → Nat → Except PanicValue (Except ErrorValue Config))
    (p p1 : sshParser) (hcut : cutLine p.tokens = none) :
    p.parseKV env os parse ≠ .ok p1 := by
  intro h
  unfold sshParser.parseKV at h
  simp only [sshParser.getToken, sshParser.peek] at h
  cases ht : p.tokens with
  | nil => rw [ht] at h; simp at h
  | cons k ts =>
    rw [ht] at h hcut
    cases ts with
    | nil => simp at h
    | cons v r1 =>
      simp only [cutLine] at hcut
      by_cases hv : v.typ = .tokenEquals
      · simp only [hv, if_true, decide_True] at hcut
        cases r1 with
        | nil =>
          simp only [List.head?_cons, List.tail_cons, hv, decide_True, if_true, List.head?_nil,
            List.tail_nil] at h
          split at h
          · simp at h
          · split at h
            · simp at h
            · split at h <;> simp at h
        | cons val0 r2 =>
          simp only at hcut
          cases r2 with
          | nil => simp at hcut
          | cons c r3 =>
            simp only at hcut
            split at hcut <;> simp at hcut
      · simp only [hv, if_false, decide_False] at hcut
        cases r1 with
        | nil => simp at hcut
        | cons c r3 =>
          simp only at hcut
          split at hcut <;> simp at hcut

theorem dropWhile_head_not {α : Type} (q : α → Bool) :
    ∀ (l : List α) (a : α), (l.dropWhile q).head? = some a → q a = false
  | [], a, h => by simp at h
  | x :: l, a, h => by
    by_cases hx : q x = true
    · rw [List.dropWhile_cons_of_pos hx] at h
      exact dropWhile_head_not q l a h
    · rw [List.dropWhile_cons_of_neg hx] at h
      simp only [List.head?_cons, Option.some.injEq] at h
      subst h
      simpa using hx

theorem trimRightSpace_last (s : String) (ch : Char)
    (h : (trimRightSpace s).data.getLast? = some ch) : unicodeIsSpace ch = false := by
  simp only [trimRightSpace, List.getLast?_reverse] at h
  exact dropWhile_head_not unicodeIsSpace _ ch h

theorem sliceFrom_trim_space (s : String) :
    (sliceFrom s (trimRightSpace s)).data.all unicodeIsSpace = true := by
  have h := List.takeWhile_append_dropWhile unicodeIsSpace s.data.reverse
  have h2 : s.data = (s.data.reverse.dropWhile unicodeIsSpace).reverse ++
      (s.data.reverse.takeWhile unicodeIsSpace).reverse := by
    rw [← List.reverse_append, h, List.reverse_reverse]
  have h3 : ∀ (A B l : List Char), l = A ++ B → List.drop A.length l = B := by
    intro A B l e
    rw [e, List.drop_left]
  simp only [sliceFrom, trimRightSpace]
  rw [h3 _ _ _ h2]
  simp only [List.all_reverse, List.all_eq_true]
  intro c hc
  exact List.mem_takeWhile_imp hc

theorem KV_String_parsed (key value space comment : String) (equals : Bool) (col : Int)
    (pos : Position) (hcol : 1 ≤ col) :
    KV.String ⟨key, value, space, comment, equals, col - 1, pos⟩ =
      .ret (blanks (col - 1).toNat ++ key ++ (if equals then " = " else " ") ++
        (value ++ space) ++ (if comment ≠ "" then "#" ++ comment else "")) := by
  have e : col - 1 = (((col - 1).toNat : Nat) : Int) := by
    rw [Int.toNat_of_nonneg (by omega)]
  simp only [KV.String]
  rw [e, stringsRepeat_blank, ← e]
  by_cases hc : comment = ""
  · subst hc
    simp [String.append_assoc]
  · simp [hc, String.append_assoc]

/-- C31 fails for a comment without text: for the tokens of the line
`Port 22 #` a comment token follows the value on its line, and the text of
the decoded config is `Port 22 ` without the `#`. -/
theorem KV_String_drops_empty_comment :
    cutLine emptyCommentSample =
      some (sampleToken .tokenKey "Port" 1 1, false, sampleToken (.other 0) "22 " 1 6, "",
        [sampleToken .tokenEOF "" 2 1]) ∧
    (emptyCommentSample.drop 2).head? = some (sampleToken .tokenComment "" 1 9) ∧
    (decodeTokens sampleEnv sampleOS (parseWithDepth sampleEnv sampleOS)
        emptyCommentSample false 0).map
      (fun r => r.map Config.String) = .ok (.ok (.ret "Port 22 \n")) := by
  exact ⟨by decide, by decide, by decide!⟩

/-- C31 as amended: for a directive whose key reads neither `match` nor
`host` nor `include`, in a parser whose config has a block and with the key
at a column from 1 on, `parseKV` appends to the last block the node with the
key as written, as Value the text of the value token without its trailing
white space, and the white space that was cut off: Value does not end in
white space, the captured suffix is white space, and Value followed by it is
the text of the token; `KV.String` of the node is the indent of column - 1
blanks, the key, ` = ` or a blank according to the equals token, the whole
text of the value token, and `#` with the comment when the comment on the
line has a text. -/
theorem parseKV_directive_value (env : Env) (os : OS)
    (parse : String → Nat → Except PanicValue (Except ErrorValue Config))
    (p : sshParser) (key : token) (equals : Bool) (val : token) (comment : String)
    (rest : List token)
    (hcut : cutLine p.tokens = some (key, equals, val, comment, rest))
    (hm : env.ToLower key.val ≠ "match") (hh : env.ToLower key.val ≠ "host")
    (hi : env.ToLower key.val ≠ "include")
    (hb : p.config.Blocks ≠ []) (hcol : 1 ≤ key.Position.Col) :
    ∃ c1 : Config,
      p.parseKV env os parse = .ok { p with tokens := rest, config := c1 } ∧
      p.config.appendNode
        (.KV ⟨key.val, trimRightSpace val.val, sliceFrom val.val (trimRightSpace val.val),
          comment, equals, key.Position.Col - 1, key.Position⟩) = some c1 ∧
      (∀ ch : Char, (trimRightSpace val.val).data.getLast? = some ch →
        unicodeIsSpace ch = false) ∧
      (sliceFrom val.val (trimRightSpace val.val)).data.all unicodeIsSpace = true ∧
      trimRightSpace val.val ++ sliceFrom val.val (trimRightSpace val.val) = val.val ∧
      KV.String ⟨key.val, trimRightSpace val.val, sliceFrom val.val (trimRightSpace val.val),
          comment, equals, key.Position.Col - 1, key.Position⟩ =
        .ret (blanks (key.Position.Col - 1).toNat ++ key.val ++
          (if equals then " = " else " ") ++ val.val ++
          (if comment ≠ "" then "#" ++ comment else "")) := by
  obtain ⟨c1, hc1⟩ := appendNode_isSome p.config
    (.KV ⟨key.val, trimRightSpace val.val, sliceFrom val.val (trimRightSpace val.val),
      comment, equals, key.Position.Col - 1, key.Position⟩) hb
  refine ⟨c1, ?_, hc1, trimRightSpace_last val.val, sliceFrom_trim_space val.val,
    trimRightSpace_sliceFrom val.val, ?_⟩
  · rw [parseKV_cutLine env os parse p key equals val comment rest hcut, if_neg hm, if_neg hh]
    unfold parseKV.nodeBranch
    cases hl : p.config.Blocks.getLast? with
    | none => exact absurd (List.getLast?_eq_none_iff.1 hl) hb
    | some last =>
      simp only [hl, if_neg hi, hc1]
  · rw [KV_String_parsed _ _ _ _ _ _ _ hcol, trimRightSpace_sliceFrom]

/-- Witness of `parseKV_directive_value`: the tokens of the line `Port = 22`
with an indent of two blanks, two blanks after the value and the comment
` ssh`; the text of the node is the line. -/
theorem parseKV_directive_value_witness :
    cutLine (initialParser directiveSample false 0).tokens =
      some (sampleToken .tokenKey "Port" 1 3, true, sampleToken (.other 0) "22  " 1 10,
        " ssh", [sampleToken .tokenEOF "" 2 1]) ∧
    trimRightSpace "22  " = "22" ∧ sliceFrom "22  " "22" = "  " ∧
    blanks ((3 : Int) - 1).toNat ++ "Port" ++ " = " ++ "22  " ++ ("#" ++ " ssh") =
      "  Port = 22  # ssh" ∧
    ∃ c1 : Config,
      (initialParser directiveSample false 0).parseKV sampleEnv sampleOS
          (parseWithDepth sampleEnv sampleOS) =
        .ok { initialParser directiveSample false 0 with
          tokens := [sampleToken .tokenEOF "" 2 1], config := c1 } ∧
      KV.String ⟨"Port", trimRightSpace "22  ", sliceFrom "22  " (trimRightSpace "22  "),
          " ssh", true, 3 - 1, ⟨1, 3⟩⟩ =
        .ret (blanks ((3 : Int) - 1).toNat ++ "Port" ++ " = " ++ "22  " ++ ("#" ++ " ssh")) :=
  ⟨by decide, by decide, by decide, by decide,
    (parseKV_directive_value sampleEnv sampleOS (parseWithDepth sampleEnv sampleOS)
      (initialParser directiveSample false 0) (sampleToken .tokenKey "Port" 1 3) true
      (sampleToken (.other 0) "22  " 1 10) " ssh" [sampleToken .tokenEOF "" 2 1]
      (by decide) (by decide) (by decide) (by decide)
      (by simp [initialParser, newConfig, Config.Blocks]) (by decide)).imp
      (fun _ h => ⟨h.1, h.2.2.2.2.2⟩)⟩

theorem appendNode_shape (c c1 : Config) (n : Node) (h : c.appendNode n = some c1) :
    ∃ (init : List Block) (last : Block), c.Blocks = init ++ [last] ∧
      c1.Blocks = init ++ [last.SetNodes (last.GetNodes ++ [n])] := by
  cases c with
  | mk bs d pos =>
    simp only [Config.appendNode] at h
    cases hl : bs.getLast? with
    | none => rw [hl] at h; simp at h
    | some last =>
      rw [hl] at h
      simp only [Option.some.injEq] at h
      subst h
      exact ⟨bs.dropLast, last, (List.dropLast_append_getLast? last hl).symm, rfl⟩

theorem appendBlock_Blocks (c : Config) (b : Block) :
    (c.appendBlock b).Blocks = c.Blocks ++ [b] := by
  cases c with
  | mk bs d pos => rfl

theorem Extends_shape (parse : String → Nat → Except PanicValue (Except ErrorValue Config))
    (depth : Nat) (c c1 : Config) (hx : Extends parse depth c c1) :
    (∃ b : Block, b.GetNodes = [] ∧ c1.Blocks = c.Blocks ++ [b]) ∨
    (∃ (n : Node) (init : List Block) (last : Block), c.Blocks = init ++ [last] ∧
      c1.Blocks = init ++ [last.SetNodes (last.GetNodes ++ [n])]) := by
  rcases hx with ⟨b, hb, rfl⟩ | ⟨n, hn, _⟩
  · exact Or.inl ⟨b, hb, appendBlock_Blocks c b⟩
  · obtain ⟨init, last, h1, h2⟩ := appendNode_shape c c1 n hn
    exact Or.inr ⟨n, init, last, h1, h2⟩

theorem SetNodes_erase (b : Block) (ns : List Node) :
    (b.SetNodes ns).SetNodes [] = b.SetNodes [] := by
  cases b <;> rfl

theorem Extends_headers (parse : String → Nat → Except PanicValue (Except ErrorValue Config))
    (depth : Nat) (c c1 : Config) (hx : Extends parse depth c c1) :
    c1.Blocks.map (fun b => b.SetNodes []) = c.Blocks.map (fun b => b.SetNodes []) ∨
    ∃ b : Block, c1.Blocks.map (fun b => b.SetNodes []) =
      c.Blocks.map (fun b => b.SetNodes []) ++ [b] := by
  rcases Extends_shape parse depth c c1 hx with ⟨b, _, h⟩ | ⟨n, init, last, h1, h2⟩
  · exact Or.inr ⟨b.SetNodes [], by rw [h]; simp⟩
  · refine Or.inl ?_
    rw [h1, h2]
    simp [SetNodes_erase]

theorem implicitFirst_extends
    (parse : String → Nat → Except PanicValue (Except ErrorValue Config))
    (depth : Nat) (c c1 : Config) (hc : implicitFirst c) (hx : Extends parse depth c c1) :
    implicitFirst c1 := by
  obtain ⟨nodes, rest, hbs⟩ := hc
  rcases Extends_shape parse depth c c1 hx with ⟨b, _, h⟩ | ⟨n, init, last, h1, h2⟩
  · exact ⟨nodes, rest ++ [b], by rw [h, hbs]; rfl⟩
  · rw [hbs] at h1
    cases init with
    | nil =>
      simp only [List.nil_append, List.cons.injEq] at h1
      obtain ⟨hl, _⟩ := h1
      subst hl
      exact ⟨nodes ++ [n], [], by rw [h2]; rfl⟩
    | cons x init2 =>
      simp only [List.cons_append, List.cons.injEq] at h1
      obtain ⟨hx1, _⟩ := h1
      subst hx1
      exact ⟨nodes, init2 ++ [last.SetNodes (last.GetNodes ++ [n])], by rw [h2]; rfl⟩

theorem implicitFirst_initial : implicitFirst (.mk newConfig.Blocks 0 ⟨1, 1⟩) :=
  ⟨[], [], rfl⟩

theorem rounds_inv (env : Env) (os : OS)
    (parse : String → Nat → Except PanicValue (Except ErrorValue Config))
    (Q : Config → Prop) (depth : Nat)
    (hQ : ∀ c c1 : Config, Q c → Extends parse depth c c1 → Q c1) :
    ∀ (k : Nat) (p p1 : sshParser), p.depth = depth → Q p.config →
      sshParser.rounds env os parse k p = .ok p1 → Q p1.config
  | 0, p, p1, _, hq, h => by
    simp only [sshParser.rounds, Except.ok.injEq] at h
    subst h
    exact hq
  | k + 1, p, p1, hd, hq, h => by
    simp only [sshParser.rounds] at h
    split at h
    · simp at h
    · simp only [Except.ok.injEq] at h
      subst h
      exact hq
    · split at h
      · simp at h
      · rename_i p2 hp2
        obtain ⟨_, h2, _, h4⟩ := parseComment_ok parse p p2 hp2
        rw [hd] at h4
        exact rounds_inv env os parse Q depth hQ k p2 p1 (h2.trans hd) (hQ _ _ hq h4) h
    · split at h
      · simp at h
      · rename_i p2 hp2
        obtain ⟨_, h2, _, h4⟩ := parseKV_ok env os parse p p2 hp2
        rw [hd] at h4
        exact rounds_inv env os parse Q depth hQ k p2 p1 (h2.trans hd) (hQ _ _ hq h4) h

theorem implicit_block_text (nodes : List Node) :
    Block.String (.Host [matchAll] nodes ⟨"", "", false, 0, true, false⟩) =
      Host.nodesString nodes := by
  simp only [Block.String, Host.headerString]
  cases Host.nodesString nodes with
  | panic m => rfl
  | ret t =>
    simp only [Bool.true_eq_false, if_false, Exec.ret.injEq]
    apply String.ext
    simp

theorem decodeTokens_run (env : Env) (os : OS)
    (parse : String → Nat → Except PanicValue (Except ErrorValue Config))
    (flow : List token) (system : Bool) (depth : Nat) (c : Config)
    (h : decodeTokens env os parse flow system depth = .ok (.ok c)) :
    ∃ p1 : sshParser,
      sshParser.runLoop env os parse (flow.length + 1) (initialParser flow system depth) =
        .ok p1 ∧ p1.config = c := by
  unfold decodeTokens parseSSH at h
  have hn : newConfig = .mk newConfig.Blocks 0 ⟨0, 0⟩ := rfl
  rw [hn] at h
  simp only at h
  cases hr : sshParser.run env os parse
      { config := .mk newConfig.Blocks 0 ⟨1, 1⟩, tokens := flow, system := system,
        depth := depth } with
  | error pv =>
    rw [hr] at h
    cases pv with
    | str m => simp at h
    | err e =>
      simp only at h
      split at h <;> simp at h
    | runtimeError m => simp at h
    | outOfFuel => simp at h
  | ok p1 =>
    rw [hr] at h
    simp only [Except.ok.injEq] at h
    exact ⟨p1, hr, h⟩

/-- C34: in a config that the decoder returns the first block is the implicit
block that `newConfig` made, a `Host` block with the one pattern `*` that is
not final; its text is the text of its nodes, without a header line.  At
every moment of the parse the first block is this block with the nodes it
has got so far, and a round of the parser leaves the list of block headers
as it is or appends one header at its end. -/
theorem decoded_first_block_implicit (env : Env) (os : OS)
    (parse : String → Nat → Except PanicValue (Except ErrorValue Config))
    (flow : List token) (system : Bool) (depth : Nat) (c : Config)
    (h : decodeTokens env os parse flow system depth = .ok (.ok c)) :
    (∃ (nodes : List Node) (rest : List Block),
      c.Blocks = .Host [matchAll] nodes ⟨"", "", false, 0, true, false⟩ :: rest ∧
      Block.String (.Host [matchAll] nodes ⟨"", "", false, 0, true, false⟩) =
        Host.nodesString nodes) ∧
    matchAll = ⟨"*", ⟨[(Atom.dot, Rep.star)]⟩, false⟩ ∧
    newConfig.Blocks = [.Host [matchAll] [] ⟨"", "", false, 0, true, false⟩] ∧
    (∀ nodes : List Node,
      Block.IsFinal (.Host [matchAll] nodes ⟨"", "", false, 0, true, false⟩) = false ∧
      Host.headerString [matchAll] ⟨"", "", false, 0, true, false⟩ = .ret "") ∧
    (∀ (k : Nat) (p1 : sshParser),
      sshParser.rounds env os parse k (initialParser flow system depth) = .ok p1 →
      implicitFirst p1.config) ∧
    (∀ p p1 : sshParser, implicitFirst p.config →
      (p.parseKV env os parse = .ok p1 ∨ p.parseComment = .ok p1) →
      implicitFirst p1.config ∧
      (p1.config.Blocks.map (fun b => b.SetNodes []) =
          p.config.Blocks.map (fun b => b.SetNodes []) ∨
        ∃ b : Block, p1.config.Blocks.map (fun b => b.SetNodes []) =
          p.config.Blocks.map (fun b => b.SetNodes []) ++ [b])) := by
  refine ⟨?_, by decide, rfl, fun nodes => ⟨rfl, rfl⟩, ?_, ?_⟩
  · obtain ⟨nodes, rest, hc⟩ := decodeTokens_ok env os parse implicitFirst flow system depth
      (fun c c1 hq hx => implicitFirst_extends parse depth c c1 hq hx) implicitFirst_initial c h
    exact ⟨nodes, rest, hc, implicit_block_text nodes⟩
  · intro k p1 hk
    exact rounds_inv env os parse implicitFirst depth
      (fun c c1 hq hx => implicitFirst_extends parse depth c c1 hq hx) k
      (initialParser flow system depth) p1 rfl implicitFirst_initial hk
  · intro p p1 hp hstep
    have hx : Extends parse p.depth p.config p1.config := by
      rcases hstep with h1 | h1
      · exact (parseKV_ok env os parse p p1 h1).2.2.2
      · exact (parseComment_ok parse p p1 h1).2.2.2
    exact ⟨implicitFirst_extends parse p.depth _ _ hp hx, Extends_headers parse p.depth _ _ hx⟩

/-- Witness of `decoded_first_block_implicit`: the tokens of the sample file
of six lines, for which the decoder returns a config of two blocks. -/
theorem decoded_first_block_implicit_witness :
    decodeTokens sampleEnv sampleOS (parseWithDepth sampleEnv sampleOS) nodesSample false 0 =
      .ok (.ok (configOfTokens nodesSample)) ∧
    patternTexts (configOfTokens nodesSample) = [["*"], ["h"]] ∧
    (configOfTokens nodesSample).Blocks.map (fun b => (b.data.implicit, b.IsFinal)) =
      [(true, false), (false, false)] ∧
    ∃ (nodes : List Node) (rest : List Block),
      (configOfTokens nodesSample).Blocks =
        .Host [matchAll] nodes ⟨"", "", false, 0, true, false⟩ :: rest ∧
      Block.String (.Host [matchAll] nodes ⟨"", "", false, 0, true, false⟩) =
        Host.nodesString nodes :=
  ⟨rfl, by decide!, by decide!,
    (decoded_first_block_implicit sampleEnv sampleOS (parseWithDepth sampleEnv sampleOS)
      nodesSample false 0 (configOfTokens nodesSample) rfl).1⟩

theorem attachItem_block (groups : List (List SourceItem)) :
    attachItem groups .block = groups ++ [[]] := by
  simp [attachItem]

theorem attachItem_node (groups : List (List SourceItem)) (item : SourceItem)
    (h : item ≠ .block) :
    attachItem groups item = groups.dropLast ++ [groups.getLast?.getD [] ++ [item]] := by
  simp [attachItem, h]

theorem nodeItem_ne_block (n : Node) : nodeItem n ≠ .block := by
  cases n <;> simp [nodeItem]

theorem blockItems_appendBlock (c : Config) (b : Block) (hb : b.GetNodes = []) :
    blockItems (c.appendBlock b) = attachItem (blockItems c) .block := by
  rw [attachItem_block]
  simp [blockItems, appendBlock_Blocks, hb]

theorem blockItems_appendNode (c c1 : Config) (n : Node) (h : c.appendNode n = some c1) :
    blockItems c1 = attachItem (blockItems c) (nodeItem n) := by
  obtain ⟨init, last, h1, h2⟩ := appendNode_shape c c1 n h
  rw [attachItem_node _ _ (nodeItem_ne_block n)]
  simp only [blockItems, h1, h2, List.map_append, List.map_cons, List.map_nil,
    Block_GetNodes_SetNodes, List.dropLast_concat, List.getLast?_concat, Option.getD_some]

theorem nodeBranch_item (env : Env) (os : OS)
    (parse : String → Nat → Except PanicValue (Except ErrorValue Config))
    (p : sshParser) (key : token) (hasEquals : Bool) (val : token) (comment : String)
    (p1 : sshParser)
    (h : parseKV.nodeBranch env os parse p key hasEquals val comment = .ok p1) :
    p1.tokens = p.tokens ∧
    ∃ n : Node, p.config.appendNode n = some p1.config ∧
      nodeItem n =
        (if env.ToLower key.val = "include" then
          .includeLine (stringsSplit val.val ' ') hasEquals comment key.Position
        else .directive key.val hasEquals val.val comment key.Position) := by
  unfold parseKV.nodeBranch at h
  split at h
  · simp at h
  · split at h
    · rename_i hinclude
      split at h
      · simp at h
      · split at h <;> simp at h
      · rename_i inc hinc
        obtain ⟨_, files, hn, _⟩ := NewInclude_ok os parse _ _ _ _ _ _ _ hinc
        split at h
        · simp at h
        · rename_i c hc
          simp only [Except.ok.injEq] at h
          subst h
          refine ⟨rfl, inc, hc, ?_⟩
          subst hn
          simp [nodeItem, hinclude]
    · rename_i hinclude
      simp only at h
      split at h
      · simp at h
      · rename_i c hc
        simp only [Except.ok.injEq] at h
        subst h
        refine ⟨rfl, _, hc, ?_⟩
        simp [nodeItem, hinclude, trimRightSpace_sliceFrom]

theorem comment_round_items (p p2 : sshParser) (t : token) (rest : List token)
    (ht : p.tokens = t :: rest) (h : p.parseComment = .ok p2) :
    p2.tokens = rest ∧
    blockItems p2.config = attachItem (blockItems p.config) (.comment t.val t.Position) := by
  simp only [sshParser.parseComment, sshParser.getToken, ht, List.head?_cons,
    List.tail_cons] at h
  split at h
  · simp at h
  · rename_i c hc
    simp only [Except.ok.injEq] at h
    subst h
    exact ⟨rfl, blockItems_appendNode _ _ _ hc⟩

theorem key_round_items (env : Env) (os : OS)
    (parse : String → Nat → Except PanicValue (Except ErrorValue Config))
    (p p2 : sshParser) (h : p.parseKV env os parse = .ok p2) :
    ∃ (key : token) (equals : Bool) (val : token) (comment : String) (r : List token),
      cutLine p.tokens = some (key, equals, val, comment, r) ∧ p2.tokens = r ∧
      blockItems p2.config = attachItem (blockItems p.config)
        (if env.ToLower key.val = "match" ∨ env.ToLower key.val = "host" then .block
         else if env.ToLower key.val = "include" then
          .includeLine (stringsSplit val.val ' ') equals comment key.Position
         else .directive key.val equals val.val comment key.Position) := by
  cases hcut : cutLine p.tokens with
  | none => exact absurd h (parseKV_cutLine_none env os parse p p2 hcut)
  | some res =>
    obtain ⟨key, equals, val, comment, r⟩ := res
    refine ⟨key, equals, val, comment, r, rfl, ?_⟩
    rw [parseKV_cutLine env os parse p key equals val comment r hcut] at h
    by_cases hm : env.ToLower key.val = "match"
    · rw [if_pos hm] at h
      obtain ⟨h1, _, _, b, hb, hc⟩ := matchBranch_ok env os _ _ _ _ _ h
      refine ⟨h1, ?_⟩
      rw [hc, if_pos (Or.inl hm)]
      exact blockItems_appendBlock _ b hb
    · rw [if_neg hm] at h
      by_cases hh : env.ToLower key.val = "host"
      · rw [if_pos hh] at h
        obtain ⟨h1, _, _, b, hb, hc⟩ := hostBranch_ok os _ _ _ _ _ h
        refine ⟨h1, ?_⟩
        rw [hc, if_pos (Or.inr hh)]
        exact blockItems_appendBlock _ b hb
      · rw [if_neg hh] at h
        obtain ⟨h1, n, hn, hitem⟩ := nodeBranch_item env os parse _ _ _ _ _ _ h
        refine ⟨h1, ?_⟩
        have hne : ¬ (env.ToLower key.val = "match" ∨ env.ToLower key.val = "host") := by
          rintro (h0 | h0)
          · exact hm h0
          · exact hh h0
        rw [if_neg hne, ← hitem]
        exact blockItems_appendNode _ _ n hn

theorem runLoop_items (env : Env) (os : OS)
    (parse : String → Nat → Except PanicValue (Except ErrorValue Config)) :
    ∀ (n : Nat) (p p1 : sshParser), sshParser.runLoop env os parse n p = .ok p1 →
      blockItems p1.config =
        (sourceItemsN env n p.tokens).foldl attachItem (blockItems p.config)
  | 0, p, p1, h => by simp [sshParser.runLoop] at h
  | n + 1, p, p1, h => by
    cases ht : p.tokens with
    | nil =>
      simp only [sshParser.runLoop, sshParser.parseStart, sshParser.peek, ht,
        List.head?_nil, Except.ok.injEq] at h
      subst h
      simp [sourceItemsN]
    | cons t rest =>
      cases hty : t.typ with
      | tokenComment =>
        rw [runLoop_comment_step env os parse p t rest n ht (Or.inl hty)] at h
        split at h
        · simp at h
        · rename_i c hc
          have ih := runLoop_items env os parse n _ p1 h
          simp only [sourceItemsN, hty, List.foldl_cons]
          rw [ih]
          congr 1
          exact blockItems_appendNode _ _ _ hc
      | tokenEmptyLine =>
        rw [runLoop_comment_step env os parse p t rest n ht (Or.inr hty)] at h
        split at h
        · simp at h
        · rename_i c hc
          have ih := runLoop_items env os parse n _ p1 h
          simp only [sourceItemsN, hty, List.foldl_cons]
          rw [ih]
          congr 1
          exact blockItems_appendNode _ _ _ hc
      | tokenKey =>
        rw [runLoop_key_step env os parse p t rest n ht hty] at h
        split at h
        · simp at h
        · rename_i p2 hp2
          have ih := runLoop_items env os parse n p2 p1 h
          obtain ⟨key, equals, val, comment, r, hcut, htok, hitems⟩ :=
            key_round_items env os parse p p2 hp2
          rw [ht] at hcut
          rw [ih, htok, hitems]
          simp only [sourceItemsN, hty, hcut]
          by_cases hb : env.ToLower key.val = "match" ∨ env.ToLower key.val = "host"
          · simp only [hb, if_true, List.foldl_cons]
          · simp only [hb, if_false]
            by_cases hi : env.ToLower key.val = "include"
            · simp only [hi, if_true, List.foldl_cons]
            · simp only [hi, if_false, List.foldl_cons]
      | tokenEOF =>
        simp only [sshParser.runLoop, sshParser.parseStart, sshParser.peek, ht,
          List.head?_cons, hty, Except.ok.injEq] at h
        subst h
        simp [sourceItemsN, hty]
      | tokenEquals =>
        simp [sshParser.runLoop, sshParser.parseStart, sshParser.peek, ht, hty] at h
      | other tag =>
        simp [sshParser.runLoop, sshParser.parseStart, sshParser.peek, ht, hty] at h

theorem sourceItemsN_fuel (env : Env) :
    ∀ (n m : Nat) (flow : List token), flow.length < n → flow.length < m →
      sourceItemsN env n flow = sourceItemsN env m flow
  | 0, _, _, h, _ => by omega
  | _ + 1, 0, _, _, h => by omega
  | n + 1, m + 1, [], _, _ => by simp [sourceItemsN]
  | n + 1, m + 1, t :: rest, hn, hm => by
    simp only [List.length_cons] at hn hm
    have ih := sourceItemsN_fuel env n m rest (by omega) (by omega)
    cases hty : t.typ with
    | tokenComment => simp only [sourceItemsN, hty, ih]
    | tokenEmptyLine => simp only [sourceItemsN, hty, ih]
    | tokenKey =>
      simp only [sourceItemsN, hty]
      cases hcut : cutLine (t :: rest) with
      | none => rfl
      | some res =>
        obtain ⟨key, equals, val, comment, r⟩ := res
        have hr := (cutLine_key t rest key equals val comment r hcut).2
        simp only [List.length_cons] at hr
        have ih2 := sourceItemsN_fuel env n m r (by omega) (by omega)
        simp only [ih2]
    | tokenEOF => simp only [sourceItemsN, hty]
    | tokenEquals => simp only [sourceItemsN, hty]
    | other tag => simp only [sourceItemsN, hty]

theorem foldl_attach_flatten :
    ∀ (items : List SourceItem) (groups : List (List SourceItem)), groups ≠ [] →
      (items.foldl attachItem groups).flatten =
        groups.flatten ++ items.filter (fun i => decide (i ≠ .block)) ∧
      (items.foldl attachItem groups).length = groups.length + items.count .block
  | [], groups, _ => by simp
  | item :: items, groups, hg => by
    simp only [List.foldl_cons]
    by_cases hb : item = .block
    · subst hb
      have ih := foldl_attach_flatten items (attachItem groups .block)
        (by rw [attachItem_block]; simp)
      rw [ih.1, ih.2, attachItem_block]
      simp
      omega
    · have hne : attachItem groups item ≠ [] := by
        rw [attachItem_node _ _ hb]
        simp
      have ih := foldl_attach_flatten items (attachItem groups item) hne
      have hsplit : groups = groups.dropLast ++ [groups.getLast hg] :=
        (List.dropLast_append_getLast hg).symm
      have hlast : groups.getLast? = some (groups.getLast hg) := List.getLast?_eq_getLast _ hg
      rw [ih.1, ih.2, attachItem_node _ _ hb, hlast]
      constructor
      · conv_rhs => rw [hsplit]
        simp [List.filter_cons, hb]
      · have hbne : SourceItem.block ≠ item := fun e => hb e.symm
        conv_rhs => rw [hsplit]
        simp [List.count_cons, hbne]

/-- C35: for a token stream that the decoder accepts, the nodes of the
blocks of the config are the lines of the stream in source order, grouped as
the `Host` and `Match` lines cut them: a `Host` or `Match` line opens a block
without nodes at the end of the list, every other line (directive, comment
or empty line, `Include`) is a node at the end of the block that is last
then, the implicit block before the first such line.  So the nodes of all
blocks, block after block, are the lines that are no `Host` or `Match` line,
in source order.  A round of the parser appends a block without nodes at the
end or a node to the nodes of the last block, and leaves every other block
and node where it is. -/
theorem parsed_nodes_in_source_order (env : Env) (os : OS)
    (parse : String → Nat → Except PanicValue (Except ErrorValue Config))
    (flow : List token) (system : Bool) (depth : Nat) (c : Config)
    (h : decodeTokens env os parse flow system depth = .ok (.ok c)) :
    blockItems c = (sourceItems env flow).foldl attachItem [[]] ∧
    (allNodes c).map nodeItem =
      (sourceItems env flow).filter (fun i => decide (i ≠ .block)) ∧
    c.Blocks.length = 1 + (sourceItems env flow).count .block ∧
    (∀ n : Nat, flow.length < n → sourceItemsN env n flow = sourceItems env flow) ∧
    (∀ p p1 : sshParser, (p.parseKV env os parse = .ok p1 ∨ p.parseComment = .ok p1) →
      (∃ b : Block, b.GetNodes = [] ∧ p1.config.Blocks = p.config.Blocks ++ [b]) ∨
      (∃ (n : Node) (init : List Block) (last : Block),
        p.config.Blocks = init ++ [last] ∧
        p1.config.Blocks = init ++ [last.SetNodes (last.GetNodes ++ [n])])) := by
  obtain ⟨p1, hrun, hc⟩ := decodeTokens_run env os parse flow system depth c h
  have hitems := runLoop_items env os parse _ _ p1 hrun
  rw [hc] at hitems
  have h0 : blockItems (initialParser flow system depth).config = [[]] := rfl
  have hfl := foldl_attach_flatten (sourceItems env flow) [[]] (by simp)
  have hmain : blockItems c = (sourceItems env flow).foldl attachItem [[]] := by
    rw [hitems, h0]
    rfl
  refine ⟨hmain, ?_, ?_, ?_, ?_⟩
  · have e : (allNodes c).map nodeItem = (blockItems c).flatten := by
      simp only [allNodes, blockItems, List.map_flatten, List.map_map]
      rfl
    rw [e, hmain, hfl.1]
    simp
  · have e : c.Blocks.length = (blockItems c).length := by simp [blockItems]
    rw [e, hmain, hfl.2]
    simp only [List.length_singleton]
  · intro n hn
    exact sourceItemsN_fuel env n (flow.length + 1) flow hn (by omega)
  · intro p p2 hstep
    have hx : Extends parse p.depth p.config p2.config := by
      rcases hstep with h1 | h1
      · exact (parseKV_ok env os parse p p2 h1).2.2.2
      · exact (parseComment_ok parse p p2 h1).2.2.2
    exact Extends_shape parse p.depth _ _ hx

/-- Witness of `parsed_nodes_in_source_order`: the tokens of the sample file
of six lines; the comment and `Port 22` are the nodes of the implicit block,
and `User u`, the empty line and `Include b` are the nodes of the block
`Host h`. -/
theorem parsed_nodes_in_source_order_witness :
    decodeTokens sampleEnv sampleOS (parseWithDepth sampleEnv sampleOS) nodesSample false 0 =
      .ok (.ok (configOfTokens nodesSample)) ∧
    sourceItems sampleEnv nodesSample =
      [ .comment " top" ⟨1, 2⟩, .directive "Port" false "22" "" ⟨2, 1⟩, .block,
        .directive "User" false "u" "" ⟨4, 3⟩, .comment "" ⟨5, 1⟩,
        .includeLine ["b"] false "" ⟨6, 3⟩ ] ∧
    (sourceItems sampleEnv nodesSample).foldl attachItem [[]] =
      [ [ .comment " top" ⟨1, 2⟩, .directive "Port" false "22" "" ⟨2, 1⟩ ],
        [ .directive "User" false "u" "" ⟨4, 3⟩, .comment "" ⟨5, 1⟩,
          .includeLine ["b"] false "" ⟨6, 3⟩ ] ] ∧
    blockItems (configOfTokens nodesSample) =
      (sourceItems sampleEnv nodesSample).foldl attachItem [[]] :=
  ⟨rfl, by decide, by decide,
    (parsed_nodes_in_source_order sampleEnv sampleOS (parseWithDepth sampleEnv sampleOS)
      nodesSample false 0 (configOfTokens nodesSample) rfl).1⟩

/-! ## The claim on the modifier `^`, for every default list -/

theorem foldl_dedup_firstSeen :
    ∀ (d out : List String),
      d.foldl (fun out a => if out.contains a then out else out ++ [a]) out =
        out ++ firstSeen out d
  | [], out => by simp [firstSeen]
  | a :: d, out => by
    simp only [List.foldl_cons]
    by_cases h : a ∈ out
    · have h2 : out.contains a = true := by simpa using h
      rw [if_pos h2, foldl_dedup_firstSeen d out, firstSeen_cons_mem out d a h]
    · have h2 : ¬ out.contains a = true := by simpa using h
      rw [if_neg h2, foldl_dedup_firstSeen d (out ++ [a]), firstSeen_cons_not_mem out d a h]
      have e : firstSeen (out ++ [a]) d = firstSeen (a :: out) d := by
        apply firstSeen_congr
        intro x _
        simp only [List.mem_append, List.mem_singleton, List.mem_cons]
        tauto
      rw [e]
      simp

theorem firstSeen_eq_filter :
    ∀ (l seen : List String), l.Nodup →
      firstSeen seen l = l.filter (fun a => !seen.contains a)
  | [], _, _ => by simp [firstSeen]
  | v :: l, seen, hnd => by
    have hv : v ∉ l := (List.nodup_cons.1 hnd).1
    have hl : l.Nodup := (List.nodup_cons.1 hnd).2
    by_cases h : v ∈ seen
    · rw [firstSeen_cons_mem seen l v h, firstSeen_eq_filter l seen hl]
      simp [List.filter_cons, h]
    · rw [firstSeen_cons_not_mem seen l v h, firstSeen_eq_filter l (v :: seen) hl]
      have e : l.filter (fun a => !(v :: seen).contains a) =
          l.filter (fun a => !seen.contains a) := by
        apply List.filter_congr
        intro x hx
        have hxv : x ≠ v := fun e => hv (e ▸ hx)
        simp [hxv]
      rw [e]
      simp [List.filter_cons, h]

/-- C16 fails for a default list that holds an entry twice: with the default
list `a,a,b` the value `^b` names the default entry `b`; the default entries
that are not among the named ones are `a` and `a`, yet the result is `b,a`,
which lists `a` once. -/
theorem handleModifiers_caret_lists_once :
    stringsSplit (repeatedDefaultEnv.Default "Ciphers") ',' = ["a", "a", "b"] ∧
    (stringsSplit "b" ',').filter
      (fun a => (stringsSplit (repeatedDefaultEnv.Default "Ciphers") ',').contains a) =
      ["b"] ∧
    (stringsSplit (repeatedDefaultEnv.Default "Ciphers") ',').filter
      (fun a => !(["b"] : List String).contains a) = ["a", "a"] ∧
    handleModifiers repeatedDefaultEnv ("^" ++ "b") "Ciphers" = "b,a" ∧
    stringsSplit (handleModifiers repeatedDefaultEnv ("^" ++ "b") "Ciphers") ',' =
      ["b", "a"] :=
  ⟨by decide, by decide, by decide, by decide, by decide⟩

/-- C16 as amended: for a value `^rest` and every key, the comma-split of the
result of `handleModifiers` lists first the entries of `rest` that occur in
the default list, in the order of `rest`, then the default entries not among
them, each once, in the order of their first occurrence in the default list:
this second part holds exactly the default entries that are not among the
first part, holds none of them twice and is a subsequence of the default
list; when the default list has no repeated entry it is the default list
without the entries of the first part.  An entry of `rest` that is not in the
default list is not in the result, and `findVal` returns this text for a key
of `modifiableKeys`. -/
theorem handleModifiers_caret (env : Env) (rest key : String) :
    stringsSplit (handleModifiers env ("^" ++ rest) key) ',' =
      (stringsSplit rest ',').filter
          (fun a => (stringsSplit (env.Default key) ',').contains a) ++
        firstSeen ((stringsSplit rest ',').filter
            (fun a => (stringsSplit (env.Default key) ',').contains a))
          (stringsSplit (env.Default key) ',') ∧
    (firstSeen ((stringsSplit rest ',').filter
          (fun a => (stringsSplit (env.Default key) ',').contains a))
        (stringsSplit (env.Default key) ',')).Sublist (stringsSplit (env.Default key) ',') ∧
    (firstSeen ((stringsSplit rest ',').filter
          (fun a => (stringsSplit (env.Default key) ',').contains a))
        (stringsSplit (env.Default key) ',')).Nodup ∧
    (∀ a : String,
      a ∈ firstSeen ((stringsSplit rest ',').filter
            (fun a => (stringsSplit (env.Default key) ',').contains a))
          (stringsSplit (env.Default key) ',') ↔
        (a ∈ stringsSplit (env.Default key) ',' ∧
          a ∉ (stringsSplit rest ',').filter
            (fun a => (stringsSplit (env.Default key) ',').contains a))) ∧
    ((stringsSplit (env.Default key) ',').Nodup →
      stringsSplit (handleModifiers env ("^" ++ rest) key) ',' =
        (stringsSplit rest ',').filter
            (fun a => (stringsSplit (env.Default key) ',').contains a) ++
          (stringsSplit (env.Default key) ',').filter
            (fun a => !((stringsSplit rest ',').filter
              (fun a => (stringsSplit (env.Default key) ',').contains a)).contains a)) ∧
    handleModifiers env ("^" ++ rest) key =
      stringsJoin
        ((stringsSplit rest ',').filter
            (fun a => (stringsSplit (env.Default key) ',').contains a) ++
          firstSeen ((stringsSplit rest ',').filter
              (fun a => (stringsSplit (env.Default key) ',').contains a))
            (stringsSplit (env.Default key) ',')) "," ∧
    (∀ a ∈ stringsSplit rest ',', a ∉ stringsSplit (env.Default key) ',' →
      a ∉ stringsSplit (handleModifiers env ("^" ++ rest) key) ',') ∧
    (∀ (c : Config) (ctx ctx1 : Option MatchContext),
      modifiableKeys.contains key = true →
      Config.Get env c key ctx = .ret (("^" ++ rest, none), ctx1) →
      env.validate key (handleModifiers env ("^" ++ rest) key) = none →
      findVal env (some c) key ctx =
        .ret ((handleModifiers env ("^" ++ rest) key, none), ctx1)) := by
  have e : handleModifiers env ("^" ++ rest) key =
      stringsJoin
        ((stringsSplit rest ',').filter
            (fun a => (stringsSplit (env.Default key) ',').contains a) ++
          firstSeen ((stringsSplit rest ',').filter
              (fun a => (stringsSplit (env.Default key) ',').contains a))
            (stringsSplit (env.Default key) ',')) "," := by
    rw [handleModifiers_caret_eq, foldl_dedup_firstSeen]
  have hmem : ∀ a ∈ (stringsSplit rest ',').filter
          (fun a => (stringsSplit (env.Default key) ',').contains a) ++
        firstSeen ((stringsSplit rest ',').filter
            (fun a => (stringsSplit (env.Default key) ',').contains a))
          (stringsSplit (env.Default key) ','),
      a ∈ stringsSplit (env.Default key) ',' := by
    intro a ha
    rcases List.mem_append.1 ha with h | h
    · have := (List.mem_filter.1 h).2
      simpa using this
    · exact ((firstSeen_mem _ _ a).1 h).1
  have hne : (stringsSplit rest ',').filter
          (fun a => (stringsSplit (env.Default key) ',').contains a) ++
        firstSeen ((stringsSplit rest ',').filter
            (fun a => (stringsSplit (env.Default key) ',').contains a))
          (stringsSplit (env.Default key) ',') ≠ [] := by
    intro h
    obtain ⟨h1, h2⟩ := List.append_eq_nil.1 h
    cases hd : stringsSplit (env.Default key) ',' with
    | nil => exact stringsSplit_ne_nil _ _ hd
    | cons x xs =>
      have hx : x ∈ firstSeen ((stringsSplit rest ',').filter
            (fun a => (stringsSplit (env.Default key) ',').contains a))
          (stringsSplit (env.Default key) ',') := by
        rw [firstSeen_mem, h1, hd]
        simp
      rw [h2] at hx
      simp at hx
  have es := stringsSplit_join _ hne (fun a ha => stringsSplit_no_sep _ ',' a (hmem a ha))
  rw [← e] at es
  refine ⟨es, firstSeen_sublist _ _, firstSeen_nodup _ _, fun a => firstSeen_mem _ _ a, ?_, e,
    ?_, ?_⟩
  · intro hnd
    rw [es, firstSeen_eq_filter _ _ hnd]
  · intro a _ hnot hin
    rw [es] at hin
    exact hnot (hmem a hin)
  · intro c ctx ctx1 hk hget hval
    exact findVal_modifiable env c key _ ctx ctx1 hk hget
      (modifier_value_ne_empty "^" rest (by decide)) hval

/-- Witness of `handleModifiers_caret`: the value `^aes256-ctr,zzz` for
`Ciphers` with the default list `aes128-ctr,aes256-ctr`; and the value `^b`
with the default list `a,a,b`, where `a` is listed once. -/
theorem handleModifiers_caret_witness :
    handleModifiers sampleEnv ("^" ++ "aes256-ctr,zzz") "Ciphers" = "aes256-ctr,aes128-ctr" ∧
    handleModifiers repeatedDefaultEnv ("^" ++ "b") "Ciphers" = "b,a" ∧
    stringsSplit (handleModifiers sampleEnv ("^" ++ "aes256-ctr,zzz") "Ciphers") ',' =
      (stringsSplit "aes256-ctr,zzz" ',').filter
          (fun a => (stringsSplit (sampleEnv.Default "Ciphers") ',').contains a) ++
        firstSeen ((stringsSplit "aes256-ctr,zzz" ',').filter
            (fun a => (stringsSplit (sampleEnv.Default "Ciphers") ',').contains a))
          (stringsSplit (sampleEnv.Default "Ciphers") ',') :=
  ⟨by decide, by decide, (handleModifiers_caret sampleEnv "aes256-ctr,zzz" "Ciphers").1⟩

/-! ## The pairs of a `Match` value, written with single blanks -/

theorem stringsSplit_join_char (c : Char) :
    ∀ l : List String, l ≠ [] → (∀ a ∈ l, c ∉ a.data) →
      stringsSplit (stringsJoin l (String.mk [c])) c = l
  | [], h, _ => absurd rfl h
  | [a], _, hc => by
    simp only [stringsJoin, stringsSplit,
      splitChars_single c a.data (hc a (List.mem_singleton_self a)), List.map_cons,
      List.map_nil]
  | a :: b :: r, _, hc => by
    have ih := stringsSplit_join_char c (b :: r) (by simp)
      (fun x hx => hc x (List.mem_cons_of_mem _ hx))
    have ha := hc a (List.mem_cons_self _ _)
    rw [stringsJoin_cons a (String.mk [c]) (b :: r) (by simp)]
    simp only [stringsSplit] at ih ⊢
    have e : (a ++ String.mk [c] ++ stringsJoin (b :: r) (String.mk [c])).data =
        a.data ++ c :: (stringsJoin (b :: r) (String.mk [c])).data := by
      simp [String.data_append]
    rw [e, splitChars_append_sep c _ a.data ha, List.map_cons, ih]

theorem pairsAccepted_of_pairs :
    ∀ pairs : List (String × String),
      (∀ e ∈ pairs, e.1 ∈ allowedMatchKeywords ∧ ' ' ∉ e.2.data ∧
        ∃ pat : Pattern, NewPattern e.2 = .ok pat) →
      pairsAccepted (pairs.flatMap (fun e => [e.1, e.2])) = true
  | [], _ => rfl
  | e :: rest, h => by
    obtain ⟨h1, _, pat, h3⟩ := h e (List.mem_cons_self _ _)
    have ih := pairsAccepted_of_pairs rest (fun x hx => h x (List.mem_cons_of_mem _ hx))
    have h1' : allowedMatchKeywords.contains e.1 = true := by simpa using h1
    have e0 : (e :: rest).flatMap (fun e => [e.1, e.2]) =
        e.1 :: e.2 :: rest.flatMap (fun e => [e.1, e.2]) := by
      simp [List.flatMap]
    rw [e0]
    simp only [pairsAccepted, h1', h3, ih, Bool.and_self]

theorem pairs_of_pairsAccepted :
    ∀ l : List String, pairsAccepted l = true → (∀ w ∈ l, ' ' ∉ w.data) →
      ∃ pairs : List (String × String), l = pairs.flatMap (fun e => [e.1, e.2]) ∧
        ∀ e ∈ pairs, e.1 ∈ allowedMatchKeywords ∧ ' ' ∉ e.2.data ∧
          ∃ pat : Pattern, NewPattern e.2 = .ok pat
  | [], _, _ => ⟨[], rfl, by simp⟩
  | [_], h, _ => by simp [pairsAccepted] at h
  | k :: v :: rest, h, hb => by
    simp only [pairsAccepted, Bool.and_eq_true] at h
    obtain ⟨⟨hk, hp⟩, hr⟩ := h
    obtain ⟨pairs, hl, hall⟩ := pairs_of_pairsAccepted rest hr
      (fun w hw => hb w (List.mem_cons_of_mem _ (List.mem_cons_of_mem _ hw)))
    refine ⟨(k, v) :: pairs, by simp [hl], ?_⟩
    intro e he
    rcases List.mem_cons.1 he with h0 | h0
    · subst h0
      refine ⟨by simpa using hk, hb v (by simp), ?_⟩
      cases hnp : NewPattern v with
      | error m => rw [hnp] at hp; simp at hp
      | ok pat => exact ⟨pat, rfl⟩
    · exact hall e h0

theorem pairsAccepted_iff (lower : String) :
    pairsAccepted (stringsSplit lower ' ') = true ↔ ConsistsOfPairs lower := by
  constructor
  · intro h
    obtain ⟨pairs, hl, hall⟩ := pairs_of_pairsAccepted _ h
      (fun w hw => stringsSplit_no_sep lower ' ' w hw)
    refine ⟨pairs, ?_, ?_, hall⟩
    · intro hp
      rw [hp] at hl
      exact stringsSplit_ne_nil lower ' ' (by simpa using hl)
    · have hj := stringsJoin_split_char ' ' lower.data
      simp only [pairsText, ← hl]
      exact hj.symm
  · rintro ⟨pairs, hne, htext, hall⟩
    have hwords : ∀ a ∈ pairs.flatMap (fun e => [e.1, e.2]), ' ' ∉ a.data := by
      intro a ha
      simp only [List.mem_flatMap, List.mem_cons, List.mem_singleton, List.not_mem_nil,
        or_false] at ha
      obtain ⟨e, he, h1 | h1⟩ := ha
      · subst h1
        have hk := (hall e he).1
        simp only [allowedMatchKeywords, List.mem_cons, List.mem_singleton, List.not_mem_nil,
          or_false] at hk
        rcases hk with h | h | h | h <;> rw [h] <;> decide
      · subst h1
        exact (hall e he).2.1
    have hne2 : pairs.flatMap (fun e => [e.1, e.2]) ≠ [] := by
      cases pairs with
      | nil => exact absurd rfl hne
      | cons e r => simp
    have hs := stringsSplit_join_char ' ' _ hne2 hwords
    rw [htext]
    simp only [pairsText]
    have e1 : (" " : String) = String.mk [' '] := rfl
    rw [e1, hs]
    exact pairsAccepted_of_pairs pairs hall

/-- C21 fails for pairs that are written with two blanks or with a tab: the
values `host`, two blanks, `a` and `host`, tab, `a` consist in whitespace
tokens of the one pair of the attribute `host` and the pattern `a`, which is
accepted, yet the branch of `parseKV` for `Match` fails on both. -/
theorem parseKV_match_rejects_wide_pairs :
    whiteWords "host  a" = ["host", "a"] ∧ whiteWords "host\ta" = ["host", "a"] ∧
    pairsAccepted ["host", "a"] = true ∧
    (parseKV.matchBranch sampleEnv sampleOS (initialParser [] false 0) false
        (sampleToken (.other 0) "host  a" 1 7) "").map (fun q => patternTexts q.config) =
      .error (.str "(1, 7): Invalid Match pattern (has to be key-value pairs): host  a") ∧
    (parseKV.matchBranch sampleEnv sampleOS (initialParser [] false 0) false
        (sampleToken (.other 0) "host\ta" 1 7) "").map (fun q => patternTexts q.config) =
      .error (.str "(1, 7): Invalid Match pattern (has to be key-value pairs): host\ta") ∧
    (parseKV.matchBranch sampleEnv sampleOS (initialParser [] false 0) false
        (sampleToken (.other 0) "host a" 1 7) "").map (fun q => patternTexts q.config) =
      .ok [["*"], ["a"]] := by
  exact ⟨by decide, by decide, by decide, by decide!, by decide!, by decide!⟩

/-- C21 as amended: the branch of `parseKV` for a `Match` directive fails,
with a panic value that starts with the position of the value token, if and
only if the trimmed value in lower case is not accepted; it is accepted when
it does not start with `canonical`, is not `final`, and is `all` or
`final all` or consists of (attribute, pattern) pairs written with single
blanks, every attribute among the four allowed ones and every pattern
accepted by `NewPattern`.  In every other case the branch appends exactly one
block, without nodes, and leaves the tokens as they are for `parseStart`.
`parseKV` takes this branch for a key that reads `match` in lower case. -/
theorem parseKV_match_fails_iff (env : Env) (os : OS) (p : sshParser) (hasEquals : Bool)
    (val : token) (comment : String) :
    ((∃ msg : String,
        parseKV.matchBranch env os p hasEquals val comment =
          .error (.str (os.posString val.Position ++ ": " ++ msg))) ↔
      matchValueAccepted (env.ToLower (trimRightSpace val.val)) = false) ∧
    ((∃ b : Block, b.GetNodes = [] ∧
        parseKV.matchBranch env os p hasEquals val comment =
          .ok { p with config := p.config.appendBlock b }) ↔
      matchValueAccepted (env.ToLower (trimRightSpace val.val)) = true) ∧
    (∀ lower : String, matchValueAccepted lower = true ↔
      (stringsHasPrefix lower "canonical" = false ∧ lower ≠ "final" ∧
        (lower = "final all" ∨ lower = "all" ∨ ConsistsOfPairs lower))) ∧
    (∀ (parse : String → Nat → Except PanicValue (Except ErrorValue Config))
        (q : sshParser) (key : token) (rest : List token),
      q.tokens = key :: val :: rest → env.ToLower key.val = "match" →
      val.typ ≠ .tokenEquals →
      (∀ t, rest.head? = some t →
        ¬ (t.typ = .tokenComment ∧ t.Position.Line = val.Position.Line)) →
      q.parseKV env os parse =
        parseKV.matchBranch env os { q with tokens := rest } false val "") := by
  refine ⟨⟨?_, matchBranch_rejected env os p hasEquals val comment⟩,
    ⟨?_, matchBranch_accepted env os p hasEquals val comment⟩, ?_, ?_⟩
  · rintro ⟨msg, hm⟩
    cases hv : matchValueAccepted (env.ToLower (trimRightSpace val.val)) with
    | false => rfl
    | true =>
      obtain ⟨b, _, hb⟩ := matchBranch_accepted env os p hasEquals val comment hv
      rw [hb] at hm
      simp at hm
  · rintro ⟨b, _, hb⟩
    cases hv : matchValueAccepted (env.ToLower (trimRightSpace val.val)) with
    | true => rfl
    | false =>
      obtain ⟨msg, hm⟩ := matchBranch_rejected env os p hasEquals val comment hv
      rw [hm] at hb
      simp at hb
  · intro lower
    simp only [matchValueAccepted, Bool.and_eq_true, Bool.not_eq_true', decide_eq_true_eq,
      Bool.or_eq_true, pairsAccepted_iff, ne_eq]
    tauto
  · intro parse q key rest ht hk hv hrest
    rw [parseKV_plain env os parse q key val rest ht hv hrest, if_pos hk]

/-! ## The claim on the serialization of `Match` blocks -/

theorem matchBranch_indent (env : Env) (os : OS) (p : sshParser) (hasEquals : Bool)
    (val : token) (comment : String) (p1 : sshParser)
    (h : parseKV.matchBranch env os p hasEquals val comment = .ok p1) :
    ∃ b : Block, blockIndentOk b = true ∧ p1.config = p.config.appendBlock b := by
  unfold parseKV.matchBranch at h
  simp only at h
  split at h
  · simp at h
  · split at h
    · simp at h
    · split at h
      · simp only [Except.ok.injEq] at h
        subst h
        exact ⟨_, by simp [blockIndentOk, Block.data, Block.GetNodes], rfl⟩
      · split at h
        · simp at h
        · split at h
          · simp at h
          · simp only [Except.ok.injEq] at h
            subst h
            exact ⟨_, by simp [blockIndentOk, Block.data, Block.GetNodes], rfl⟩

theorem hostBranch_indent (os : OS) (p : sshParser) (hasEquals : Bool) (val : token)
    (comment : String) (p1 : sshParser)
    (h : parseKV.hostBranch os p hasEquals val comment = .ok p1) :
    ∃ b : Block, blockIndentOk b = true ∧ p1.config = p.config.appendBlock b := by
  unfold parseKV.hostBranch at h
  split at h
  · simp at h
  · simp only [Except.ok.injEq] at h
    subst h
    exact ⟨_, by simp [blockIndentOk, Block.data, Block.GetNodes], rfl⟩

theorem NewInclude_indent (os : OS)
    (parse : String → Nat → Except PanicValue (Except ErrorValue Config))
    (directives : List String) (hasEquals : Bool) (pos : Position) (comment : String)
    (system : Bool) (depth : Nat) (inc : Node)
    (h : NewInclude os parse directives hasEquals pos comment system depth = .ok (.ok inc))
    (hc : 1 ≤ pos.Col) : nodeIndentOk inc = true := by
  unfold NewInclude at h
  split at h
  · simp at h
  · split at h
    · simp at h
    · split at h
      · simp at h
      · simp at h
      · simp only [Except.ok.injEq] at h
        subst h
        simp only [nodeIndentOk, decide_eq_true_eq]
        omega

theorem nodeBranch_indent (env : Env) (os : OS)
    (parse : String → Nat → Except PanicValue (Except ErrorValue Config))
    (p : sshParser) (key : token) (hasEquals : Bool) (val : token) (comment : String)
    (p1 : sshParser)
    (h : parseKV.nodeBranch env os parse p key hasEquals val comment = .ok p1)
    (hc : 1 ≤ key.Position.Col) :
    ∃ n : Node, p.config.appendNode n = some p1.config ∧ nodeIndentOk n = true := by
  unfold parseKV.nodeBranch at h
  split at h
  · simp at h
  · split at h
    · split at h
      · simp at h
      · split at h <;> simp at h
      · rename_i inc hinc
        split at h
        · simp at h
        · rename_i c hc2
          simp only [Except.ok.injEq] at h
          subst h
          exact ⟨inc, hc2, NewInclude_indent os parse _ _ _ _ _ _ inc hinc hc⟩
    · simp only at h
      split at h
      · simp at h
      · rename_i c hc2
        simp only [Except.ok.injEq] at h
        subst h
        refine ⟨_, hc2, ?_⟩
        simp only [nodeIndentOk, decide_eq_true_eq]
        omega

theorem appendNode_indent (c c1 : Config) (n : Node) (h : c.appendNode n = some c1)
    (hc : c.Blocks.all blockIndentOk = true) (hn : nodeIndentOk n = true) :
    c1.Blocks.all blockIndentOk = true := by
  obtain ⟨init, last, h1, h2⟩ := appendNode_shape c c1 n h
  rw [h1] at hc
  rw [h2]
  simp only [List.all_append, List.all_cons, List.all_nil, Bool.and_true,
    Bool.and_eq_true] at hc ⊢
  refine ⟨hc.1, ?_⟩
  have hl := hc.2
  cases last with
  | Host ps ns d =>
    simp only [blockIndentOk, Block.data, Block.GetNodes, Block.SetNodes, List.all_append,
      List.all_cons, List.all_nil, Bool.and_true, Bool.and_eq_true] at hl ⊢
    exact ⟨hl.1, hl.2, hn⟩
  | Match ps ns d =>
    simp only [blockIndentOk, Block.data, Block.GetNodes, Block.SetNodes, List.all_append,
      List.all_cons, List.all_nil, Bool.and_true, Bool.and_eq_true] at hl ⊢
    exact ⟨hl.1, hl.2, hn⟩

theorem appendBlock_indent (c : Config) (b : Block)
    (hc : c.Blocks.all blockIndentOk = true) (hb : blockIndentOk b = true) :
    (c.appendBlock b).Blocks.all blockIndentOk = true := by
  rw [appendBlock_Blocks]
  simp only [List.all_append, List.all_cons, List.all_nil, Bool.and_true, Bool.and_eq_true]
  exact ⟨hc, hb⟩

theorem columnsOk_cons (t : token) (rest : List token) (h : columnsOk (t :: rest) = true) :
    (t.typ = .tokenKey → 1 ≤ t.Position.Col) ∧
    (t.typ = .tokenComment ∨ t.typ = .tokenEmptyLine → t.val = "" ∨ 2 ≤ t.Position.Col) ∧
    columnsOk rest = true := by
  simp only [columnsOk, List.all_cons, Bool.and_eq_true, Bool.or_eq_true,
    decide_eq_true_eq] at h
  obtain ⟨⟨h1, h2⟩, h3⟩ := h
  refine ⟨?_, ?_, h3⟩
  · intro hk
    rcases h1 with h1 | h1
    · exact absurd hk h1
    · exact h1
  · intro hk
    rcases h2 with (h2 | h2) | h2
    · rcases hk with hk | hk
      · exact absurd hk h2.1
      · exact absurd hk h2.2
    · exact Or.inl h2
    · exact Or.inr h2

theorem columnsOk_drop (flow : List token) (k : Nat) (h : columnsOk flow = true) :
    columnsOk (flow.drop k) = true := by
  simp only [columnsOk, List.all_eq_true] at h ⊢
  intro t ht
  exact h t (List.mem_of_mem_drop ht)

theorem key_round_indent (env : Env) (os : OS)
    (parse : String → Nat → Except PanicValue (Except ErrorValue Config))
    (p p2 : sshParser) (t : token) (rest : List token) (ht : p.tokens = t :: rest)
    (hcol : 1 ≤ t.Position.Col) (hc : p.config.Blocks.all blockIndentOk = true)
    (h : p.parseKV env os parse = .ok p2) :
    p2.config.Blocks.all blockIndentOk = true := by
  cases hcut : cutLine p.tokens with
  | none => exact absurd h (parseKV_cutLine_none env os parse p p2 hcut)
  | some res =>
    obtain ⟨key, equals, val, comment, r⟩ := res
    rw [parseKV_cutLine env os parse p key equals val comment r hcut] at h
    rw [ht] at hcut
    have hk := (cutLine_key t rest key equals val comment r hcut).1
    by_cases hm : env.ToLower key.val = "match"
    · rw [if_pos hm] at h
      obtain ⟨b, hb, hcfg⟩ := matchBranch_indent env os _ _ _ _ _ h
      rw [hcfg]
      exact appendBlock_indent _ b hc hb
    · rw [if_neg hm] at h
      by_cases hh : env.ToLower key.val = "host"
      · rw [if_pos hh] at h
        obtain ⟨b, hb, hcfg⟩ := hostBranch_indent os _ _ _ _ _ h
        rw [hcfg]
        exact appendBlock_indent _ b hc hb
      · rw [if_neg hh] at h
        obtain ⟨n, hn, hok⟩ := nodeBranch_indent env os parse _ key equals val comment p2 h
          (by rw [hk]; exact hcol)
        exact appendNode_indent _ _ n hn hc hok

theorem runLoop_indent (env : Env) (os : OS)
    (parse : String → Nat → Except PanicValue (Except ErrorValue Config)) :
    ∀ (n : Nat) (p p1 : sshParser), sshParser.runLoop env os parse n p = .ok p1 →
      columnsOk p.tokens = true → p.config.Blocks.all blockIndentOk = true →
      p1.config.Blocks.all blockIndentOk = true
  | 0, p, p1, h, _, _ => by simp [sshParser.runLoop] at h
  | n + 1, p, p1, h, hcols, hc => by
    cases ht : p.tokens with
    | nil =>
      simp only [sshParser.runLoop, sshParser.parseStart, sshParser.peek, ht,
        List.head?_nil, Except.ok.injEq] at h
      subst h
      exact hc
    | cons t rest =>
      rw [ht] at hcols
      obtain ⟨hkey, hcom, hrest⟩ := columnsOk_cons t rest hcols
      cases hty : t.typ with
      | tokenComment =>
        rw [runLoop_comment_step env os parse p t rest n ht (Or.inl hty)] at h
        split at h
        · simp at h
        · rename_i c hc2
          refine runLoop_indent env os parse n _ p1 h hrest ?_
          refine appendNode_indent _ _ _ hc2 hc ?_
          simp only [nodeIndentOk, Bool.or_eq_true, decide_eq_true_eq]
          rcases hcom (Or.inl hty) with h0 | h0
          · exact Or.inl h0
          · exact Or.inr (by omega)
      | tokenEmptyLine =>
        rw [runLoop_comment_step env os parse p t rest n ht (Or.inr hty)] at h
        split at h
        · simp at h
        · rename_i c hc2
          refine runLoop_indent env os parse n _ p1 h hrest ?_
          refine appendNode_indent _ _ _ hc2 hc ?_
          simp only [nodeIndentOk, Bool.or_eq_true, decide_eq_true_eq]
          rcases hcom (Or.inr hty) with h0 | h0
          · exact Or.inl h0
          · exact Or.inr (by omega)
      | tokenKey =>
        rw [runLoop_key_step env os parse p t rest n ht hty] at h
        split at h
        · simp at h
        · rename_i p2 hp2
          obtain ⟨_, _, ⟨k, _, _, hk⟩, _⟩ := parseKV_ok env os parse p p2 hp2
          refine runLoop_indent env os parse n p2 p1 h ?_ ?_
          · rw [hk, ht]
            exact columnsOk_drop _ k hcols
          · exact key_round_indent env os parse p p2 t rest ht (hkey hty) hc hp2
      | tokenEOF =>
        simp only [sshParser.runLoop, sshParser.parseStart, sshParser.peek, ht,
          List.head?_cons, hty, Except.ok.injEq] at h
        subst h
        exact hc
      | tokenEquals =>
        simp [sshParser.runLoop, sshParser.parseStart, sshParser.peek, ht, hty] at h
      | other tag =>
        simp [sshParser.runLoop, sshParser.parseStart, sshParser.peek, ht, hty] at h

theorem decodeTokens_indent (env : Env) (os : OS)
    (parse : String → Nat → Except PanicValue (Except ErrorValue Config))
    (flow : List token) (system : Bool) (depth : Nat) (c : Config)
    (h : decodeTokens env os parse flow system depth = .ok (.ok c))
    (hcols : columnsOk flow = true) : c.Blocks.all blockIndentOk = true := by
  obtain ⟨p1, hrun, hc⟩ := decodeTokens_run env os parse flow system depth c h
  rw [← hc]
  exact runLoop_indent env os parse _ _ p1 hrun hcols rfl

theorem BlockValue_String_ret_iff (v : BlockValue) :
    (∃ t, v.String = .ret t) ↔ (v.isMatch = false ∧ v.printable = true) := by
  cases v with
  | withData b => exact Block_String_ret_iff b
  | hostNoData ps => simp [BlockValue.String, BlockValue.printable]
  | matchNoData ps => simp [BlockValue.String, BlockValue.printable]

theorem marshalValues_ret_iff :
    ∀ vs : List BlockValue, (∃ t, marshalValues vs = .ret t) ↔
      vs.all (fun v => !v.isMatch && v.printable) = true
  | [] => by simp [marshalValues]
  | v :: rest => by
    have ih := marshalValues_ret_iff rest
    have hb := BlockValue_String_ret_iff v
    simp only [marshalValues, List.all_cons, Bool.and_eq_true, Bool.not_eq_true']
    rw [← ih, ← hb]
    cases v.String with
    | panic m => simp
    | ret s =>
      cases marshalValues rest with
      | panic m => simp
      | ret t => simp

theorem marshalValues_withData :
    ∀ bs : List Block, marshalValues (bs.map .withData) = marshal bs
  | [] => rfl
  | b :: rest => by
    rw [List.map_cons, marshalValues, marshal, marshalValues_withData rest]
    rfl

/-- C25 fails for a Host that was built without its `BlockData`: the blocks
of `TestMatches`, one Host made as `&Host{Patterns: patterns}`, hold no
`Match` block, yet `String` of the block, and with it `Config.String` of a
config with these blocks, panics with the dereference of a nil pointer. -/
theorem Config_String_panics_without_Match :
    hostWithoutData.any BlockValue.isMatch = false ∧
    marshalValues hostWithoutData = .panic nilDeref := by
  decide

/-- C25 as amended: `String` panics for every `Match` block, so
`Config.String` (and `MarshalText`, which returns the same bytes) panics for
every config that holds a `Match` block; for blocks that are all `Host`
blocks it returns a text exactly when every block carries its `BlockData`
and no indent that is written is negative, and that is so for every config
without `Match` block that decoding returns for tokens whose columns count
from 1. -/
theorem Config_String_fails_on_Match (blocks : List BlockValue) :
    (∀ (ps : List (String × Pattern)) (nodes : List Node) (data : BlockData),
      Block.String (.Match ps nodes data) =
        .panic "Match does not support String() serialization for now") ∧
    (∀ ps : List (String × Pattern),
      BlockValue.String (.matchNoData ps) =
        .panic "Match does not support String() serialization for now") ∧
    (blocks.any BlockValue.isMatch = true → ∃ m, marshalValues blocks = .panic m) ∧
    (blocks.any BlockValue.isMatch = false →
      ((∃ t, marshalValues blocks = .ret t) ↔ blocks.all BlockValue.printable = true)) ∧
    (∀ c : Config, marshalValues (c.Blocks.map .withData) = c.String) ∧
    (∀ c : Config, c.Blocks.any blockIsMatch = true → ∃ m, c.String = .panic m) ∧
    (∀ (env : Env) (os : OS)
        (parse : String → Nat → Except PanicValue (Except ErrorValue Config))
        (flow : List token) (system : Bool) (depth : Nat) (c : Config),
      decodeTokens env os parse flow system depth = .ok (.ok c) → columnsOk flow = true →
      c.Blocks.any blockIsMatch = false → ∃ t, c.String = .ret t) := by
  have key := marshalValues_ret_iff blocks
  refine ⟨fun _ _ _ => rfl, fun _ => rfl, ?_, ?_, fun c => marshalValues_withData c.Blocks,
    ?_, ?_⟩
  · intro hm
    cases hs : marshalValues blocks with
    | panic m => exact ⟨m, rfl⟩
    | ret t =>
      exfalso
      have h1 : ∃ t, marshalValues blocks = .ret t := ⟨t, hs⟩
      rw [key] at h1
      simp only [List.any_eq_true] at hm
      obtain ⟨b, hb, hbm⟩ := hm
      simp only [List.all_eq_true, Bool.and_eq_true, Bool.not_eq_true'] at h1
      have := (h1 b hb).1
      rw [hbm] at this
      exact absurd this (by decide)
  · intro hm
    rw [key]
    simp only [List.any_eq_false, Bool.not_eq_true] at hm
    simp only [List.all_eq_true, Bool.and_eq_true, Bool.not_eq_true']
    constructor
    · intro h b hb
      exact (h b hb).2
    · intro h b hb
      exact ⟨hm b hb, h b hb⟩
  · intro c hm
    cases hs : c.String with
    | panic m => exact ⟨m, rfl⟩
    | ret t =>
      exfalso
      have h1 : ∃ t, marshal c.Blocks = .ret t := ⟨t, hs⟩
      rw [marshal_ret_iff] at h1
      simp only [List.any_eq_true] at hm
      obtain ⟨b, hb, hbm⟩ := hm
      simp only [List.all_eq_true, Bool.and_eq_true, Bool.not_eq_true'] at h1
      have := (h1 b hb).1
      rw [hbm] at this
      exact absurd this (by decide)
  · intro env os parse flow system depth c h hcols hm
    have hall := decodeTokens_indent env os parse flow system depth c h hcols
    rw [Config.String, marshal_ret_iff]
    simp only [List.any_eq_false, Bool.not_eq_true] at hm
    simp only [List.all_eq_true, Bool.and_eq_true, Bool.not_eq_true'] at hall ⊢
    intro b hb
    exact ⟨hm b hb, hall b hb⟩

theorem Config_String_fails_on_Match_witness :
    ∃ t, (configOfTokens nodesSample).String = .ret t :=
  (Config_String_fails_on_Match hostWithoutData).2.2.2.2.2.2 sampleEnv sampleOS
    (parseWithDepth sampleEnv sampleOS) nodesSample false 0 (configOfTokens nodesSample)
    rfl (by decide) (by decide!)

/-! ## The claim on the errors of the decoder -/

theorem cutLine_of_keysHaveValues (key : token) (rest : List token)
    (hty : key.typ = .tokenKey) (hk : keysHaveValues (key :: rest) = true) :
    ∃ r, cutLine (key :: rest) = some r := by
  cases rest with
  | nil => simp [keysHaveValues, hty] at hk
  | cons v r1 =>
    simp only [cutLine]
    by_cases hv : v.typ = .tokenEquals
    · cases r1 with
      | nil => simp [keysHaveValues, hty, hv] at hk
      | cons val r2 =>
        simp only [hv, if_true]
        cases r2 with
        | nil => exact ⟨_, rfl⟩
        | cons t r3 =>
          simp only
          split <;> exact ⟨_, rfl⟩
    · simp only [hv, if_false]
      cases r1 with
      | nil => exact ⟨_, rfl⟩
      | cons t r3 =>
        simp only
        split <;> exact ⟨_, rfl⟩

theorem parseKV_fails (env : Env) (os : OS)
    (parse : String → Nat → Except PanicValue (Except ErrorValue Config))
    (p : sshParser) (pv : PanicValue) (hb : p.config.Blocks ≠ [])
    (hk : keysHaveValues p.tokens = true)
    (hkey : ∃ key rest, p.tokens = key :: rest ∧ key.typ = .tokenKey)
    (h : p.parseKV env os parse = .error pv) :
    (∃ (tok : token) (msg : String), offendingToken p = some tok ∧
      pv = .str (os.posString tok.Position ++ ": " ++ msg)) ∨
    pv = .err .ErrDepthExceeded ∨
    ((p.depth + 1) % 256 ≤ maxRecurseDepth ∧
      ∃ f : String, parse f ((p.depth + 1) % 256) = .error pv) := by
  obtain ⟨key0, rest0, ht, hty⟩ := hkey
  rw [ht] at hk
  obtain ⟨⟨key, equals, val, comment, r⟩, hcut⟩ :=
    cutLine_of_keysHaveValues key0 rest0 hty hk
  have hcut2 : cutLine p.tokens = some (key, equals, val, comment, r) := by rw [ht]; exact hcut
  rw [parseKV_cutLine env os parse p key equals val comment r hcut2] at h
  have hoff : offendingToken p = some val := by
    simp only [offendingToken, ht, hty, hcut, Option.map_some']
  rcases dispatch_error env os parse { p with tokens := r } key equals val comment pv hb h with
    ⟨msg, hm⟩ | hr
  · exact Or.inl ⟨val, msg, hoff, hm⟩
  · exact Or.inr hr

theorem runLoop_fails (env : Env) (os : OS)
    (parse : String → Nat → Except PanicValue (Except ErrorValue Config)) :
    ∀ (n : Nat) (p : sshParser) (pv : PanicValue), p.tokens.length < n →
      p.config.Blocks ≠ [] → keysHaveValues p.tokens = true →
      sshParser.runLoop env os parse n p = .error pv →
      ∃ (k : Nat) (p1 : sshParser),
        sshParser.rounds env os parse k p = .ok p1 ∧
        sshParser.rounds env os parse (k + 1) p = .error pv ∧
        (∃ j, p1.tokens = p.tokens.drop j) ∧
        ((∃ (tok : token) (msg : String), offendingToken p1 = some tok ∧
            pv = .str (os.posString tok.Position ++ ": " ++ msg)) ∨
          pv = .err .ErrDepthExceeded ∨
          ((p.depth + 1) % 256 ≤ maxRecurseDepth ∧
            ∃ f : String, parse f ((p.depth + 1) % 256) = .error pv))
  | 0, p, pv, hn, _, _, _ => by omega
  | n + 1, p, pv, hn, hb, hk, h => by
    cases ht : p.tokens with
    | nil =>
      simp [sshParser.runLoop, sshParser.parseStart, sshParser.peek, ht] at h
    | cons t rest =>
      rw [← ht]
      have step : ∀ p2 : sshParser, p2.depth = p.depth →
          (∃ j, p2.tokens = p.tokens.drop j ∧ 0 < j) → p2.config.Blocks ≠ [] →
          sshParser.runLoop env os parse n p2 = .error pv →
          (∀ k, sshParser.rounds env os parse (k + 1) p = sshParser.rounds env os parse k p2) →
          ∃ (k : Nat) (p1 : sshParser),
            sshParser.rounds env os parse k p = .ok p1 ∧
            sshParser.rounds env os parse (k + 1) p = .error pv ∧
            (∃ j, p1.tokens = p.tokens.drop j) ∧
            ((∃ (tok : token) (msg : String), offendingToken p1 = some tok ∧
                pv = .str (os.posString tok.Position ++ ": " ++ msg)) ∨
              pv = .err .ErrDepthExceeded ∨
              ((p.depth + 1) % 256 ≤ maxRecurseDepth ∧
                ∃ f : String, parse f ((p.depth + 1) % 256) = .error pv)) := by
        intro p2 hd ⟨j, hj, hj0⟩ hb2 hrun hrounds
        have hpos : 0 < p.tokens.length := by rw [ht]; simp
        have hlen : p2.tokens.length < n := by
          rw [hj, List.length_drop]
          omega
        obtain ⟨k, p1, h1, h2, ⟨j2, hj2⟩, h4⟩ := runLoop_fails env os parse n p2 pv hlen hb2
          (hj ▸ keysHaveValues_drop j _ hk) hrun
        refine ⟨k + 1, p1, (hrounds k).trans h1, (hrounds (k + 1)).trans h2,
          ⟨_, by rw [hj2, hj, List.drop_drop]⟩, ?_⟩
        rw [hd] at h4
        exact h4
      cases hty : t.typ with
      | tokenComment =>
        rw [runLoop_comment_step env os parse p t rest n ht (Or.inl hty)] at h
        obtain ⟨c, hc⟩ := appendNode_isSome p.config
          (.Empty { Comment := t.val, leadingSpace := t.Position.Col - 2,
                    position := t.Position }) hb
        rw [hc] at h
        simp only at h
        refine step { config := c, tokens := rest, system := p.system, depth := p.depth } rfl
          ⟨1, by simp [ht], by omega⟩ ?_ h ?_
        · exact (appendNode_shape _ _ _ hc).elim
            (fun init hx => hx.elim (fun last hy => by simp [hy.2]))
        · intro k
          simp only [sshParser.rounds, sshParser.parseStart, sshParser.peek, ht,
            List.head?_cons, hty, sshParser.parseComment, sshParser.getToken, List.tail_cons,
            hc]
      | tokenEmptyLine =>
        rw [runLoop_comment_step env os parse p t rest n ht (Or.inr hty)] at h
        obtain ⟨c, hc⟩ := appendNode_isSome p.config
          (.Empty { Comment := t.val, leadingSpace := t.Position.Col - 2,
                    position := t.Position }) hb
        rw [hc] at h
        simp only at h
        refine step { config := c, tokens := rest, system := p.system, depth := p.depth } rfl
          ⟨1, by simp [ht], by omega⟩ ?_ h ?_
        · exact (appendNode_shape _ _ _ hc).elim
            (fun init hx => hx.elim (fun last hy => by simp [hy.2]))
        · intro k
          simp only [sshParser.rounds, sshParser.parseStart, sshParser.peek, ht,
            List.head?_cons, hty, sshParser.parseComment, sshParser.getToken, List.tail_cons,
            hc]
      | tokenKey =>
        rw [runLoop_key_step env os parse p t rest n ht hty] at h
        have hs : p.parseStart os = .ok (some .parseKV) := by
          simp only [sshParser.parseStart, sshParser.peek, ht, List.head?_cons]
          rw [hty]
        cases hc : p.parseKV env os parse with
        | error pv1 =>
          rw [hc] at h
          simp only [Except.error.injEq] at h
          subst h
          refine ⟨0, p, rfl, ?_, ⟨0, by simp⟩,
            parseKV_fails env os parse p _ hb hk ⟨t, rest, ht, hty⟩ hc⟩
          simp only [sshParser.rounds, hs, hc]
        | ok p2 =>
          rw [hc] at h
          simp only at h
          obtain ⟨_, h2, ⟨j, hj1, hj2, hj3⟩, h4⟩ := parseKV_ok env os parse p p2 hc
          refine step p2 h2 ⟨j, hj3, hj1⟩ (Extends_Blocks parse _ _ _ hb h4) h ?_
          intro k
          simp only [sshParser.rounds, hs, hc]
      | tokenEOF =>
        simp [sshParser.runLoop, sshParser.parseStart, sshParser.peek, ht, hty] at h
      | tokenEquals =>
        simp only [sshParser.runLoop, sshParser.parseStart, sshParser.peek, ht,
          List.head?_cons, hty, Except.error.injEq] at h
        subst h
        refine ⟨0, p, rfl, ?_, ⟨0, by simp⟩, Or.inl ⟨t, _, ?_, rfl⟩⟩
        · simp only [sshParser.rounds, sshParser.parseStart, sshParser.peek, ht,
            List.head?_cons, hty]
        · simp only [offendingToken, ht, hty]
      | other tag =>
        simp only [sshParser.runLoop, sshParser.parseStart, sshParser.peek, ht,
          List.head?_cons, hty, Except.error.injEq] at h
        subst h
        refine ⟨0, p, rfl, ?_, ⟨0, by simp⟩, Or.inl ⟨t, _, ?_, rfl⟩⟩
        · simp only [sshParser.rounds, sshParser.parseStart, sshParser.peek, ht,
            List.head?_cons, hty]
        · simp only [offendingToken, ht, hty]

theorem decodeTokens_fails (env : Env) (os : OS)
    (parse : String → Nat → Except PanicValue (Except ErrorValue Config))
    (flow : List token) (system : Bool) (depth : Nat)
    (hk : keysHaveValues flow = true)
    (hparse : (depth + 1) % 256 ≤ maxRecurseDepth →
      ∀ (f : String) (pv : PanicValue), parse f ((depth + 1) % 256) ≠ .error pv) :
    (∃ c : Config, decodeTokens env os parse flow system depth = .ok (.ok c)) ∨
    decodeTokens env os parse flow system depth = .ok (.error .ErrDepthExceeded) ∨
    (∃ m : String,
      decodeTokens env os parse flow system depth = .ok (.error (.errorString m)) ∧
      ∃ (k : Nat) (p : sshParser) (tok : token) (msg : String),
        sshParser.rounds env os parse k (initialParser flow system depth) = .ok p ∧
        sshParser.rounds env os parse (k + 1) (initialParser flow system depth) =
          .error (.str m) ∧
        (∃ j, p.tokens = flow.drop j) ∧
        offendingToken p = some tok ∧ m = os.posString tok.Position ++ ": " ++ msg) := by
  unfold decodeTokens parseSSH
  have hn : newConfig = .mk newConfig.Blocks 0 ⟨0, 0⟩ := rfl
  rw [hn]
  simp only
  cases hr : sshParser.run env os parse
      { config := .mk newConfig.Blocks 0 ⟨1, 1⟩, tokens := flow, system := system,
        depth := depth } with
  | ok p1 => exact Or.inl ⟨_, rfl⟩
  | error pv =>
    obtain ⟨k, p1, h1, h2, hj, h4⟩ := runLoop_fails env os parse _ _ pv (Nat.lt_succ_self _)
      (by simp [Config.Blocks, newConfig]) hk hr
    rcases h4 with ⟨tok, msg, ht, hm⟩ | hd | ⟨h5, f, hf⟩
    · subst hm
      exact Or.inr (Or.inr ⟨_, rfl, k, p1, tok, msg, h1, h2, hj, ht, rfl⟩)
    · subst hd
      exact Or.inr (Or.inl rfl)
    · exact absurd hf (hparse h5 f pv)

theorem parseWithDepthN_total (env : Env) (os : OS)
    (hfs : ∀ (f b : String), os.ReadFile f = .ok b → keysHaveValues (os.lexSSH b) = true) :
    ∀ (n : Nat) (f : String) (d : Nat), d ≤ maxRecurseDepth → maxRecurseDepth + 1 ≤ n + d →
      ∀ pv : PanicValue, parseWithDepthN env os n f d ≠ .error pv
  | 0, f, d, hd, hn, pv => by omega
  | n + 1, f, d, hd, hn, pv => by
    simp only [parseWithDepthN]
    cases hr : os.ReadFile f with
    | error e => simp
    | ok b =>
      simp only [decodeBytes]
      have hp : (d + 1) % 256 ≤ maxRecurseDepth →
          ∀ (f1 : String) (pv1 : PanicValue),
            parseWithDepthN env os n f1 ((d + 1) % 256) ≠ .error pv1 := by
        intro h5 f1 pv1
        simp only [maxRecurseDepth] at hd hn h5
        have e : (d + 1) % 256 = d + 1 := by omega
        rw [e] at h5 ⊢
        exact parseWithDepthN_total env os hfs n f1 (d + 1) h5
          (by simp only [maxRecurseDepth]; omega) pv1
      rcases decodeTokens_fails env os (parseWithDepthN env os n) (os.lexSSH b)
        (isSystem os f) d (hfs f b hr) hp with ⟨c, hc⟩ | hc | ⟨m, hc, _⟩ <;>
      · rw [hc]
        simp

/-- C19 as amended: when every key token of the stream, and of every file
that can be read, is followed by its value token, the decoder returns for
every such stream, at every depth, either a config or an error and raises no
panic.  The error is `ErrDepthExceeded` itself, or it is the message of the
round of the parser that fails: some rounds succeed, the next one panics
with the message, and the message starts with the position of the offending
token of that round, the unexpected token at the head of the remaining
stream or the value token of the directive at its head. -/
theorem decodeTokens_returns (env : Env) (os : OS) (flow : List token) (system : Bool)
    (depth : Nat) (hflow : keysHaveValues flow = true)
    (hfs : ∀ (f b : String), os.ReadFile f = .ok b → keysHaveValues (os.lexSSH b) = true) :
    (∃ c : Config,
      decodeTokens env os (parseWithDepth env os) flow system depth = .ok (.ok c)) ∨
    decodeTokens env os (parseWithDepth env os) flow system depth =
      .ok (.error .ErrDepthExceeded) ∨
    (∃ m : String,
      decodeTokens env os (parseWithDepth env os) flow system depth =
        .ok (.error (.errorString m)) ∧
      ∃ (k : Nat) (p : sshParser) (tok : token) (msg : String),
        sshParser.rounds env os (parseWithDepth env os) k (initialParser flow system depth) =
          .ok p ∧
        sshParser.rounds env os (parseWithDepth env os) (k + 1)
          (initialParser flow system depth) = .error (.str m) ∧
        (∃ j, p.tokens = flow.drop j) ∧
        offendingToken p = some tok ∧ m = os.posString tok.Position ++ ": " ++ msg) := by
  apply decodeTokens_fails env os _ flow system depth hflow
  intro h5 f pv
  exact parseWithDepthN_total env os hfs 7 f _ h5 (by simp only [maxRecurseDepth]; omega) pv

/-- Witness of `decodeTokens_returns`: the tokens of the lines `Port 22` and
`Match final`.  The first round succeeds, the second one fails, and the
decoder returns the error that starts with the position (2, 7) of the value
`final`, the offending token; for the sample file `bad` the error starts with
the position of the value `canonical` of its first line. -/
theorem decodeTokens_returns_witness :
    keysHaveValues lateFailureTokens = true ∧
    (∀ (f b : String), sampleOS.ReadFile f = .ok b →
      keysHaveValues (sampleOS.lexSSH b) = true) ∧
    decodeTokens sampleEnv sampleOS (parseWithDepth sampleEnv sampleOS) lateFailureTokens
        false 0 =
      .ok (.error (.errorString "(2, 7): 'Match Final' without 'All' is not supported")) ∧
    ((sshParser.rounds sampleEnv sampleOS (parseWithDepth sampleEnv sampleOS) 1
        (initialParser lateFailureTokens false 0)).toOption.bind offendingToken).map
      (fun tok => (tok.val, tok.Position)) = some ("final", ⟨2, 7⟩) ∧
    decodeTokens sampleEnv sampleOS (parseWithDepth sampleEnv sampleOS) badTokens false 0 =
      .ok (.error (.errorString "(1, 7): 'Match Canonical' is not supported")) ∧
    ((∃ c : Config,
      decodeTokens sampleEnv sampleOS (parseWithDepth sampleEnv sampleOS) lateFailureTokens
        false 0 = .ok (.ok c)) ∨
    decodeTokens sampleEnv sampleOS (parseWithDepth sampleEnv sampleOS) lateFailureTokens
      false 0 = .ok (.error .ErrDepthExceeded) ∨
    (∃ m : String,
      decodeTokens sampleEnv sampleOS (parseWithDepth sampleEnv sampleOS) lateFailureTokens
        false 0 = .ok (.error (.errorString m)) ∧
      ∃ (k : Nat) (p : sshParser) (tok : token) (msg : String),
        sshParser.rounds sampleEnv sampleOS (parseWithDepth sampleEnv sampleOS) k
          (initialParser lateFailureTokens false 0) = .ok p ∧
        sshParser.rounds sampleEnv sampleOS (parseWithDepth sampleEnv sampleOS) (k + 1)
          (initialParser lateFailureTokens false 0) = .error (.str m) ∧
        (∃ j, p.tokens = lateFailureTokens.drop j) ∧
        offendingToken p = some tok ∧
        m = sampleOS.posString tok.Position ++ ": " ++ msg)) :=
  ⟨by decide, sampleOS_keysHaveValues, rfl, by decide!, rfl,
    decodeTokens_returns sampleEnv sampleOS lateFailureTokens false 0 (by decide)
      sampleOS_keysHaveValues⟩

/-! ## The lexer on the text of the lines -/

end SshConfig
